import Mathlib

/-!
# ReadinessHelper (TelepathyQt4/Client/readiness-helper.cpp)

A shallow embedding of the feature readiness engine.

* `QSet<uint>` is `Finset Nat`; `QStringList` is `List String`.
* `QMap<uint, Introspectable>` is an association list kept in ascending key
  order (`QMap.WF`), which is the order `constBegin() .. constEnd()` visits.
* The iteration order of a `QSet` is unspecified.  Every `foreach` over a
  `QSet` takes the order from a parameter `enum : Finset Nat → List Nat`.
* `QTimer::singleShot`, `emit statusReady`, the call of a probe callback and
  `PendingOperation::setFinished()` leave the translation unit.  They are
  recorded in the fields `scheduledPasses`, `statusReadyEmitted`,
  `probesInvoked` and `finishedOperations` of the state.
  A probe callback reports back later, through `setIntrospectCompleted`, and
  a slot connected to `statusReady` does not call into the helper before the
  `emit` returns: neither is part of a pass.
* The field `epoch` counts the status changes applied; emissions and probe
  calls are recorded together with the epoch they happen in.
* `Q_ASSERT` failures are `none`.
* `uint` values are `Nat`: the engine only stores and compares them.
-/

namespace ReadinessHelper

/-- Modelled from the spec: the declaration of `ReadinessHelper::Introspectable`
is in a header that is not among the sources.  These are the members the
engine reads, which are the ones the data model of the spec lists.
`introspectFunc` is the address of the probe callback, `0` being the null
pointer.  (`introspectFuncData` is only handed to the callback.) -/
structure Introspectable where
  makesSenseForStatuses : Finset Nat
  dependsOnFeatures : Finset Nat
  dependsOnInterfaces : List String
  introspectFunc : Nat
  deriving DecidableEq

/-- Modelled from the spec: the constructors of `Introspectable` are in the
same missing header.  A default-constructed entry, which `QMap::operator[]`
inserts for an absent key, has empty containers (what Qt default-constructs)
and a null callback; with an empty status set its callback is never called. -/
def Introspectable.null : Introspectable :=
  { makesSenseForStatuses := ∅, dependsOnFeatures := ∅, dependsOnInterfaces := [],
    introspectFunc := 0 }

/-- The type `QMap<uint, Introspectable>`: entries in ascending key order. -/
abbrev QMap := List (Nat × Introspectable)

/-- Keys strictly ascend: what the type `QMap` guarantees. -/
def QMap.WF (m : QMap) : Prop := (m.map Prod.fst).Pairwise (· < ·)

instance (m : QMap) : Decidable (QMap.WF m) := by
  unfold QMap.WF; infer_instance

/-- The method `QMap::contains(key)`. -/
def QMap.contains (m : QMap) (key : Nat) : Bool := m.any (fun e => e.1 == key)

/-- The entry `introspectables[key]` evaluates to: the stored one, or the
default-constructed one that `operator[]` inserts. -/
def QMap.value (m : QMap) (key : Nat) : Introspectable :=
  match m.find? (fun e => e.1 == key) with
  | some e => e.2
  | none => Introspectable.null

/-- The map after `introspectables[key]` (non-const `operator[]`): an absent
key gets a default-constructed entry, at its place in key order. -/
def QMap.touch : QMap → Nat → QMap
  | [], key => [(key, Introspectable.null)]
  | e :: m, key =>
    if key < e.1 then (key, Introspectable.null) :: e :: m
    else if key = e.1 then e :: m
    else e :: QMap.touch m key

/-- A become-ready handle: the address of the `PendingReady` object and the
feature set it was constructed with. -/
@[ext]
structure PendingReady where
  ptr : Nat
  requestedFeatures : Finset Nat
  deriving DecidableEq

/-- The method `QList::removeOne(operation)` on a list of pointers. -/
def removeOne (l : List PendingReady) (operation : PendingReady) : List PendingReady :=
  l.eraseP (fun o => o.ptr == operation.ptr)

/-- The members of `ReadinessHelper::Private`, followed by the record of what
left the translation unit. -/
@[ext]
structure Private where
  currentStatus : Nat
  interfaces : List String
  introspectables : QMap
  supportedStatuses : Finset Nat
  satisfiedFeatures : Finset Nat
  requestedFeatures : Finset Nat
  missingFeatures : Finset Nat
  pendingFeatures : Finset Nat
  inFlightFeatures : Finset Nat
  pendingOperations : List PendingReady
  pendingStatusChange : Bool
  pendingStatus : Nat
  /-- number of `QTimer::singleShot(0, ..., SLOT(iterateIntrospection()))` not yet fired -/
  scheduledPasses : Nat
  /-- number of status changes applied so far: the current epoch -/
  epoch : Nat
  /-- each `emit parent->statusReady(status)`, oldest first, as `(epoch, status)` -/
  statusReadyEmitted : List (Nat × Nat)
  /-- each call of a probe callback, oldest first, as `(epoch, feature)` -/
  probesInvoked : List (Nat × Nat)
  /-- handles on which `setFinished()` was called, oldest first -/
  finishedOperations : List Nat
  /-- number of `new PendingReady` so far; the next object gets this address -/
  operationsCreated : Nat
  deriving DecidableEq

/-- `ReadinessHelper::Private::introspectCore` -/
def introspectCore (s : Private) : Private :=
  { s with
    requestedFeatures := insert 0 s.requestedFeatures
    pendingFeatures := insert 0 s.pendingFeatures
    scheduledPasses := s.scheduledPasses + 1 }

/-- `ReadinessHelper::Private::Private`: `none` when a `Q_ASSERT` fails. -/
def construct (currentStatus : Nat) (introspectables : QMap) : Option Private :=
  if introspectables.contains 0 = false then none
  else if introspectables.any (fun e => e.2.introspectFunc == 0) then none
  else
    let s : Private :=
      { currentStatus := currentStatus
        interfaces := []
        introspectables := introspectables
        supportedStatuses :=
          introspectables.foldl (fun acc e => acc ∪ e.2.makesSenseForStatuses) ∅
        satisfiedFeatures := ∅
        requestedFeatures := ∅
        missingFeatures := ∅
        pendingFeatures := ∅
        inFlightFeatures := ∅
        pendingOperations := []
        pendingStatusChange := false
        pendingStatus := 4294967295
        scheduledPasses := 0
        epoch := 0
        statusReadyEmitted := []
        probesInvoked := []
        finishedOperations := []
        operationsCreated := 0 }
    if currentStatus ∈ s.supportedStatuses then some (introspectCore s) else some s

/-- `ReadinessHelper::Private::setCurrentStatus` -/
def setCurrentStatus (s : Private) (newStatus : Nat) : Private :=
  if s.inFlightFeatures = ∅ then
    let s1 : Private :=
      { s with
        currentStatus := newStatus
        epoch := s.epoch + 1
        satisfiedFeatures := ∅
        missingFeatures := ∅
        pendingFeatures := s.requestedFeatures }
    if s1.currentStatus ∈ s1.supportedStatuses then introspectCore s1
    else { s1 with statusReadyEmitted := s1.statusReadyEmitted ++ [(s1.epoch, s1.currentStatus)] }
  else
    { s with pendingStatusChange := true, pendingStatus := newStatus }

/-- `ReadinessHelper::setInterfaces` -/
def setInterfaces (s : Private) (interfaces : List String) : Private :=
  { s with interfaces := interfaces }

/-- `ReadinessHelper::Private::setIntrospectCompleted`: `none` when a
`Q_ASSERT` fails. -/
def setIntrospectCompleted (s : Private) (feature : Nat) (success : Bool) : Option Private :=
  if s.pendingStatusChange then
    let s1 : Private := { s with inFlightFeatures := s.inFlightFeatures.erase feature }
    if s1.inFlightFeatures ≠ ∅ then some s1
    else some (setCurrentStatus { s1 with pendingStatusChange := false } s1.pendingStatus)
  else if feature ∉ s.pendingFeatures then none
  else if feature ∉ s.inFlightFeatures then none
  else
    let s1 : Private :=
      if success then { s with satisfiedFeatures := insert feature s.satisfiedFeatures }
      else { s with missingFeatures := insert feature s.missingFeatures }
    some { s1 with
      pendingFeatures := s1.pendingFeatures.erase feature
      inFlightFeatures := s1.inFlightFeatures.erase feature
      scheduledPasses := s1.scheduledPasses + 1 }

/-- Lines 166-176 of `iterateIntrospection`: one traversal of the registry in
key order, each entry tested against the set as grown so far. -/
def propagateMissing (introspectables : QMap) (missingFeatures : Finset Nat) : Finset Nat :=
  introspectables.foldl
    (fun missing e =>
      if e.2.dependsOnFeatures ∩ missing ≠ ∅ then insert e.1 missing else missing)
    missingFeatures

/-- Lines 181-187 of `iterateIntrospection`: the `foreach` runs over a copy
of `pendingOperations`, `removeOne` acts on the member. -/
def finishOperations (s : Private) : Private :=
  s.pendingOperations.foldl
    (fun st operation =>
      if operation.requestedFeatures \ (st.satisfiedFeatures ∪ st.missingFeatures) = ∅ then
        { st with
          finishedOperations := st.finishedOperations ++ [operation.ptr]
          pendingOperations := removeOne st.pendingOperations operation }
      else st)
    s

/-- Lines 200-206 of `iterateIntrospection`: the registry after the
`introspectables[feature]` accesses, and `readyToIntrospect`. -/
def findReady (introspectables : QMap) (satisfiedFeatures : Finset Nat)
    (features : List Nat) : QMap × Finset Nat :=
  features.foldl
    (fun acc feature =>
      (acc.1.touch feature,
        if (acc.1.value feature).dependsOnFeatures \ satisfiedFeatures = ∅ then
          insert feature acc.2
        else acc.2))
    (introspectables, ∅)

/-- Lines 215 and 217 of `iterateIntrospection`: `feature` is put in flight
and `introspectables[feature]` is accessed. -/
def markInFlight (s : Private) (feature : Nat) : Private :=
  { s with
    inFlightFeatures := insert feature s.inFlightFeatures
    introspectables := s.introspectables.touch feature }

/-- Line 244 of `iterateIntrospection`: the probe callback of `feature` is
called. -/
def invokeProbe (s : Private) (feature : Nat) : Private :=
  { s with probesInvoked := s.probesInvoked ++ [(s.epoch, feature)] }

/-- Lines 210-245 of `iterateIntrospection`: the `foreach` over
`readyToIntrospect`, given in the order the set is visited. -/
def introspectLoop (s : Private) : List Nat → Option Private
  | [] => some s
  | feature :: rest =>
    if feature ∈ s.inFlightFeatures then introspectLoop s rest
    else
      let introspectable := s.introspectables.value feature
      if s.currentStatus ∉ introspectable.makesSenseForStatuses then
        setIntrospectCompleted (markInFlight s feature) feature true
      else if feature ≠ 0 ∧
          ∃ interface ∈ introspectable.dependsOnInterfaces, interface ∉ s.interfaces then
        setIntrospectCompleted (markInFlight s feature) feature false
      else
        introspectLoop (invokeProbe (markInFlight s feature) feature) rest

/-- The state of a pass after lines 166-176 (missing-propagation). -/
def afterPropagation (s : Private) : Private :=
  { s with missingFeatures := propagateMissing s.introspectables s.missingFeatures }

/-- The state of a pass after lines 178-187 (the handle loop). -/
def afterFinish (s : Private) : Private :=
  finishOperations (afterPropagation s)

/-- Line 191: `emit parent->statusReady(currentStatus)`. -/
def emitStatusReady (s : Private) : Private :=
  { s with statusReadyEmitted := s.statusReadyEmitted ++ [(s.epoch, s.currentStatus)] }

/-- The state of a pass after line 197 (`pendingFeatures` updated). -/
def afterPending (s : Private) : Private :=
  { afterFinish s with
    pendingFeatures := (afterFinish s).pendingFeatures \
      ((afterFinish s).satisfiedFeatures ∪ (afterFinish s).missingFeatures) }

/-- The set `readyToIntrospect` of a pass, as lines 200-206 compute it. -/
def readyToIntrospect (enum : Finset Nat → List Nat) (s : Private) : Finset Nat :=
  (findReady (afterPending s).introspectables (afterPending s).satisfiedFeatures
    (enum (afterPending s).pendingFeatures)).2

/-- The state of a pass after lines 200-206, before the loop of lines 210-245. -/
def beforeLoop (enum : Finset Nat → List Nat) (s : Private) : Private :=
  { afterPending s with
    introspectables :=
      (findReady (afterPending s).introspectables (afterPending s).satisfiedFeatures
        (enum (afterPending s).pendingFeatures)).1 }

/-- `ReadinessHelper::Private::iterateIntrospection`: the early return of lines
160-164; propagation and the handle loop (`afterFinish`); the status-ready
check of lines 189-193; the update of `pendingFeatures`, `readyToIntrospect`
(`beforeLoop`, `readyToIntrospect`) and the loop of lines 210-245. -/
def iterateIntrospection (enum : Finset Nat → List Nat) (s : Private) : Option Private :=
  if s.currentStatus ∉ s.supportedStatuses then some s
  else if (afterFinish s).requestedFeatures \
      ((afterFinish s).satisfiedFeatures ∪ (afterFinish s).missingFeatures) = ∅ then
    some (emitStatusReady (afterFinish s))
  else
    introspectLoop (beforeLoop enum s) (enum (readyToIntrospect enum s))

/-- `ReadinessHelper::isReady` -/
def isReady (s : Private) (features : Finset Nat) : Bool :=
  let features := if features = ∅ then insert 0 features else features
  if 0 ∈ features then decide (features \ s.satisfiedFeatures = ∅)
  else decide (features \ (s.satisfiedFeatures ∪ s.missingFeatures) = ∅)

/-- `ReadinessHelper::becomeReady`: the handle returned and the state after. -/
def becomeReady (s : Private) (requestedFeatures : Finset Nat) : PendingReady × Private :=
  let requestedFeatures :=
    if requestedFeatures = ∅ then insert 0 requestedFeatures else requestedFeatures
  match s.pendingOperations.find? (fun operation =>
      decide (operation.requestedFeatures = requestedFeatures)) with
  | some operation => (operation, s)
  | none =>
    let operation : PendingReady :=
      { ptr := s.operationsCreated, requestedFeatures := requestedFeatures }
    (operation,
      { s with
        requestedFeatures := s.requestedFeatures ∪ requestedFeatures
        pendingFeatures := s.pendingFeatures ∪ requestedFeatures
        pendingOperations := s.pendingOperations ++ [operation]
        operationsCreated := s.operationsCreated + 1
        scheduledPasses := s.scheduledPasses + 1 })

/-- A zero-delay timer fires: one scheduled pass leaves the queue and
`iterateIntrospection` runs. -/
def runScheduledPass (enum : Finset Nat → List Nat) (s : Private) : Option Private :=
  if s.scheduledPasses = 0 then none
  else iterateIntrospection enum { s with scheduledPasses := s.scheduledPasses - 1 }

/-- The event loop runs while passes are scheduled, at most `fuel` of them. -/
def runScheduledPasses (enum : Finset Nat → List Nat) : Nat → Private → Option Private
  | 0, s => some s
  | fuel + 1, s =>
    if s.scheduledPasses = 0 then some s
    else (runScheduledPass enum s).bind (runScheduledPasses enum fuel)

/-- A visiting order of `QSet`: ascending. -/
def ascending (features : Finset Nat) : List Nat :=
  (List.range (features.sup id + 1)).filter (· ∈ features)

/-- What every visiting order of a `QSet` satisfies: each element once. -/
def IsEnum (enum : Finset Nat → List Nat) : Prop :=
  ∀ features, (enum features).Nodup ∧ ∀ x, x ∈ enum features ↔ x ∈ features

/-- One call into the helper, or one timer firing. -/
inductive Step : Private → Private → Prop
  | status (s : Private) (newStatus : Nat) : Step s (setCurrentStatus s newStatus)
  | interfaces (s : Private) (interfaces : List String) : Step s (setInterfaces s interfaces)
  | request (s : Private) (features : Finset Nat) : Step s (becomeReady s features).2
  | report (s s1 : Private) (feature : Nat) (success : Bool) :
      setIntrospectCompleted s feature success = some s1 → Step s s1
  | timer (s : Private) :
      0 < s.scheduledPasses → Step s { s with scheduledPasses := s.scheduledPasses - 1 }
  | pass (s s1 : Private) (enum : Finset Nat → List Nat) :
      IsEnum enum → iterateIntrospection enum s = some s1 → Step s s1

/-- Any number of steps. -/
inductive Steps : Private → Private → Prop
  | refl (s : Private) : Steps s s
  | tail (s s1 s2 : Private) : Steps s s1 → Step s1 s2 → Steps s s2

/-- The states a helper constructed with `registry` in status `status` can
be in. -/
def Reachable (registry : QMap) (status : Nat) (s : Private) : Prop :=
  QMap.WF registry ∧ ∃ s0, construct status registry = some s0 ∧ Steps s0 s

/-- The feature dependencies `introspectables[feature].dependsOnFeatures`. -/
def dependencies (s : Private) (feature : Nat) : Finset Nat :=
  (s.introspectables.value feature).dependsOnFeatures

/-- The relations between the feature sets that every step keeps. -/
structure Inv (s : Private) : Prop where
  wf : QMap.WF s.introspectables
  satisfied_missing : Disjoint s.satisfiedFeatures s.missingFeatures
  inFlight_satisfied : Disjoint s.inFlightFeatures s.satisfiedFeatures
  inFlight_missing : Disjoint s.inFlightFeatures s.missingFeatures
  inFlight_pending : s.inFlightFeatures ⊆ s.pendingFeatures
  pending_requested : s.pendingFeatures ⊆ s.requestedFeatures
  deps_satisfied : ∀ f ∈ s.inFlightFeatures ∪ s.satisfiedFeatures,
    dependencies s f ⊆ s.satisfiedFeatures
  pending_inFlight : s.pendingStatusChange = true → s.inFlightFeatures ≠ ∅

/-- What a pass has established of every feature of `readyToIntrospect`. -/
def Eligible (s : Private) (f : Nat) : Prop :=
  f ∈ s.pendingFeatures ∧ f ∉ s.satisfiedFeatures ∧ f ∉ s.missingFeatures ∧
    dependencies s f ⊆ s.satisfiedFeatures

/-- The calls made from outside, and the firing of a zero-delay timer. -/
inductive Call
  | status (newStatus : Nat)
  | interfaces (names : List String)
  | request (features : Finset Nat)
  | report (feature : Nat) (success : Bool)
  | timer
  deriving DecidableEq

/-- One call, with every `QSet` visited in ascending order. -/
def Call.run : Call → Private → Option Private
  | .status newStatus, s => some (setCurrentStatus s newStatus)
  | .interfaces names, s => some (setInterfaces s names)
  | .request features, s => some (becomeReady s features).2
  | .report feature success, s => setIntrospectCompleted s feature success
  | .timer, s => runScheduledPass ascending s

/-- A sequence of calls, oldest first. -/
def runCalls : List Call → Private → Option Private
  | [], s => some s
  | call :: calls, s => (call.run s).bind (runCalls calls)

/-- The registry of the concrete scenarios: status A is `10`, status B is `11`. -/
def scenarioRegistry : QMap :=
  [(0, { makesSenseForStatuses := {10, 11}, dependsOnFeatures := ∅,
         dependsOnInterfaces := [], introspectFunc := 1 }),
   (1, { makesSenseForStatuses := {10}, dependsOnFeatures := {0},
         dependsOnInterfaces := ["Iface1"], introspectFunc := 2 }),
   (2, { makesSenseForStatuses := {10, 11}, dependsOnFeatures := {1},
         dependsOnInterfaces := [], introspectFunc := 3 })]

/-- End of the first scenario: `becomeReady({1,2})` in status A with no known
interface, the two scheduled passes, the core probe reporting success, and the
passes that follow. -/
def scenarioEnd : Private :=
  { currentStatus := 10
    interfaces := []
    introspectables := scenarioRegistry
    supportedStatuses := {10, 11}
    satisfiedFeatures := {0}
    requestedFeatures := {0, 1, 2}
    missingFeatures := {1, 2}
    pendingFeatures := {2}
    inFlightFeatures := ∅
    pendingOperations := []
    pendingStatusChange := false
    pendingStatus := 4294967295
    scheduledPasses := 0
    epoch := 0
    statusReadyEmitted := [(0, 10)]
    probesInvoked := [(0, 0)]
    finishedOperations := [0]
    operationsCreated := 1 }

/-- The first scenario while the core probe runs: after `becomeReady({1,2})`
and the first scheduled pass. -/
def scenarioCoreInFlight : Private :=
  { currentStatus := 10
    interfaces := []
    introspectables := scenarioRegistry
    supportedStatuses := {10, 11}
    satisfiedFeatures := ∅
    requestedFeatures := {0, 1, 2}
    missingFeatures := ∅
    pendingFeatures := {0, 1, 2}
    inFlightFeatures := {0}
    pendingOperations := [{ ptr := 0, requestedFeatures := {1, 2} }]
    pendingStatusChange := false
    pendingStatus := 4294967295
    scheduledPasses := 1
    epoch := 0
    statusReadyEmitted := []
    probesInvoked := [(0, 0)]
    finishedOperations := []
    operationsCreated := 1 }

/-- The first scenario, just constructed in status A. -/
def scenarioStart : Private :=
  { currentStatus := 10
    interfaces := []
    introspectables := scenarioRegistry
    supportedStatuses := {10, 11}
    satisfiedFeatures := ∅
    requestedFeatures := {0}
    missingFeatures := ∅
    pendingFeatures := {0}
    inFlightFeatures := ∅
    pendingOperations := []
    pendingStatusChange := false
    pendingStatus := 4294967295
    scheduledPasses := 1
    epoch := 0
    statusReadyEmitted := []
    probesInvoked := []
    finishedOperations := []
    operationsCreated := 0 }

/-- The first scenario after `becomeReady({1,2})`. -/
def scenarioRequested : Private :=
  { scenarioStart with
    requestedFeatures := {0, 1, 2}
    pendingFeatures := {0, 1, 2}
    pendingOperations := [{ ptr := 0, requestedFeatures := {1, 2} }]
    scheduledPasses := 2
    operationsCreated := 1 }

/-- The first scenario after both scheduled passes: the core probe runs. -/
def scenarioCoreProbed : Private :=
  { scenarioRequested with
    inFlightFeatures := {0}
    scheduledPasses := 0
    probesInvoked := [(0, 0)] }

/-- The first scenario after the core probe reported success. -/
def scenarioCoreSatisfied : Private :=
  { scenarioCoreProbed with
    satisfiedFeatures := {0}
    pendingFeatures := {1, 2}
    inFlightFeatures := ∅
    scheduledPasses := 1 }

/-- The first scenario, had the core probe reported failure instead. -/
def scenarioCoreMissing : Private :=
  { scenarioCoreProbed with
    missingFeatures := {0}
    pendingFeatures := {1, 2}
    inFlightFeatures := ∅
    scheduledPasses := 1 }

/-- The test of line 182: every requested feature of the handle is decided. -/
def finishable (s : Private) (operation : PendingReady) : Bool :=
  decide (operation.requestedFeatures \ (s.satisfiedFeatures ∪ s.missingFeatures) = ∅)

/-- The handle list, the `setFinished()` record and the allocation count are
the same in both states. -/
def SameOperations (s s1 : Private) : Prop :=
  s1.pendingOperations = s.pendingOperations ∧
  s1.finishedOperations = s.finishedOperations ∧
  s1.operationsCreated = s.operationsCreated

/-- What holds of the handles in every reachable state. -/
structure OperationsInv (s : Private) : Prop where
  ptr_lt : ∀ o ∈ s.pendingOperations, o.ptr < s.operationsCreated
  finished_lt : ∀ p ∈ s.finishedOperations, p < s.operationsCreated
  ptr_nodup : (s.pendingOperations.map PendingReady.ptr).Nodup
  requested_nodup : (s.pendingOperations.map PendingReady.requestedFeatures).Nodup
  requested_nonempty : ∀ o ∈ s.pendingOperations, o.requestedFeatures ≠ ∅
  unfinished : ∀ o ∈ s.pendingOperations, o.ptr ∉ s.finishedOperations
  finished_nodup : s.finishedOperations.Nodup

/-- What never shrinks from a state to a later one; the decided sets and the
status are compared only when no status change was applied in between. -/
structure Mono (s s1 : Private) : Prop where
  epoch_le : s.epoch ≤ s1.epoch
  satisfied : s1.epoch = s.epoch → s.satisfiedFeatures ⊆ s1.satisfiedFeatures
  missing : s1.epoch = s.epoch → s.missingFeatures ⊆ s1.missingFeatures
  status : s1.epoch = s.epoch → s1.currentStatus = s.currentStatus
  probes : s.probesInvoked <+: s1.probesInvoked
  emitted : s.statusReadyEmitted <+: s1.statusReadyEmitted
  finished : s.finishedOperations <+: s1.finishedOperations
  registry : ∀ x ∈ s.introspectables, x ∈ s1.introspectables
  supported : s1.supportedStatuses = s.supportedStatuses
  requested : s.requestedFeatures ⊆ s1.requestedFeatures
  created : s.operationsCreated ≤ s1.operationsCreated

/-- What holds of the recorded probe calls in every reachable state: no call
carries a later epoch, and a feature probed in the current epoch is requested
and has all its feature dependencies satisfied. -/
structure ProbeInv (s : Private) : Prop where
  stamp_le : ∀ p ∈ s.probesInvoked, p.1 ≤ s.epoch
  requested : ∀ f, (s.epoch, f) ∈ s.probesInvoked → f ∈ s.requestedFeatures
  deps : ∀ f, (s.epoch, f) ∈ s.probesInvoked → dependencies s f ⊆ s.satisfiedFeatures

/-- A helper constructed with `scenarioRegistry` in status A, after
`becomeReady({})`: the handle at address `0` carries `{0}`. -/
def scenarioCoreRequested : Private :=
  { scenarioStart with
    pendingOperations := [{ ptr := 0, requestedFeatures := {0} }]
    scheduledPasses := 2
    operationsCreated := 1 }

/-- The second scenario: as the first, but with interface "Iface1" known; the
core probe has succeeded and the probe of feature 1 runs. -/
def scenarioProbing : Private :=
  { scenarioCoreSatisfied with
    interfaces := ["Iface1"]
    inFlightFeatures := {1}
    scheduledPasses := 0
    probesInvoked := [(0, 0), (0, 1)] }

/-- The second scenario after the probe of feature 1 reported failure. -/
def scenarioProbeFailed : Private :=
  { scenarioProbing with
    missingFeatures := {1}
    pendingFeatures := {2}
    inFlightFeatures := ∅
    scheduledPasses := 1 }

/-- The second scenario when the timer of the next pass has fired. -/
def scenarioProbeFailedFired : Private :=
  { scenarioProbeFailed with scheduledPasses := 0 }

/-- The second scenario after that pass. -/
def scenarioProbeFailedEnd : Private :=
  { scenarioProbeFailedFired with
    missingFeatures := {1, 2}
    pendingOperations := []
    finishedOperations := [0]
    statusReadyEmitted := [(0, 10)] }

/-- The third scenario: `becomeReady({})`, the core probe reported failure,
and the timer of the next pass has fired. -/
def scenarioCoreFailedFired : Private :=
  { scenarioCoreRequested with
    missingFeatures := {0}
    pendingFeatures := ∅
    scheduledPasses := 0
    probesInvoked := [(0, 0)] }

/-- The third scenario after that pass. -/
def scenarioCoreFailedEnd : Private :=
  { scenarioCoreFailedFired with
    missingFeatures := {0, 1, 2}
    pendingOperations := []
    finishedOperations := [0]
    statusReadyEmitted := [(0, 10)] }

/-- The first scenario after the pass that found "Iface1" absent. -/
def scenarioInterfaceMissing : Private :=
  { scenarioCoreSatisfied with
    missingFeatures := {1}
    pendingFeatures := {2} }

/-- The first scenario when the core probe reports success before the second
scheduled pass has run. -/
def scenarioEarlyReport : Private :=
  { scenarioCoreInFlight with
    satisfiedFeatures := {0}
    pendingFeatures := {1, 2}
    inFlightFeatures := ∅
    scheduledPasses := 2 }

/-- After the next pass of that run: "Iface1" found absent. -/
def scenarioEarlyMissing : Private :=
  { scenarioEarlyReport with
    missingFeatures := {1}
    pendingFeatures := {2} }

/-- After the next pass of that run: feature 2 missing, the handle finished. -/
def scenarioEarlyFinished : Private :=
  { scenarioEarlyMissing with
    missingFeatures := {1, 2}
    pendingOperations := []
    finishedOperations := [0]
    statusReadyEmitted := [(0, 10)]
    scheduledPasses := 1 }

/-- After the last scheduled pass of that run. -/
def scenarioEarlyEnd : Private :=
  { scenarioEarlyFinished with
    statusReadyEmitted := [(0, 10), (0, 10)]
    scheduledPasses := 0 }

/-- The status race: in `scenarioProbing` (status A, the probe of feature 1
running) `setCurrentStatus(B)` has been called. -/
def scenarioRaceDeferred : Private :=
  { scenarioProbing with
    pendingStatusChange := true
    pendingStatus := 11 }

/-- The status race after the probe of feature 1 reported: status B applied. -/
def scenarioRaceApplied : Private :=
  { scenarioRaceDeferred with
    currentStatus := 11
    epoch := 1
    satisfiedFeatures := ∅
    pendingFeatures := {0, 1, 2}
    inFlightFeatures := ∅
    pendingStatusChange := false
    scheduledPasses := 1 }

/-- The status race after the scheduled pass: the core probe runs again. -/
def scenarioRaceCoreProbed : Private :=
  { scenarioRaceApplied with
    inFlightFeatures := {0}
    scheduledPasses := 0
    probesInvoked := [(0, 0), (0, 1), (1, 0)] }

/-- The status race after the core probe reported success under status B. -/
def scenarioRaceCoreSatisfied : Private :=
  { scenarioRaceCoreProbed with
    satisfiedFeatures := {0}
    pendingFeatures := {1, 2}
    inFlightFeatures := ∅
    scheduledPasses := 1 }

/-- The status race after the next pass: feature 1 satisfied without a probe. -/
def scenarioRaceNoOp : Private :=
  { scenarioRaceCoreSatisfied with
    satisfiedFeatures := {0, 1}
    pendingFeatures := {2} }

/-- The status race after the next pass: the probe of feature 2 runs. -/
def scenarioRaceProbing : Private :=
  { scenarioRaceNoOp with
    inFlightFeatures := {2}
    scheduledPasses := 0
    probesInvoked := [(0, 0), (0, 1), (1, 0), (1, 2)] }

/-- The status race after the probe of feature 2 reported success. -/
def scenarioRaceDecided : Private :=
  { scenarioRaceProbing with
    satisfiedFeatures := {0, 1, 2}
    pendingFeatures := ∅
    inFlightFeatures := ∅
    scheduledPasses := 1 }

/-- The status race after the last pass: the handle finished. -/
def scenarioRaceEnd : Private :=
  { scenarioRaceDecided with
    pendingOperations := []
    finishedOperations := [0]
    statusReadyEmitted := [(1, 11)]
    scheduledPasses := 0 }

/-- What the loop of lines 210-245 leaves as it was at its start `b`, up to
its first synthetic completion: only features are added to `inFlightFeatures`,
probe calls recorded and default entries inserted in the registry. -/
structure LoopFrame (b st : Private) : Prop where
  satisfied : st.satisfiedFeatures = b.satisfiedFeatures
  missing : st.missingFeatures = b.missingFeatures
  requested : st.requestedFeatures = b.requestedFeatures
  pending : st.pendingFeatures = b.pendingFeatures
  status : st.currentStatus = b.currentStatus
  interfaces : st.interfaces = b.interfaces
  epoch : st.epoch = b.epoch
  inFlight : b.inFlightFeatures ⊆ st.inFlightFeatures
  value : ∀ f, st.introspectables.value f = b.introspectables.value f

/-- The conditions of a probe call `p = (epoch, feature)`, read in the state `b`. -/
def ProbeAllowed (b : Private) (p : Nat × Nat) : Prop :=
  p.1 = b.epoch ∧ p.2 ∈ b.pendingFeatures ∧ p.2 ∉ b.satisfiedFeatures ∧
  p.2 ∉ b.missingFeatures ∧ p.2 ∉ b.inFlightFeatures ∧
  dependencies b p.2 ⊆ b.satisfiedFeatures ∧
  b.currentStatus ∈ (b.introspectables.value p.2).makesSenseForStatuses ∧
  (p.2 = 0 ∨ ∀ interface ∈ (b.introspectables.value p.2).dependsOnInterfaces,
    interface ∈ b.interfaces)

/-- One call, with every `QSet` visited in the order `enum`. -/
def Call.runWith (enum : Finset Nat → List Nat) : Call → Private → Option Private
  | .status newStatus, s => some (setCurrentStatus s newStatus)
  | .interfaces names, s => some (setInterfaces s names)
  | .request features, s => some (becomeReady s features).2
  | .report feature success, s => setIntrospectCompleted s feature success
  | .timer, s => runScheduledPass enum s

/-- A sequence of calls, oldest first, with every `QSet` visited in the order
`enum`. -/
def runCallsWith (enum : Finset Nat → List Nat) : List Call → Private → Option Private
  | [], s => some s
  | call :: calls, s => (call.runWith enum s).bind (runCallsWith enum calls)

/-- Two calls that report on the same feature, whatever their success flags. -/
def Call.sameReport : Call → Call → Bool
  | .report feature _, .report feature1 _ => feature == feature1
  | _, _ => false

/-- Two call sequences that, run from `s`, differ at most in the success flags
of reports delivered while a status change is pending. -/
def sameUpToStaleFlags (enum : Finset Nat → List Nat) :
    Private → List Call → List Call → Bool
  | _, [], [] => true
  | s, call :: calls, call1 :: calls1 =>
    (decide (call = call1) || (s.pendingStatusChange && call.sameReport call1)) &&
      match call.runWith enum s with
      | some s1 => sameUpToStaleFlags enum s1 calls calls1
      | none => true
  | _, _, _ => false

/-- A registry whose dependency chain runs against the key order: feature 1
depends on feature 2, feature 2 on feature 3; every feature is meaningful in
status `10` and requires no interface. -/
def chainRegistry : QMap :=
  [(0, { makesSenseForStatuses := {10}, dependsOnFeatures := ∅,
         dependsOnInterfaces := [], introspectFunc := 1 }),
   (1, { makesSenseForStatuses := {10}, dependsOnFeatures := {2},
         dependsOnInterfaces := [], introspectFunc := 2 }),
   (2, { makesSenseForStatuses := {10}, dependsOnFeatures := {3},
         dependsOnInterfaces := [], introspectFunc := 3 }),
   (3, { makesSenseForStatuses := {10}, dependsOnFeatures := ∅,
         dependsOnInterfaces := [], introspectFunc := 4 })]

/-- The chain scenario: constructed in status `10`, `becomeReady({1,2,3})`,
both scheduled passes run; the probes of features 0 and 3 are in flight. -/
def chainProbing : Private :=
  { currentStatus := 10
    interfaces := []
    introspectables := chainRegistry
    supportedStatuses := {10}
    satisfiedFeatures := ∅
    requestedFeatures := {0, 1, 2, 3}
    missingFeatures := ∅
    pendingFeatures := {0, 1, 2, 3}
    inFlightFeatures := {0, 3}
    pendingOperations := [{ ptr := 0, requestedFeatures := {1, 2, 3} }]
    pendingStatusChange := false
    pendingStatus := 4294967295
    scheduledPasses := 0
    epoch := 0
    statusReadyEmitted := []
    probesInvoked := [(0, 0), (0, 3)]
    finishedOperations := []
    operationsCreated := 1 }

/-- The chain scenario after the probe of feature 3 reported failure. -/
def chainFailed : Private :=
  { chainProbing with
    missingFeatures := {3}
    pendingFeatures := {0, 1, 2}
    inFlightFeatures := {0}
    scheduledPasses := 1 }

/-- The chain scenario after the pass that follows the failure of feature 3. -/
def chainPropagated : Private :=
  { chainFailed with
    missingFeatures := {2, 3}
    pendingFeatures := {0, 1}
    scheduledPasses := 0 }

/-- The chain scenario at rest when feature 3 reported (failure) before
feature 0 (success), a pass following each report. -/
def chainMissingFirst : Private :=
  { chainProbing with
    satisfiedFeatures := {0}
    missingFeatures := {1, 2, 3}
    pendingFeatures := {1}
    inFlightFeatures := ∅
    pendingOperations := []
    statusReadyEmitted := [(0, 10)]
    finishedOperations := [0] }

/-- The chain scenario at rest when feature 0 reported (success) before
feature 3 (failure), a pass following each report. -/
def chainCoreFirst : Private :=
  { chainProbing with
    satisfiedFeatures := {0}
    missingFeatures := {2, 3}
    pendingFeatures := {1}
    inFlightFeatures := ∅ }

/-- A state in the unsupported status `12` whose one handle has every
requested feature decided. -/
def scenarioUnsupported : Private :=
  { scenarioInterfaceMissing with
    currentStatus := 12
    missingFeatures := {1, 2} }

/-- The recomputation of `pendingFeatures` in the words of the specification
(step 4 of a pass): `requestedFeatures − (satisfiedFeatures ∪ missingFeatures)`.
The code computes `(afterPending s).pendingFeatures` instead (line 197). -/
def specPendingFeatures (s : Private) : Finset Nat :=
  s.requestedFeatures \ (s.satisfiedFeatures ∪ s.missingFeatures)

/-- The first scenario continued from `scenarioEnd` by `becomeReady({1})` and
the pass it schedules: a second `statusReady` in the same epoch. -/
def scenarioEmittedTwice : Private :=
  { scenarioEnd with
    pendingFeatures := {1, 2}
    statusReadyEmitted := [(0, 10), (0, 10)]
    finishedOperations := [0, 1]
    operationsCreated := 2 }

/-- The first scenario continued from `scenarioEnd` by `becomeReady({7})`,
feature 7 not being registered, and the pass it schedules: the registry has
an entry for feature 7. -/
def scenarioUnregistered : Private :=
  { scenarioEnd with
    introspectables := scenarioRegistry ++ [(7, Introspectable.null)]
    requestedFeatures := {0, 1, 2, 7}
    satisfiedFeatures := {0, 7}
    pendingFeatures := ∅
    pendingOperations := [{ ptr := 1, requestedFeatures := {7} }]
    scheduledPasses := 1
    operationsCreated := 2 }

/-- The first scenario with `becomeReady({2})` instead: feature 1, on which
feature 2 depends, is not requested.  The state at rest after the core probe
succeeded. -/
def scenarioDependencyUnrequested : Private :=
  { scenarioCoreSatisfied with
    requestedFeatures := {0, 2}
    pendingFeatures := {2}
    pendingOperations := [{ ptr := 0, requestedFeatures := {2} }]
    scheduledPasses := 0 }

/-- The chain scenario continued from `chainProbing`: `setCurrentStatus(11)`
is deferred, the report on feature 0 is dropped, `becomeReady({3})` schedules a
pass, and the pass calls the probe of feature 0 again. -/
def chainProbedAgain : Private :=
  { chainProbing with
    pendingOperations := [{ ptr := 0, requestedFeatures := {1, 2, 3} },
      { ptr := 1, requestedFeatures := {3} }]
    pendingStatusChange := true
    pendingStatus := 11
    probesInvoked := [(0, 0), (0, 3), (0, 0)]
    operationsCreated := 2 }

end ReadinessHelper

/-!
# PendingChannel (TelepathyQt4/pending-channel.cpp)

The request object for a channel, as far as `immutableProperties()` is
concerned: the constructors, the two reply handlers of the connection path and
the accessor.

* `QVariant` belongs to Qt and `Connection` to a header that is not among the
  sources.  What the code uses of them is taken as a parameter: the
  conversions of `QVariant` are the fields of `VariantOps`, the prefix
  `TELEPATHY_INTERFACE_CHANNEL` of the property names is the parameter `iface`.
* `QVariantMap` (`QMap<QString, QVariant>`) is an association list; only
  `contains`, `value` and `operator[]` followed by an assignment are used.
* A null `ConnectionPtr` or `ChannelPtr` is `none`.
* `PendingOperation` (`isFinished`, `setFinished`, `setFinishedWithError`) is
  not among the sources; a handler that calls one of them leaves the members
  of `Private` as they are.  The members `cr`, `handler` and `notifier`, which
  `immutableProperties()` does not read, are left out.
-/

namespace PendingChannel

/-- The operations on `QVariant` that the code uses: construction from `bool`
and from `uint`, the default-constructed variant that `QMap::value` returns for
an absent key, and the conversions `qdbus_cast<bool>`, `toString()` and
`toUInt()`. -/
structure VariantOps (V : Type) where
  fromBool : Bool → V
  fromUInt : Nat → V
  invalid : V
  toBool : V → Bool
  toString : V → String
  toUInt : V → Nat

/-- The type `QVariantMap`. -/
abbrev QVariantMap (V : Type) := List (String × V)

/-- The method `QMap::contains(key)`. -/
def QVariantMap.contains {V : Type} (m : QVariantMap V) (key : String) : Bool :=
  m.any (fun e => e.1 == key)

/-- The method `QMap::value(key)`: the stored value, or a default-constructed
one. -/
def QVariantMap.value {V : Type} (ops : VariantOps V) (m : QVariantMap V) (key : String) : V :=
  match m.find? (fun e => e.1 == key) with
  | some e => e.2
  | none => ops.invalid

/-- The map after `map[key] = value`: the entry of `key` is replaced, or a new
entry is inserted at the place of `key` in key order. -/
def QVariantMap.set {V : Type} : QVariantMap V → String → V → QVariantMap V
  | [], key, value => [(key, value)]
  | e :: m, key, value =>
    if key < e.1 then (key, value) :: e :: m
    else if key = e.1 then (key, value) :: m
    else e :: QVariantMap.set m key value

/-- What `immutableProperties()` reads of the `Connection` object:
`isReady()` and `selfHandle()`. -/
structure Connection where
  isReady : Bool
  selfHandle : Nat
  deriving DecidableEq

/-- The members of `PendingChannel::Private` (without `cr`, `handler` and
`notifier`); `channel` is the address of the `Channel` object. -/
structure Private (V : Type) where
  connection : Option Connection
  yours : Bool
  channelType : String
  handleType : Nat
  handle : Nat
  immutableProperties : QVariantMap V
  channel : Option Nat

/-- `PendingChannel::PendingChannel(connection, errorName, errorMessage)`: the
request that fails at once. -/
def constructFailed {V : Type} (connection : Option Connection) : Private V :=
  { connection := connection
    yours := false
    channelType := ""
    handleType := 0
    handle := 0
    immutableProperties := []
    channel := none }

/-- `PendingChannel::PendingChannel(connection, request, create)`: the
constructor dereferences `connection`, which is therefore not null. -/
def construct {V : Type} (ops : VariantOps V) (iface : String) (connection : Connection)
    (request : QVariantMap V) (create : Bool) : Private V :=
  { connection := some connection
    yours := create
    channelType := ops.toString (request.value ops (iface ++ ".ChannelType"))
    handleType := ops.toUInt (request.value ops (iface ++ ".TargetHandleType"))
    handle := ops.toUInt (request.value ops (iface ++ ".TargetHandle"))
    immutableProperties := []
    channel := none }

/-- `PendingChannel::PendingChannel(account, request, userActionTime, create)`,
as far as the modelled members go: `connection` stays null. -/
def constructForAccount {V : Type} (ops : VariantOps V) (iface : String)
    (request : QVariantMap V) : Private V :=
  { connection := none
    yours := true
    channelType := ops.toString (request.value ops (iface ++ ".ChannelType"))
    handleType := ops.toUInt (request.value ops (iface ++ ".TargetHandleType"))
    handle := ops.toUInt (request.value ops (iface ++ ".TargetHandle"))
    immutableProperties := []
    channel := none }

/-- `PendingChannel::onConnectionCreateChannelFinished`: `reply` is `none`
for an error reply, the properties of the reply otherwise; `channel` is what
the channel factory returned. -/
def onConnectionCreateChannelFinished {V : Type} (ops : VariantOps V) (iface : String)
    (s : Private V) (reply : Option (QVariantMap V)) (channel : Option Nat) : Private V :=
  match reply with
  | some map =>
    { s with
      channel := channel
      immutableProperties := map
      channelType := ops.toString (map.value ops (iface ++ ".ChannelType"))
      handleType := ops.toUInt (map.value ops (iface ++ ".TargetHandleType"))
      handle := ops.toUInt (map.value ops (iface ++ ".TargetHandle")) }
  | none => s

/-- `PendingChannel::onConnectionEnsureChannelFinished`: the reply carries
`yours` as well. -/
def onConnectionEnsureChannelFinished {V : Type} (ops : VariantOps V) (iface : String)
    (s : Private V) (reply : Option (Bool × QVariantMap V)) (channel : Option Nat) :
    Private V :=
  match reply with
  | some (yours, map) =>
    { s with
      yours := yours
      channel := channel
      immutableProperties := map
      channelType := ops.toString (map.value ops (iface ++ ".ChannelType"))
      handleType := ops.toUInt (map.value ops (iface ++ ".TargetHandleType"))
      handle := ops.toUInt (map.value ops (iface ++ ".TargetHandle")) }
  | none => s

/-- `PendingChannel::immutableProperties`: a copy of the stored map, with
`Requested` and `InitiatorHandle` filled in when absent. -/
def immutableProperties {V : Type} (ops : VariantOps V) (iface : String) (s : Private V) :
    QVariantMap V :=
  let props := s.immutableProperties
  let props :=
    if !props.contains (iface ++ ".Requested") then
      props.set (iface ++ ".Requested") (ops.fromBool s.yours)
    else props
  if !props.contains (iface ++ ".InitiatorHandle") then
    if ops.toBool (props.value ops (iface ++ ".Requested")) then
      match s.connection with
      | some connection =>
        if connection.isReady then
          props.set (iface ++ ".InitiatorHandle") (ops.fromUInt connection.selfHandle)
        else props
      | none => props
    else props
  else props

/-- A variant type for the examples: an invalid variant, a `bool`, a `uint` or
a string. -/
inductive QVariant
  | invalid
  | bool (value : Bool)
  | uint (value : Nat)
  | string (value : String)
  deriving DecidableEq

/-- The conversions of `QVariant` for the examples. -/
def qvariantOps : VariantOps QVariant :=
  { fromBool := QVariant.bool
    fromUInt := QVariant.uint
    invalid := QVariant.invalid
    toBool := fun v =>
      match v with
      | .bool b => b
      | .uint n => decide (n ≠ 0)
      | _ => false
    toString := fun v =>
      match v with
      | .string s => s
      | _ => ""
    toUInt := fun v =>
      match v with
      | .uint n => n
      | _ => 0 }

end PendingChannel

/-!
# PendingConnection (TelepathyQt4/pending-connection.cpp)

* A null `ConnectionPtr` is `none`.  `mPriv->connection->busName()` on a null
  pointer has no defined result: the accessors return `none` there.
* `PendingOperation` is not among the sources: `isFinished()` and `isValid()`
  are arguments of `connection()`, and the call of `setFinishedWithError` is
  recorded next to the state `onCallFinished` returns.
-/

namespace PendingConnection

/-- What the accessors read of the `Connection` object. -/
structure Connection where
  busName : String
  objectPath : String
  deriving DecidableEq

/-- The members of `PendingConnection::Private`. -/
structure Private where
  connection : Option Connection
  deriving DecidableEq

/-- `PendingConnection::PendingConnection`: `mPriv->connection` is
default-constructed, a null pointer. -/
def construct : Private :=
  { connection := none }

/-- The reply to `RequestConnection`. -/
inductive Reply
  | error (name message : String)
  | connection (busName objectPath : String)

/-- `PendingConnection::onCallFinished`: the state after, and the arguments of
`setFinishedWithError` if it was called.  `proxy` is what the connection
factory and `qObjectCast` return for a bus name and an object path. -/
def onCallFinished (s : Private) (reply : Reply)
    (proxy : String → String → Option Connection) : Private × Option (String × String) :=
  match reply with
  | .connection busName objectPath =>
    ({ s with connection := proxy busName objectPath }, none)
  | .error name message => (s, some (name, message))

/-- `PendingConnection::connection` -/
def connection (s : Private) (isFinished isValid : Bool) : Option Connection :=
  if !isFinished then none
  else if !isValid then none
  else s.connection

/-- `PendingConnection::busName`: `none` when `mPriv->connection` is null. -/
def busName (s : Private) : Option String :=
  match s.connection with
  | some connection => some connection.busName
  | none => none

/-- `PendingConnection::objectPath`: `none` when `mPriv->connection` is null. -/
def objectPath (s : Private) : Option String :=
  match s.connection with
  | some connection => some connection.objectPath
  | none => none

end PendingConnection

namespace ReadinessHelper

/-! ## Properties of the registry -/

theorem QMap.value_nil (key : Nat) : QMap.value [] key = Introspectable.null := rfl

theorem QMap.value_cons (e : Nat × Introspectable) (m : QMap) (key : Nat) :
    QMap.value (e :: m) key = if e.1 = key then e.2 else QMap.value m key := by
  unfold QMap.value
  by_cases h : e.1 = key
  · simp [List.find?_cons, h]
  · have hb : (e.1 == key) = false := by simpa using h
    simp [List.find?_cons, hb, h]

theorem QMap.wf_cons (e : Nat × Introspectable) (m : QMap) :
    QMap.WF (e :: m) ↔ (∀ x ∈ m, e.1 < x.1) ∧ QMap.WF m := by
  simp [QMap.WF, List.pairwise_cons]

theorem QMap.value_of_lt (m : QMap) (key : Nat) (h : ∀ x ∈ m, key < x.1) :
    QMap.value m key = Introspectable.null := by
  induction m with
  | nil => rfl
  | cons e m ih =>
    rw [QMap.value_cons, if_neg, ih]
    · intro x hx; exact h x (List.mem_cons_of_mem _ hx)
    · have := h e (List.mem_cons_self _ _); omega

theorem QMap.value_of_mem (m : QMap) (hm : QMap.WF m) (e : Nat × Introspectable)
    (he : e ∈ m) : QMap.value m e.1 = e.2 := by
  induction m with
  | nil => simp at he
  | cons a m ih =>
    rw [QMap.wf_cons] at hm
    rw [QMap.value_cons]
    rcases List.mem_cons.1 he with rfl | h
    · simp
    · have := hm.1 e h
      rw [if_neg (by omega)]
      exact ih hm.2 h

theorem QMap.mem_touch (m : QMap) (key : Nat) (x : Nat × Introspectable)
    (hx : x ∈ QMap.touch m key) : x = (key, Introspectable.null) ∨ x ∈ m := by
  induction m with
  | nil => simpa [QMap.touch] using hx
  | cons e m ih =>
    unfold QMap.touch at hx
    split_ifs at hx with h1 h2
    · rcases List.mem_cons.1 hx with rfl | h
      · exact Or.inl rfl
      · exact Or.inr h
    · exact Or.inr hx
    · rcases List.mem_cons.1 hx with rfl | h
      · exact Or.inr (List.mem_cons_self _ _)
      · rcases ih h with h | h
        · exact Or.inl h
        · exact Or.inr (List.mem_cons_of_mem _ h)

theorem QMap.touch_wf (m : QMap) (key : Nat) (hm : QMap.WF m) : QMap.WF (QMap.touch m key) := by
  induction m with
  | nil => simp [QMap.touch, QMap.WF]
  | cons e m ih =>
    have hm2 := (QMap.wf_cons e m).1 hm
    unfold QMap.touch
    split_ifs with h1 h2
    · rw [QMap.wf_cons]
      refine ⟨?_, hm⟩
      intro x hx
      rcases List.mem_cons.1 hx with rfl | h
      · exact h1
      · have := hm2.1 x h
        show key < x.1
        omega
    · exact hm
    · rw [QMap.wf_cons]
      refine ⟨?_, ih hm2.2⟩
      intro x hx
      rcases QMap.mem_touch m key x hx with rfl | h
      · show e.1 < key
        omega
      · exact hm2.1 x h

theorem QMap.touch_value (m : QMap) (key f : Nat) (hm : QMap.WF m) :
    QMap.value (QMap.touch m key) f = QMap.value m f := by
  induction m with
  | nil =>
    simp [QMap.touch, QMap.value_cons, QMap.value_nil]
  | cons e m ih =>
    have hm2 := (QMap.wf_cons e m).1 hm
    unfold QMap.touch
    split_ifs with h1 h2
    · rw [QMap.value_cons (key, Introspectable.null)]
      split_ifs with h3
      · simp only at h3
        subst h3
        symm
        apply QMap.value_of_lt
        intro x hx
        rcases List.mem_cons.1 hx with rfl | h
        · exact h1
        · have := hm2.1 x h
          omega
      · rfl
    · rfl
    · rw [QMap.value_cons, QMap.value_cons, ih hm2.2]

theorem inv_congr (s t : Private) (h : Inv s)
    (h1 : t.introspectables = s.introspectables)
    (h2 : t.satisfiedFeatures = s.satisfiedFeatures)
    (h3 : t.missingFeatures = s.missingFeatures)
    (h4 : t.inFlightFeatures = s.inFlightFeatures)
    (h5 : t.pendingFeatures = s.pendingFeatures)
    (h6 : t.requestedFeatures = s.requestedFeatures)
    (h7 : t.pendingStatusChange = s.pendingStatusChange) : Inv t := by
  refine ⟨?_, ?_, ?_, ?_, ?_, ?_, ?_, ?_⟩
  · rw [h1]; exact h.wf
  · rw [h2, h3]; exact h.satisfied_missing
  · rw [h4, h2]; exact h.inFlight_satisfied
  · rw [h4, h3]; exact h.inFlight_missing
  · rw [h4, h5]; exact h.inFlight_pending
  · rw [h5, h6]; exact h.pending_requested
  · unfold dependencies
    rw [h4, h2, h1]; exact h.deps_satisfied
  · rw [h7, h4]; exact h.pending_inFlight

theorem inv_introspectCore (s : Private) (h : Inv s) : Inv (introspectCore s) where
  wf := h.wf
  satisfied_missing := h.satisfied_missing
  inFlight_satisfied := h.inFlight_satisfied
  inFlight_missing := h.inFlight_missing
  inFlight_pending := fun _ hx => Finset.mem_insert_of_mem (h.inFlight_pending hx)
  pending_requested := Finset.insert_subset_insert 0 h.pending_requested
  deps_satisfied := h.deps_satisfied
  pending_inFlight := h.pending_inFlight

theorem inv_setCurrentStatus (s : Private) (newStatus : Nat) (h : Inv s) :
    Inv (setCurrentStatus s newStatus) := by
  dsimp only [setCurrentStatus]
  by_cases h1 : s.inFlightFeatures = ∅
  · have hp : s.pendingStatusChange = false := by
      cases hp : s.pendingStatusChange with
      | false => rfl
      | true => exact absurd h1 (h.pending_inFlight hp)
    have hreset : Inv { s with
        currentStatus := newStatus
        epoch := s.epoch + 1
        satisfiedFeatures := ∅
        missingFeatures := ∅
        pendingFeatures := s.requestedFeatures } :=
      { wf := h.wf
        satisfied_missing := by simp
        inFlight_satisfied := by simp
        inFlight_missing := by simp
        inFlight_pending := by simp [h1]
        pending_requested := by simp
        deps_satisfied := by simp [h1]
        pending_inFlight := by simp [hp] }
    rw [if_pos h1]
    split_ifs with h2
    · exact inv_introspectCore _ hreset
    · exact inv_congr _ _ hreset rfl rfl rfl rfl rfl rfl rfl
  · rw [if_neg h1]
    exact ⟨h.wf, h.satisfied_missing, h.inFlight_satisfied, h.inFlight_missing,
      h.inFlight_pending, h.pending_requested, h.deps_satisfied, fun _ => h1⟩

theorem inv_setInterfaces (s : Private) (interfaces : List String) (h : Inv s) :
    Inv (setInterfaces s interfaces) :=
  inv_congr _ _ h rfl rfl rfl rfl rfl rfl rfl

theorem inv_becomeReady (s : Private) (features : Finset Nat) (h : Inv s) :
    Inv (becomeReady s features).2 := by
  dsimp only [becomeReady]
  split
  · exact h
  · exact
      { wf := h.wf
        satisfied_missing := h.satisfied_missing
        inFlight_satisfied := h.inFlight_satisfied
        inFlight_missing := h.inFlight_missing
        inFlight_pending := fun x hx => Finset.mem_union_left _ (h.inFlight_pending hx)
        pending_requested := Finset.union_subset_union h.pending_requested (Finset.Subset.refl _)
        deps_satisfied := h.deps_satisfied
        pending_inFlight := h.pending_inFlight }

theorem setIntrospectCompleted_normal (s : Private) (feature : Nat) (success : Bool)
    (h1 : s.pendingStatusChange = false) (h2 : feature ∈ s.pendingFeatures)
    (h3 : feature ∈ s.inFlightFeatures) :
    setIntrospectCompleted s feature success = some { s with
      satisfiedFeatures :=
        if success then insert feature s.satisfiedFeatures else s.satisfiedFeatures
      missingFeatures :=
        if success then s.missingFeatures else insert feature s.missingFeatures
      pendingFeatures := s.pendingFeatures.erase feature
      inFlightFeatures := s.inFlightFeatures.erase feature
      scheduledPasses := s.scheduledPasses + 1 } := by
  cases success <;> simp [setIntrospectCompleted, h1, h2, h3]

theorem setIntrospectCompleted_pending (s : Private) (feature : Nat) (success : Bool)
    (h1 : s.pendingStatusChange = true) :
    setIntrospectCompleted s feature success =
      if s.inFlightFeatures.erase feature ≠ ∅ then
        some { s with inFlightFeatures := s.inFlightFeatures.erase feature }
      else
        some (setCurrentStatus
          { s with inFlightFeatures := s.inFlightFeatures.erase feature,
                   pendingStatusChange := false } s.pendingStatus) := by
  simp [setIntrospectCompleted, h1]

theorem setIntrospectCompleted_none (s : Private) (feature : Nat) (success : Bool)
    (h1 : s.pendingStatusChange = false)
    (h2 : feature ∉ s.pendingFeatures ∨ feature ∉ s.inFlightFeatures) :
    setIntrospectCompleted s feature success = none := by
  rcases h2 with h2 | h2
  · simp [setIntrospectCompleted, h1, h2]
  · by_cases h3 : feature ∈ s.pendingFeatures <;> simp [setIntrospectCompleted, h1, h2, h3]

theorem inv_setIntrospectCompleted (s s1 : Private) (feature : Nat) (success : Bool)
    (h : Inv s) (hs : setIntrospectCompleted s feature success = some s1) : Inv s1 := by
  have hsub : s.inFlightFeatures.erase feature ⊆ s.inFlightFeatures := Finset.erase_subset _ _
  have hdrained : ∀ pending : Bool,
      (pending = true → s.inFlightFeatures.erase feature ≠ ∅) →
      Inv { s with
        inFlightFeatures := s.inFlightFeatures.erase feature
        pendingStatusChange := pending } := fun _ hpend =>
    { wf := h.wf
      satisfied_missing := h.satisfied_missing
      inFlight_satisfied := Finset.disjoint_of_subset_left hsub h.inFlight_satisfied
      inFlight_missing := Finset.disjoint_of_subset_left hsub h.inFlight_missing
      inFlight_pending := hsub.trans h.inFlight_pending
      pending_requested := h.pending_requested
      deps_satisfied := fun f hf => h.deps_satisfied f
        (Finset.union_subset_union hsub (Finset.Subset.refl _) hf)
      pending_inFlight := hpend }
  cases hp : s.pendingStatusChange with
  | true =>
    rw [setIntrospectCompleted_pending s feature success hp] at hs
    split_ifs at hs with h1
    · cases hs
      exact inv_congr _ _ (hdrained true (fun _ => h1)) rfl rfl rfl rfl rfl rfl hp
    · cases hs
      apply inv_setCurrentStatus
      exact hdrained false (fun hc => by cases hc)
  | false =>
    have hd := hdrained false (fun hc => by cases hc)
    by_cases h2 : feature ∈ s.pendingFeatures ∧ feature ∈ s.inFlightFeatures
    · have hin := h2.2
      have hns : feature ∉ s.satisfiedFeatures := Finset.disjoint_left.1 h.inFlight_satisfied hin
      have hnm : feature ∉ s.missingFeatures := Finset.disjoint_left.1 h.inFlight_missing hin
      rw [setIntrospectCompleted_normal s feature success hp h2.1 h2.2] at hs
      cases hs
      cases success
      · exact
          { wf := h.wf
            satisfied_missing := by
              simpa [Finset.disjoint_insert_right, hns] using h.satisfied_missing
            inFlight_satisfied := hd.inFlight_satisfied
            inFlight_missing := by
              simpa [Finset.disjoint_insert_right] using hd.inFlight_missing
            inFlight_pending := Finset.erase_subset_erase _ h.inFlight_pending
            pending_requested := (Finset.erase_subset _ _).trans h.pending_requested
            deps_satisfied := hd.deps_satisfied
            pending_inFlight := by simp [hp] }
      · exact
          { wf := h.wf
            satisfied_missing := by
              simpa [Finset.disjoint_insert_left, hnm] using h.satisfied_missing
            inFlight_satisfied := by
              simpa [Finset.disjoint_insert_right] using hd.inFlight_satisfied
            inFlight_missing := hd.inFlight_missing
            inFlight_pending := Finset.erase_subset_erase _ h.inFlight_pending
            pending_requested := (Finset.erase_subset _ _).trans h.pending_requested
            deps_satisfied := by
              intro f hf
              have hf2 : f ∈ s.inFlightFeatures ∪ s.satisfiedFeatures := by
                simp only [Finset.mem_union, Finset.mem_erase, Finset.mem_insert, if_true] at hf ⊢
                rcases hf with hf | hf | hf
                · exact Or.inl hf.2
                · exact Or.inl (hf ▸ hin)
                · exact Or.inr hf
              exact (h.deps_satisfied f hf2).trans (Finset.subset_insert _ _)
            pending_inFlight := by simp [hp] }
    · rw [setIntrospectCompleted_none s feature success hp (not_and_or.1 h2)] at hs
      cases hs

theorem propagateMissing_superset (m : QMap) (missing : Finset Nat) :
    missing ⊆ propagateMissing m missing := by
  unfold propagateMissing
  induction m generalizing missing with
  | nil => exact Finset.Subset.refl _
  | cons e m ih =>
    rw [List.foldl_cons]
    split_ifs with h
    · exact (Finset.subset_insert _ _).trans (ih _)
    · exact ih _

/-- Propagation adds only features that have an entry with a dependency in
the grown set: a set closed under dependencies and disjoint from the missing
features stays disjoint. -/
theorem propagateMissing_disjoint (m : QMap) (hm : QMap.WF m) (closed missing : Finset Nat)
    (hclosed : ∀ f ∈ closed, (QMap.value m f).dependsOnFeatures ⊆ closed)
    (hdisj : Disjoint closed missing) :
    Disjoint closed (propagateMissing m missing) := by
  unfold propagateMissing
  have key : ∀ (l : QMap), (∀ e ∈ l, e ∈ m) → ∀ acc : Finset Nat, Disjoint closed acc →
      Disjoint closed (l.foldl (fun missing e =>
        if e.2.dependsOnFeatures ∩ missing ≠ ∅ then insert e.1 missing else missing) acc) := by
    intro l
    induction l with
    | nil => intro _ acc hacc; exact hacc
    | cons e l ih =>
      intro hl acc hacc
      rw [List.foldl_cons]
      apply ih (fun x hx => hl x (List.mem_cons_of_mem _ hx))
      split_ifs with h
      · rw [Finset.disjoint_insert_right]
        refine ⟨?_, hacc⟩
        intro he
        apply h
        have hv := QMap.value_of_mem m hm e (hl e (List.mem_cons_self _ _))
        have hsub := hclosed e.1 he
        rw [hv] at hsub
        rw [← Finset.disjoint_iff_inter_eq_empty]
        exact Finset.disjoint_of_subset_left hsub hacc
      · exact hacc
  exact key m (fun _ h => h) missing hdisj

theorem finishOperations_frame (s : Private) :
    ∃ operations finished, finishOperations s =
      { s with pendingOperations := operations, finishedOperations := finished } := by
  unfold finishOperations
  have key : ∀ (l : List PendingReady) (st : Private), ∃ operations finished,
      l.foldl (fun st operation =>
        if operation.requestedFeatures \ (st.satisfiedFeatures ∪ st.missingFeatures) = ∅ then
          { st with
            finishedOperations := st.finishedOperations ++ [operation.ptr]
            pendingOperations := removeOne st.pendingOperations operation }
        else st) st =
      { st with pendingOperations := operations, finishedOperations := finished } := by
    intro l
    induction l with
    | nil => intro st; exact ⟨st.pendingOperations, st.finishedOperations, rfl⟩
    | cons op l ih =>
      intro st
      rw [List.foldl_cons]
      split_ifs with h
      · obtain ⟨o, f, hof⟩ := ih { st with
            finishedOperations := st.finishedOperations ++ [op.ptr]
            pendingOperations := removeOne st.pendingOperations op }
        exact ⟨o, f, hof⟩
      · exact ih st
  exact key s.pendingOperations s

theorem findReady_spec (m : QMap) (hm : QMap.WF m) (satisfied : Finset Nat) (l : List Nat) :
    QMap.WF (findReady m satisfied l).1 ∧
    (∀ f, QMap.value (findReady m satisfied l).1 f = QMap.value m f) ∧
    (∀ f, f ∈ (findReady m satisfied l).2 ↔
      f ∈ l ∧ (QMap.value m f).dependsOnFeatures ⊆ satisfied) := by
  unfold findReady
  have key : ∀ (l : List Nat) (acc : QMap × Finset Nat), QMap.WF acc.1 →
      (∀ f, QMap.value acc.1 f = QMap.value m f) →
      QMap.WF (l.foldl (fun acc feature =>
        (acc.1.touch feature,
          if (acc.1.value feature).dependsOnFeatures \ satisfied = ∅ then
            insert feature acc.2
          else acc.2)) acc).1 ∧
      (∀ f, QMap.value (l.foldl (fun acc feature =>
        (acc.1.touch feature,
          if (acc.1.value feature).dependsOnFeatures \ satisfied = ∅ then
            insert feature acc.2
          else acc.2)) acc).1 f = QMap.value m f) ∧
      (∀ f, f ∈ (l.foldl (fun acc feature =>
        (acc.1.touch feature,
          if (acc.1.value feature).dependsOnFeatures \ satisfied = ∅ then
            insert feature acc.2
          else acc.2)) acc).2 ↔
        f ∈ acc.2 ∨ (f ∈ l ∧ (QMap.value m f).dependsOnFeatures ⊆ satisfied)) := by
    intro l
    induction l with
    | nil => intro acc h1 h2; simpa using ⟨h1, h2⟩
    | cons a l ih =>
      intro acc h1 h2
      rw [List.foldl_cons]
      have h1' := QMap.touch_wf acc.1 a h1
      have h2' : ∀ f, QMap.value (QMap.touch acc.1 a) f = QMap.value m f := by
        intro f; rw [QMap.touch_value acc.1 a f h1, h2]
      obtain ⟨i1, i2, i3⟩ := ih (acc.1.touch a,
          if (acc.1.value a).dependsOnFeatures \ satisfied = ∅ then insert a acc.2 else acc.2)
          h1' h2'
      refine ⟨i1, i2, ?_⟩
      intro f
      rw [i3 f]
      simp only [h2 a, Finset.sdiff_eq_empty_iff_subset, List.mem_cons]
      split_ifs with h
      · rw [Finset.mem_insert]
        constructor
        · rintro ((rfl | h3) | h3)
          · exact Or.inr ⟨Or.inl rfl, h⟩
          · exact Or.inl h3
          · exact Or.inr ⟨Or.inr h3.1, h3.2⟩
        · rintro (h3 | ⟨rfl | h3, h4⟩)
          · exact Or.inl (Or.inr h3)
          · exact Or.inl (Or.inl rfl)
          · exact Or.inr ⟨h3, h4⟩
      · constructor
        · rintro (h3 | h3)
          · exact Or.inl h3
          · exact Or.inr ⟨Or.inr h3.1, h3.2⟩
        · rintro (h3 | ⟨rfl | h3, h4⟩)
          · exact Or.inl h3
          · exact absurd h4 h
          · exact Or.inr ⟨h3, h4⟩
  obtain ⟨k1, k2, k3⟩ := key l (m, ∅) hm (fun _ => rfl)
  refine ⟨k1, k2, ?_⟩
  intro f
  rw [k3 f]
  simp

theorem setIntrospectCompleted_isSome (s : Private) (feature : Nat) (success : Bool)
    (h : s.pendingStatusChange = true ∨
      (feature ∈ s.pendingFeatures ∧ feature ∈ s.inFlightFeatures)) :
    ∃ s1, setIntrospectCompleted s feature success = some s1 := by
  cases hp : s.pendingStatusChange with
  | true =>
    rw [setIntrospectCompleted_pending s feature success hp]
    split_ifs
    · exact ⟨_, rfl⟩
    · exact ⟨_, rfl⟩
  | false =>
    rcases h with h | h
    · rw [hp] at h; cases h
    · exact ⟨_, setIntrospectCompleted_normal s feature success hp h.1 h.2⟩

theorem dependencies_markInFlight (s : Private) (h : Inv s) (feature f : Nat) :
    dependencies (markInFlight s feature) f = dependencies s f := by
  simp only [dependencies, markInFlight]
  rw [QMap.touch_value _ _ _ h.wf]

theorem inv_markInFlight (s : Private) (h : Inv s) (feature : Nat) (he : Eligible s feature) :
    Inv (markInFlight s feature) where
  wf := QMap.touch_wf _ _ h.wf
  satisfied_missing := h.satisfied_missing
  inFlight_satisfied := by
    simpa [markInFlight, Finset.disjoint_insert_left, he.2.1] using h.inFlight_satisfied
  inFlight_missing := by
    simpa [markInFlight, Finset.disjoint_insert_left, he.2.2.1] using h.inFlight_missing
  inFlight_pending := Finset.insert_subset he.1 h.inFlight_pending
  pending_requested := h.pending_requested
  deps_satisfied := by
    intro f hf
    rw [dependencies_markInFlight s h]
    simp only [markInFlight, Finset.mem_union, Finset.mem_insert] at hf
    rcases hf with (rfl | hf) | hf
    · exact he.2.2.2
    · exact h.deps_satisfied f (Finset.mem_union_left _ hf)
    · exact h.deps_satisfied f (Finset.mem_union_right _ hf)
  pending_inFlight := fun _ => Finset.insert_ne_empty _ _

theorem inv_invokeProbe (s : Private) (h : Inv s) (feature : Nat) :
    Inv (invokeProbe s feature) :=
  inv_congr _ _ h rfl rfl rfl rfl rfl rfl rfl

theorem eligible_invokeProbe_markInFlight (s : Private) (h : Inv s) (feature f : Nat)
    (hf : Eligible s f) : Eligible (invokeProbe (markInFlight s feature) feature) f := by
  obtain ⟨e1, e2, e3, e4⟩ := hf
  refine ⟨e1, e2, e3, ?_⟩
  have hd : dependencies (invokeProbe (markInFlight s feature) feature) f =
      dependencies (markInFlight s feature) f := rfl
  rw [hd, dependencies_markInFlight s h]
  exact e4

theorem introspectLoop_cons (s : Private) (feature : Nat) (rest : List Nat) :
    introspectLoop s (feature :: rest) =
      if feature ∈ s.inFlightFeatures then introspectLoop s rest
      else if s.currentStatus ∉ (s.introspectables.value feature).makesSenseForStatuses then
        setIntrospectCompleted (markInFlight s feature) feature true
      else if feature ≠ 0 ∧ ∃ interface ∈ (s.introspectables.value feature).dependsOnInterfaces,
          interface ∉ s.interfaces then
        setIntrospectCompleted (markInFlight s feature) feature false
      else introspectLoop (invokeProbe (markInFlight s feature) feature) rest := by
  rw [introspectLoop]

/-- Induction over the loop of lines 210-245, started in a state that
satisfies `Inv` on a list of eligible features: the loop returns, keeps `Inv`,
and keeps every `C` that a synthetic completion and a probe call keep. -/
theorem introspectLoop_induction (C : Private → Prop)
    (hcomplete : ∀ (s : Private) (feature : Nat) (success : Bool) (s1 : Private),
      Inv s → Eligible s feature → feature ∉ s.inFlightFeatures → C s →
      (success = true →
        s.currentStatus ∉ (s.introspectables.value feature).makesSenseForStatuses) →
      (success = false →
        s.currentStatus ∈ (s.introspectables.value feature).makesSenseForStatuses ∧
        feature ≠ 0 ∧ ∃ interface ∈ (s.introspectables.value feature).dependsOnInterfaces,
          interface ∉ s.interfaces) →
      setIntrospectCompleted (markInFlight s feature) feature success = some s1 → C s1)
    (hprobe : ∀ (s : Private) (feature : Nat),
      Inv s → Eligible s feature → feature ∉ s.inFlightFeatures → C s →
      s.currentStatus ∈ (s.introspectables.value feature).makesSenseForStatuses →
      (feature = 0 ∨ ∀ interface ∈ (s.introspectables.value feature).dependsOnInterfaces,
        interface ∈ s.interfaces) →
      C (invokeProbe (markInFlight s feature) feature))
    (l : List Nat) (s : Private) (hinv : Inv s) (hl : ∀ f ∈ l, Eligible s f) (hC : C s) :
    ∃ s1, introspectLoop s l = some s1 ∧ Inv s1 ∧ C s1 := by
  induction l generalizing s with
  | nil => exact ⟨s, rfl, hinv, hC⟩
  | cons feature rest ih =>
    have he := hl feature (List.mem_cons_self _ _)
    have hrest : ∀ f ∈ rest, Eligible s f := fun f hf => hl f (List.mem_cons_of_mem _ hf)
    have hmark := inv_markInFlight s hinv feature he
    rw [introspectLoop_cons]
    by_cases h1 : feature ∈ s.inFlightFeatures
    · rw [if_pos h1]
      exact ih s hinv hrest hC
    rw [if_neg h1]
    by_cases h2 : s.currentStatus ∉ (s.introspectables.value feature).makesSenseForStatuses
    · rw [if_pos h2]
      obtain ⟨s1, hs1⟩ := setIntrospectCompleted_isSome (markInFlight s feature) feature true
        (Or.inr ⟨he.1, Finset.mem_insert_self _ _⟩)
      exact ⟨s1, hs1, inv_setIntrospectCompleted _ _ _ _ hmark hs1,
        hcomplete s feature true s1 hinv he h1 hC (fun _ => h2) (fun hc => by cases hc) hs1⟩
    rw [if_neg h2]
    by_cases h3 : feature ≠ 0 ∧
        ∃ interface ∈ (s.introspectables.value feature).dependsOnInterfaces,
          interface ∉ s.interfaces
    · rw [if_pos h3]
      obtain ⟨s1, hs1⟩ := setIntrospectCompleted_isSome (markInFlight s feature) feature false
        (Or.inr ⟨he.1, Finset.mem_insert_self _ _⟩)
      exact ⟨s1, hs1, inv_setIntrospectCompleted _ _ _ _ hmark hs1,
        hcomplete s feature false s1 hinv he h1 hC (fun hc => by cases hc)
          (fun _ => ⟨not_not.1 h2, h3⟩) hs1⟩
    rw [if_neg h3]
    apply ih
    · exact inv_invokeProbe _ hmark feature
    · exact fun f hf => eligible_invokeProbe_markInFlight s hinv feature f (hrest f hf)
    · apply hprobe s feature hinv he h1 hC (not_not.1 h2)
      by_cases h0 : feature = 0
      · exact Or.inl h0
      · right
        intro interface hi
        by_contra hc
        exact h3 ⟨h0, interface, hi, hc⟩

theorem inv_afterPropagation (s : Private) (h : Inv s) : Inv (afterPropagation s) := by
  have hd : Disjoint (s.inFlightFeatures ∪ s.satisfiedFeatures)
      (propagateMissing s.introspectables s.missingFeatures) := by
    apply propagateMissing_disjoint _ h.wf
    · intro f hf
      exact (h.deps_satisfied f hf).trans Finset.subset_union_right
    · rw [Finset.disjoint_union_left]
      exact ⟨h.inFlight_missing, h.satisfied_missing⟩
  rw [Finset.disjoint_union_left] at hd
  exact
    { wf := h.wf
      satisfied_missing := hd.2
      inFlight_satisfied := h.inFlight_satisfied
      inFlight_missing := hd.1
      inFlight_pending := h.inFlight_pending
      pending_requested := h.pending_requested
      deps_satisfied := h.deps_satisfied
      pending_inFlight := h.pending_inFlight }

/-- The handle loop changes the handle list and the `setFinished()` record
only. -/
theorem afterFinish_frame (s : Private) :
    ∃ operations finished, afterFinish s =
      { afterPropagation s with pendingOperations := operations, finishedOperations := finished } :=
  finishOperations_frame (afterPropagation s)

theorem inv_afterFinish (s : Private) (h : Inv s) : Inv (afterFinish s) := by
  obtain ⟨operations, finished, hfo⟩ := afterFinish_frame s
  rw [hfo]
  exact inv_congr _ _ (inv_afterPropagation s h) rfl rfl rfl rfl rfl rfl rfl

theorem inv_emitStatusReady (s : Private) (h : Inv s) : Inv (emitStatusReady s) :=
  inv_congr _ _ h rfl rfl rfl rfl rfl rfl rfl

theorem inv_afterPending (s : Private) (h : Inv s) : Inv (afterPending s) := by
  have h2 := inv_afterFinish s h
  exact
    { wf := h2.wf
      satisfied_missing := h2.satisfied_missing
      inFlight_satisfied := h2.inFlight_satisfied
      inFlight_missing := h2.inFlight_missing
      inFlight_pending := by
        intro x hx
        simp only [afterPending, Finset.mem_sdiff, Finset.mem_union, not_or]
        exact ⟨h2.inFlight_pending hx, Finset.disjoint_left.1 h2.inFlight_satisfied hx,
          Finset.disjoint_left.1 h2.inFlight_missing hx⟩
      pending_requested := Finset.sdiff_subset.trans h2.pending_requested
      deps_satisfied := h2.deps_satisfied
      pending_inFlight := h2.pending_inFlight }

theorem dependencies_beforeLoop (enum : Finset Nat → List Nat) (s : Private) (h : Inv s)
    (f : Nat) : dependencies (beforeLoop enum s) f = dependencies (afterPending s) f := by
  simp only [dependencies, beforeLoop]
  rw [(findReady_spec _ (inv_afterPending s h).wf _ _).2.1 f]

theorem inv_beforeLoop (enum : Finset Nat → List Nat) (s : Private) (h : Inv s) :
    Inv (beforeLoop enum s) := by
  have h3 := inv_afterPending s h
  exact
    { wf := (findReady_spec _ h3.wf _ _).1
      satisfied_missing := h3.satisfied_missing
      inFlight_satisfied := h3.inFlight_satisfied
      inFlight_missing := h3.inFlight_missing
      inFlight_pending := h3.inFlight_pending
      pending_requested := h3.pending_requested
      deps_satisfied := by
        intro f hf
        rw [dependencies_beforeLoop enum s h]
        exact h3.deps_satisfied f hf
      pending_inFlight := h3.pending_inFlight }

/-- The features of `readyToIntrospect`: the pending, undecided features all
of whose feature dependencies are satisfied. -/
theorem mem_readyToIntrospect (enum : Finset Nat → List Nat) (s : Private) (h : Inv s)
    (f : Nat) :
    f ∈ readyToIntrospect enum s ↔
      f ∈ enum (afterPending s).pendingFeatures ∧
        dependencies (afterPending s) f ⊆ (afterPending s).satisfiedFeatures :=
  (findReady_spec _ (inv_afterPending s h).wf _ _).2.2 f

theorem eligible_readyToIntrospect (enum : Finset Nat → List Nat)
    (henum : ∀ features x, x ∈ enum features → x ∈ features) (s : Private) (h : Inv s)
    (f : Nat) (hf : f ∈ readyToIntrospect enum s) : Eligible (beforeLoop enum s) f := by
  have hf2 := (mem_readyToIntrospect enum s h f).1 hf
  have hf3 := henum _ _ hf2.1
  have hf4 := hf3
  simp only [afterPending, Finset.mem_sdiff, Finset.mem_union, not_or] at hf4
  refine ⟨hf3, hf4.2.1, hf4.2.2, ?_⟩
  rw [dependencies_beforeLoop enum s h]
  exact hf2.2

theorem iterateIntrospection_unsupported (enum : Finset Nat → List Nat) (s : Private)
    (h : s.currentStatus ∉ s.supportedStatuses) : iterateIntrospection enum s = some s := by
  rw [iterateIntrospection, if_pos h]

theorem iterateIntrospection_decided (enum : Finset Nat → List Nat) (s : Private)
    (h : s.currentStatus ∈ s.supportedStatuses)
    (hd : (afterFinish s).requestedFeatures ⊆
      (afterFinish s).satisfiedFeatures ∪ (afterFinish s).missingFeatures) :
    iterateIntrospection enum s = some (emitStatusReady (afterFinish s)) := by
  rw [iterateIntrospection, if_neg (not_not.2 h),
    if_pos (Finset.sdiff_eq_empty_iff_subset.2 hd)]

theorem iterateIntrospection_undecided (enum : Finset Nat → List Nat) (s : Private)
    (h : s.currentStatus ∈ s.supportedStatuses)
    (hd : ¬ (afterFinish s).requestedFeatures ⊆
      (afterFinish s).satisfiedFeatures ∪ (afterFinish s).missingFeatures) :
    iterateIntrospection enum s =
      introspectLoop (beforeLoop enum s) (enum (readyToIntrospect enum s)) := by
  rw [iterateIntrospection, if_neg (not_not.2 h),
    if_neg (fun hc => hd (Finset.sdiff_eq_empty_iff_subset.1 hc))]

/-- Induction over a pass started in a state that satisfies `Inv`: the pass
returns, keeps `Inv`, and keeps every `C` that each of its stages keeps. -/
theorem iterateIntrospection_induction (C : Private → Prop)
    (enum : Finset Nat → List Nat)
    (henum : ∀ features x, x ∈ enum features → x ∈ features) (s : Private) (hinv : Inv s)
    (hC : C s)
    (hfinish : s.currentStatus ∈ s.supportedStatuses → C (afterFinish s))
    (hemit : s.currentStatus ∈ s.supportedStatuses → C (afterFinish s) →
      (afterFinish s).requestedFeatures ⊆
        (afterFinish s).satisfiedFeatures ∪ (afterFinish s).missingFeatures →
      C (emitStatusReady (afterFinish s)))
    (hstart : s.currentStatus ∈ s.supportedStatuses → C (afterFinish s) →
      C (beforeLoop enum s))
    (hcomplete : ∀ (s : Private) (feature : Nat) (success : Bool) (s1 : Private),
      Inv s → Eligible s feature → feature ∉ s.inFlightFeatures → C s →
      (success = true →
        s.currentStatus ∉ (s.introspectables.value feature).makesSenseForStatuses) →
      (success = false →
        s.currentStatus ∈ (s.introspectables.value feature).makesSenseForStatuses ∧
        feature ≠ 0 ∧ ∃ interface ∈ (s.introspectables.value feature).dependsOnInterfaces,
          interface ∉ s.interfaces) →
      setIntrospectCompleted (markInFlight s feature) feature success = some s1 → C s1)
    (hprobe : ∀ (s : Private) (feature : Nat),
      Inv s → Eligible s feature → feature ∉ s.inFlightFeatures → C s →
      s.currentStatus ∈ (s.introspectables.value feature).makesSenseForStatuses →
      (feature = 0 ∨ ∀ interface ∈ (s.introspectables.value feature).dependsOnInterfaces,
        interface ∈ s.interfaces) →
      C (invokeProbe (markInFlight s feature) feature)) :
    ∃ s1, iterateIntrospection enum s = some s1 ∧ Inv s1 ∧ C s1 := by
  by_cases c1 : s.currentStatus ∈ s.supportedStatuses
  · by_cases c2 : (afterFinish s).requestedFeatures ⊆
        (afterFinish s).satisfiedFeatures ∪ (afterFinish s).missingFeatures
    · rw [iterateIntrospection_decided enum s c1 c2]
      exact ⟨_, rfl, inv_emitStatusReady _ (inv_afterFinish s hinv), hemit c1 (hfinish c1) c2⟩
    · rw [iterateIntrospection_undecided enum s c1 c2]
      exact introspectLoop_induction C hcomplete hprobe _ _ (inv_beforeLoop enum s hinv)
        (fun f hf => eligible_readyToIntrospect enum henum s hinv f (henum _ _ hf))
        (hstart c1 (hfinish c1))
  · rw [iterateIntrospection_unsupported enum s c1]
    exact ⟨s, rfl, hinv, hC⟩

theorem iterateIntrospection_inv (enum : Finset Nat → List Nat)
    (henum : ∀ features x, x ∈ enum features → x ∈ features) (s : Private) (h : Inv s) :
    ∃ s1, iterateIntrospection enum s = some s1 ∧ Inv s1 := by
  obtain ⟨s1, h1, h2, _⟩ := iterateIntrospection_induction (fun _ => True) enum henum s h
    trivial (fun _ => trivial) (fun _ _ _ => trivial) (fun _ _ => trivial)
    (fun _ _ _ _ _ _ _ _ _ _ _ => trivial) (fun _ _ _ _ _ _ _ _ => trivial)
  exact ⟨s1, h1, h2⟩

theorem isEnum_ascending : IsEnum ascending := by
  intro features
  unfold ascending
  refine ⟨List.Nodup.filter _ (List.nodup_range _), ?_⟩
  intro x
  simp only [List.mem_filter, List.mem_range, decide_eq_true_eq]
  constructor
  · exact fun h => h.2
  · intro h
    refine ⟨?_, h⟩
    have : id x ≤ features.sup id := Finset.le_sup h
    exact Nat.lt_succ_of_le this

theorem inv_construct (status : Nat) (registry : QMap) (hwf : QMap.WF registry)
    (s : Private) (h : construct status registry = some s) : Inv s := by
  dsimp only [construct] at h
  split_ifs at h with h1 h2 h3
  · cases h
    apply inv_introspectCore
    exact
      { wf := hwf
        satisfied_missing := by simp
        inFlight_satisfied := by simp
        inFlight_missing := by simp
        inFlight_pending := by simp
        pending_requested := by simp
        deps_satisfied := by simp
        pending_inFlight := by simp }
  · cases h
    exact
      { wf := hwf
        satisfied_missing := by simp
        inFlight_satisfied := by simp
        inFlight_missing := by simp
        inFlight_pending := by simp
        pending_requested := by simp
        deps_satisfied := by simp
        pending_inFlight := by simp }

theorem inv_step (s s1 : Private) (h : Inv s) (hs : Step s s1) : Inv s1 := by
  cases hs with
  | status newStatus => exact inv_setCurrentStatus s newStatus h
  | interfaces names => exact inv_setInterfaces s names h
  | request features => exact inv_becomeReady s features h
  | report _ feature success hr => exact inv_setIntrospectCompleted s s1 feature success h hr
  | timer ht => exact inv_congr _ _ h rfl rfl rfl rfl rfl rfl rfl
  | pass _ enum henum hp =>
    obtain ⟨s2, h2, hinv⟩ := iterateIntrospection_inv enum (fun f x hx => ((henum f).2 x).1 hx) s h
    rw [hp] at h2
    cases h2
    exact hinv

theorem inv_steps (s s1 : Private) (h : Inv s) (hs : Steps s s1) : Inv s1 := by
  induction hs with
  | refl => exact h
  | tail s1 s2 _ hstep ih => exact inv_step s1 s2 ih hstep

theorem inv_reachable (registry : QMap) (status : Nat) (s : Private)
    (h : Reachable registry status s) : Inv s := by
  obtain ⟨hwf, s0, h0, hs⟩ := h
  exact inv_steps s0 s (inv_construct status registry hwf s0 h0) hs

theorem steps_trans (s s1 s2 : Private) (h1 : Steps s s1) (h2 : Steps s1 s2) : Steps s s2 := by
  induction h2 with
  | refl => exact h1
  | tail s2 s3 _ hstep ih => exact Steps.tail s s2 s3 ih hstep

theorem steps_of_call (call : Call) (s s1 : Private) (h : call.run s = some s1) :
    Steps s s1 := by
  cases call with
  | status newStatus =>
    cases h; exact Steps.tail _ _ _ (Steps.refl s) (Step.status s newStatus)
  | interfaces names =>
    cases h; exact Steps.tail _ _ _ (Steps.refl s) (Step.interfaces s names)
  | request features =>
    cases h; exact Steps.tail _ _ _ (Steps.refl s) (Step.request s features)
  | report feature success =>
    simp only [Call.run] at h
    exact Steps.tail _ _ _ (Steps.refl s) (Step.report s s1 feature success h)
  | timer =>
    simp only [Call.run, runScheduledPass] at h
    split_ifs at h with h0
    exact Steps.tail _ _ _
      (Steps.tail _ _ _ (Steps.refl s) (Step.timer s (Nat.pos_of_ne_zero h0)))
      (Step.pass _ s1 ascending isEnum_ascending h)

theorem steps_of_runCalls (calls : List Call) (s s1 : Private)
    (h : runCalls calls s = some s1) : Steps s s1 := by
  induction calls generalizing s with
  | nil => cases h; exact Steps.refl _
  | cons call calls ih =>
    simp only [runCalls] at h
    cases hc : call.run s with
    | none => rw [hc] at h; cases h
    | some s2 =>
      rw [hc] at h
      exact steps_trans s s2 s1 (steps_of_call call s s2 hc) (ih s2 h)

theorem reachable_of_runCalls (registry : QMap) (status : Nat) (calls : List Call)
    (s : Private) (hwf : QMap.WF registry)
    (h : (construct status registry).bind (runCalls calls) = some s) :
    Reachable registry status s := by
  refine ⟨hwf, ?_⟩
  cases hc : construct status registry with
  | none => rw [hc] at h; cases h
  | some s0 =>
    rw [hc] at h
    exact ⟨s0, rfl, steps_of_runCalls calls s0 s h⟩

theorem scenarioEnd_run :
    (construct 10 scenarioRegistry).bind
      (runCalls [.request {1, 2}, .timer, .timer, .report 0 true, .timer, .timer]) =
      some scenarioEnd := by
  have h : ∃ s, (construct 10 scenarioRegistry).bind
      (runCalls [.request {1, 2}, .timer, .timer, .report 0 true, .timer, .timer]) = some s ∧
      s = scenarioEnd := ⟨_, rfl, by ext1 <;> decide⟩
  obtain ⟨s, h1, h2⟩ := h
  rw [h1, h2]

theorem scenarioCoreInFlight_run :
    (construct 10 scenarioRegistry).bind (runCalls [.request {1, 2}, .timer]) =
      some scenarioCoreInFlight := by
  have h : ∃ s, (construct 10 scenarioRegistry).bind
      (runCalls [.request {1, 2}, .timer]) = some s ∧
      s = scenarioCoreInFlight := ⟨_, rfl, by ext1 <;> decide⟩
  obtain ⟨s, h1, h2⟩ := h
  rw [h1, h2]

/-- C1: in every state reachable from construction by calls of
`setCurrentStatus`, `setInterfaces`, `becomeReady`, accepted
`setIntrospectCompleted` reports and passes, for every registry,
`satisfiedFeatures` and `missingFeatures` have no feature in common. -/
theorem satisfied_missing_disjoint (registry : QMap) (status : Nat) (s : Private)
    (h : Reachable registry status s) :
    s.satisfiedFeatures ∩ s.missingFeatures = ∅ :=
  Finset.disjoint_iff_inter_eq_empty.1 (inv_reachable registry status s h).satisfied_missing

theorem satisfied_missing_disjoint_witness :
    Reachable scenarioRegistry 10 scenarioEnd ∧
      scenarioEnd.satisfiedFeatures ∩ scenarioEnd.missingFeatures = ∅ :=
  ⟨reachable_of_runCalls _ _ _ _ (by decide) scenarioEnd_run,
    satisfied_missing_disjoint scenarioRegistry 10 scenarioEnd
      (reachable_of_runCalls _ _ _ _ (by decide) scenarioEnd_run)⟩

/-- C2: in every reachable state `inFlightFeatures ⊆ pendingFeatures` and
`pendingFeatures ⊆ requestedFeatures`. -/
theorem inFlight_pending_requested (registry : QMap) (status : Nat) (s : Private)
    (h : Reachable registry status s) :
    s.inFlightFeatures ⊆ s.pendingFeatures ∧ s.pendingFeatures ⊆ s.requestedFeatures :=
  ⟨(inv_reachable registry status s h).inFlight_pending,
    (inv_reachable registry status s h).pending_requested⟩

theorem inFlight_pending_requested_witness :
    Reachable scenarioRegistry 10 scenarioCoreInFlight ∧
      scenarioCoreInFlight.inFlightFeatures ⊆ scenarioCoreInFlight.pendingFeatures ∧
      scenarioCoreInFlight.pendingFeatures ⊆ scenarioCoreInFlight.requestedFeatures :=
  ⟨reachable_of_runCalls _ _ _ _ (by decide) scenarioCoreInFlight_run,
    inFlight_pending_requested scenarioRegistry 10 scenarioCoreInFlight
      (reachable_of_runCalls _ _ _ _ (by decide) scenarioCoreInFlight_run)⟩

theorem scenarioCoreMissing_run :
    (construct 10 scenarioRegistry).bind
      (runCalls [.request {1, 2}, .timer, .timer, .report 0 false]) =
      some scenarioCoreMissing := by
  have h : ∃ s, (construct 10 scenarioRegistry).bind
      (runCalls [.request {1, 2}, .timer, .timer, .report 0 false]) = some s ∧
      s = scenarioCoreMissing := ⟨_, rfl, by ext1 <;> decide⟩
  obtain ⟨s, h1, h2⟩ := h
  rw [h1, h2]

theorem isReady_eq (s : Private) (features : Finset Nat) :
    isReady s features = true ↔
      (features = ∅ ∧ 0 ∈ s.satisfiedFeatures) ∨
      (0 ∈ features ∧ features ⊆ s.satisfiedFeatures) ∨
      (features ≠ ∅ ∧ 0 ∉ features ∧
        features ⊆ s.satisfiedFeatures ∪ s.missingFeatures) := by
  unfold isReady
  by_cases h0 : features = ∅
  · subst h0
    simp
  · by_cases h1 : 0 ∈ features
    · simp [h0, h1, Finset.sdiff_eq_empty_iff_subset]
    · simp [h0, h1, Finset.sdiff_eq_empty_iff_subset]

/-- C6 as stated fails: in the reachable state `scenarioEnd` (satisfied `{0}`,
missing `{1,2}`) the set `{0,1}` is neither empty nor `{0}` and lies within
`satisfiedFeatures ∪ missingFeatures`, yet `isReady({0,1})` is false: the set
contains core and feature 1 is not satisfied. -/
theorem isReady_subset_decided_counterexample :
    Reachable scenarioRegistry 10 scenarioEnd ∧
    ({0, 1} : Finset Nat) ≠ ∅ ∧ ({0, 1} : Finset Nat) ≠ {0} ∧
    {0, 1} ⊆ scenarioEnd.satisfiedFeatures ∪ scenarioEnd.missingFeatures ∧
    isReady scenarioEnd {0, 1} = false :=
  ⟨reachable_of_runCalls _ _ _ _ (by decide) scenarioEnd_run, by decide, by decide,
    by decide, by decide⟩

/-- C6, amended: for every non-empty feature set (so for every set other than
the empty set and `{0}`), `isReady` returns true exactly when the set does not contain feature 0 and is a
subset of `satisfiedFeatures ∪ missingFeatures`, or contains feature 0 and is a
subset of `satisfiedFeatures`.  (`isReady` is a function of the state: it
returns no new state.) -/
theorem isReady_other_sets (s : Private) (features : Finset Nat) (h0 : features ≠ ∅) :
    isReady s features = true ↔
      (0 ∉ features ∧ features ⊆ s.satisfiedFeatures ∪ s.missingFeatures) ∨
      (0 ∈ features ∧ features ⊆ s.satisfiedFeatures) := by
  rw [isReady_eq]
  constructor
  · rintro (h | h | h)
    · exact absurd h.1 h0
    · exact Or.inr h
    · exact Or.inl h.2
  · rintro (h | h)
    · exact Or.inr (Or.inr ⟨h0, h⟩)
    · exact Or.inr (Or.inl h)

theorem isReady_other_sets_witness :
    ({1, 2} : Finset Nat) ≠ ∅ ∧
    (isReady scenarioEnd {1, 2} = true ↔
      (0 ∉ ({1, 2} : Finset Nat) ∧
        {1, 2} ⊆ scenarioEnd.satisfiedFeatures ∪ scenarioEnd.missingFeatures) ∨
      (0 ∈ ({1, 2} : Finset Nat) ∧ {1, 2} ⊆ scenarioEnd.satisfiedFeatures)) :=
  ⟨by decide, isReady_other_sets scenarioEnd {1, 2} (by decide)⟩

/-- C7: `isReady({})` and `isReady({0})` return the same value, true exactly
when feature 0 is in `satisfiedFeatures`; in a reachable state it is false
while core is in `missingFeatures`; on a freshly constructed helper `isReady`
is false for every feature set. -/
theorem isReady_core (registry : QMap) (status : Nat) (s : Private)
    (h : Reachable registry status s) :
    isReady s ∅ = isReady s {0} ∧
    (isReady s {0} = true ↔ 0 ∈ s.satisfiedFeatures) ∧
    (0 ∈ s.missingFeatures → isReady s {0} = false) ∧
    ∀ s0 features, construct status registry = some s0 → isReady s0 features = false := by
  have hcore : isReady s {0} = true ↔ 0 ∈ s.satisfiedFeatures := by
    rw [isReady_eq]; simp
  refine ⟨by simp [isReady], hcore, ?_, ?_⟩
  · intro hm
    have hd := (inv_reachable registry status s h).satisfied_missing
    have hns : 0 ∉ s.satisfiedFeatures := fun hs => Finset.disjoint_left.1 hd hs hm
    cases hr : isReady s {0} with
    | false => rfl
    | true => exact absurd (hcore.1 hr) hns
  · intro s0 features hc
    have hempty : s0.satisfiedFeatures = ∅ ∧ s0.missingFeatures = ∅ := by
      dsimp only [construct] at hc
      split_ifs at hc <;> cases hc <;> exact ⟨rfl, rfl⟩
    cases hr : isReady s0 features with
    | false => rfl
    | true =>
      rw [isReady_eq, hempty.1, hempty.2] at hr
      simp only [Finset.not_mem_empty, and_false, Finset.empty_union, Finset.subset_empty,
        false_or] at hr
      rcases hr with ⟨h1, h2⟩ | ⟨h1, _, h2⟩
      · rw [h2] at h1; simp at h1
      · exact absurd h2 h1

theorem isReady_core_witness :
    Reachable scenarioRegistry 10 scenarioCoreMissing ∧
    isReady scenarioCoreMissing ∅ = isReady scenarioCoreMissing {0} ∧
    (isReady scenarioCoreMissing {0} = true ↔ 0 ∈ scenarioCoreMissing.satisfiedFeatures) ∧
    (0 ∈ scenarioCoreMissing.missingFeatures → isReady scenarioCoreMissing {0} = false) ∧
    ∀ s0 features, construct 10 scenarioRegistry = some s0 → isReady s0 features = false :=
  ⟨reachable_of_runCalls _ _ _ _ (by decide) scenarioCoreMissing_run,
    isReady_core scenarioRegistry 10 scenarioCoreMissing
      (reachable_of_runCalls _ _ _ _ (by decide) scenarioCoreMissing_run)⟩

theorem becomeReady_empty (s : Private) : becomeReady s ∅ = becomeReady s {0} := by
  simp [becomeReady]

theorem becomeReady_found (s : Private) (features : Finset Nat) (h0 : features ≠ ∅)
    (operation : PendingReady)
    (h : s.pendingOperations.find? (fun o => decide (o.requestedFeatures = features)) =
      some operation) :
    becomeReady s features = (operation, s) := by
  simp only [becomeReady, if_neg h0, h]

theorem becomeReady_new (s : Private) (features : Finset Nat) (h0 : features ≠ ∅)
    (h : ∀ o ∈ s.pendingOperations, o.requestedFeatures ≠ features) :
    becomeReady s features =
      ({ ptr := s.operationsCreated, requestedFeatures := features },
        { s with
          requestedFeatures := s.requestedFeatures ∪ features
          pendingFeatures := s.pendingFeatures ∪ features
          pendingOperations := s.pendingOperations ++
            [{ ptr := s.operationsCreated, requestedFeatures := features }]
          operationsCreated := s.operationsCreated + 1
          scheduledPasses := s.scheduledPasses + 1 }) := by
  have hn : s.pendingOperations.find? (fun o => decide (o.requestedFeatures = features)) =
      none := by
    rw [List.find?_eq_none]
    intro o ho
    simpa using h o ho
  simp only [becomeReady, if_neg h0, hn]

/-- A second `becomeReady` for the same set finds the handle the first one
returned, and changes nothing. -/
theorem becomeReady_twice (s : Private) (features : Finset Nat) (h0 : features ≠ ∅) :
    becomeReady (becomeReady s features).2 features =
      ((becomeReady s features).1, (becomeReady s features).2) := by
  cases hf : s.pendingOperations.find? (fun o => decide (o.requestedFeatures = features)) with
  | some operation =>
    rw [becomeReady_found s features h0 operation hf]
    exact becomeReady_found s features h0 operation hf
  | none =>
    have hall : ∀ o ∈ s.pendingOperations, o.requestedFeatures ≠ features := by
      intro o ho
      have := List.find?_eq_none.1 hf o ho
      simpa using this
    rw [becomeReady_new s features h0 hall]
    apply becomeReady_found _ features h0
    simp only [List.find?_append, hf, List.find?_cons, decide_True, Option.none_or]

theorem becomeReady_requested (s : Private) (features : Finset Nat) (h0 : features ≠ ∅) :
    (becomeReady s features).1.requestedFeatures = features := by
  cases hf : s.pendingOperations.find? (fun o => decide (o.requestedFeatures = features)) with
  | some operation =>
    rw [becomeReady_found s features h0 operation hf]
    have := List.find?_some hf
    simpa using this
  | none =>
    have hall : ∀ o ∈ s.pendingOperations, o.requestedFeatures ≠ features := by
      intro o ho
      have := List.find?_eq_none.1 hf o ho
      simpa using this
    rw [becomeReady_new s features h0 hall]

/-- C9: in every state `becomeReady({})` and `becomeReady({0})` return the same
handle and the same state; the handle carries the set `{0}`; and after either
call the other one returns that very handle and changes nothing. -/
theorem becomeReady_empty_is_core (s : Private) :
    becomeReady s ∅ = becomeReady s {0} ∧
    (becomeReady s ∅).1.requestedFeatures = {0} ∧
    becomeReady (becomeReady s ∅).2 {0} = ((becomeReady s ∅).1, (becomeReady s ∅).2) ∧
    becomeReady (becomeReady s {0}).2 ∅ = ((becomeReady s {0}).1, (becomeReady s {0}).2) := by
  have h0 : ({0} : Finset Nat) ≠ ∅ := by decide
  refine ⟨becomeReady_empty s, ?_, ?_, ?_⟩
  · rw [becomeReady_empty]; exact becomeReady_requested s {0} h0
  · rw [becomeReady_empty]; exact becomeReady_twice s {0} h0
  · rw [becomeReady_empty]; exact becomeReady_twice s {0} h0

theorem sameOperations_refl (s : Private) : SameOperations s s := ⟨rfl, rfl, rfl⟩

theorem sameOperations_trans (s s1 s2 : Private) (h1 : SameOperations s s1)
    (h2 : SameOperations s1 s2) : SameOperations s s2 :=
  ⟨h2.1.trans h1.1, h2.2.1.trans h1.2.1, h2.2.2.trans h1.2.2⟩

theorem sameOperations_setCurrentStatus (s : Private) (newStatus : Nat) :
    SameOperations s (setCurrentStatus s newStatus) := by
  dsimp only [setCurrentStatus]
  split_ifs <;> exact ⟨rfl, rfl, rfl⟩

theorem sameOperations_setIntrospectCompleted (s s1 : Private) (feature : Nat)
    (success : Bool) (h : setIntrospectCompleted s feature success = some s1) :
    SameOperations s s1 := by
  dsimp only [setIntrospectCompleted] at h
  split_ifs at h
  · cases h; exact ⟨rfl, rfl, rfl⟩
  · cases h
    exact sameOperations_trans _ _ _ ⟨rfl, rfl, rfl⟩ (sameOperations_setCurrentStatus _ _)
  · cases h; exact ⟨rfl, rfl, rfl⟩
  · cases h; exact ⟨rfl, rfl, rfl⟩

/-- A reflexive, transitive relation that marking, probe calls and
completions respect holds between the start and the end of the loop. -/
theorem introspectLoop_rel (R : Private → Private → Prop) (hrefl : ∀ s, R s s)
    (htrans : ∀ a b c, R a b → R b c → R a c)
    (hmark : ∀ s feature, R s (markInFlight s feature))
    (hprobe : ∀ s feature, R s (invokeProbe s feature))
    (hcomplete : ∀ s feature success s1,
      setIntrospectCompleted s feature success = some s1 → R s s1)
    (l : List Nat) (s s1 : Private) (h : introspectLoop s l = some s1) : R s s1 := by
  induction l generalizing s with
  | nil => cases h; exact hrefl _
  | cons feature rest ih =>
    rw [introspectLoop_cons] at h
    by_cases h1 : feature ∈ s.inFlightFeatures
    · rw [if_pos h1] at h
      exact ih s h
    rw [if_neg h1] at h
    by_cases h2 : s.currentStatus ∉ (s.introspectables.value feature).makesSenseForStatuses
    · rw [if_pos h2] at h
      exact htrans _ _ _ (hmark s feature) (hcomplete _ _ _ _ h)
    rw [if_neg h2] at h
    by_cases h3 : feature ≠ 0 ∧
        ∃ interface ∈ (s.introspectables.value feature).dependsOnInterfaces,
          interface ∉ s.interfaces
    · rw [if_pos h3] at h
      exact htrans _ _ _ (hmark s feature) (hcomplete _ _ _ _ h)
    rw [if_neg h3] at h
    exact htrans _ _ _ (hmark s feature) (htrans _ _ _ (hprobe _ feature) (ih _ h))

theorem sameOperations_introspectLoop (l : List Nat) (s s1 : Private)
    (h : introspectLoop s l = some s1) : SameOperations s s1 :=
  introspectLoop_rel SameOperations sameOperations_refl sameOperations_trans
    (fun _ _ => ⟨rfl, rfl, rfl⟩) (fun _ _ => ⟨rfl, rfl, rfl⟩)
    (fun s feature success s1 => sameOperations_setIntrospectCompleted s s1 feature success)
    l s s1 h

theorem eraseP_ptr_eq_filter (l : List PendingReady) (p : Nat)
    (h : (l.map PendingReady.ptr).Nodup) :
    l.eraseP (fun o => o.ptr == p) = l.filter (fun o => o.ptr != p) := by
  induction l with
  | nil => rfl
  | cons a l ih =>
    rw [List.map_cons, List.nodup_cons] at h
    by_cases ha : a.ptr = p
    · subst ha
      rw [List.eraseP_cons_of_pos (by simp), List.filter_cons_of_neg (by simp)]
      symm
      rw [List.filter_eq_self]
      intro o ho
      have : o.ptr ≠ a.ptr := fun hc => h.1 (hc ▸ List.mem_map_of_mem _ ho)
      simpa using this
    · rw [List.eraseP_cons_of_neg (by simpa using ha),
        List.filter_cons_of_pos (by simpa using ha), ih h.2]

/-- The handle loop of a pass, in closed form: the handles whose requested
features are all decided get `setFinished()` in list order and leave the
list; the others stay, in order. -/
theorem finishOperations_eq (s : Private)
    (hnodup : (s.pendingOperations.map PendingReady.ptr).Nodup) :
    finishOperations s =
      { s with
        finishedOperations := s.finishedOperations ++
          (s.pendingOperations.filter (finishable s)).map PendingReady.ptr
        pendingOperations := s.pendingOperations.filter (fun o => !finishable s o) } := by
  have key : ∀ (l : List PendingReady) (st : Private),
      (st.pendingOperations.map PendingReady.ptr).Nodup →
      l.foldl (fun st operation =>
        if operation.requestedFeatures \ (st.satisfiedFeatures ∪ st.missingFeatures) = ∅ then
          { st with
            finishedOperations := st.finishedOperations ++ [operation.ptr]
            pendingOperations := removeOne st.pendingOperations operation }
        else st) st =
      { st with
        finishedOperations := st.finishedOperations ++
          (l.filter (finishable st)).map PendingReady.ptr
        pendingOperations := st.pendingOperations.filter
          (fun o => !l.any (fun p => finishable st p && p.ptr == o.ptr)) } := by
    intro l
    induction l with
    | nil => intro st _; simp
    | cons op l ih =>
      intro st hst
      rw [List.foldl_cons]
      by_cases hfin : op.requestedFeatures \ (st.satisfiedFeatures ∪ st.missingFeatures) = ∅
      · rw [if_pos hfin]
        have hf : finishable st op = true := by simpa [finishable] using hfin
        have hnd : ((removeOne st.pendingOperations op).map PendingReady.ptr).Nodup :=
          List.Nodup.sublist ((List.eraseP_sublist _).map _) hst
        rw [ih _ hnd]
        have hfe : ∀ o, finishable { st with
            finishedOperations := st.finishedOperations ++ [op.ptr]
            pendingOperations := removeOne st.pendingOperations op } o = finishable st o :=
          fun _ => rfl
        simp only [removeOne, eraseP_ptr_eq_filter _ _ hst, List.filter_filter,
          List.filter_cons_of_pos hf, List.map_cons, List.append_assoc, List.singleton_append]
        congr 1
        apply List.filter_congr
        intro o _
        simp only [List.any_cons, hf, Bool.true_and, Bool.not_or]
        have hsym : (op.ptr == o.ptr) = (o.ptr == op.ptr) :=
          Bool.eq_iff_iff.2 (by simp only [beq_iff_eq]; exact eq_comm)
        rw [hsym, Bool.and_comm]
        rfl
      · rw [if_neg hfin]
        have hf : finishable st op = false := by simpa [finishable] using hfin
        rw [ih st hst]
        simp only [List.filter_cons_of_neg (by simp [hf] : ¬ (finishable st op = true)),
          List.any_cons, hf, Bool.false_and, Bool.false_or]
  unfold finishOperations
  rw [key s.pendingOperations s hnodup]
  congr 1
  apply List.filter_congr
  intro o ho
  congr 1
  rw [Bool.eq_iff_iff, List.any_eq_true]
  constructor
  · rintro ⟨p, hp, hpo⟩
    simp only [Bool.and_eq_true, beq_iff_eq] at hpo
    have : p = o := by
      have hinj := List.inj_on_of_nodup_map hnodup hp ho hpo.2
      exact hinj
    rw [← this]; exact hpo.1
  · intro hfo
    exact ⟨o, ho, by simp [hfo]⟩

theorem operationsInv_congr (s s1 : Private) (h : OperationsInv s) (hs : SameOperations s s1) :
    OperationsInv s1 := by
  obtain ⟨h1, h2, h3⟩ := hs
  refine ⟨?_, ?_, ?_, ?_, ?_, ?_, ?_⟩
  · rw [h1, h3]; exact h.ptr_lt
  · rw [h2, h3]; exact h.finished_lt
  · rw [h1]; exact h.ptr_nodup
  · rw [h1]; exact h.requested_nodup
  · rw [h1]; exact h.requested_nonempty
  · rw [h1, h2]; exact h.unfinished
  · rw [h2]; exact h.finished_nodup

theorem operationsInv_construct (status : Nat) (registry : QMap) (s : Private)
    (h : construct status registry = some s) : OperationsInv s := by
  dsimp only [construct] at h
  split_ifs at h <;> cases h <;>
    exact ⟨by simp [introspectCore], by simp [introspectCore], by simp [introspectCore],
      by simp [introspectCore], by simp [introspectCore], by simp [introspectCore],
      by simp [introspectCore]⟩

theorem operationsInv_becomeReady (s : Private) (features : Finset Nat)
    (h : OperationsInv s) : OperationsInv (becomeReady s features).2 := by
  have key : ∀ F : Finset Nat, F ≠ ∅ → OperationsInv (becomeReady s F).2 := by
    intro F h0
    cases hf : s.pendingOperations.find? (fun o => decide (o.requestedFeatures = F)) with
    | some operation =>
      rw [becomeReady_found s F h0 operation hf]; exact h
    | none =>
      have hall : ∀ o ∈ s.pendingOperations, o.requestedFeatures ≠ F := by
        intro o ho
        have := List.find?_eq_none.1 hf o ho
        simpa using this
      rw [becomeReady_new s F h0 hall]
      refine ⟨?_, ?_, ?_, ?_, ?_, ?_, ?_⟩
      · intro o ho
        simp only [List.mem_append, List.mem_singleton] at ho
        rcases ho with ho | rfl
        · exact Nat.lt_succ_of_lt (h.ptr_lt o ho)
        · exact Nat.lt_succ_self _
      · intro p hp
        exact Nat.lt_succ_of_lt (h.finished_lt p hp)
      · simp only [List.map_append, List.map_cons, List.map_nil]
        rw [List.nodup_append]
        refine ⟨h.ptr_nodup, List.nodup_singleton _, ?_⟩
        intro a ha hb
        simp only [List.mem_singleton] at hb
        subst hb
        obtain ⟨o, ho, hoa⟩ := List.mem_map.1 ha
        have := h.ptr_lt o ho
        omega
      · simp only [List.map_append, List.map_cons, List.map_nil]
        rw [List.nodup_append]
        refine ⟨h.requested_nodup, List.nodup_singleton _, ?_⟩
        intro a ha hb
        simp only [List.mem_singleton] at hb
        subst hb
        obtain ⟨o, ho, hoa⟩ := List.mem_map.1 ha
        exact hall o ho hoa
      · intro o ho
        simp only [List.mem_append, List.mem_singleton] at ho
        rcases ho with ho | rfl
        · exact h.requested_nonempty o ho
        · exact h0
      · intro o ho
        simp only [List.mem_append, List.mem_singleton] at ho
        rcases ho with ho | rfl
        · exact h.unfinished o ho
        · intro hc
          have := h.finished_lt _ hc
          simp at this
      · exact h.finished_nodup
  by_cases h0 : features = ∅
  · subst h0
    rw [becomeReady_empty]
    exact key {0} (by decide)
  · exact key features h0

theorem operationsInv_finishOperations (s : Private) (h : OperationsInv s) :
    OperationsInv (finishOperations s) := by
  rw [finishOperations_eq s h.ptr_nodup]
  have hsub : (s.pendingOperations.filter (fun o => !finishable s o)).Sublist
      s.pendingOperations := List.filter_sublist _
  refine ⟨?_, ?_, ?_, ?_, ?_, ?_, ?_⟩
  · intro o ho
    exact h.ptr_lt o (hsub.subset ho)
  · intro p hp
    simp only [List.mem_append, List.mem_map, List.mem_filter] at hp
    rcases hp with hp | ⟨o, ⟨ho, _⟩, rfl⟩
    · exact h.finished_lt p hp
    · exact h.ptr_lt o ho
  · exact List.Nodup.sublist (hsub.map _) h.ptr_nodup
  · exact List.Nodup.sublist (hsub.map _) h.requested_nodup
  · intro o ho
    exact h.requested_nonempty o (hsub.subset ho)
  · intro o ho hc
    simp only [List.mem_filter, Bool.not_eq_true'] at ho
    simp only [List.mem_append, List.mem_map, List.mem_filter] at hc
    rcases hc with hc | ⟨p, ⟨hp, hpf⟩, hpo⟩
    · exact h.unfinished o ho.1 hc
    · have hpo2 : p = o := List.inj_on_of_nodup_map h.ptr_nodup hp ho.1 hpo
      rw [hpo2, ho.2] at hpf
      cases hpf
  · show (s.finishedOperations ++
      (s.pendingOperations.filter (finishable s)).map PendingReady.ptr).Nodup
    rw [List.nodup_append]
    refine ⟨h.finished_nodup,
      List.Nodup.sublist ((List.filter_sublist _).map _) h.ptr_nodup, ?_⟩
    intro a ha hb
    obtain ⟨o, ho, rfl⟩ := List.mem_map.1 hb
    exact h.unfinished o (List.mem_filter.1 ho).1 ha

theorem sameOperations_afterFinish (enum : Finset Nat → List Nat) (s s1 : Private)
    (h : iterateIntrospection enum s = some s1)
    (hs : s.currentStatus ∈ s.supportedStatuses) : SameOperations (afterFinish s) s1 := by
  by_cases c2 : (afterFinish s).requestedFeatures ⊆
      (afterFinish s).satisfiedFeatures ∪ (afterFinish s).missingFeatures
  · rw [iterateIntrospection_decided enum s hs c2] at h
    cases h
    exact ⟨rfl, rfl, rfl⟩
  · rw [iterateIntrospection_undecided enum s hs c2] at h
    exact sameOperations_trans _ (beforeLoop enum s) _ ⟨rfl, rfl, rfl⟩
      (sameOperations_introspectLoop _ _ _ h)

theorem operationsInv_iterateIntrospection (enum : Finset Nat → List Nat) (s s1 : Private)
    (hinv : OperationsInv s) (h : iterateIntrospection enum s = some s1) :
    OperationsInv s1 := by
  by_cases c1 : s.currentStatus ∈ s.supportedStatuses
  · apply operationsInv_congr _ _ _ (sameOperations_afterFinish enum s s1 h c1)
    apply operationsInv_finishOperations
    exact operationsInv_congr _ _ hinv ⟨rfl, rfl, rfl⟩
  · rw [iterateIntrospection_unsupported enum s c1] at h
    cases h
    exact hinv

theorem operationsInv_step (s s1 : Private) (h : OperationsInv s) (hs : Step s s1) :
    OperationsInv s1 := by
  cases hs with
  | status newStatus =>
    exact operationsInv_congr _ _ h (sameOperations_setCurrentStatus s newStatus)
  | interfaces names => exact operationsInv_congr _ _ h ⟨rfl, rfl, rfl⟩
  | request features => exact operationsInv_becomeReady s features h
  | report _ feature success hr =>
    exact operationsInv_congr _ _ h (sameOperations_setIntrospectCompleted s s1 feature success hr)
  | timer ht => exact operationsInv_congr _ _ h ⟨rfl, rfl, rfl⟩
  | pass _ enum henum hp => exact operationsInv_iterateIntrospection enum s s1 h hp

theorem operationsInv_steps (s s1 : Private) (h : OperationsInv s) (hs : Steps s s1) :
    OperationsInv s1 := by
  induction hs with
  | refl => exact h
  | tail s1 s2 _ hstep ih => exact operationsInv_step s1 s2 ih hstep

theorem operationsInv_reachable (registry : QMap) (status : Nat) (s : Private)
    (h : Reachable registry status s) : OperationsInv s := by
  obtain ⟨_, s0, h0, hs⟩ := h
  exact operationsInv_steps s0 s (operationsInv_construct status registry s0 h0) hs

theorem scenarioRequested_run :
    (construct 10 scenarioRegistry).bind (runCalls [.request {1, 2}]) =
      some scenarioRequested := by
  have h : ∃ s, (construct 10 scenarioRegistry).bind (runCalls [.request {1, 2}]) = some s ∧
      s = scenarioRequested := ⟨_, rfl, by ext1 <;> decide⟩
  obtain ⟨s, h1, h2⟩ := h
  rw [h1, h2]

theorem scenarioCoreRequested_run :
    (construct 10 scenarioRegistry).bind (runCalls [.request ∅]) =
      some scenarioCoreRequested := by
  have h : ∃ s, (construct 10 scenarioRegistry).bind (runCalls [.request ∅]) = some s ∧
      s = scenarioCoreRequested := ⟨_, rfl, by ext1 <;> decide⟩
  obtain ⟨s, h1, h2⟩ := h
  rw [h1, h2]

/-- In a reachable state `becomeReady` returns the outstanding handle that
carries the requested set, when there is one. -/
theorem becomeReady_outstanding (s : Private) (h : OperationsInv s) (features : Finset Nat)
    (operation : PendingReady) (ho : operation ∈ s.pendingOperations)
    (hf : operation.requestedFeatures = features) :
    becomeReady s features = (operation, s) := by
  have h0 : features ≠ ∅ := hf ▸ h.requested_nonempty operation ho
  cases hfind : s.pendingOperations.find?
      (fun o => decide (o.requestedFeatures = features)) with
  | none =>
    have := List.find?_eq_none.1 hfind operation ho
    simp [hf] at this
  | some found =>
    have h1 : found.requestedFeatures = features := by
      simpa using List.find?_some hfind
    have h2 : found ∈ s.pendingOperations := List.mem_of_find?_eq_some hfind
    have h3 : found = operation :=
      List.inj_on_of_nodup_map h.requested_nodup h2 ho (h1.trans hf.symm)
    rw [becomeReady_found s features h0 found hfind, h3]

/-- The lookup of lines 320-325 is made with the set as lines 316-318 leave it:
in the reachable state `scenarioCoreRequested`, where the outstanding handle at
address `0` carries `{0}`, `becomeReady({})` returns that handle and changes
nothing. -/
theorem becomeReady_empty_lookup :
    Reachable scenarioRegistry 10 scenarioCoreRequested ∧
    (∀ o ∈ scenarioCoreRequested.pendingOperations, o.requestedFeatures ≠ ∅) ∧
    becomeReady scenarioCoreRequested ∅ =
      ({ ptr := 0, requestedFeatures := {0} }, scenarioCoreRequested) ∧
    ({ ptr := 0, requestedFeatures := {0} } : PendingReady) ∈
      scenarioCoreRequested.pendingOperations := by
  refine ⟨reachable_of_runCalls _ _ _ _ (by decide) scenarioCoreRequested_run, by decide,
    ?_, by decide⟩
  rw [becomeReady_empty]
  exact becomeReady_found scenarioCoreRequested {0} (by decide) _ rfl

/-- C8: in every reachable state, if an outstanding handle has requested set
exactly `features`, `becomeReady(features)` returns that handle and the state
unchanged; two consecutive `becomeReady(features)` return the same handle, the
second changing nothing; and when no outstanding handle has the set the lookup
of lines 320-325 is made with (`features`, or `{0}` for the empty set, as
lines 316-318 leave it), `becomeReady` returns a handle whose address differs
from that of every outstanding handle, so a handle that is none of them. -/
theorem becomeReady_deduplicates (registry : QMap) (status : Nat) (s : Private)
    (h : Reachable registry status s) (features : Finset Nat) :
    (∀ o ∈ s.pendingOperations, o.requestedFeatures = features →
      becomeReady s features = (o, s)) ∧
    becomeReady (becomeReady s features).2 features =
      ((becomeReady s features).1, (becomeReady s features).2) ∧
    ((∀ o ∈ s.pendingOperations,
        o.requestedFeatures ≠ (if features = ∅ then {0} else features)) →
      (∀ o ∈ s.pendingOperations, (becomeReady s features).1.ptr ≠ o.ptr) ∧
      (becomeReady s features).1 ∉ s.pendingOperations) := by
  have hops := operationsInv_reachable registry status s h
  refine ⟨fun o ho hf => becomeReady_outstanding s hops features o ho hf, ?_, ?_⟩
  · by_cases h0 : features = ∅
    · subst h0
      rw [becomeReady_empty]
      exact becomeReady_twice s {0} (by decide)
    · exact becomeReady_twice s features h0
  · intro hall
    have hptr : ∀ o ∈ s.pendingOperations, (becomeReady s features).1.ptr ≠ o.ptr := by
      intro o ho
      have hlt := hops.ptr_lt o ho
      by_cases h0 : features = ∅
      · subst h0
        rw [if_pos rfl] at hall
        rw [becomeReady_empty, becomeReady_new s {0} (by decide) hall]
        simp only
        omega
      · rw [if_neg h0] at hall
        rw [becomeReady_new s features h0 hall]
        simp only
        omega
    exact ⟨hptr, fun hmem => hptr _ hmem rfl⟩

theorem becomeReady_deduplicates_witness :
    Reachable scenarioRegistry 10 scenarioRequested ∧
    ((∀ o ∈ scenarioRequested.pendingOperations, o.requestedFeatures = {1, 2} →
        becomeReady scenarioRequested {1, 2} = (o, scenarioRequested)) ∧
      becomeReady (becomeReady scenarioRequested {1, 2}).2 {1, 2} =
        ((becomeReady scenarioRequested {1, 2}).1, (becomeReady scenarioRequested {1, 2}).2) ∧
      ((∀ o ∈ scenarioRequested.pendingOperations,
          o.requestedFeatures ≠ (if ({1, 2} : Finset Nat) = ∅ then {0} else {1, 2})) →
        (∀ o ∈ scenarioRequested.pendingOperations,
          (becomeReady scenarioRequested {1, 2}).1.ptr ≠ o.ptr) ∧
        (becomeReady scenarioRequested {1, 2}).1 ∉ scenarioRequested.pendingOperations)) ∧
    (∀ o ∈ scenarioRequested.pendingOperations,
      o.requestedFeatures ≠ (if ({1} : Finset Nat) = ∅ then {0} else {1})) ∧
    ((∀ o ∈ scenarioRequested.pendingOperations,
        (becomeReady scenarioRequested {1}).1.ptr ≠ o.ptr) ∧
      (becomeReady scenarioRequested {1}).1 ∉ scenarioRequested.pendingOperations) ∧
    (∀ o ∈ scenarioRequested.pendingOperations,
      o.requestedFeatures ≠ (if (∅ : Finset Nat) = ∅ then {0} else ∅)) ∧
    ((∀ o ∈ scenarioRequested.pendingOperations,
        (becomeReady scenarioRequested ∅).1.ptr ≠ o.ptr) ∧
      (becomeReady scenarioRequested ∅).1 ∉ scenarioRequested.pendingOperations) :=
  ⟨reachable_of_runCalls _ _ _ _ (by decide) scenarioRequested_run,
    becomeReady_deduplicates scenarioRegistry 10 scenarioRequested
      (reachable_of_runCalls _ _ _ _ (by decide) scenarioRequested_run) {1, 2},
    by decide,
    (becomeReady_deduplicates scenarioRegistry 10 scenarioRequested
      (reachable_of_runCalls _ _ _ _ (by decide) scenarioRequested_run) {1}).2.2
      (by decide),
    by decide,
    (becomeReady_deduplicates scenarioRegistry 10 scenarioRequested
      (reachable_of_runCalls _ _ _ _ (by decide) scenarioRequested_run) ∅).2.2
      (by decide)⟩

/-- C10: in a reachable state where no outstanding handle has the non-empty
requested set `features`, `becomeReady(features)` returns a new handle carrying
exactly `features`; the resulting state differs from the old one only in
`requestedFeatures` and `pendingFeatures` (both united with `features`), the
handle appended at the end of `pendingOperations`, one more scheduled pass and
the allocation count; the new handle is unfinished and its address is that of
no outstanding handle. -/
theorem becomeReady_registers (registry : QMap) (status : Nat) (s : Private)
    (h : Reachable registry status s) (features : Finset Nat) (h0 : features ≠ ∅)
    (hall : ∀ o ∈ s.pendingOperations, o.requestedFeatures ≠ features) :
    becomeReady s features =
      ({ ptr := s.operationsCreated, requestedFeatures := features },
        { s with
          requestedFeatures := s.requestedFeatures ∪ features
          pendingFeatures := s.pendingFeatures ∪ features
          pendingOperations := s.pendingOperations ++
            [{ ptr := s.operationsCreated, requestedFeatures := features }]
          operationsCreated := s.operationsCreated + 1
          scheduledPasses := s.scheduledPasses + 1 }) ∧
    s.operationsCreated ∉ s.finishedOperations ∧
    ∀ o ∈ s.pendingOperations, o.ptr ≠ s.operationsCreated := by
  have hops := operationsInv_reachable registry status s h
  refine ⟨becomeReady_new s features h0 hall, ?_, ?_⟩
  · intro hc
    have := hops.finished_lt _ hc
    omega
  · intro o ho
    have := hops.ptr_lt o ho
    omega

theorem becomeReady_registers_witness :
    Reachable scenarioRegistry 10 scenarioRequested ∧ ({1} : Finset Nat) ≠ ∅ ∧
    (∀ o ∈ scenarioRequested.pendingOperations, o.requestedFeatures ≠ {1}) ∧
    becomeReady scenarioRequested {1} =
      ({ ptr := scenarioRequested.operationsCreated, requestedFeatures := {1} },
        { scenarioRequested with
          requestedFeatures := scenarioRequested.requestedFeatures ∪ {1}
          pendingFeatures := scenarioRequested.pendingFeatures ∪ {1}
          pendingOperations := scenarioRequested.pendingOperations ++
            [{ ptr := scenarioRequested.operationsCreated, requestedFeatures := {1} }]
          operationsCreated := scenarioRequested.operationsCreated + 1
          scheduledPasses := scenarioRequested.scheduledPasses + 1 }) ∧
    scenarioRequested.operationsCreated ∉ scenarioRequested.finishedOperations ∧
    ∀ o ∈ scenarioRequested.pendingOperations, o.ptr ≠ scenarioRequested.operationsCreated :=
  ⟨reachable_of_runCalls _ _ _ _ (by decide) scenarioRequested_run, by decide, by decide,
    becomeReady_registers scenarioRegistry 10 scenarioRequested
      (reachable_of_runCalls _ _ _ _ (by decide) scenarioRequested_run) {1} (by decide)
      (by decide)⟩

theorem mono_refl (s : Private) : Mono s s :=
  ⟨le_refl _, fun _ => Finset.Subset.refl _, fun _ => Finset.Subset.refl _, fun _ => rfl,
    List.prefix_refl _, List.prefix_refl _, List.prefix_refl _, fun _ h => h, rfl,
    Finset.Subset.refl _, le_refl _⟩

theorem mono_trans (a b c : Private) (h1 : Mono a b) (h2 : Mono b c) : Mono a c := by
  have he : c.epoch = a.epoch → b.epoch = a.epoch ∧ c.epoch = b.epoch := by
    intro h
    have := h1.epoch_le
    have := h2.epoch_le
    omega
  exact
    { epoch_le := le_trans h1.epoch_le h2.epoch_le
      satisfied := fun h => (h1.satisfied (he h).1).trans (h2.satisfied (he h).2)
      missing := fun h => (h1.missing (he h).1).trans (h2.missing (he h).2)
      status := fun h => (h2.status (he h).2).trans (h1.status (he h).1)
      probes := h1.probes.trans h2.probes
      emitted := h1.emitted.trans h2.emitted
      finished := h1.finished.trans h2.finished
      registry := fun x hx => h2.registry x (h1.registry x hx)
      supported := h2.supported.trans h1.supported
      requested := h1.requested.trans h2.requested
      created := le_trans h1.created h2.created }

theorem mono_introspectCore (s : Private) : Mono s (introspectCore s) :=
  { mono_refl s with requested := Finset.subset_insert _ _ }

theorem mono_setCurrentStatus (s : Private) (newStatus : Nat) :
    Mono s (setCurrentStatus s newStatus) := by
  dsimp only [setCurrentStatus]
  have hreset : Mono s { s with
      currentStatus := newStatus
      epoch := s.epoch + 1
      satisfiedFeatures := ∅
      missingFeatures := ∅
      pendingFeatures := s.requestedFeatures } :=
    { mono_refl s with
      epoch_le := Nat.le_succ _
      satisfied := fun h => absurd h (Nat.succ_ne_self _)
      missing := fun h => absurd h (Nat.succ_ne_self _)
      status := fun h => absurd h (Nat.succ_ne_self _) }
  split_ifs with h1 h2
  · exact mono_trans _ _ _ hreset (mono_introspectCore _)
  · exact mono_trans _ _ _ hreset
      { mono_refl _ with emitted := List.prefix_append _ _ }
  · exact { mono_refl s with }

theorem mono_setIntrospectCompleted (s s1 : Private) (feature : Nat) (success : Bool)
    (h : setIntrospectCompleted s feature success = some s1) : Mono s s1 := by
  cases hp : s.pendingStatusChange with
  | true =>
    rw [setIntrospectCompleted_pending s feature success hp] at h
    split_ifs at h
    · cases h; exact { mono_refl s with }
    · cases h
      have h1 : Mono s { s with
          inFlightFeatures := s.inFlightFeatures.erase feature
          pendingStatusChange := false } := { mono_refl s with }
      exact mono_trans _ _ _ h1 (mono_setCurrentStatus _ _)
  | false =>
    by_cases h2 : feature ∈ s.pendingFeatures ∧ feature ∈ s.inFlightFeatures
    · rw [setIntrospectCompleted_normal s feature success hp h2.1 h2.2] at h
      cases h
      exact
        { mono_refl s with
          satisfied := fun _ => by
            dsimp only; split_ifs
            · exact Finset.subset_insert _ _
            · exact Finset.Subset.refl _
          missing := fun _ => by
            dsimp only; split_ifs
            · exact Finset.Subset.refl _
            · exact Finset.subset_insert _ _ }
    · rw [setIntrospectCompleted_none s feature success hp (not_and_or.1 h2)] at h
      cases h

theorem QMap.mem_touch_of_mem (m : QMap) (key : Nat) (x : Nat × Introspectable)
    (hx : x ∈ m) : x ∈ QMap.touch m key := by
  induction m with
  | nil => cases hx
  | cons e m ih =>
    unfold QMap.touch
    split_ifs
    · exact List.mem_cons_of_mem _ hx
    · exact hx
    · rcases List.mem_cons.1 hx with rfl | h
      · exact List.mem_cons_self _ _
      · exact List.mem_cons_of_mem _ (ih h)

theorem mono_markInFlight (s : Private) (feature : Nat) : Mono s (markInFlight s feature) :=
  { mono_refl s with registry := fun x hx => QMap.mem_touch_of_mem _ _ x hx }

theorem mono_invokeProbe (s : Private) (feature : Nat) : Mono s (invokeProbe s feature) :=
  { mono_refl s with probes := List.prefix_append _ _ }

theorem mono_introspectLoop (l : List Nat) (s s1 : Private)
    (h : introspectLoop s l = some s1) : Mono s s1 :=
  introspectLoop_rel Mono mono_refl mono_trans mono_markInFlight mono_invokeProbe
    (fun s feature success s1 => mono_setIntrospectCompleted s s1 feature success) l s s1 h

theorem mono_afterPropagation (s : Private) : Mono s (afterPropagation s) :=
  { mono_refl s with missing := fun _ => propagateMissing_superset _ _ }

theorem mono_finishOperations (s : Private) : Mono s (finishOperations s) := by
  unfold finishOperations
  have key : ∀ (l : List PendingReady) (st : Private), Mono st (l.foldl (fun st operation =>
      if operation.requestedFeatures \ (st.satisfiedFeatures ∪ st.missingFeatures) = ∅ then
        { st with
          finishedOperations := st.finishedOperations ++ [operation.ptr]
          pendingOperations := removeOne st.pendingOperations operation }
      else st) st) := by
    intro l
    induction l with
    | nil => intro st; exact mono_refl st
    | cons op l ih =>
      intro st
      rw [List.foldl_cons]
      split_ifs
      · have h1 : Mono st { st with
            finishedOperations := st.finishedOperations ++ [op.ptr]
            pendingOperations := removeOne st.pendingOperations op } :=
          { mono_refl st with finished := List.prefix_append _ _ }
        exact mono_trans _ _ _ h1 (ih _)
      · exact ih st
  exact key _ s

theorem mono_afterFinish (s : Private) : Mono s (afterFinish s) :=
  mono_trans _ _ _ (mono_afterPropagation s) (mono_finishOperations _)

theorem mono_emitStatusReady (s : Private) : Mono s (emitStatusReady s) :=
  { mono_refl s with emitted := List.prefix_append _ _ }

theorem findReady_registry (m : QMap) (satisfied : Finset Nat) (l : List Nat)
    (x : Nat × Introspectable) (hx : x ∈ m) : x ∈ (findReady m satisfied l).1 := by
  unfold findReady
  have key : ∀ (l : List Nat) (acc : QMap × Finset Nat), x ∈ acc.1 →
      x ∈ (l.foldl (fun acc feature =>
        (acc.1.touch feature,
          if (acc.1.value feature).dependsOnFeatures \ satisfied = ∅ then
            insert feature acc.2
          else acc.2)) acc).1 := by
    intro l
    induction l with
    | nil => intro acc h; exact h
    | cons a l ih =>
      intro acc h
      rw [List.foldl_cons]
      exact ih _ (QMap.mem_touch_of_mem _ _ x h)
  exact key l _ hx

theorem mono_beforeLoop (enum : Finset Nat → List Nat) (s : Private) :
    Mono (afterFinish s) (beforeLoop enum s) :=
  { mono_refl (afterFinish s) with
    registry := fun x hx => findReady_registry _ _ _ x hx }

theorem mono_iterateIntrospection (enum : Finset Nat → List Nat) (s s1 : Private)
    (h : iterateIntrospection enum s = some s1) : Mono s s1 := by
  by_cases c1 : s.currentStatus ∈ s.supportedStatuses
  · by_cases c2 : (afterFinish s).requestedFeatures ⊆
        (afterFinish s).satisfiedFeatures ∪ (afterFinish s).missingFeatures
    · rw [iterateIntrospection_decided enum s c1 c2] at h
      cases h
      exact mono_trans _ _ _ (mono_afterFinish s) (mono_emitStatusReady _)
    · rw [iterateIntrospection_undecided enum s c1 c2] at h
      exact mono_trans _ _ _ (mono_afterFinish s)
        (mono_trans _ _ _ (mono_beforeLoop enum s) (mono_introspectLoop _ _ _ h))
  · rw [iterateIntrospection_unsupported enum s c1] at h
    cases h
    exact mono_refl _

theorem mono_becomeReady (s : Private) (features : Finset Nat) :
    Mono s (becomeReady s features).2 := by
  dsimp only [becomeReady]
  split
  · exact mono_refl s
  · exact
      { mono_refl s with
        requested := Finset.subset_union_left
        created := Nat.le_succ _ }

theorem mono_step (s s1 : Private) (hs : Step s s1) : Mono s s1 := by
  cases hs with
  | status newStatus => exact mono_setCurrentStatus s newStatus
  | interfaces names => exact { mono_refl s with }
  | request features => exact mono_becomeReady s features
  | report _ feature success hr => exact mono_setIntrospectCompleted s s1 feature success hr
  | timer ht => exact { mono_refl s with }
  | pass _ enum henum hp => exact mono_iterateIntrospection enum s s1 hp

theorem mono_steps (s s1 : Private) (hs : Steps s s1) : Mono s s1 := by
  induction hs with
  | refl => exact mono_refl _
  | tail s1 s2 _ hstep ih => exact mono_trans _ _ _ ih (mono_step s1 s2 hstep)

/-- `ProbeInv` passes to a state of the same epoch with the same probe record
in which nothing was withdrawn. -/
theorem probeInv_mono (s t : Private) (h : ProbeInv s) (h1 : t.epoch = s.epoch)
    (h2 : t.probesInvoked = s.probesInvoked)
    (h3 : s.requestedFeatures ⊆ t.requestedFeatures)
    (h4 : s.satisfiedFeatures ⊆ t.satisfiedFeatures)
    (h5 : ∀ f, dependencies t f = dependencies s f) : ProbeInv t := by
  refine ⟨?_, ?_, ?_⟩
  · rw [h1, h2]; exact h.stamp_le
  · rw [h1, h2]; exact fun f hf => h3 (h.requested f hf)
  · rw [h1, h2]; exact fun f hf => (h5 f) ▸ (h.deps f hf).trans h4

/-- `ProbeInv` holds at the start of a new epoch. -/
theorem probeInv_newEpoch (s t : Private) (h : ProbeInv s) (h1 : t.epoch = s.epoch + 1)
    (h2 : t.probesInvoked = s.probesInvoked) : ProbeInv t := by
  have hno : ∀ f, (t.epoch, f) ∉ t.probesInvoked := by
    intro f hf
    rw [h1, h2] at hf
    have := h.stamp_le _ hf
    simp at this
  refine ⟨?_, fun f hf => absurd hf (hno f), fun f hf => absurd hf (hno f)⟩
  rw [h1, h2]
  exact fun p hp => Nat.le_succ_of_le (h.stamp_le p hp)

theorem probeInv_setCurrentStatus (s : Private) (newStatus : Nat) (h : ProbeInv s) :
    ProbeInv (setCurrentStatus s newStatus) := by
  dsimp only [setCurrentStatus]
  split_ifs with h1 h2
  · exact probeInv_newEpoch s _ h rfl rfl
  · exact probeInv_newEpoch s _ h rfl rfl
  · exact probeInv_mono s _ h rfl rfl (Finset.Subset.refl _) (Finset.Subset.refl _)
      (fun _ => rfl)

theorem probeInv_setIntrospectCompleted (s s1 : Private) (feature : Nat) (success : Bool)
    (h : ProbeInv s) (hs : setIntrospectCompleted s feature success = some s1) :
    ProbeInv s1 := by
  cases hp : s.pendingStatusChange with
  | true =>
    rw [setIntrospectCompleted_pending s feature success hp] at hs
    split_ifs at hs
    · cases hs
      exact probeInv_mono s _ h rfl rfl (Finset.Subset.refl _) (Finset.Subset.refl _)
        (fun _ => rfl)
    · cases hs
      apply probeInv_setCurrentStatus
      exact probeInv_mono s _ h rfl rfl (Finset.Subset.refl _) (Finset.Subset.refl _)
        (fun _ => rfl)
  | false =>
    by_cases h2 : feature ∈ s.pendingFeatures ∧ feature ∈ s.inFlightFeatures
    · rw [setIntrospectCompleted_normal s feature success hp h2.1 h2.2] at hs
      cases hs
      refine probeInv_mono s _ h rfl rfl (Finset.Subset.refl _) ?_ (fun _ => rfl)
      dsimp only
      split_ifs
      · exact Finset.subset_insert _ _
      · exact Finset.Subset.refl _
    · rw [setIntrospectCompleted_none s feature success hp (not_and_or.1 h2)] at hs
      cases hs

theorem probeInv_becomeReady (s : Private) (features : Finset Nat) (h : ProbeInv s) :
    ProbeInv (becomeReady s features).2 :=
  probeInv_mono s _ h
    (by dsimp only [becomeReady]; split <;> rfl)
    (by dsimp only [becomeReady]; split <;> rfl)
    (mono_becomeReady s features).requested
    (by dsimp only [becomeReady]; split <;> exact Finset.Subset.refl _)
    (by intro f; dsimp only [becomeReady]; split <;> rfl)

theorem probeInv_invokeProbe_markInFlight (s : Private) (hinv : Inv s) (feature : Nat)
    (he : Eligible s feature) (h : ProbeInv s) :
    ProbeInv (invokeProbe (markInFlight s feature) feature) := by
  have hd : ∀ f, dependencies (invokeProbe (markInFlight s feature) feature) f =
      dependencies s f := fun f => dependencies_markInFlight s hinv feature f
  refine ⟨?_, ?_, ?_⟩
  · intro p hp
    simp only [invokeProbe, markInFlight, List.mem_append, List.mem_singleton] at hp
    rcases hp with hp | rfl
    · exact h.stamp_le p hp
    · exact le_refl _
  · intro f hf
    simp only [invokeProbe, markInFlight, List.mem_append, List.mem_singleton,
      Prod.mk.injEq, true_and] at hf
    rcases hf with hf | rfl
    · exact h.requested f hf
    · exact hinv.pending_requested he.1
  · intro f hf
    rw [hd f]
    simp only [invokeProbe, markInFlight, List.mem_append, List.mem_singleton,
      Prod.mk.injEq, true_and] at hf
    rcases hf with hf | rfl
    · exact h.deps f hf
    · exact he.2.2.2

theorem probeInv_iterateIntrospection (enum : Finset Nat → List Nat)
    (henum : ∀ features x, x ∈ enum features → x ∈ features) (s s1 : Private)
    (hinv : Inv s) (h : ProbeInv s) (hp : iterateIntrospection enum s = some s1) :
    ProbeInv s1 := by
  have hfin : ProbeInv (afterFinish s) := by
    obtain ⟨operations, finished, hfo⟩ := afterFinish_frame s
    rw [hfo]
    exact probeInv_mono s _ h rfl rfl (Finset.Subset.refl _) (Finset.Subset.refl _)
      (fun _ => rfl)
  obtain ⟨s2, h2, _, hC⟩ := iterateIntrospection_induction ProbeInv enum henum s hinv h
    (fun _ => hfin)
    (fun _ hc _ => probeInv_mono _ _ hc rfl rfl (Finset.Subset.refl _) (Finset.Subset.refl _)
      (fun _ => rfl))
    (fun _ hc => probeInv_mono _ _ hc rfl rfl (Finset.Subset.refl _) (Finset.Subset.refl _)
      (fun f => dependencies_beforeLoop enum s hinv f))
    (fun st feature success st1 hi _ _ hc _ _ hs =>
      probeInv_setIntrospectCompleted (markInFlight st feature) st1 feature success
        (probeInv_mono st (markInFlight st feature) hc rfl rfl (Finset.Subset.refl _)
          (Finset.Subset.refl _) (fun f => dependencies_markInFlight st hi feature f)) hs)
    (fun st feature hi he _ hc _ _ => probeInv_invokeProbe_markInFlight st hi feature he hc)
  rw [hp] at h2
  cases h2
  exact hC

theorem probeInv_construct (status : Nat) (registry : QMap) (s : Private)
    (h : construct status registry = some s) : ProbeInv s := by
  dsimp only [construct] at h
  split_ifs at h <;> cases h <;>
    exact ⟨by simp [introspectCore], by simp [introspectCore], by simp [introspectCore]⟩

theorem probeInv_step (s s1 : Private) (hinv : Inv s) (h : ProbeInv s) (hs : Step s s1) :
    ProbeInv s1 := by
  cases hs with
  | status newStatus => exact probeInv_setCurrentStatus s newStatus h
  | interfaces names =>
    exact probeInv_mono s _ h rfl rfl (Finset.Subset.refl _) (Finset.Subset.refl _)
      (fun _ => rfl)
  | request features => exact probeInv_becomeReady s features h
  | report _ feature success hr =>
    exact probeInv_setIntrospectCompleted s s1 feature success h hr
  | timer ht =>
    exact probeInv_mono s _ h rfl rfl (Finset.Subset.refl _) (Finset.Subset.refl _)
      (fun _ => rfl)
  | pass _ enum henum hp =>
    exact probeInv_iterateIntrospection enum (fun f x hx => ((henum f).2 x).1 hx) s s1 hinv h hp

theorem probeInv_steps (s s1 : Private) (hinv : Inv s) (h : ProbeInv s) (hs : Steps s s1) :
    ProbeInv s1 := by
  induction hs with
  | refl => exact h
  | tail s1 s2 hsteps hstep ih => exact probeInv_step s1 s2 (inv_steps s s1 hinv hsteps) ih hstep

theorem probeInv_reachable (registry : QMap) (status : Nat) (s : Private)
    (h : Reachable registry status s) : ProbeInv s := by
  obtain ⟨hwf, s0, h0, hs⟩ := h
  exact probeInv_steps s0 s (inv_construct status registry hwf s0 h0)
    (probeInv_construct status registry s0 h0) hs

theorem reachable_steps (registry : QMap) (status : Nat) (s s1 : Private)
    (h : Reachable registry status s) (hs : Steps s s1) : Reachable registry status s1 := by
  obtain ⟨hwf, s0, h0, hs0⟩ := h
  exact ⟨hwf, s0, h0, steps_trans s0 s s1 hs0 hs⟩

theorem construct_registry (status : Nat) (registry : QMap) (s : Private)
    (h : construct status registry = some s) : s.introspectables = registry := by
  dsimp only [construct] at h
  split_ifs at h <;> cases h <;> rfl

/-- An entry of the registry the helper was constructed with is what
`introspectables[feature]` yields in every reachable state. -/
theorem reachable_value (registry : QMap) (status : Nat) (s : Private)
    (h : Reachable registry status s) (feature : Nat) (entry : Introspectable)
    (he : (feature, entry) ∈ registry) :
    (feature, entry) ∈ s.introspectables ∧ s.introspectables.value feature = entry := by
  have hinv := inv_reachable registry status s h
  obtain ⟨_, s0, h0, hs0⟩ := h
  have hmem : (feature, entry) ∈ s.introspectables := by
    apply (mono_steps s0 s hs0).registry
    rw [construct_registry status registry s0 h0]
    exact he
  exact ⟨hmem, QMap.value_of_mem _ hinv.wf _ hmem⟩

theorem scenarioProbing_run :
    (construct 10 scenarioRegistry).bind (runCalls [.interfaces ["Iface1"], .request {1, 2},
      .timer, .timer, .report 0 true, .timer]) = some scenarioProbing := by
  have h : ∃ s, (construct 10 scenarioRegistry).bind (runCalls [.interfaces ["Iface1"],
      .request {1, 2}, .timer, .timer, .report 0 true, .timer]) = some s ∧
      s = scenarioProbing := ⟨_, rfl, by ext1 <;> decide⟩
  obtain ⟨s, h1, h2⟩ := h
  rw [h1, h2]

theorem scenarioProbeFailed_report :
    setIntrospectCompleted scenarioProbing 1 false = some scenarioProbeFailed := by
  have h : ∃ s, setIntrospectCompleted scenarioProbing 1 false = some s ∧
      s = scenarioProbeFailed := ⟨_, rfl, by ext1 <;> decide⟩
  obtain ⟨s, h1, h2⟩ := h
  rw [h1, h2]

theorem scenarioProbeFailedEnd_pass :
    iterateIntrospection ascending scenarioProbeFailedFired = some scenarioProbeFailedEnd := by
  have h : ∃ s, iterateIntrospection ascending scenarioProbeFailedFired = some s ∧
      s = scenarioProbeFailedEnd := ⟨_, rfl, by ext1 <;> decide⟩
  obtain ⟨s, h1, h2⟩ := h
  rw [h1, h2]

theorem scenarioCoreFailedEnd_pass :
    iterateIntrospection ascending scenarioCoreFailedFired = some scenarioCoreFailedEnd := by
  have h : ∃ s, iterateIntrospection ascending scenarioCoreFailedFired = some s ∧
      s = scenarioCoreFailedEnd := ⟨_, rfl, by ext1 <;> decide⟩
  obtain ⟨s, h1, h2⟩ := h
  rw [h1, h2]

theorem setIntrospectCompleted_epoch (s s1 : Private) (feature : Nat) (success : Bool)
    (hne : s.pendingStatusChange = true → s.inFlightFeatures.erase feature ≠ ∅)
    (h : setIntrospectCompleted s feature success = some s1) : s1.epoch = s.epoch := by
  cases hp : s.pendingStatusChange with
  | true =>
    rw [setIntrospectCompleted_pending s feature success hp, if_pos (hne hp)] at h
    cases h; rfl
  | false =>
    by_cases h2 : feature ∈ s.pendingFeatures ∧ feature ∈ s.inFlightFeatures
    · rw [setIntrospectCompleted_normal s feature success hp h2.1 h2.2] at h
      cases h; rfl
    · rw [setIntrospectCompleted_none s feature success hp (not_and_or.1 h2)] at h
      cases h

/-- A pass started in a state that satisfies `Inv` applies no status change:
a deferred change waits for a probe that was in flight before the pass. -/
theorem iterateIntrospection_epoch (enum : Finset Nat → List Nat)
    (henum : ∀ features x, x ∈ enum features → x ∈ features) (s s1 : Private)
    (hinv : Inv s) (hp : iterateIntrospection enum s = some s1) : s1.epoch = s.epoch := by
  have hfin : (afterFinish s).epoch = s.epoch := by
    obtain ⟨operations, finished, hfo⟩ := afterFinish_frame s
    rw [hfo]; rfl
  obtain ⟨s2, h2, _, hC⟩ := iterateIntrospection_induction (fun st => st.epoch = s.epoch)
    enum henum s hinv rfl (fun _ => hfin) (fun _ hc _ => hc) (fun _ hc => hc)
    (fun st feature success st1 hi _ hnf hc _ _ hs => by
      rw [← hc]
      apply setIntrospectCompleted_epoch (markInFlight st feature) st1 feature success _ hs
      intro hpend
      show (insert feature st.inFlightFeatures).erase feature ≠ ∅
      rw [Finset.erase_insert hnf]
      exact hi.pending_inFlight hpend)
    (fun st feature _ _ _ hc _ _ => hc)
  rw [hp] at h2
  cases h2
  exact hC

theorem mono_afterFinish_result (enum : Finset Nat → List Nat) (s s1 : Private)
    (h : iterateIntrospection enum s = some s1)
    (hs : s.currentStatus ∈ s.supportedStatuses) : Mono (afterFinish s) s1 := by
  by_cases c2 : (afterFinish s).requestedFeatures ⊆
      (afterFinish s).satisfiedFeatures ∪ (afterFinish s).missingFeatures
  · rw [iterateIntrospection_decided enum s hs c2] at h
    cases h
    exact mono_emitStatusReady _
  · rw [iterateIntrospection_undecided enum s hs c2] at h
    exact mono_trans _ _ _ (mono_beforeLoop enum s) (mono_introspectLoop _ _ _ h)

/-- Propagation reaches every registered feature that has a dependency among
the features missing beforehand. -/
theorem propagateMissing_mem (m : QMap) (missing : Finset Nat) (feature dependency : Nat)
    (entry : Introspectable) (he : (feature, entry) ∈ m)
    (hd : dependency ∈ entry.dependsOnFeatures) (hm : dependency ∈ missing) :
    feature ∈ propagateMissing m missing := by
  unfold propagateMissing
  induction m generalizing missing with
  | nil => cases he
  | cons e m ih =>
    rw [List.foldl_cons]
    rcases List.mem_cons.1 he with rfl | h
    · have hne : entry.dependsOnFeatures ∩ missing ≠ ∅ :=
        Finset.ne_empty_of_mem (Finset.mem_inter.2 ⟨hd, hm⟩)
      simp only [if_pos hne]
      exact propagateMissing_superset m _ (Finset.mem_insert_self _ _)
    · apply ih _ h
      split_ifs
      · exact Finset.mem_insert_of_mem hm
      · exact hm

theorem afterFinish_missing (s : Private) :
    (afterFinish s).missingFeatures = propagateMissing s.introspectables s.missingFeatures := by
  obtain ⟨operations, finished, hfo⟩ := afterFinish_frame s
  rw [hfo]; rfl

theorem afterFinish_satisfied (s : Private) :
    (afterFinish s).satisfiedFeatures = s.satisfiedFeatures := by
  obtain ⟨operations, finished, hfo⟩ := afterFinish_frame s
  rw [hfo]; rfl

theorem afterFinish_epoch (s : Private) : (afterFinish s).epoch = s.epoch := by
  obtain ⟨operations, finished, hfo⟩ := afterFinish_frame s
  rw [hfo]; rfl

theorem reachable_timer (registry : QMap) (status : Nat) (s : Private)
    (h : Reachable registry status s) (ht : 0 < s.scheduledPasses) :
    Reachable registry status { s with scheduledPasses := s.scheduledPasses - 1 } :=
  reachable_steps registry status s _ h (Steps.tail _ _ _ (Steps.refl s) (Step.timer s ht))

/-- C4: let feature `A` be registered with feature `B` among its feature
dependencies, and let `setIntrospectCompleted(B, false)` be accepted in a
reachable state with no status change pending.  Then after any later pass of
the same epoch run under a supported status (whatever the order in which it
visits the sets) `A` is in `missingFeatures`, and in
no state of that epoch does the record of probe calls hold a call of `A`'s
probe made in that epoch. -/
theorem transitive_missing (registry : QMap) (status : Nat) (s s1 s2 s3 : Private)
    (enum : Finset Nat → List Nat) (A B : Nat) (entry : Introspectable)
    (hreach : Reachable registry status s)
    (hA : (A, entry) ∈ registry) (hB : B ∈ entry.dependsOnFeatures)
    (hnp : s.pendingStatusChange = false)
    (hrep : setIntrospectCompleted s B false = some s1)
    (hsteps : Steps s1 s2)
    (hsup : s2.currentStatus ∈ s2.supportedStatuses)
    (hpass : iterateIntrospection enum s2 = some s3)
    (hepoch : s3.epoch = s.epoch) :
    A ∈ s3.missingFeatures ∧
    ∀ s4, Steps s1 s4 → s4.epoch = s.epoch → (s.epoch, A) ∉ s4.probesInvoked := by
  have hmem : B ∈ s.pendingFeatures ∧ B ∈ s.inFlightFeatures := by
    by_contra hc
    rw [setIntrospectCompleted_none s B false hnp (not_and_or.1 hc)] at hrep
    cases hrep
  rw [setIntrospectCompleted_normal s B false hnp hmem.1 hmem.2] at hrep
  have h1 : B ∈ s1.missingFeatures ∧ s1.epoch = s.epoch := by
    cases hrep
    exact ⟨by simp, rfl⟩
  have hreach1 : Reachable registry status s1 :=
    reachable_steps registry status s s1 hreach
      (Steps.tail _ _ _ (Steps.refl s) (Step.report s s1 B false
        (by rw [setIntrospectCompleted_normal s B false hnp hmem.1 hmem.2]; exact hrep)))
  constructor
  · have hreach2 := reachable_steps registry status s1 s2 hreach1 hsteps
    have m12 := mono_steps s1 s2 hsteps
    have m2f := mono_afterFinish s2
    have mf3 := mono_afterFinish_result enum s2 s3 hpass hsup
    have e2 : s2.epoch = s1.epoch := by
      have := m12.epoch_le
      have := m2f.epoch_le
      have := mf3.epoch_le
      omega
    have hB2 : B ∈ s2.missingFeatures := m12.missing e2 h1.1
    have hAf : A ∈ (afterFinish s2).missingFeatures := by
      rw [afterFinish_missing]
      exact propagateMissing_mem _ _ A B entry
        (reachable_value registry status s2 hreach2 A entry hA).1 hB hB2
    apply mf3.missing _ hAf
    rw [afterFinish_epoch, hepoch, e2, h1.2]
  · intro s4 hsteps4 hepoch4 hprobed
    have hreach4 := reachable_steps registry status s1 s4 hreach1 hsteps4
    have hdeps := (probeInv_reachable registry status s4 hreach4).deps A
      (by rw [hepoch4]; exact hprobed)
    have hval := (reachable_value registry status s4 hreach4 A entry hA).2
    have hBs : B ∈ s4.satisfiedFeatures := by
      apply hdeps
      simp only [dependencies, hval]
      exact hB
    have hBm : B ∈ s4.missingFeatures :=
      (mono_steps s1 s4 hsteps4).missing (by rw [hepoch4, h1.2]) h1.1
    exact Finset.disjoint_left.1 (inv_reachable registry status s4 hreach4).satisfied_missing
      hBs hBm

theorem transitive_missing_witness :
    Reachable scenarioRegistry 10 scenarioProbing ∧
    setIntrospectCompleted scenarioProbing 1 false = some scenarioProbeFailed ∧
    Steps scenarioProbeFailed scenarioProbeFailedFired ∧
    iterateIntrospection ascending scenarioProbeFailedFired = some scenarioProbeFailedEnd ∧
    2 ∈ scenarioProbeFailedEnd.missingFeatures ∧
    ∀ s4, Steps scenarioProbeFailed s4 → s4.epoch = scenarioProbing.epoch →
      (scenarioProbing.epoch, 2) ∉ s4.probesInvoked :=
  ⟨reachable_of_runCalls _ _ _ _ (by decide) scenarioProbing_run,
    scenarioProbeFailed_report,
    Steps.tail _ _ _ (Steps.refl _) (Step.timer scenarioProbeFailed (by decide)),
    scenarioProbeFailedEnd_pass,
    transitive_missing scenarioRegistry 10 scenarioProbing scenarioProbeFailed
      scenarioProbeFailedFired scenarioProbeFailedEnd ascending 2 1
      { makesSenseForStatuses := {10, 11}, dependsOnFeatures := {1},
        dependsOnInterfaces := [], introspectFunc := 3 }
      (reachable_of_runCalls _ _ _ _ (by decide) scenarioProbing_run)
      (by simp [scenarioRegistry]) (by decide) rfl scenarioProbeFailed_report
      (Steps.tail _ _ _ (Steps.refl _) (Step.timer scenarioProbeFailed (by decide)))
      (by decide) scenarioProbeFailedEnd_pass rfl⟩

/-- A handle that a pass finishes was outstanding with every requested feature
decided after the propagation step. -/
theorem finished_by_pass (enum : Finset Nat → List Nat) (s s1 : Private)
    (hops : OperationsInv s) (hp : iterateIntrospection enum s = some s1)
    (operation : PendingReady) (ho : operation ∈ s.pendingOperations)
    (hf : operation.ptr ∈ s1.finishedOperations) :
    s.currentStatus ∈ s.supportedStatuses ∧
    operation.requestedFeatures ⊆
      (afterFinish s).satisfiedFeatures ∪ (afterFinish s).missingFeatures := by
  have hunf := hops.unfinished operation ho
  by_cases c1 : s.currentStatus ∈ s.supportedStatuses
  · refine ⟨c1, ?_⟩
    have hsame := sameOperations_afterFinish enum s s1 hp c1
    rw [hsame.2.1] at hf
    have heq := finishOperations_eq (afterPropagation s) hops.ptr_nodup
    have hf2 : operation.ptr ∈ s.finishedOperations ++
        (s.pendingOperations.filter (finishable (afterPropagation s))).map
          PendingReady.ptr := by
      have : (afterFinish s).finishedOperations = s.finishedOperations ++
          (s.pendingOperations.filter (finishable (afterPropagation s))).map
            PendingReady.ptr := by
        show (finishOperations (afterPropagation s)).finishedOperations = _
        rw [heq]; rfl
      rw [← this]; exact hf
    rw [List.mem_append] at hf2
    rcases hf2 with hf2 | hf2
    · exact absurd hf2 hunf
    · obtain ⟨p, hp1, hp2⟩ := List.mem_map.1 hf2
      rw [List.mem_filter] at hp1
      have hpo : p = operation := List.inj_on_of_nodup_map hops.ptr_nodup hp1.1 ho hp2
      subst hpo
      have hfin := hp1.2
      simp only [finishable, decide_eq_true_eq, Finset.sdiff_eq_empty_iff_subset] at hfin
      rw [afterFinish_satisfied, afterFinish_missing]
      exact hfin
  · rw [iterateIntrospection_unsupported enum s c1] at hp
    cases hp
    exact absurd hf hunf

theorem scenarioCoreFailedFired_reachable :
    Reachable scenarioRegistry 10 scenarioCoreFailedFired := by
  have hrun : (construct 10 scenarioRegistry).bind
      (runCalls [.request ∅, .timer, .timer, .report 0 false]) =
      some { scenarioCoreFailedFired with scheduledPasses := 1 } := by
    have h : ∃ s, (construct 10 scenarioRegistry).bind
        (runCalls [.request ∅, .timer, .timer, .report 0 false]) = some s ∧
        s = { scenarioCoreFailedFired with scheduledPasses := 1 } :=
      ⟨_, rfl, by ext1 <;> decide⟩
    obtain ⟨s, h1, h2⟩ := h
    rw [h1, h2]
  exact reachable_timer _ _ _ (reachable_of_runCalls _ _ _ _ (by decide) hrun) (by decide)

/-- C5 as stated fails: `scenarioCoreFailedFired` is reached by
`becomeReady({})`, two passes, the core probe reporting failure and the timer
of the next pass.  There `becomeReady({})` returns the outstanding handle at
address `0`; the pass finishes that handle; and `isReady({})` is false in the
resulting state `scenarioCoreFailedEnd`. -/
theorem isReady_after_finish_counterexample :
    Reachable scenarioRegistry 10 scenarioCoreFailedFired ∧
    becomeReady scenarioCoreFailedFired ∅ =
      ({ ptr := 0, requestedFeatures := {0} }, scenarioCoreFailedFired) ∧
    ({ ptr := 0, requestedFeatures := {0} } : PendingReady) ∈
      scenarioCoreFailedFired.pendingOperations ∧
    iterateIntrospection ascending scenarioCoreFailedFired = some scenarioCoreFailedEnd ∧
    0 ∉ scenarioCoreFailedFired.finishedOperations ∧
    0 ∈ scenarioCoreFailedEnd.finishedOperations ∧
    isReady scenarioCoreFailedEnd ∅ = false := by
  refine ⟨scenarioCoreFailedFired_reachable, ?_, by decide, scenarioCoreFailedEnd_pass,
    by decide, by decide, by decide⟩
  rw [becomeReady_empty]
  exact becomeReady_found scenarioCoreFailedFired {0} (by decide) _ rfl

/-- C5, amended: when a pass from a reachable state finishes the outstanding
handle that `becomeReady(features)` returns, every feature of the handle's
requested set is in `satisfiedFeatures ∪ missingFeatures` of the resulting
state, and `isReady(features)` is true there exactly when that set does not
contain feature 0 or lies within `satisfiedFeatures`. -/
theorem isReady_after_finish (registry : QMap) (status : Nat) (s s1 : Private)
    (enum : Finset Nat → List Nat) (features : Finset Nat)
    (hreach : Reachable registry status s) (henum : IsEnum enum)
    (ho : (becomeReady s features).1 ∈ s.pendingOperations)
    (hp : iterateIntrospection enum s = some s1)
    (hf : (becomeReady s features).1.ptr ∈ s1.finishedOperations) :
    (becomeReady s features).1.requestedFeatures ⊆
      s1.satisfiedFeatures ∪ s1.missingFeatures ∧
    (isReady s1 features = true ↔
      (0 ∈ (becomeReady s features).1.requestedFeatures →
        (becomeReady s features).1.requestedFeatures ⊆ s1.satisfiedFeatures)) := by
  have hinv := inv_reachable registry status s hreach
  have hops := operationsInv_reachable registry status s hreach
  obtain ⟨hsup, hdec⟩ := finished_by_pass enum s s1 hops hp _ ho hf
  have hmono := mono_afterFinish_result enum s s1 hp hsup
  have hepoch : s1.epoch = (afterFinish s).epoch := by
    rw [afterFinish_epoch]
    exact iterateIntrospection_epoch enum (fun f x hx => ((henum f).2 x).1 hx) s s1 hinv hp
  have hsub : (becomeReady s features).1.requestedFeatures ⊆
      s1.satisfiedFeatures ∪ s1.missingFeatures :=
    hdec.trans (Finset.union_subset_union (hmono.satisfied hepoch) (hmono.missing hepoch))
  refine ⟨hsub, ?_⟩
  have hnorm : ∀ F : Finset Nat, F ≠ ∅ →
      (becomeReady s F).1.requestedFeatures ⊆ s1.satisfiedFeatures ∪ s1.missingFeatures →
      (isReady s1 F = true ↔ (0 ∈ (becomeReady s F).1.requestedFeatures →
        (becomeReady s F).1.requestedFeatures ⊆ s1.satisfiedFeatures)) := by
    intro F h0 hs
    rw [becomeReady_requested s F h0] at hs ⊢
    rw [isReady_eq]
    constructor
    · rintro (h | h | h)
      · exact absurd h.1 h0
      · exact fun _ => h.2
      · exact fun hc => absurd hc h.2.1
    · intro h
      by_cases hc : 0 ∈ F
      · exact Or.inr (Or.inl ⟨hc, h hc⟩)
      · exact Or.inr (Or.inr ⟨h0, hc, hs⟩)
  by_cases h0 : features = ∅
  · subst h0
    have hiso : isReady s1 ∅ = isReady s1 {0} := by simp [isReady]
    rw [hiso]
    rw [becomeReady_empty] at hsub ⊢
    exact hnorm {0} (by decide) hsub
  · exact hnorm features h0 hsub

theorem isReady_after_finish_witness :
    Reachable scenarioRegistry 10 scenarioProbeFailedFired ∧ IsEnum ascending ∧
    (becomeReady scenarioProbeFailedFired {1, 2}).1 ∈
      scenarioProbeFailedFired.pendingOperations ∧
    iterateIntrospection ascending scenarioProbeFailedFired = some scenarioProbeFailedEnd ∧
    (becomeReady scenarioProbeFailedFired {1, 2}).1.ptr ∈
      scenarioProbeFailedEnd.finishedOperations ∧
    (becomeReady scenarioProbeFailedFired {1, 2}).1.requestedFeatures ⊆
      scenarioProbeFailedEnd.satisfiedFeatures ∪ scenarioProbeFailedEnd.missingFeatures ∧
    (isReady scenarioProbeFailedEnd {1, 2} = true ↔
      (0 ∈ (becomeReady scenarioProbeFailedFired {1, 2}).1.requestedFeatures →
        (becomeReady scenarioProbeFailedFired {1, 2}).1.requestedFeatures ⊆
          scenarioProbeFailedEnd.satisfiedFeatures)) :=
  have hreach : Reachable scenarioRegistry 10 scenarioProbeFailedFired :=
    reachable_timer _ _ _
      (reachable_steps _ _ _ _
        (reachable_of_runCalls _ _ _ _ (by decide) scenarioProbing_run)
        (Steps.tail _ _ _ (Steps.refl _)
          (Step.report _ _ 1 false scenarioProbeFailed_report)))
      (by decide)
  ⟨hreach, isEnum_ascending, by decide, scenarioProbeFailedEnd_pass, by decide,
    isReady_after_finish scenarioRegistry 10 scenarioProbeFailedFired scenarioProbeFailedEnd
      ascending {1, 2} hreach isEnum_ascending (by decide) scenarioProbeFailedEnd_pass
      (by decide)⟩

theorem QMap.touch_of_contains (m : QMap) (key : Nat) (hm : QMap.WF m)
    (hc : m.contains key = true) : QMap.touch m key = m := by
  induction m with
  | nil => simp [QMap.contains] at hc
  | cons e m ih =>
    have hm2 := (QMap.wf_cons e m).1 hm
    simp only [QMap.contains, List.any_cons, Bool.or_eq_true, beq_iff_eq] at hc
    unfold QMap.touch
    by_cases h1 : key < e.1
    · exfalso
      rcases hc with hc | hc
      · omega
      · rw [List.any_eq_true] at hc
        obtain ⟨x, hx, hxk⟩ := hc
        have := hm2.1 x hx
        simp only [beq_iff_eq] at hxk
        omega
    · rw [if_neg h1]
      by_cases h2 : key = e.1
      · rw [if_pos h2]
      · rw [if_neg h2]
        rcases hc with hc | hc
        · exact absurd hc.symm h2
        · rw [ih hm2.2 hc]

/-- Lines 200-206 leave a registry alone that has an entry for every feature
they look up. -/
theorem findReady_registered (m : QMap) (hm : QMap.WF m) (satisfied : Finset Nat)
    (l : List Nat) (hl : ∀ f ∈ l, m.contains f = true) : (findReady m satisfied l).1 = m := by
  unfold findReady
  have key : ∀ (l : List Nat) (acc : QMap × Finset Nat), acc.1 = m →
      (∀ f ∈ l, m.contains f = true) →
      (l.foldl (fun acc feature =>
        (acc.1.touch feature,
          if (acc.1.value feature).dependsOnFeatures \ satisfied = ∅ then
            insert feature acc.2
          else acc.2)) acc).1 = m := by
    intro l
    induction l with
    | nil => intro acc h _; exact h
    | cons a l ih =>
      intro acc h hl
      rw [List.foldl_cons]
      apply ih
      · show QMap.touch acc.1 a = m
        rw [h]
        exact QMap.touch_of_contains m a hm (hl a (List.mem_cons_self _ _))
      · exact fun f hf => hl f (List.mem_cons_of_mem _ hf)
  exact key l _ rfl hl

/-- Two visiting orders agree on a set with at most one element. -/
theorem enum_eq_of_card_le_one (enum1 enum2 : Finset Nat → List Nat) (h1 : IsEnum enum1)
    (h2 : IsEnum enum2) (features : Finset Nat) (hc : features.card ≤ 1) :
    enum1 features = enum2 features := by
  have hperm : (enum1 features).Perm (enum2 features) :=
    (List.perm_ext_iff_of_nodup (h1 features).1 (h2 features).1).2
      (fun x => ((h1 features).2 x).trans ((h2 features).2 x).symm)
  have hlen : (enum2 features).length ≤ 1 := by
    have hfin : (enum2 features).toFinset = features := by
      ext x; rw [List.mem_toFinset]; exact (h2 features).2 x
    rw [← List.toFinset_card_of_nodup (h2 features).1, hfin]
    exact hc
  cases h : enum2 features with
  | nil => rw [h] at hperm; exact hperm.eq_nil
  | cons a t =>
    cases t with
    | nil => rw [h] at hperm; exact List.perm_singleton.1 hperm
    | cons b t => rw [h] at hlen; simp at hlen

theorem afterPending_introspectables (s : Private) :
    (afterPending s).introspectables = s.introspectables := by
  obtain ⟨operations, finished, hfo⟩ := afterFinish_frame s
  simp only [afterPending]
  rw [hfo]; rfl

/-- The order in which a pass visits the sets does not matter when every
pending feature is registered and at most one feature is ready. -/
theorem iterateIntrospection_order (enum1 enum2 : Finset Nat → List Nat) (h1 : IsEnum enum1)
    (h2 : IsEnum enum2) (s : Private) (hwf : QMap.WF s.introspectables)
    (hreg : ∀ f ∈ (afterPending s).pendingFeatures, s.introspectables.contains f = true)
    (hcard : (readyToIntrospect enum2 s).card ≤ 1) :
    iterateIntrospection enum1 s = iterateIntrospection enum2 s := by
  have hwf2 : QMap.WF (afterPending s).introspectables := by
    rw [afterPending_introspectables]; exact hwf
  have hready : readyToIntrospect enum1 s = readyToIntrospect enum2 s := by
    ext f
    simp only [readyToIntrospect]
    rw [(findReady_spec _ hwf2 _ _).2.2 f, (findReady_spec _ hwf2 _ _).2.2 f,
      (h1 _).2 f, (h2 _).2 f]
  have hbefore : ∀ enum, IsEnum enum → beforeLoop enum s = afterPending s := by
    intro enum he
    have : (findReady (afterPending s).introspectables (afterPending s).satisfiedFeatures
        (enum (afterPending s).pendingFeatures)).1 = (afterPending s).introspectables := by
      apply findReady_registered _ hwf2
      intro f hf
      rw [afterPending_introspectables]
      exact hreg f (((he _).2 f).1 hf)
    simp only [beforeLoop]
    rw [this]
  simp only [iterateIntrospection]
  rw [hbefore enum1 h1, hbefore enum2 h2, hready,
    enum_eq_of_card_le_one enum1 enum2 h1 h2 _ hcard]

/-- A timer firing followed by its pass, computed with the ascending order,
gives the result for every visiting order when the order cannot matter. -/
theorem runScheduledPass_order (enum : Finset Nat → List Nat) (henum : IsEnum enum)
    (s t : Private) (h0 : s.scheduledPasses ≠ 0) (hwf : QMap.WF s.introspectables)
    (hreg : ∀ f ∈ (afterPending { s with scheduledPasses := s.scheduledPasses - 1 }).pendingFeatures,
      s.introspectables.contains f = true)
    (hcard : (readyToIntrospect ascending
      { s with scheduledPasses := s.scheduledPasses - 1 }).card ≤ 1)
    (hasc : ∃ r, iterateIntrospection ascending
      { s with scheduledPasses := s.scheduledPasses - 1 } = some r ∧ r = t) :
    runScheduledPass enum s = some t := by
  obtain ⟨r, hr, rfl⟩ := hasc
  rw [runScheduledPass, if_neg h0,
    iterateIntrospection_order enum ascending henum isEnum_ascending
      { s with scheduledPasses := s.scheduledPasses - 1 } hwf hreg hcard, hr]

theorem runScheduledPasses_succ (enum : Finset Nat → List Nat) (fuel : Nat) (s s1 : Private)
    (h0 : s.scheduledPasses ≠ 0) (h : runScheduledPass enum s = some s1) :
    runScheduledPasses enum (fuel + 1) s = runScheduledPasses enum fuel s1 := by
  rw [runScheduledPasses, if_neg h0, h]
  rfl

theorem runScheduledPasses_done (enum : Finset Nat → List Nat) (fuel : Nat) (s : Private)
    (h0 : s.scheduledPasses = 0) : runScheduledPasses enum fuel s = some s := by
  cases fuel with
  | zero => rfl
  | succ n => rw [runScheduledPasses, if_pos h0]

/-- C3: the concrete scenario, for every order in which the sets are visited.
Registry `scenarioRegistry` (status A is `10`), no known interface.
`becomeReady({1,2})` returns the handle at address `0`.  Whether the core probe
reports success after both scheduled passes have run (`scenarioCoreProbed`) or
between them (`scenarioCoreInFlight`), running the scheduled passes until none
is left ends with `satisfiedFeatures = {0}`, `missingFeatures = {1,2}`, the
handle finished by `setFinished()` and no longer outstanding, nothing in
flight, and the probe callback of feature 0 the only one ever called. -/
theorem scenario_missing_by_interface (enum : Finset Nat → List Nat) (henum : IsEnum enum) :
    construct 10 scenarioRegistry = some scenarioStart ∧
      scenarioStart.interfaces = [] ∧
      becomeReady scenarioStart {1, 2} =
        ({ ptr := 0, requestedFeatures := {1, 2} }, scenarioRequested) ∧
      runScheduledPasses enum 2 scenarioRequested = some scenarioCoreProbed ∧
      scenarioCoreProbed.scheduledPasses = 0 ∧
      setIntrospectCompleted scenarioCoreProbed 0 true = some scenarioCoreSatisfied ∧
      runScheduledPasses enum 2 scenarioCoreSatisfied = some scenarioEnd ∧
      runScheduledPass enum scenarioRequested = some scenarioCoreInFlight ∧
      setIntrospectCompleted scenarioCoreInFlight 0 true = some scenarioEarlyReport ∧
      runScheduledPasses enum 3 scenarioEarlyReport = some scenarioEarlyEnd ∧
      (∀ s, s = scenarioEnd ∨ s = scenarioEarlyEnd →
        s.scheduledPasses = 0 ∧ s.inFlightFeatures = ∅ ∧
        s.satisfiedFeatures = {0} ∧ s.missingFeatures = {1, 2} ∧
        s.finishedOperations = [0] ∧ s.pendingOperations = [] ∧
        ∀ p ∈ s.probesInvoked, p.2 = 0) := by
  have h0 : ∃ s, construct 10 scenarioRegistry = some s ∧ s = scenarioStart :=
    ⟨_, rfl, by ext1 <;> decide⟩
  have h1 : ∃ r, becomeReady scenarioStart {1, 2} = r ∧ r.1.ptr = 0 ∧
      r.1.requestedFeatures = {1, 2} ∧ r.2 = scenarioRequested :=
    ⟨_, rfl, by decide, by decide, by ext1 <;> decide⟩
  have p1 : runScheduledPass enum scenarioRequested = some scenarioCoreInFlight :=
    runScheduledPass_order enum henum _ _ (by decide) (by decide) (by decide) (by decide)
      ⟨_, rfl, by ext1 <;> decide⟩
  have p2 : runScheduledPass enum scenarioCoreInFlight = some scenarioCoreProbed :=
    runScheduledPass_order enum henum _ _ (by decide) (by decide) (by decide) (by decide)
      ⟨_, rfl, by ext1 <;> decide⟩
  have h3 : ∃ s, setIntrospectCompleted scenarioCoreProbed 0 true = some s ∧
      s = scenarioCoreSatisfied := ⟨_, rfl, by ext1 <;> decide⟩
  have p3 : runScheduledPass enum scenarioCoreSatisfied = some scenarioInterfaceMissing :=
    runScheduledPass_order enum henum _ _ (by decide) (by decide) (by decide) (by decide)
      ⟨_, rfl, by ext1 <;> decide⟩
  have p4 : runScheduledPass enum scenarioInterfaceMissing = some scenarioEnd :=
    runScheduledPass_order enum henum _ _ (by decide) (by decide) (by decide) (by decide)
      ⟨_, rfl, by ext1 <;> decide⟩
  have h5 : ∃ s, setIntrospectCompleted scenarioCoreInFlight 0 true = some s ∧
      s = scenarioEarlyReport := ⟨_, rfl, by ext1 <;> decide⟩
  have p5 : runScheduledPass enum scenarioEarlyReport = some scenarioEarlyMissing :=
    runScheduledPass_order enum henum _ _ (by decide) (by decide) (by decide) (by decide)
      ⟨_, rfl, by ext1 <;> decide⟩
  have p6 : runScheduledPass enum scenarioEarlyMissing = some scenarioEarlyFinished :=
    runScheduledPass_order enum henum _ _ (by decide) (by decide) (by decide) (by decide)
      ⟨_, rfl, by ext1 <;> decide⟩
  have p7 : runScheduledPass enum scenarioEarlyFinished = some scenarioEarlyEnd :=
    runScheduledPass_order enum henum _ _ (by decide) (by decide) (by decide) (by decide)
      ⟨_, rfl, by ext1 <;> decide⟩
  obtain ⟨_, e0, rfl⟩ := h0
  obtain ⟨r, e1, e1a, e1b, e1c⟩ := h1
  obtain ⟨_, e3, rfl⟩ := h3
  obtain ⟨_, e5, rfl⟩ := h5
  refine ⟨e0, rfl, ?_, ?_, rfl, e3, ?_, p1, e5, ?_, ?_⟩
  · rw [e1]
    exact Prod.ext (PendingReady.ext e1a e1b) e1c
  · rw [runScheduledPasses_succ enum 1 _ _ (by decide) p1,
      runScheduledPasses_succ enum 0 _ _ (by decide) p2]
    rfl
  · rw [runScheduledPasses_succ enum 1 _ _ (by decide) p3,
      runScheduledPasses_succ enum 0 _ _ (by decide) p4]
    rfl
  · rw [runScheduledPasses_succ enum 2 _ _ (by decide) p5,
      runScheduledPasses_succ enum 1 _ _ (by decide) p6,
      runScheduledPasses_succ enum 0 _ _ (by decide) p7]
    rfl
  · rintro s (rfl | rfl)
    · exact ⟨rfl, rfl, rfl, rfl, rfl, rfl, by decide⟩
    · exact ⟨rfl, rfl, rfl, rfl, rfl, rfl, by decide⟩

theorem scenario_missing_by_interface_witness :
    IsEnum ascending ∧
    runScheduledPasses ascending 2 scenarioRequested = some scenarioCoreProbed ∧
    setIntrospectCompleted scenarioCoreProbed 0 true = some scenarioCoreSatisfied ∧
    runScheduledPasses ascending 2 scenarioCoreSatisfied = some scenarioEnd ∧
    scenarioEnd.satisfiedFeatures = {0} ∧ scenarioEnd.missingFeatures = {1, 2} :=
  ⟨isEnum_ascending,
    (scenario_missing_by_interface ascending isEnum_ascending).2.2.2.1,
    (scenario_missing_by_interface ascending isEnum_ascending).2.2.2.2.2.1,
    (scenario_missing_by_interface ascending isEnum_ascending).2.2.2.2.2.2.1,
    rfl, rfl⟩

/-- C12: with nothing in flight, `setCurrentStatus(newStatus)` sets
`currentStatus`, empties `satisfiedFeatures` and `missingFeatures` and starts a
new epoch; under a supported status `requestedFeatures` gains feature 0,
`pendingFeatures` becomes that set, and one pass is scheduled; otherwise
`pendingFeatures` becomes `requestedFeatures` and `statusReady(newStatus)` is
emitted once.  Every other field (interfaces, handle list, `setFinished()`
record, and in each case the emissions resp. the scheduled passes) is that of
the old state. -/
theorem setCurrentStatus_applied (s : Private) (newStatus : Nat)
    (h : s.inFlightFeatures = ∅) :
    (newStatus ∈ s.supportedStatuses →
      setCurrentStatus s newStatus =
        { s with
          currentStatus := newStatus
          epoch := s.epoch + 1
          satisfiedFeatures := ∅
          missingFeatures := ∅
          requestedFeatures := insert 0 s.requestedFeatures
          pendingFeatures := insert 0 s.requestedFeatures
          scheduledPasses := s.scheduledPasses + 1 }) ∧
    (newStatus ∉ s.supportedStatuses →
      setCurrentStatus s newStatus =
        { s with
          currentStatus := newStatus
          epoch := s.epoch + 1
          satisfiedFeatures := ∅
          missingFeatures := ∅
          pendingFeatures := s.requestedFeatures
          statusReadyEmitted := s.statusReadyEmitted ++ [(s.epoch + 1, newStatus)] }) := by
  constructor
  · intro hs
    simp only [setCurrentStatus, if_pos h, if_pos hs, introspectCore]
  · intro hs
    simp only [setCurrentStatus, if_pos h, if_neg hs]

theorem setCurrentStatus_applied_witness :
    scenarioEnd.inFlightFeatures = ∅ ∧ 11 ∈ scenarioEnd.supportedStatuses ∧
    12 ∉ scenarioEnd.supportedStatuses ∧
    setCurrentStatus scenarioEnd 11 =
      { scenarioEnd with
        currentStatus := 11
        epoch := scenarioEnd.epoch + 1
        satisfiedFeatures := ∅
        missingFeatures := ∅
        requestedFeatures := insert 0 scenarioEnd.requestedFeatures
        pendingFeatures := insert 0 scenarioEnd.requestedFeatures
        scheduledPasses := scenarioEnd.scheduledPasses + 1 } ∧
    setCurrentStatus scenarioEnd 12 =
      { scenarioEnd with
        currentStatus := 12
        epoch := scenarioEnd.epoch + 1
        satisfiedFeatures := ∅
        missingFeatures := ∅
        pendingFeatures := scenarioEnd.requestedFeatures
        statusReadyEmitted := scenarioEnd.statusReadyEmitted ++
          [(scenarioEnd.epoch + 1, 12)] } :=
  ⟨rfl, by decide, by decide,
    (setCurrentStatus_applied scenarioEnd 11 rfl).1 (by decide),
    (setCurrentStatus_applied scenarioEnd 12 rfl).2 (by decide)⟩

/-- C13: with a probe in flight, `setCurrentStatus(newStatus)` changes nothing
but `pendingStatusChange := true` and `pendingStatus := newStatus`.  What was
recorded before is overwritten: the result does not depend on the earlier
pending fields, so after any number of such calls the state is the one the last
call alone produces; and the report that then empties `inFlightFeatures`
applies the status of the last call. -/
theorem setCurrentStatus_deferred (s : Private) (newStatus : Nat)
    (h : s.inFlightFeatures ≠ ∅) :
    setCurrentStatus s newStatus =
      { s with pendingStatusChange := true, pendingStatus := newStatus } ∧
    (∀ (change : Bool) (status : Nat),
      setCurrentStatus { s with pendingStatusChange := change, pendingStatus := status }
        newStatus = setCurrentStatus s newStatus) ∧
    (∀ earlier : List Nat,
      setCurrentStatus (earlier.foldl setCurrentStatus s) newStatus =
        setCurrentStatus s newStatus) ∧
    (∀ (earlier : List Nat) (feature : Nat) (success : Bool),
      s.inFlightFeatures.erase feature = ∅ →
      setIntrospectCompleted (setCurrentStatus (earlier.foldl setCurrentStatus s) newStatus)
        feature success =
        some (setCurrentStatus
          { s with
            inFlightFeatures := ∅
            pendingStatusChange := false
            pendingStatus := newStatus } newStatus)) := by
  have h1 : ∀ t : Private, t.inFlightFeatures ≠ ∅ → ∀ n, setCurrentStatus t n =
      { t with pendingStatusChange := true, pendingStatus := n } := by
    intro t ht n
    simp only [setCurrentStatus, if_neg ht]
  have h2 : ∀ (t : Private) (change : Bool) (status n : Nat), t.inFlightFeatures ≠ ∅ →
      setCurrentStatus { t with pendingStatusChange := change, pendingStatus := status } n =
        setCurrentStatus t n := by
    intro t change status n ht
    rw [h1 t ht n, h1 { t with pendingStatusChange := change, pendingStatus := status } ht n]
  have h3 : ∀ (earlier : List Nat) (t : Private), t.inFlightFeatures ≠ ∅ →
      setCurrentStatus (earlier.foldl setCurrentStatus t) newStatus =
        setCurrentStatus t newStatus := by
    intro earlier
    induction earlier with
    | nil => intro t _; rfl
    | cons b l ih =>
      intro t ht
      rw [List.foldl_cons, ih (setCurrentStatus t b) (by rw [h1 t ht b]; exact ht),
        h1 t ht b]
      exact h2 t true b newStatus ht
  refine ⟨h1 s h newStatus, fun change status => h2 s change status newStatus h,
    fun earlier => h3 earlier s h, ?_⟩
  intro earlier feature success hd
  rw [h3 earlier s h, h1 s h newStatus, setIntrospectCompleted_pending _ _ _ rfl]
  simp only [hd, ne_eq, not_true_eq_false, if_false]

theorem setCurrentStatus_deferred_witness :
    scenarioProbing.inFlightFeatures ≠ ∅ ∧
    setCurrentStatus scenarioProbing 11 = scenarioRaceDeferred ∧
    setCurrentStatus (setCurrentStatus scenarioProbing 12) 11 = scenarioRaceDeferred ∧
    setIntrospectCompleted (setCurrentStatus (setCurrentStatus scenarioProbing 12) 11) 1 true =
      some scenarioRaceApplied := by
  have hne : scenarioProbing.inFlightFeatures ≠ ∅ := by decide
  have h := setCurrentStatus_deferred scenarioProbing 11 hne
  have hd : setCurrentStatus scenarioProbing 11 = scenarioRaceDeferred := by
    rw [h.1]; rfl
  have h2 := h.2.2.1 [12]
  simp only [List.foldl_cons, List.foldl_nil] at h2
  have ha : ∃ s, setIntrospectCompleted scenarioRaceDeferred 1 true = some s ∧
      s = scenarioRaceApplied := ⟨_, rfl, by ext1 <;> decide⟩
  obtain ⟨_, ha1, rfl⟩ := ha
  refine ⟨hne, hd, h2.trans hd, ?_⟩
  rw [h2, hd, ha1]

/-- C14: while a status change is pending, `setIntrospectCompleted(feature,
success)` removes `feature` from `inFlightFeatures`.  If a probe is still in
flight nothing else changes.  Otherwise the result is what
`setCurrentStatus(pendingStatus)` makes of the state with nothing in flight
and `pendingStatusChange` cleared: the pending status is the current one and
`satisfiedFeatures`, `missingFeatures` are empty.  The flag `success` plays no
part. -/
theorem setIntrospectCompleted_while_pending (s : Private) (feature : Nat) (success : Bool)
    (h : s.pendingStatusChange = true) :
    (s.inFlightFeatures.erase feature ≠ ∅ →
      setIntrospectCompleted s feature success =
        some { s with inFlightFeatures := s.inFlightFeatures.erase feature }) ∧
    (s.inFlightFeatures.erase feature = ∅ →
      setIntrospectCompleted s feature success =
        some (setCurrentStatus
          { s with inFlightFeatures := ∅, pendingStatusChange := false } s.pendingStatus) ∧
      ∀ s1, setIntrospectCompleted s feature success = some s1 →
        s1.pendingStatusChange = false ∧ s1.currentStatus = s.pendingStatus ∧
        s1.satisfiedFeatures = ∅ ∧ s1.missingFeatures = ∅ ∧ s1.inFlightFeatures = ∅) := by
  rw [setIntrospectCompleted_pending s feature success h]
  constructor
  · intro hne
    rw [if_pos hne]
  · intro he
    rw [if_neg (not_not.2 he), he]
    refine ⟨rfl, ?_⟩
    intro s1 hs1
    cases hs1
    simp only [setCurrentStatus, if_true]
    split_ifs <;> exact ⟨rfl, rfl, rfl, rfl, rfl⟩

theorem setIntrospectCompleted_while_pending_witness :
    scenarioRaceDeferred.pendingStatusChange = true ∧
    scenarioRaceDeferred.inFlightFeatures.erase 1 = ∅ ∧
    scenarioRaceDeferred.inFlightFeatures.erase 2 ≠ ∅ ∧
    setIntrospectCompleted scenarioRaceDeferred 2 false =
      some { scenarioRaceDeferred with
        inFlightFeatures := scenarioRaceDeferred.inFlightFeatures.erase 2 } ∧
    setIntrospectCompleted scenarioRaceDeferred 1 false =
      some (setCurrentStatus
        { scenarioRaceDeferred with inFlightFeatures := ∅, pendingStatusChange := false }
        scenarioRaceDeferred.pendingStatus) :=
  ⟨rfl, by decide, by decide,
    (setIntrospectCompleted_while_pending scenarioRaceDeferred 2 false rfl).1 (by decide),
    ((setIntrospectCompleted_while_pending scenarioRaceDeferred 1 false rfl).2 (by decide)).1⟩

/-- C17: with no status change pending, `setIntrospectCompleted(feature,
success)` fails on its assertions exactly when `feature` is not in
`pendingFeatures` or not in `inFlightFeatures`, and then yields no state;
otherwise it yields the old state with `feature` added to `satisfiedFeatures`
(success) or to `missingFeatures` (failure), removed from `pendingFeatures` and
`inFlightFeatures`, and one more pass scheduled. -/
theorem setIntrospectCompleted_contract (s : Private) (feature : Nat) (success : Bool)
    (h : s.pendingStatusChange = false) :
    (setIntrospectCompleted s feature success = none ↔
      feature ∉ s.pendingFeatures ∨ feature ∉ s.inFlightFeatures) ∧
    (feature ∈ s.pendingFeatures → feature ∈ s.inFlightFeatures →
      setIntrospectCompleted s feature success = some { s with
        satisfiedFeatures :=
          if success then insert feature s.satisfiedFeatures else s.satisfiedFeatures
        missingFeatures :=
          if success then s.missingFeatures else insert feature s.missingFeatures
        pendingFeatures := s.pendingFeatures.erase feature
        inFlightFeatures := s.inFlightFeatures.erase feature
        scheduledPasses := s.scheduledPasses + 1 }) := by
  refine ⟨⟨?_, setIntrospectCompleted_none s feature success h⟩,
    setIntrospectCompleted_normal s feature success h⟩
  intro hn
  by_contra hc
  rw [not_or, not_not, not_not] at hc
  rw [setIntrospectCompleted_normal s feature success h hc.1 hc.2] at hn
  cases hn

theorem setIntrospectCompleted_contract_witness :
    scenarioProbing.pendingStatusChange = false ∧
    setIntrospectCompleted scenarioProbing 2 true = none ∧
    setIntrospectCompleted scenarioProbing 1 false = some scenarioProbeFailed ∧
    (setIntrospectCompleted scenarioProbing 1 true = none ↔
      1 ∉ scenarioProbing.pendingFeatures ∨ 1 ∉ scenarioProbing.inFlightFeatures) :=
  ⟨rfl, ((setIntrospectCompleted_contract scenarioProbing 2 true rfl).1).2 (by decide),
    scenarioProbeFailed_report,
    (setIntrospectCompleted_contract scenarioProbing 1 true rfl).1⟩

theorem finishable_iff (s : Private) (operation : PendingReady) :
    finishable s operation = true ↔
      operation.requestedFeatures ⊆ s.satisfiedFeatures ∪ s.missingFeatures := by
  simp only [finishable, decide_eq_true_eq, Finset.sdiff_eq_empty_iff_subset]

theorem scenarioProbeFailedFired_reachable :
    Reachable scenarioRegistry 10 scenarioProbeFailedFired :=
  reachable_timer _ _ _
    (reachable_steps _ _ _ _
      (reachable_of_runCalls _ _ _ _ (by decide) scenarioProbing_run)
      (Steps.tail _ _ _ (Steps.refl _)
        (Step.report _ _ 1 false scenarioProbeFailed_report)))
    (by decide)

/-- C11: a pass run from a reachable state under a supported status calls
`setFinished()` (the successful completion; the engine has no other) on
exactly the outstanding handles whose requested set lies within
`satisfiedFeatures ∪ missingFeatures` as they are after the propagation step,
in list order, and removes exactly those from `pendingOperations`; the other
handles stay, in their order.  A handle all of whose features are missing is
among the finished ones. -/
theorem pass_finishes_decided_handles (registry : QMap) (status : Nat) (s s1 : Private)
    (enum : Finset Nat → List Nat) (hreach : Reachable registry status s)
    (hs : s.currentStatus ∈ s.supportedStatuses)
    (hp : iterateIntrospection enum s = some s1) :
    s1.pendingOperations =
      s.pendingOperations.filter (fun o => !finishable (afterPropagation s) o) ∧
    s1.finishedOperations = s.finishedOperations ++
      (s.pendingOperations.filter (finishable (afterPropagation s))).map PendingReady.ptr ∧
    (∀ o ∈ s.pendingOperations,
      (o.ptr ∈ s1.finishedOperations ↔
        o.requestedFeatures ⊆ s.satisfiedFeatures ∪
          propagateMissing s.introspectables s.missingFeatures) ∧
      (o ∈ s1.pendingOperations ↔
        ¬ o.requestedFeatures ⊆ s.satisfiedFeatures ∪
          propagateMissing s.introspectables s.missingFeatures) ∧
      (o.requestedFeatures ⊆ propagateMissing s.introspectables s.missingFeatures →
        o.ptr ∈ s1.finishedOperations ∧ o ∉ s1.pendingOperations)) ∧
    s1.pendingOperations.Sublist s.pendingOperations := by
  have hops := operationsInv_reachable registry status s hreach
  have hsame := sameOperations_afterFinish enum s s1 hp hs
  have heq := finishOperations_eq (afterPropagation s) hops.ptr_nodup
  have hpend : s1.pendingOperations =
      s.pendingOperations.filter (fun o => !finishable (afterPropagation s) o) := by
    rw [hsame.1]
    show (finishOperations (afterPropagation s)).pendingOperations = _
    rw [heq]; rfl
  have hfin : s1.finishedOperations = s.finishedOperations ++
      (s.pendingOperations.filter (finishable (afterPropagation s))).map PendingReady.ptr := by
    rw [hsame.2.1]
    show (finishOperations (afterPropagation s)).finishedOperations = _
    rw [heq]; rfl
  have hfa : ∀ o, finishable (afterPropagation s) o = true ↔
      o.requestedFeatures ⊆ s.satisfiedFeatures ∪
        propagateMissing s.introspectables s.missingFeatures :=
    fun o => finishable_iff (afterPropagation s) o
  have hmemfin : ∀ o ∈ s.pendingOperations, (o.ptr ∈ s1.finishedOperations ↔
      finishable (afterPropagation s) o = true) := by
    intro o ho
    rw [hfin, List.mem_append]
    constructor
    · rintro (h | h)
      · exact absurd h (hops.unfinished o ho)
      · obtain ⟨p, hp1, hp2⟩ := List.mem_map.1 h
        rw [List.mem_filter] at hp1
        have hpo : p = o := List.inj_on_of_nodup_map hops.ptr_nodup hp1.1 ho hp2
        rw [← hpo]; exact hp1.2
    · intro h
      exact Or.inr (List.mem_map.2 ⟨o, List.mem_filter.2 ⟨ho, h⟩, rfl⟩)
  have hmempend : ∀ o ∈ s.pendingOperations, (o ∈ s1.pendingOperations ↔
      ¬ finishable (afterPropagation s) o = true) := by
    intro o ho
    rw [hpend, List.mem_filter]
    simp only [ho, true_and, Bool.not_eq_true', Bool.not_eq_true]
  refine ⟨hpend, hfin, ?_, ?_⟩
  · intro o ho
    refine ⟨(hmemfin o ho).trans (hfa o), (hmempend o ho).trans (not_congr (hfa o)), ?_⟩
    intro hm
    have hf : finishable (afterPropagation s) o = true :=
      (hfa o).2 (hm.trans Finset.subset_union_right)
    exact ⟨(hmemfin o ho).2 hf, fun hc => (hmempend o ho).1 hc hf⟩
  · rw [hpend]
    exact List.filter_sublist _

theorem pass_finishes_decided_handles_witness :
    Reachable scenarioRegistry 10 scenarioProbeFailedFired ∧
    scenarioProbeFailedFired.currentStatus ∈ scenarioProbeFailedFired.supportedStatuses ∧
    iterateIntrospection ascending scenarioProbeFailedFired = some scenarioProbeFailedEnd ∧
    scenarioProbeFailedFired.pendingOperations = [{ ptr := 0, requestedFeatures := {1, 2} }] ∧
    ({1, 2} : Finset Nat) ⊆ propagateMissing scenarioProbeFailedFired.introspectables
      scenarioProbeFailedFired.missingFeatures ∧
    scenarioProbeFailedEnd.pendingOperations =
      scenarioProbeFailedFired.pendingOperations.filter
        (fun o => !finishable (afterPropagation scenarioProbeFailedFired) o) ∧
    scenarioProbeFailedEnd.finishedOperations = scenarioProbeFailedFired.finishedOperations ++
      (scenarioProbeFailedFired.pendingOperations.filter
        (finishable (afterPropagation scenarioProbeFailedFired))).map PendingReady.ptr :=
  ⟨scenarioProbeFailedFired_reachable, by decide, scenarioProbeFailedEnd_pass, rfl, by decide,
    (pass_finishes_decided_handles scenarioRegistry 10 scenarioProbeFailedFired
      scenarioProbeFailedEnd ascending scenarioProbeFailedFired_reachable (by decide)
      scenarioProbeFailedEnd_pass).1,
    (pass_finishes_decided_handles scenarioRegistry 10 scenarioProbeFailedFired
      scenarioProbeFailedEnd ascending scenarioProbeFailedFired_reachable (by decide)
      scenarioProbeFailedEnd_pass).2.1⟩

theorem setCurrentStatus_probes (s : Private) (newStatus : Nat) :
    (setCurrentStatus s newStatus).probesInvoked = s.probesInvoked := by
  dsimp only [setCurrentStatus]
  split_ifs <;> rfl

theorem setIntrospectCompleted_probes (s s1 : Private) (feature : Nat) (success : Bool)
    (h : setIntrospectCompleted s feature success = some s1) :
    s1.probesInvoked = s.probesInvoked := by
  cases hp : s.pendingStatusChange with
  | true =>
    rw [setIntrospectCompleted_pending s feature success hp] at h
    split_ifs at h
    · cases h; rfl
    · cases h; exact setCurrentStatus_probes _ _
  | false =>
    by_cases h2 : feature ∈ s.pendingFeatures ∧ feature ∈ s.inFlightFeatures
    · rw [setIntrospectCompleted_normal s feature success hp h2.1 h2.2] at h
      cases h; rfl
    · rw [setIntrospectCompleted_none s feature success hp (not_and_or.1 h2)] at h
      cases h

/-- Every probe call the loop records meets the conditions of a probe call,
read in the state `b` the loop started from, and no feature is probed twice. -/
theorem introspectLoop_probes (b : Private) (l : List Nat) (st : Private)
    (new : List (Nat × Nat)) (hinv : Inv st) (hl : ∀ f ∈ l, Eligible st f)
    (hframe : LoopFrame b st) (hnew : st.probesInvoked = b.probesInvoked ++ new)
    (hok : ∀ p ∈ new, ProbeAllowed b p ∧ p.2 ∈ st.inFlightFeatures)
    (hnodup : (new.map Prod.snd).Nodup) (s1 : Private)
    (h : introspectLoop st l = some s1) :
    ∃ new1, s1.probesInvoked = b.probesInvoked ++ new1 ∧
      (∀ p ∈ new1, ProbeAllowed b p) ∧ (new1.map Prod.snd).Nodup := by
  induction l generalizing st new with
  | nil =>
    cases h
    exact ⟨new, hnew, fun p hp => (hok p hp).1, hnodup⟩
  | cons feature rest ih =>
    have he := hl feature (List.mem_cons_self _ _)
    have hrest : ∀ f ∈ rest, Eligible st f := fun f hf => hl f (List.mem_cons_of_mem _ hf)
    have hmark := inv_markInFlight st hinv feature he
    rw [introspectLoop_cons] at h
    by_cases h1 : feature ∈ st.inFlightFeatures
    · rw [if_pos h1] at h
      exact ih st new hinv hrest hframe hnew hok hnodup h
    rw [if_neg h1] at h
    by_cases h2 : st.currentStatus ∉ (st.introspectables.value feature).makesSenseForStatuses
    · rw [if_pos h2] at h
      refine ⟨new, ?_, fun p hp => (hok p hp).1, hnodup⟩
      rw [setIntrospectCompleted_probes _ _ _ _ h]
      exact hnew
    rw [if_neg h2] at h
    by_cases h3 : feature ≠ 0 ∧
        ∃ interface ∈ (st.introspectables.value feature).dependsOnInterfaces,
          interface ∉ st.interfaces
    · rw [if_pos h3] at h
      refine ⟨new, ?_, fun p hp => (hok p hp).1, hnodup⟩
      rw [setIntrospectCompleted_probes _ _ _ _ h]
      exact hnew
    rw [if_neg h3] at h
    have hallowed : ProbeAllowed b (st.epoch, feature) := by
      refine ⟨hframe.epoch, ?_, ?_, ?_, ?_, ?_, ?_, ?_⟩
      · rw [← hframe.pending]; exact he.1
      · rw [← hframe.satisfied]; exact he.2.1
      · rw [← hframe.missing]; exact he.2.2.1
      · exact fun hc => h1 (hframe.inFlight hc)
      · have hd : dependencies b feature = dependencies st feature := by
          simp only [dependencies, hframe.value]
        rw [hd, ← hframe.satisfied]
        exact he.2.2.2
      · rw [← hframe.value, ← hframe.status]
        exact not_not.1 h2
      · rw [← hframe.value, ← hframe.interfaces]
        by_cases h0 : feature = 0
        · exact Or.inl h0
        · right
          intro interface hi
          by_contra hc
          exact h3 ⟨h0, interface, hi, hc⟩
    apply ih (invokeProbe (markInFlight st feature) feature) (new ++ [(st.epoch, feature)])
      (inv_invokeProbe _ hmark feature)
      (fun f hf => eligible_invokeProbe_markInFlight st hinv feature f (hrest f hf))
    · exact
        { satisfied := hframe.satisfied
          missing := hframe.missing
          requested := hframe.requested
          pending := hframe.pending
          status := hframe.status
          interfaces := hframe.interfaces
          epoch := hframe.epoch
          inFlight := hframe.inFlight.trans (Finset.subset_insert _ _)
          value := fun f => by
            show QMap.value (QMap.touch st.introspectables feature) f = _
            rw [QMap.touch_value _ _ _ hinv.wf, hframe.value] }
    · show st.probesInvoked ++ [(st.epoch, feature)] = _
      rw [hnew, List.append_assoc]
    · intro p hp
      rw [List.mem_append, List.mem_singleton] at hp
      rcases hp with hp | rfl
      · exact ⟨(hok p hp).1, Finset.mem_insert_of_mem (hok p hp).2⟩
      · exact ⟨hallowed, Finset.mem_insert_self _ _⟩
    · rw [List.map_append, List.map_cons, List.map_nil, List.nodup_append]
      refine ⟨hnodup, List.nodup_singleton _, ?_⟩
      intro a ha hb
      rw [List.mem_singleton] at hb
      subst hb
      obtain ⟨p, hp, hpa⟩ := List.mem_map.1 ha
      exact h1 (hpa ▸ (hok p hp).2)
    · exact h

theorem loopFrame_refl (b : Private) : LoopFrame b b :=
  ⟨Eq.refl _, Eq.refl _, Eq.refl _, Eq.refl _, Eq.refl _, Eq.refl _, Eq.refl _,
    Finset.Subset.refl _, fun _ => Eq.refl _⟩

/-- The fields of the state before the loop, in terms of the state the pass
started from. -/
theorem beforeLoop_fields (enum : Finset Nat → List Nat) (s : Private) (h : Inv s) :
    (beforeLoop enum s).satisfiedFeatures = s.satisfiedFeatures ∧
    (beforeLoop enum s).missingFeatures =
      propagateMissing s.introspectables s.missingFeatures ∧
    (beforeLoop enum s).requestedFeatures = s.requestedFeatures ∧
    (beforeLoop enum s).pendingFeatures = s.pendingFeatures \
      (s.satisfiedFeatures ∪ propagateMissing s.introspectables s.missingFeatures) ∧
    (beforeLoop enum s).inFlightFeatures = s.inFlightFeatures ∧
    (beforeLoop enum s).currentStatus = s.currentStatus ∧
    (beforeLoop enum s).interfaces = s.interfaces ∧
    (beforeLoop enum s).epoch = s.epoch ∧
    (beforeLoop enum s).probesInvoked = s.probesInvoked ∧
    (beforeLoop enum s).pendingStatusChange = s.pendingStatusChange ∧
    (beforeLoop enum s).scheduledPasses = s.scheduledPasses ∧
    (beforeLoop enum s).statusReadyEmitted = s.statusReadyEmitted ∧
    ∀ f, (beforeLoop enum s).introspectables.value f = s.introspectables.value f := by
  have hv : ∀ f, (beforeLoop enum s).introspectables.value f =
      (afterPending s).introspectables.value f :=
    fun f => (findReady_spec _ (inv_afterPending s h).wf _ _).2.1 f
  obtain ⟨operations, finished, hfo⟩ := afterFinish_frame s
  refine ⟨?_, ?_, ?_, ?_, ?_, ?_, ?_, ?_, ?_, ?_, ?_, ?_, ?_⟩
  case _ : ∀ _, _ = _ =>
    intro f
    rw [hv f, afterPending_introspectables]
  all_goals
    simp only [beforeLoop, afterPending]
    rw [hfo]
    rfl


theorem afterFinish_probes (s : Private) :
    (afterFinish s).probesInvoked = s.probesInvoked := by
  obtain ⟨operations, finished, hfo⟩ := afterFinish_frame s
  rw [hfo]
  rfl

theorem scenarioRaceNoOp_run :
    (construct 10 scenarioRegistry).bind (runCalls [.interfaces ["Iface1"], .request {1, 2},
      .timer, .timer, .report 0 true, .timer, .status 11, .report 1 true, .timer,
      .report 0 true, .timer]) = some scenarioRaceNoOp := by
  have h : ∃ s, (construct 10 scenarioRegistry).bind (runCalls [.interfaces ["Iface1"],
      .request {1, 2}, .timer, .timer, .report 0 true, .timer, .status 11, .report 1 true,
      .timer, .report 0 true, .timer]) = some s ∧
      s = scenarioRaceNoOp := ⟨_, rfl, by ext1 <;> decide⟩
  obtain ⟨s, h1, h2⟩ := h
  rw [h1, h2]

/-- C20: in a pass run from a reachable state, the probe callbacks invoked are
recorded after those of before, each feature at most once, and each such
feature `f` is, in the state the pass started from, in `requestedFeatures`, out
of `satisfiedFeatures`, out of `missingFeatures` (also as the propagation step
of this pass extends it), out of `inFlightFeatures`, with every feature
dependency in `satisfiedFeatures`, with `currentStatus` among its meaningful
statuses, and is feature 0 or has every required interface known.  No feature
probed in the pass is a dependency of another probed in it.  The loop skips a
feature that is in flight, so that none is put in flight twice. -/
theorem probe_conditions (registry : QMap) (status : Nat) (s s1 : Private)
    (enum : Finset Nat → List Nat) (hreach : Reachable registry status s)
    (henum : IsEnum enum) (hp : iterateIntrospection enum s = some s1) :
    (∃ new : List (Nat × Nat), s1.probesInvoked = s.probesInvoked ++ new ∧
      (new.map Prod.snd).Nodup ∧
      (∀ p ∈ new, p.1 = s.epoch ∧ p.2 ∈ s.requestedFeatures ∧
        p.2 ∉ s.satisfiedFeatures ∧ p.2 ∉ s.missingFeatures ∧
        p.2 ∉ propagateMissing s.introspectables s.missingFeatures ∧
        p.2 ∉ s.inFlightFeatures ∧
        dependencies s p.2 ⊆ s.satisfiedFeatures ∧
        s.currentStatus ∈ (s.introspectables.value p.2).makesSenseForStatuses ∧
        (p.2 = 0 ∨ ∀ interface ∈ (s.introspectables.value p.2).dependsOnInterfaces,
          interface ∈ s.interfaces)) ∧
      ∀ p ∈ new, ∀ q ∈ new, q.2 ∉ dependencies s p.2) ∧
    ∀ (st : Private) (feature : Nat) (rest : List Nat), feature ∈ st.inFlightFeatures →
      introspectLoop st (feature :: rest) = introspectLoop st rest := by
  have hinv := inv_reachable registry status s hreach
  refine ⟨?_, fun st feature rest hf => by rw [introspectLoop_cons, if_pos hf]⟩
  have key : ∃ new : List (Nat × Nat), s1.probesInvoked = s.probesInvoked ++ new ∧
      (new.map Prod.snd).Nodup ∧ ∀ p ∈ new, ProbeAllowed (beforeLoop enum s) p := by
    by_cases c1 : s.currentStatus ∈ s.supportedStatuses
    · by_cases c2 : (afterFinish s).requestedFeatures ⊆
          (afterFinish s).satisfiedFeatures ∪ (afterFinish s).missingFeatures
      · rw [iterateIntrospection_decided enum s c1 c2] at hp
        cases hp
        refine ⟨[], ?_, List.nodup_nil, fun p hp => absurd hp (List.not_mem_nil _)⟩
        rw [List.append_nil]
        exact afterFinish_probes s
      · rw [iterateIntrospection_undecided enum s c1 c2] at hp
        obtain ⟨new, h1, h2, h3⟩ := introspectLoop_probes (beforeLoop enum s)
          (enum (readyToIntrospect enum s)) (beforeLoop enum s) []
          (inv_beforeLoop enum s hinv)
          (fun f hf => eligible_readyToIntrospect enum (fun features x hx =>
            ((henum features).2 x).1 hx) s hinv f (((henum _).2 f).1 hf))
          (loopFrame_refl _) (List.append_nil _).symm
          (fun p hp => absurd hp (List.not_mem_nil _)) List.nodup_nil s1 hp
        refine ⟨new, ?_, h3, h2⟩
        rw [h1, (beforeLoop_fields enum s hinv).2.2.2.2.2.2.2.2.1]
    · rw [iterateIntrospection_unsupported enum s c1] at hp
      cases hp
      exact ⟨[], (List.append_nil _).symm, List.nodup_nil,
        fun p hp => absurd hp (List.not_mem_nil _)⟩
  obtain ⟨new, h1, h2, h3⟩ := key
  obtain ⟨b1, b2, b3, b4, b5, b6, b7, b8, -, -, -, -, b13⟩ := beforeLoop_fields enum s hinv
  have hall : ∀ p ∈ new, p.1 = s.epoch ∧ p.2 ∈ s.requestedFeatures ∧
      p.2 ∉ s.satisfiedFeatures ∧ p.2 ∉ s.missingFeatures ∧
      p.2 ∉ propagateMissing s.introspectables s.missingFeatures ∧
      p.2 ∉ s.inFlightFeatures ∧
      dependencies s p.2 ⊆ s.satisfiedFeatures ∧
      s.currentStatus ∈ (s.introspectables.value p.2).makesSenseForStatuses ∧
      (p.2 = 0 ∨ ∀ interface ∈ (s.introspectables.value p.2).dependsOnInterfaces,
        interface ∈ s.interfaces) := by
    intro p hp
    obtain ⟨a1, a2, a3, a4, a5, a6, a7, a8⟩ := h3 p hp
    have hd : dependencies (beforeLoop enum s) p.2 = dependencies s p.2 := by
      simp only [dependencies, b13]
    rw [b4] at a2
    rw [b1] at a3 a6
    rw [b2] at a4
    rw [b5] at a5
    rw [hd] at a6
    rw [b6, b13] at a7
    rw [b13, b7] at a8
    exact ⟨a1.trans b8, hinv.pending_requested (Finset.mem_sdiff.1 a2).1, a3,
      fun hc => a4 (propagateMissing_superset _ _ hc), a4, a5, a6, a7, a8⟩
  exact ⟨new, h1, h2, hall, fun p hp q hq hc =>
    (hall q hq).2.2.1 ((hall p hp).2.2.2.2.2.2.1 hc)⟩

theorem probe_conditions_witness :
    Reachable scenarioRegistry 10
      { scenarioRaceNoOp with scheduledPasses := scenarioRaceNoOp.scheduledPasses - 1 } ∧
    IsEnum ascending ∧
    iterateIntrospection ascending
      { scenarioRaceNoOp with scheduledPasses := scenarioRaceNoOp.scheduledPasses - 1 } =
      some scenarioRaceProbing ∧
    scenarioRaceProbing.probesInvoked = scenarioRaceNoOp.probesInvoked ++ [(1, 2)] ∧
    ∃ new : List (Nat × Nat),
      scenarioRaceProbing.probesInvoked = scenarioRaceNoOp.probesInvoked ++ new ∧
      (new.map Prod.snd).Nodup ∧
      (∀ p ∈ new, p.1 = scenarioRaceNoOp.epoch ∧ p.2 ∈ scenarioRaceNoOp.requestedFeatures ∧
        p.2 ∉ scenarioRaceNoOp.satisfiedFeatures ∧ p.2 ∉ scenarioRaceNoOp.missingFeatures ∧
        p.2 ∉ propagateMissing scenarioRaceNoOp.introspectables
          scenarioRaceNoOp.missingFeatures ∧
        p.2 ∉ scenarioRaceNoOp.inFlightFeatures ∧
        dependencies scenarioRaceNoOp p.2 ⊆ scenarioRaceNoOp.satisfiedFeatures ∧
        scenarioRaceNoOp.currentStatus ∈
          (scenarioRaceNoOp.introspectables.value p.2).makesSenseForStatuses ∧
        (p.2 = 0 ∨ ∀ interface ∈
          (scenarioRaceNoOp.introspectables.value p.2).dependsOnInterfaces,
          interface ∈ scenarioRaceNoOp.interfaces)) ∧
      ∀ p ∈ new, ∀ q ∈ new, q.2 ∉ dependencies scenarioRaceNoOp p.2 :=
  have hr : Reachable scenarioRegistry 10
      { scenarioRaceNoOp with scheduledPasses := scenarioRaceNoOp.scheduledPasses - 1 } :=
    reachable_timer _ _ _ (reachable_of_runCalls _ _ _ _ (by decide) scenarioRaceNoOp_run)
      (by decide)
  have hpass : iterateIntrospection ascending
      { scenarioRaceNoOp with scheduledPasses := scenarioRaceNoOp.scheduledPasses - 1 } =
      some scenarioRaceProbing := by
    have h : ∃ s, iterateIntrospection ascending
        { scenarioRaceNoOp with scheduledPasses := scenarioRaceNoOp.scheduledPasses - 1 } =
        some s ∧ s = scenarioRaceProbing := ⟨_, rfl, by ext1 <;> decide⟩
    obtain ⟨s, h1, h2⟩ := h
    rw [h1, h2]
  ⟨hr, isEnum_ascending, hpass, by decide,
    (probe_conditions scenarioRegistry 10 _ scenarioRaceProbing ascending hr
      isEnum_ascending hpass).1⟩

/-- A pass run while a status change is pending keeps it pending: what was in
flight stays in flight. -/
theorem iterateIntrospection_while_pending (enum : Finset Nat → List Nat)
    (henum : ∀ features x, x ∈ enum features → x ∈ features) (s s1 : Private)
    (hinv : Inv s) (hpend : s.pendingStatusChange = true)
    (hp : iterateIntrospection enum s = some s1) :
    s1.pendingStatusChange = true ∧ s1.pendingStatus = s.pendingStatus ∧
      s.inFlightFeatures ⊆ s1.inFlightFeatures := by
  have hfin : (afterFinish s).pendingStatusChange = true ∧
      (afterFinish s).pendingStatus = s.pendingStatus ∧
      s.inFlightFeatures ⊆ (afterFinish s).inFlightFeatures := by
    obtain ⟨operations, finished, hfo⟩ := afterFinish_frame s
    rw [hfo]
    exact ⟨hpend, rfl, Finset.Subset.refl _⟩
  obtain ⟨s2, h2, _, hC⟩ := iterateIntrospection_induction
    (fun st => st.pendingStatusChange = true ∧ st.pendingStatus = s.pendingStatus ∧
      s.inFlightFeatures ⊆ st.inFlightFeatures)
    enum henum s hinv ⟨hpend, rfl, Finset.Subset.refl _⟩ (fun _ => hfin)
    (fun _ hc _ => hc) (fun _ hc => hc)
    (fun st feature success st1 hi _ hnf hc _ _ hs => by
      have hne : (markInFlight st feature).inFlightFeatures.erase feature ≠ ∅ := by
        show (insert feature st.inFlightFeatures).erase feature ≠ ∅
        rw [Finset.erase_insert hnf]
        exact hi.pending_inFlight hc.1
      rw [setIntrospectCompleted_pending (markInFlight st feature) feature success hc.1,
        if_pos hne] at hs
      cases hs
      refine ⟨hc.1, hc.2.1, ?_⟩
      show s.inFlightFeatures ⊆ (insert feature st.inFlightFeatures).erase feature
      rw [Finset.erase_insert hnf]
      exact hc.2.2)
    (fun st feature _ _ _ hc _ _ =>
      ⟨hc.1, hc.2.1, hc.2.2.trans (Finset.subset_insert _ _)⟩)
  rw [hp] at h2
  cases h2
  exact hC

/-- One step taken while a status change is pending either keeps it pending,
in the same epoch, or is the report that empties `inFlightFeatures`. -/
theorem step_while_pending (t t1 : Private) (hinv : Inv t)
    (hpend : t.pendingStatusChange = true) (hstep : Step t t1) :
    (t1.pendingStatusChange = true ∧ t1.epoch = t.epoch ∧
      t1.currentStatus = t.currentStatus ∧
      t.satisfiedFeatures ⊆ t1.satisfiedFeatures ∧
      t.missingFeatures ⊆ t1.missingFeatures ∧ t1.inFlightFeatures ≠ ∅ ∧
      (t1.pendingStatus = t.pendingStatus ∨ ∃ newStatus, t1 = setCurrentStatus t newStatus)) ∨
    (∃ feature success, setIntrospectCompleted t feature success = some t1 ∧
      t.inFlightFeatures.erase feature = ∅ ∧ t1.pendingStatusChange = false ∧
      t1.epoch = t.epoch + 1 ∧ t1.currentStatus = t.pendingStatus ∧
      t1.satisfiedFeatures = ∅ ∧ t1.missingFeatures = ∅) := by
  have hne := hinv.pending_inFlight hpend
  cases hstep with
  | status newStatus =>
    left
    have h1 : setCurrentStatus t newStatus =
        { t with pendingStatusChange := true, pendingStatus := newStatus } := by
      simp only [setCurrentStatus, if_neg hne]
    refine ⟨?_, ?_, ?_, ?_, ?_, ?_, Or.inr ⟨newStatus, rfl⟩⟩
    all_goals rw [h1]
    exact hne
  | interfaces names =>
    left
    exact ⟨hpend, rfl, rfl, Finset.Subset.refl _, Finset.Subset.refl _, hne, Or.inl rfl⟩
  | request features =>
    left
    dsimp only [becomeReady]
    split
    · exact ⟨hpend, rfl, rfl, Finset.Subset.refl _, Finset.Subset.refl _, hne, Or.inl rfl⟩
    · exact ⟨hpend, rfl, rfl, Finset.Subset.refl _, Finset.Subset.refl _, hne, Or.inl rfl⟩
  | report _ feature success hr =>
    have hr0 := hr
    rw [setIntrospectCompleted_pending t feature success hpend] at hr
    by_cases he : t.inFlightFeatures.erase feature ≠ ∅
    · left
      rw [if_pos he] at hr
      cases hr
      exact ⟨hpend, rfl, rfl, Finset.Subset.refl _, Finset.Subset.refl _, he, Or.inl rfl⟩
    · right
      rw [if_neg he] at hr
      cases hr
      refine ⟨feature, success, hr0, not_not.1 he, ?_⟩
      simp only [setCurrentStatus, not_not.1 he, if_true]
      split_ifs <;> exact ⟨rfl, rfl, rfl, rfl, rfl⟩
  | timer ht =>
    left
    exact ⟨hpend, rfl, rfl, Finset.Subset.refl _, Finset.Subset.refl _, hne, Or.inl rfl⟩
  | pass _ enum henum hp =>
    left
    have hmem : ∀ features x, x ∈ enum features → x ∈ features :=
      fun features x hx => ((henum features).2 x).1 hx
    have hep := iterateIntrospection_epoch enum hmem t t1 hinv hp
    have hm := mono_iterateIntrospection enum t t1 hp
    obtain ⟨p1, p2, p3⟩ := iterateIntrospection_while_pending enum hmem t t1 hinv hpend hp
    refine ⟨p1, hep, hm.status hep, hm.satisfied hep, hm.missing hep, ?_, Or.inl p2⟩
    intro hc
    apply hne
    rw [← Finset.subset_empty, ← hc]
    exact p3

/-- Reports delivered while a status change is pending have the same effect
whatever their success flags: call sequences that differ only there run alike. -/
theorem runCallsWith_staleFlags (enum : Finset Nat → List Nat) (calls calls1 : List Call)
    (s : Private) (h : sameUpToStaleFlags enum s calls calls1 = true) :
    runCallsWith enum calls s = runCallsWith enum calls1 s := by
  induction calls generalizing s calls1 with
  | nil =>
    cases calls1 with
    | nil => rfl
    | cons call1 calls1 => simp [sameUpToStaleFlags] at h
  | cons call calls ih =>
    cases calls1 with
    | nil => simp [sameUpToStaleFlags] at h
    | cons call1 calls1 =>
      rw [sameUpToStaleFlags, Bool.and_eq_true] at h
      obtain ⟨h1, h2⟩ := h
      have hrun : call.runWith enum s = call1.runWith enum s := by
        rw [Bool.or_eq_true, Bool.and_eq_true] at h1
        rcases h1 with h1 | ⟨hp, hsame⟩
        · rw [of_decide_eq_true h1]
        · cases call <;> cases call1 <;> simp only [Call.sameReport] at hsame <;>
            try exact absurd hsame (by decide)
          rename_i feature success feature1 success1
          have hf : feature = feature1 := by simpa using hsame
          subst hf
          show setIntrospectCompleted s feature success =
            setIntrospectCompleted s feature success1
          rw [setIntrospectCompleted_pending s feature success hp,
            setIntrospectCompleted_pending s feature success1 hp]
      show (call.runWith enum s).bind (runCallsWith enum calls) =
        (call1.runWith enum s).bind (runCallsWith enum calls1)
      rw [← hrun]
      cases hc : call.runWith enum s with
      | none => rfl
      | some s1 =>
        rw [hc] at h2
        exact ih calls1 s1 h2


theorem steps_of_runWith (enum : Finset Nat → List Nat) (henum : IsEnum enum) (call : Call)
    (s s1 : Private) (h : call.runWith enum s = some s1) : Steps s s1 := by
  cases call with
  | status newStatus =>
    cases h
    exact Steps.tail _ _ _ (Steps.refl s) (Step.status s newStatus)
  | interfaces names =>
    cases h
    exact Steps.tail _ _ _ (Steps.refl s) (Step.interfaces s names)
  | request features =>
    cases h
    exact Steps.tail _ _ _ (Steps.refl s) (Step.request s features)
  | report feature success =>
    exact Steps.tail _ _ _ (Steps.refl s) (Step.report s s1 feature success h)
  | timer =>
    simp only [Call.runWith, runScheduledPass] at h
    by_cases h0 : s.scheduledPasses = 0
    · rw [if_pos h0] at h; cases h
    · rw [if_neg h0] at h
      exact Steps.tail _ _ _
        (Steps.tail _ _ _ (Steps.refl s) (Step.timer s (Nat.pos_of_ne_zero h0)))
        (Step.pass _ s1 enum henum h)

theorem steps_of_runCallsWith (enum : Finset Nat → List Nat) (henum : IsEnum enum)
    (calls : List Call) (s s1 : Private) (h : runCallsWith enum calls s = some s1) :
    Steps s s1 := by
  induction calls generalizing s with
  | nil => cases h; exact Steps.refl _
  | cons call calls ih =>
    simp only [runCallsWith] at h
    cases hc : call.runWith enum s with
    | none => rw [hc] at h; cases h
    | some s2 =>
      rw [hc] at h
      exact steps_trans s s2 s1 (steps_of_runWith enum henum call s s2 hc) (ih s2 h)

/-- One call other than `setCurrentStatus`, made while a status change is
pending, either keeps it pending with the same pending status, in the same
epoch, or is the report that empties `inFlightFeatures` and applies it. -/
theorem runWith_while_pending (enum : Finset Nat → List Nat) (henum : IsEnum enum)
    (call : Call) (t t1 : Private) (hinv : Inv t) (hpend : t.pendingStatusChange = true)
    (hns : ∀ newStatus, call ≠ .status newStatus) (hrun : call.runWith enum t = some t1) :
    (t1.epoch = t.epoch ∧ t1.pendingStatusChange = true ∧ t1.pendingStatus = t.pendingStatus) ∨
    ((∃ feature success, call = .report feature success) ∧ t1.epoch = t.epoch + 1 ∧
      t1.pendingStatusChange = false ∧ t1.currentStatus = t.pendingStatus ∧
      t1.satisfiedFeatures = ∅ ∧ t1.missingFeatures = ∅) := by
  cases call with
  | status newStatus => exact absurd rfl (hns newStatus)
  | interfaces names =>
    cases hrun
    exact Or.inl ⟨rfl, hpend, rfl⟩
  | request features =>
    cases hrun
    left
    dsimp only [becomeReady]
    split
    · exact ⟨rfl, hpend, rfl⟩
    · exact ⟨rfl, hpend, rfl⟩
  | report feature success =>
    change setIntrospectCompleted t feature success = some t1 at hrun
    rw [setIntrospectCompleted_pending t feature success hpend] at hrun
    by_cases he : t.inFlightFeatures.erase feature ≠ ∅
    · rw [if_pos he] at hrun
      cases hrun
      exact Or.inl ⟨rfl, hpend, rfl⟩
    · rw [if_neg he] at hrun
      cases hrun
      refine Or.inr ⟨⟨feature, success, rfl⟩, ?_⟩
      simp only [setCurrentStatus, not_not.1 he, if_true]
      split_ifs <;> exact ⟨rfl, rfl, rfl, rfl, rfl⟩
  | timer =>
    simp only [Call.runWith, runScheduledPass] at hrun
    by_cases h0 : t.scheduledPasses = 0
    · rw [if_pos h0] at hrun; cases hrun
    · rw [if_neg h0] at hrun
      have hmem : ∀ features x, x ∈ enum features → x ∈ features :=
        fun features x hx => ((henum features).2 x).1 hx
      have hinv1 : Inv { t with scheduledPasses := t.scheduledPasses - 1 } :=
        inv_step _ _ hinv (Step.timer t (Nat.pos_of_ne_zero h0))
      have hep := iterateIntrospection_epoch enum hmem _ t1 hinv1 hrun
      obtain ⟨p1, p2, _⟩ := iterateIntrospection_while_pending enum hmem _ t1 hinv1 hpend hrun
      exact Or.inl ⟨hep, p1, p2⟩

/-- Calls other than `setCurrentStatus`, made while a status change is
pending: as long as the epoch is the one of the start, the change is still
pending with the same pending status, `currentStatus` is unchanged and
`satisfiedFeatures`, `missingFeatures` have lost nothing. -/
theorem runCallsWith_while_pending (enum : Finset Nat → List Nat) (henum : IsEnum enum)
    (calls : List Call) (t t0 : Private) (hinv : Inv t)
    (hpend : t.pendingStatusChange = true)
    (hns : ∀ call ∈ calls, ∀ newStatus, call ≠ .status newStatus)
    (hrun : runCallsWith enum calls t = some t0) (hep : t0.epoch = t.epoch) :
    Inv t0 ∧ t0.pendingStatusChange = true ∧ t0.pendingStatus = t.pendingStatus ∧
      t0.currentStatus = t.currentStatus ∧ t.satisfiedFeatures ⊆ t0.satisfiedFeatures ∧
      t.missingFeatures ⊆ t0.missingFeatures ∧ t0.inFlightFeatures ≠ ∅ := by
  have hsteps := steps_of_runCallsWith enum henum calls t t0 hrun
  have hm := mono_steps t t0 hsteps
  have hinv0 := inv_steps t t0 hinv hsteps
  have key : t0.pendingStatusChange = true ∧ t0.pendingStatus = t.pendingStatus := by
    clear hsteps hm hinv0
    induction calls generalizing t with
    | nil => cases hrun; exact ⟨hpend, rfl⟩
    | cons call calls ih =>
      simp only [runCallsWith] at hrun
      cases hc : call.runWith enum t with
      | none => rw [hc] at hrun; cases hrun
      | some t1 =>
        rw [hc] at hrun
        have hinv1 := inv_steps t t1 hinv (steps_of_runWith enum henum call t t1 hc)
        have hle1 := (mono_steps t t1 (steps_of_runWith enum henum call t t1 hc)).epoch_le
        have hle2 := (mono_steps t1 t0 (steps_of_runCallsWith enum henum calls t1 t0 hrun)).epoch_le
        rcases runWith_while_pending enum henum call t t1 hinv hpend
          (hns call (List.mem_cons_self _ _)) hc with ⟨e1, e2, e3⟩ | ⟨_, e1, _⟩
        · obtain ⟨k1, k2⟩ := ih t1 hinv1 e2
            (fun c hc => hns c (List.mem_cons_of_mem _ hc)) hrun (hep.trans e1.symm)
          exact ⟨k1, k2.trans e3⟩
        · omega
  exact ⟨hinv0, key.1, key.2, hm.status hep, hm.satisfied hep, hm.missing hep,
    hinv0.pending_inFlight key.1⟩


/-- C15: let `setCurrentStatus(newStatus)` be called in a reachable state with
a probe in flight.  (1) The call changes neither `currentStatus` nor
`satisfiedFeatures`, `missingFeatures`, `inFlightFeatures` or the epoch; it
records the pending change.  (2) After any calls other than `setCurrentStatus`
that leave the epoch as it was, the change is still pending with status
`newStatus`, `currentStatus` is the old one, `satisfiedFeatures` and
`missingFeatures` have lost nothing and a probe is still in flight; and the
next such call that changes the epoch is a report, after which `currentStatus`
is `newStatus` and `satisfiedFeatures`, `missingFeatures` are empty.  (3) Any
step taken while the change is pending keeps it pending in the same epoch, or
is the report that empties `inFlightFeatures`.  (4) Two call sequences that
differ only in the success flags of reports delivered while a change is
pending reach the same state. -/
theorem status_race (registry : QMap) (status : Nat) (s : Private) (newStatus : Nat)
    (enum : Finset Nat → List Nat) (hreach : Reachable registry status s)
    (henum : IsEnum enum) (hin : s.inFlightFeatures ≠ ∅) :
    ((setCurrentStatus s newStatus).currentStatus = s.currentStatus ∧
      (setCurrentStatus s newStatus).satisfiedFeatures = s.satisfiedFeatures ∧
      (setCurrentStatus s newStatus).missingFeatures = s.missingFeatures ∧
      (setCurrentStatus s newStatus).inFlightFeatures = s.inFlightFeatures ∧
      (setCurrentStatus s newStatus).epoch = s.epoch ∧
      (setCurrentStatus s newStatus).pendingStatusChange = true ∧
      (setCurrentStatus s newStatus).pendingStatus = newStatus) ∧
    (∀ (calls : List Call) (t0 : Private),
      (∀ call ∈ calls, ∀ other, call ≠ .status other) →
      runCallsWith enum calls (setCurrentStatus s newStatus) = some t0 →
      t0.epoch = s.epoch →
      (t0.pendingStatusChange = true ∧ t0.pendingStatus = newStatus ∧
        t0.currentStatus = s.currentStatus ∧
        s.satisfiedFeatures ⊆ t0.satisfiedFeatures ∧
        s.missingFeatures ⊆ t0.missingFeatures ∧ t0.inFlightFeatures ≠ ∅) ∧
      ∀ (call : Call) (t1 : Private), (∀ other, call ≠ .status other) →
        call.runWith enum t0 = some t1 → t1.epoch ≠ s.epoch →
        (∃ feature success, call = .report feature success) ∧
        t1.currentStatus = newStatus ∧ t1.satisfiedFeatures = ∅ ∧
        t1.missingFeatures = ∅ ∧ t1.pendingStatusChange = false) ∧
    (∀ t t1 : Private, Steps (setCurrentStatus s newStatus) t →
      t.pendingStatusChange = true → Step t t1 →
      (t1.pendingStatusChange = true ∧ t1.epoch = t.epoch ∧
        t1.currentStatus = t.currentStatus ∧
        t.satisfiedFeatures ⊆ t1.satisfiedFeatures ∧
        t.missingFeatures ⊆ t1.missingFeatures ∧ t1.inFlightFeatures ≠ ∅ ∧
        (t1.pendingStatus = t.pendingStatus ∨
          ∃ other, t1 = setCurrentStatus t other)) ∨
      (∃ feature success, setIntrospectCompleted t feature success = some t1 ∧
        t.inFlightFeatures.erase feature = ∅ ∧ t1.pendingStatusChange = false ∧
        t1.epoch = t.epoch + 1 ∧ t1.currentStatus = t.pendingStatus ∧
        t1.satisfiedFeatures = ∅ ∧ t1.missingFeatures = ∅)) ∧
    (∀ calls calls1 : List Call,
      sameUpToStaleFlags enum (setCurrentStatus s newStatus) calls calls1 = true →
      runCallsWith enum calls (setCurrentStatus s newStatus) =
        runCallsWith enum calls1 (setCurrentStatus s newStatus)) := by
  have hd : setCurrentStatus s newStatus =
      { s with pendingStatusChange := true, pendingStatus := newStatus } := by
    simp only [setCurrentStatus, if_neg hin]
  have hreachd : Reachable registry status (setCurrentStatus s newStatus) :=
    reachable_steps registry status s _ hreach
      (Steps.tail _ _ _ (Steps.refl s) (Step.status s newStatus))
  have hinvd := inv_reachable registry status _ hreachd
  have h1 : (setCurrentStatus s newStatus).currentStatus = s.currentStatus ∧
      (setCurrentStatus s newStatus).satisfiedFeatures = s.satisfiedFeatures ∧
      (setCurrentStatus s newStatus).missingFeatures = s.missingFeatures ∧
      (setCurrentStatus s newStatus).inFlightFeatures = s.inFlightFeatures ∧
      (setCurrentStatus s newStatus).epoch = s.epoch ∧
      (setCurrentStatus s newStatus).pendingStatusChange = true ∧
      (setCurrentStatus s newStatus).pendingStatus = newStatus := by
    rw [hd]
    exact ⟨rfl, rfl, rfl, rfl, rfl, rfl, rfl⟩
  obtain ⟨d1, d2, d3, d4, d5, d6, d7⟩ := h1
  refine ⟨⟨d1, d2, d3, d4, d5, d6, d7⟩, ?_, ?_, ?_⟩
  · intro calls t0 hns hrun hep
    obtain ⟨k0, k1, k2, k3, k4, k5, k6⟩ := runCallsWith_while_pending enum henum calls
      (setCurrentStatus s newStatus) t0 hinvd d6 hns hrun (hep.trans d5.symm)
    refine ⟨⟨k1, k2.trans d7, k3.trans d1, d2 ▸ k4, d3 ▸ k5, k6⟩, ?_⟩
    intro call t1 hcall hc hne
    rcases runWith_while_pending enum henum call t0 t1 k0 k1 hcall hc with
      ⟨e1, _, _⟩ | ⟨e0, _, e2, e3, e4, e5⟩
    · exact absurd (e1.trans hep) hne
    · exact ⟨e0, e3.trans (k2.trans d7), e4, e5, e2⟩
  · intro t t1 hsteps hpend hstep
    exact step_while_pending t t1 (inv_steps _ t hinvd hsteps) hpend hstep
  · intro calls calls1 h
    exact runCallsWith_staleFlags enum calls calls1 _ h

theorem status_race_witness :
    Reachable scenarioRegistry 10 scenarioProbing ∧ IsEnum ascending ∧
    scenarioProbing.inFlightFeatures ≠ ∅ ∧
    (setCurrentStatus scenarioProbing 11).currentStatus = scenarioProbing.currentStatus ∧
    (setCurrentStatus scenarioProbing 11).satisfiedFeatures =
      scenarioProbing.satisfiedFeatures ∧
    runCallsWith ascending [.request {2}, .report 1 true, .timer]
        (setCurrentStatus scenarioProbing 11) =
      runCallsWith ascending [.request {2}, .report 1 false, .timer]
        (setCurrentStatus scenarioProbing 11) ∧
    runCallsWith ascending [.request {2}, .report 1 false]
      (setCurrentStatus scenarioProbing 11) = some
        { scenarioRaceApplied with
          pendingOperations := [{ ptr := 0, requestedFeatures := {1, 2} },
            { ptr := 1, requestedFeatures := {2} }]
          operationsCreated := 2
          scheduledPasses := 2 } :=
  have hr : Reachable scenarioRegistry 10 scenarioProbing :=
    reachable_of_runCalls _ _ _ _ (by decide) scenarioProbing_run
  have hne : scenarioProbing.inFlightFeatures ≠ ∅ := by decide
  ⟨hr, isEnum_ascending, hne,
    (status_race scenarioRegistry 10 scenarioProbing 11 ascending hr isEnum_ascending hne).1.1,
    (status_race scenarioRegistry 10 scenarioProbing 11 ascending hr
      isEnum_ascending hne).1.2.1,
    (status_race scenarioRegistry 10 scenarioProbing 11 ascending hr
      isEnum_ascending hne).2.2.2 _ _ (by decide),
    by
      have h : ∃ s, runCallsWith ascending [.request {2}, .report 1 false]
          (setCurrentStatus scenarioProbing 11) = some s ∧ s =
          { scenarioRaceApplied with
            pendingOperations := [{ ptr := 0, requestedFeatures := {1, 2} },
              { ptr := 1, requestedFeatures := {2} }]
            operationsCreated := 2
            scheduledPasses := 2 } := ⟨_, rfl, by ext1 <;> decide⟩
      obtain ⟨s, h1, h2⟩ := h
      rw [h1, h2]⟩

/-- C16: the status race on `scenarioRegistry` (status A is `10`, B is `11`),
for every order in which the sets are visited.  With "Iface1" known and
`becomeReady({1,2})` (handle at address `0`), the passes and the core report
lead to `scenarioProbing`: core satisfied, the probe of feature 1 in flight.
There `setCurrentStatus(B)` leaves `currentStatus = A`
(`scenarioRaceDeferred`); the report `setIntrospectCompleted(1, true)` applies
status B with `satisfiedFeatures` and `missingFeatures` empty
(`scenarioRaceApplied`); the next pass probes core again and core succeeds
(`scenarioRaceCoreSatisfied`); the next pass puts feature 1 into
`satisfiedFeatures` and records no probe call (`scenarioRaceNoOp`), feature 2
not being ready in that pass; the pass after it probes feature 2
(`scenarioRaceProbing`); the handle is finished only by the pass that follows
the report on feature 2 (`scenarioRaceEnd`). -/
theorem scenario_status_race (enum : Finset Nat → List Nat) (henum : IsEnum enum) :
    construct 10 scenarioRegistry = some scenarioStart ∧
    becomeReady (setInterfaces scenarioStart ["Iface1"]) {1, 2} =
      ({ ptr := 0, requestedFeatures := {1, 2} },
        { scenarioRequested with interfaces := ["Iface1"] }) ∧
    runScheduledPasses enum 2 { scenarioRequested with interfaces := ["Iface1"] } =
      some { scenarioCoreProbed with interfaces := ["Iface1"] } ∧
    setIntrospectCompleted { scenarioCoreProbed with interfaces := ["Iface1"] } 0 true =
      some { scenarioCoreSatisfied with interfaces := ["Iface1"] } ∧
    runScheduledPass enum { scenarioCoreSatisfied with interfaces := ["Iface1"] } =
      some scenarioProbing ∧
    (scenarioProbing.currentStatus = 10 ∧ scenarioProbing.satisfiedFeatures = {0} ∧
      scenarioProbing.inFlightFeatures = {1} ∧
      scenarioProbing.probesInvoked = [(0, 0), (0, 1)]) ∧
    setCurrentStatus scenarioProbing 11 = scenarioRaceDeferred ∧
    (scenarioRaceDeferred.currentStatus = 10 ∧ scenarioRaceDeferred.satisfiedFeatures = {0} ∧
      scenarioRaceDeferred.pendingStatusChange = true) ∧
    setIntrospectCompleted scenarioRaceDeferred 1 true = some scenarioRaceApplied ∧
    (scenarioRaceApplied.currentStatus = 11 ∧ scenarioRaceApplied.satisfiedFeatures = ∅ ∧
      scenarioRaceApplied.missingFeatures = ∅ ∧
      scenarioRaceApplied.pendingStatusChange = false) ∧
    runScheduledPass enum scenarioRaceApplied = some scenarioRaceCoreProbed ∧
    (scenarioRaceCoreProbed.inFlightFeatures = {0} ∧
      scenarioRaceCoreProbed.probesInvoked = scenarioRaceApplied.probesInvoked ++ [(1, 0)]) ∧
    setIntrospectCompleted scenarioRaceCoreProbed 0 true = some scenarioRaceCoreSatisfied ∧
    (scenarioRaceCoreSatisfied.satisfiedFeatures = {0} ∧
      ¬ dependencies scenarioRaceCoreSatisfied 2 ⊆ scenarioRaceCoreSatisfied.satisfiedFeatures ∧
      2 ∉ readyToIntrospect enum
        { scenarioRaceCoreSatisfied with scheduledPasses := 0 }) ∧
    runScheduledPass enum scenarioRaceCoreSatisfied = some scenarioRaceNoOp ∧
    (scenarioRaceNoOp.satisfiedFeatures = {0, 1} ∧ scenarioRaceNoOp.missingFeatures = ∅ ∧
      scenarioRaceNoOp.inFlightFeatures = ∅ ∧
      scenarioRaceNoOp.probesInvoked = scenarioRaceCoreSatisfied.probesInvoked ∧
      dependencies scenarioRaceNoOp 2 ⊆ scenarioRaceNoOp.satisfiedFeatures) ∧
    runScheduledPass enum scenarioRaceNoOp = some scenarioRaceProbing ∧
    (scenarioRaceProbing.inFlightFeatures = {2} ∧
      scenarioRaceProbing.probesInvoked = scenarioRaceNoOp.probesInvoked ++ [(1, 2)] ∧
      (1, 1) ∉ scenarioRaceProbing.probesInvoked) ∧
    setIntrospectCompleted scenarioRaceProbing 2 true = some scenarioRaceDecided ∧
    runScheduledPass enum scenarioRaceDecided = some scenarioRaceEnd ∧
    (∀ s, s = scenarioProbing ∨ s = scenarioRaceDeferred ∨ s = scenarioRaceApplied ∨
        s = scenarioRaceCoreProbed ∨ s = scenarioRaceCoreSatisfied ∨ s = scenarioRaceNoOp ∨
        s = scenarioRaceProbing ∨ s = scenarioRaceDecided →
      s.finishedOperations = [] ∧
      s.pendingOperations = [{ ptr := 0, requestedFeatures := {1, 2} }]) ∧
    (scenarioRaceEnd.finishedOperations = [0] ∧ scenarioRaceEnd.pendingOperations = [] ∧
      scenarioRaceEnd.satisfiedFeatures = {0, 1, 2} ∧ scenarioRaceEnd.currentStatus = 11 ∧
      scenarioRaceEnd.probesInvoked = [(0, 0), (0, 1), (1, 0), (1, 2)]) := by
  have h0 : ∃ s, construct 10 scenarioRegistry = some s ∧ s = scenarioStart :=
    ⟨_, rfl, by ext1 <;> decide⟩
  have h1 : ∃ r, becomeReady (setInterfaces scenarioStart ["Iface1"]) {1, 2} = r ∧
      r.1.ptr = 0 ∧ r.1.requestedFeatures = {1, 2} ∧
      r.2 = { scenarioRequested with interfaces := ["Iface1"] } :=
    ⟨_, rfl, by decide, by decide, by ext1 <;> decide⟩
  have p1 : runScheduledPass enum { scenarioRequested with interfaces := ["Iface1"] } =
      some { scenarioCoreInFlight with interfaces := ["Iface1"] } :=
    runScheduledPass_order enum henum _ _ (by decide) (by decide) (by decide) (by decide)
      ⟨_, rfl, by ext1 <;> decide⟩
  have p2 : runScheduledPass enum { scenarioCoreInFlight with interfaces := ["Iface1"] } =
      some { scenarioCoreProbed with interfaces := ["Iface1"] } :=
    runScheduledPass_order enum henum _ _ (by decide) (by decide) (by decide) (by decide)
      ⟨_, rfl, by ext1 <;> decide⟩
  have h3 : ∃ s, setIntrospectCompleted
      { scenarioCoreProbed with interfaces := ["Iface1"] } 0 true = some s ∧
      s = { scenarioCoreSatisfied with interfaces := ["Iface1"] } :=
    ⟨_, rfl, by ext1 <;> decide⟩
  have p3 : runScheduledPass enum { scenarioCoreSatisfied with interfaces := ["Iface1"] } =
      some scenarioProbing :=
    runScheduledPass_order enum henum _ _ (by decide) (by decide) (by decide) (by decide)
      ⟨_, rfl, by ext1 <;> decide⟩
  have h4 : setCurrentStatus scenarioProbing 11 = scenarioRaceDeferred := by
    ext1 <;> decide
  have h5 : ∃ s, setIntrospectCompleted scenarioRaceDeferred 1 true = some s ∧
      s = scenarioRaceApplied := ⟨_, rfl, by ext1 <;> decide⟩
  have p5 : runScheduledPass enum scenarioRaceApplied = some scenarioRaceCoreProbed :=
    runScheduledPass_order enum henum _ _ (by decide) (by decide) (by decide) (by decide)
      ⟨_, rfl, by ext1 <;> decide⟩
  have h6 : ∃ s, setIntrospectCompleted scenarioRaceCoreProbed 0 true = some s ∧
      s = scenarioRaceCoreSatisfied := ⟨_, rfl, by ext1 <;> decide⟩
  have p6 : runScheduledPass enum scenarioRaceCoreSatisfied = some scenarioRaceNoOp :=
    runScheduledPass_order enum henum _ _ (by decide) (by decide) (by decide) (by decide)
      ⟨_, rfl, by ext1 <;> decide⟩
  have p7 : runScheduledPass enum scenarioRaceNoOp = some scenarioRaceProbing :=
    runScheduledPass_order enum henum _ _ (by decide) (by decide) (by decide) (by decide)
      ⟨_, rfl, by ext1 <;> decide⟩
  have h8 : ∃ s, setIntrospectCompleted scenarioRaceProbing 2 true = some s ∧
      s = scenarioRaceDecided := ⟨_, rfl, by ext1 <;> decide⟩
  have p8 : runScheduledPass enum scenarioRaceDecided = some scenarioRaceEnd :=
    runScheduledPass_order enum henum _ _ (by decide) (by decide) (by decide) (by decide)
      ⟨_, rfl, by ext1 <;> decide⟩
  have hinv : Inv { scenarioRaceCoreSatisfied with scheduledPasses := 0 } :=
    { wf := by decide
      satisfied_missing := by decide
      inFlight_satisfied := by decide
      inFlight_missing := by decide
      inFlight_pending := by decide
      pending_requested := by decide
      deps_satisfied := by decide
      pending_inFlight := by decide }
  have hnot : 2 ∉ readyToIntrospect enum
      { scenarioRaceCoreSatisfied with scheduledPasses := 0 } := by
    intro hc
    have hd := ((mem_readyToIntrospect enum _ hinv 2).1 hc).2
    revert hd
    decide
  obtain ⟨_, e0, rfl⟩ := h0
  obtain ⟨r, e1, e1a, e1b, e1c⟩ := h1
  obtain ⟨_, e3, rfl⟩ := h3
  obtain ⟨_, e5, rfl⟩ := h5
  obtain ⟨_, e6, rfl⟩ := h6
  obtain ⟨_, e8, rfl⟩ := h8
  refine ⟨e0, ?_, ?_, e3, p3, ⟨rfl, rfl, rfl, rfl⟩, h4, ⟨rfl, rfl, rfl⟩, e5,
    ⟨rfl, rfl, rfl, rfl⟩, p5, ⟨rfl, rfl⟩, e6, ⟨rfl, by decide, hnot⟩, p6,
    ⟨rfl, rfl, rfl, rfl, by decide⟩, p7, ⟨rfl, rfl, by decide⟩, e8, p8, ?_,
    ⟨rfl, rfl, rfl, rfl, rfl⟩⟩
  · rw [e1]
    exact Prod.ext (PendingReady.ext e1a e1b) e1c
  · rw [runScheduledPasses_succ enum 1 _ _ (by decide) p1,
      runScheduledPasses_succ enum 0 _ _ (by decide) p2]
    rfl
  · rintro s (rfl | rfl | rfl | rfl | rfl | rfl | rfl | rfl) <;> exact ⟨rfl, rfl⟩

theorem scenario_status_race_witness :
    IsEnum ascending ∧
    setCurrentStatus scenarioProbing 11 = scenarioRaceDeferred ∧
    setIntrospectCompleted scenarioRaceDeferred 1 true = some scenarioRaceApplied ∧
    runScheduledPass ascending scenarioRaceApplied = some scenarioRaceCoreProbed ∧
    setIntrospectCompleted scenarioRaceCoreProbed 0 true = some scenarioRaceCoreSatisfied ∧
    runScheduledPass ascending scenarioRaceCoreSatisfied = some scenarioRaceNoOp ∧
    runScheduledPass ascending scenarioRaceNoOp = some scenarioRaceProbing ∧
    setIntrospectCompleted scenarioRaceProbing 2 true = some scenarioRaceDecided ∧
    runScheduledPass ascending scenarioRaceDecided = some scenarioRaceEnd :=
  have h := scenario_status_race ascending isEnum_ascending
  ⟨isEnum_ascending, h.2.2.2.2.2.2.1, h.2.2.2.2.2.2.2.2.1, h.2.2.2.2.2.2.2.2.2.2.1,
    h.2.2.2.2.2.2.2.2.2.2.2.2.1, h.2.2.2.2.2.2.2.2.2.2.2.2.2.2.1,
    h.2.2.2.2.2.2.2.2.2.2.2.2.2.2.2.2.1, h.2.2.2.2.2.2.2.2.2.2.2.2.2.2.2.2.2.2.1,
    h.2.2.2.2.2.2.2.2.2.2.2.2.2.2.2.2.2.2.2.1⟩

theorem chainProbing_run :
    (construct 10 chainRegistry).bind (runCalls [.request {1, 2, 3}, .timer, .timer]) =
      some chainProbing := by
  have h : ∃ s, (construct 10 chainRegistry).bind
      (runCalls [.request {1, 2, 3}, .timer, .timer]) = some s ∧ s = chainProbing :=
    ⟨_, rfl, by ext1 <;> decide⟩
  obtain ⟨s, h1, h2⟩ := h
  rw [h1, h2]

/-- C24: the chain scenario.  In the pass that follows the failure of feature
3, one traversal of the registry in key order visits feature 1 before its
dependency 2 is flagged: after the propagation step, and after the whole pass,
`missingFeatures` is `{2, 3}`, while feature 1 is registered with feature 2
among its dependencies and is in neither decided set. -/
theorem propagation_not_closed :
    QMap.WF chainRegistry ∧
    (construct 10 chainRegistry).bind
      (runCalls [.request {1, 2, 3}, .timer, .timer, .report 3 false]) = some chainFailed ∧
    chainFailed.currentStatus ∈ chainFailed.supportedStatuses ∧
    (afterPropagation chainFailed).missingFeatures = {2, 3} ∧
    (1, { makesSenseForStatuses := {10}, dependsOnFeatures := {2},
          dependsOnInterfaces := [], introspectFunc := 2 }) ∈ chainFailed.introspectables ∧
    2 ∈ (afterPropagation chainFailed).missingFeatures ∧
    1 ∉ (afterPropagation chainFailed).missingFeatures ∧
    runScheduledPass ascending chainFailed = some chainPropagated ∧
    1 ∉ chainPropagated.missingFeatures ∧ 1 ∉ chainPropagated.satisfiedFeatures ∧
    1 ∈ propagateMissing chainPropagated.introspectables chainPropagated.missingFeatures := by
  have h1 : ∃ s, (construct 10 chainRegistry).bind
      (runCalls [.request {1, 2, 3}, .timer, .timer, .report 3 false]) = some s ∧
      s = chainFailed := ⟨_, rfl, by ext1 <;> decide⟩
  have h2 : ∃ s, runScheduledPass ascending chainFailed = some s ∧ s = chainPropagated :=
    ⟨_, rfl, by ext1 <;> decide⟩
  obtain ⟨_, e1, rfl⟩ := h1
  obtain ⟨_, e2, rfl⟩ := h2
  exact ⟨by decide, e1, by decide, by decide, by decide, by decide, by decide, e2,
    by decide, by decide, by decide⟩

/-- C25: the chain scenario, from the state with the probes of features 0 and
3 in flight.  Feature 0 reports success and feature 3 failure, a pass following
each report.  Both orders of the two reports end at rest (nothing in flight, no
pass scheduled), with different `missingFeatures`: `{1, 2, 3}` with the handle
finished when feature 3 reports first, `{2, 3}` with the handle outstanding
when feature 0 reports first. -/
theorem report_order_changes_decision :
    (construct 10 chainRegistry).bind (runCalls [.request {1, 2, 3}, .timer, .timer]) =
      some chainProbing ∧
    chainProbing.inFlightFeatures = {0, 3} ∧
    runCalls [.report 3 false, .timer, .report 0 true, .timer] chainProbing =
      some chainMissingFirst ∧
    runCalls [.report 0 true, .timer, .report 3 false, .timer] chainProbing =
      some chainCoreFirst ∧
    (chainMissingFirst.inFlightFeatures = ∅ ∧ chainMissingFirst.scheduledPasses = 0) ∧
    (chainCoreFirst.inFlightFeatures = ∅ ∧ chainCoreFirst.scheduledPasses = 0) ∧
    chainMissingFirst.satisfiedFeatures = chainCoreFirst.satisfiedFeatures ∧
    chainMissingFirst.missingFeatures = {1, 2, 3} ∧
    chainCoreFirst.missingFeatures = {2, 3} ∧
    chainMissingFirst.missingFeatures ≠ chainCoreFirst.missingFeatures ∧
    chainMissingFirst.finishedOperations = [0] ∧ chainCoreFirst.finishedOperations = [] := by
  have h1 : ∃ s, runCalls [.report 3 false, .timer, .report 0 true, .timer] chainProbing =
      some s ∧ s = chainMissingFirst := ⟨_, rfl, by ext1 <;> decide⟩
  have h2 : ∃ s, runCalls [.report 0 true, .timer, .report 3 false, .timer] chainProbing =
      some s ∧ s = chainCoreFirst := ⟨_, rfl, by ext1 <;> decide⟩
  obtain ⟨_, e1, rfl⟩ := h1
  obtain ⟨_, e2, rfl⟩ := h2
  exact ⟨chainProbing_run, rfl, e1, e2, ⟨rfl, rfl⟩, ⟨rfl, rfl⟩, rfl, rfl, rfl, by decide,
    rfl, rfl⟩

/-- C29: when `currentStatus` is not in `supportedStatuses`,
`iterateIntrospection` returns the state it was called in: no feature set, no
handle, no emission and no probe call changes, whatever the handles and the
decided sets are; the firing of the timer only takes the pass off the queue. -/
theorem pass_unsupported_noop (enum : Finset Nat → List Nat) (s : Private)
    (h : s.currentStatus ∉ s.supportedStatuses) :
    iterateIntrospection enum s = some s ∧
    (s.scheduledPasses ≠ 0 →
      runScheduledPass enum s = some { s with scheduledPasses := s.scheduledPasses - 1 }) := by
  refine ⟨iterateIntrospection_unsupported enum s h, fun h0 => ?_⟩
  rw [runScheduledPass, if_neg h0]
  exact iterateIntrospection_unsupported enum _ h

theorem pass_unsupported_noop_witness :
    scenarioUnsupported.currentStatus ∉ scenarioUnsupported.supportedStatuses ∧
    finishable scenarioUnsupported { ptr := 0, requestedFeatures := {1, 2} } = true ∧
    scenarioUnsupported.pendingOperations = [{ ptr := 0, requestedFeatures := {1, 2} }] ∧
    iterateIntrospection ascending scenarioUnsupported = some scenarioUnsupported ∧
    runScheduledPass ascending scenarioUnsupported =
      some { scenarioUnsupported with scheduledPasses := 0 } :=
  ⟨by decide, by decide, rfl,
    (pass_unsupported_noop ascending scenarioUnsupported (by decide)).1,
    (pass_unsupported_noop ascending scenarioUnsupported (by decide)).2 (by decide)⟩

/-- What a pass under a supported status does to the handles, in closed form. -/
theorem pass_operations (enum : Finset Nat → List Nat) (s s1 : Private)
    (hops : OperationsInv s) (hs : s.currentStatus ∈ s.supportedStatuses)
    (hp : iterateIntrospection enum s = some s1) :
    s1.pendingOperations =
      s.pendingOperations.filter (fun o => !finishable (afterPropagation s) o) ∧
    s1.finishedOperations = s.finishedOperations ++
      (s.pendingOperations.filter (finishable (afterPropagation s))).map PendingReady.ptr := by
  have hsame := sameOperations_afterFinish enum s s1 hp hs
  have heq := finishOperations_eq (afterPropagation s) hops.ptr_nodup
  constructor
  · rw [hsame.1]
    show (finishOperations (afterPropagation s)).pendingOperations = _
    rw [heq]; rfl
  · rw [hsame.2.1]
    show (finishOperations (afterPropagation s)).finishedOperations = _
    rw [heq]; rfl

/-- C26: in every reachable state no handle address occurs twice in the record
of `setFinished()` calls, no outstanding handle is in that record, and the
outstanding handles have pairwise different addresses and pairwise different
requested sets; and a pass calls `setFinished()` on an outstanding handle
exactly when it removes it from `pendingOperations`. -/
theorem handles_finish_once (registry : QMap) (status : Nat) (s : Private)
    (hreach : Reachable registry status s) :
    s.finishedOperations.Nodup ∧
    (∀ o ∈ s.pendingOperations, o.ptr ∉ s.finishedOperations) ∧
    (s.pendingOperations.map PendingReady.requestedFeatures).Nodup ∧
    (s.pendingOperations.map PendingReady.ptr).Nodup ∧
    ∀ (enum : Finset Nat → List Nat) (s1 : Private), iterateIntrospection enum s = some s1 →
      s1.finishedOperations.Nodup ∧
      ∀ o ∈ s.pendingOperations, (o.ptr ∈ s1.finishedOperations ↔ o ∉ s1.pendingOperations) := by
  have hops := operationsInv_reachable registry status s hreach
  refine ⟨hops.finished_nodup, hops.unfinished, hops.requested_nodup, hops.ptr_nodup, ?_⟩
  intro enum s1 hp
  refine ⟨(operationsInv_iterateIntrospection enum s s1 hops hp).finished_nodup, ?_⟩
  intro o ho
  by_cases c1 : s.currentStatus ∈ s.supportedStatuses
  · obtain ⟨hpend, hfin⟩ := pass_operations enum s s1 hops c1 hp
    rw [hpend, hfin, List.mem_append, List.mem_filter]
    constructor
    · rintro (h | h)
      · exact absurd h (hops.unfinished o ho)
      · obtain ⟨o1, ho1, hptr⟩ := List.mem_map.1 h
        have ho1m := (List.mem_filter.1 ho1).1
        have heq : o1 = o := by
          have hinj := List.inj_on_of_nodup_map hops.ptr_nodup
          exact hinj ho1m ho hptr
        rw [heq] at ho1
        intro hc
        have := (List.mem_filter.1 ho1).2
        rw [this] at hc
        exact absurd hc.2 (by decide)
    · intro h
      right
      apply List.mem_map.2
      refine ⟨o, List.mem_filter.2 ⟨ho, ?_⟩, rfl⟩
      by_contra hc
      exact h ⟨ho, by simp [hc]⟩
  · rw [iterateIntrospection_unsupported enum s c1] at hp
    cases hp
    exact ⟨fun h => absurd h (hops.unfinished o ho), fun h => absurd ho h⟩

theorem handles_finish_once_witness :
    Reachable scenarioRegistry 10 scenarioProbeFailedFired ∧
    scenarioProbeFailedFired.pendingOperations = [{ ptr := 0, requestedFeatures := {1, 2} }] ∧
    iterateIntrospection ascending scenarioProbeFailedFired = some scenarioProbeFailedEnd ∧
    scenarioProbeFailedFired.finishedOperations.Nodup ∧
    scenarioProbeFailedEnd.finishedOperations.Nodup ∧
    ((0 : Nat) ∈ scenarioProbeFailedEnd.finishedOperations ↔
      ({ ptr := 0, requestedFeatures := {1, 2} } : PendingReady) ∉
        scenarioProbeFailedEnd.pendingOperations) :=
  ⟨scenarioProbeFailedFired_reachable, rfl, scenarioProbeFailedEnd_pass,
    (handles_finish_once scenarioRegistry 10 scenarioProbeFailedFired
      scenarioProbeFailedFired_reachable).1,
    ((handles_finish_once scenarioRegistry 10 scenarioProbeFailedFired
      scenarioProbeFailedFired_reachable).2.2.2.2 ascending scenarioProbeFailedEnd
      scenarioProbeFailedEnd_pass).1,
    ((handles_finish_once scenarioRegistry 10 scenarioProbeFailedFired
      scenarioProbeFailedFired_reachable).2.2.2.2 ascending scenarioProbeFailedEnd
      scenarioProbeFailedEnd_pass).2 { ptr := 0, requestedFeatures := {1, 2} } (by decide)⟩

theorem core_setCurrentStatus (s : Private) (newStatus : Nat)
    (h : s.currentStatus ∈ s.supportedStatuses → 0 ∈ s.requestedFeatures) :
    (setCurrentStatus s newStatus).currentStatus ∈ (setCurrentStatus s newStatus).supportedStatuses →
      0 ∈ (setCurrentStatus s newStatus).requestedFeatures := by
  dsimp only [setCurrentStatus]
  by_cases h1 : s.inFlightFeatures = ∅
  · rw [if_pos h1]
    by_cases h2 : newStatus ∈ s.supportedStatuses
    · rw [if_pos h2]
      exact fun _ => Finset.mem_insert_self _ _
    · rw [if_neg h2]
      exact fun hc => absurd hc h2
  · rw [if_neg h1]
    exact h

/-- Every step keeps feature 0 requested while the status is supported. -/
theorem core_step (s s1 : Private) (hinv : Inv s)
    (h : s.currentStatus ∈ s.supportedStatuses → 0 ∈ s.requestedFeatures)
    (hstep : Step s s1) :
    s1.currentStatus ∈ s1.supportedStatuses → 0 ∈ s1.requestedFeatures := by
  cases hstep with
  | status newStatus => exact core_setCurrentStatus s newStatus h
  | interfaces names => exact h
  | request features =>
    have hm := mono_becomeReady s features
    have hst : (becomeReady s features).2.currentStatus = s.currentStatus := by
      dsimp only [becomeReady]
      split <;> rfl
    intro hs
    rw [hst, hm.supported] at hs
    exact hm.requested (h hs)
  | report _ feature success hr =>
    cases hp : s.pendingStatusChange with
    | true =>
      rw [setIntrospectCompleted_pending s feature success hp] at hr
      by_cases he : s.inFlightFeatures.erase feature ≠ ∅
      · rw [if_pos he] at hr
        cases hr
        exact h
      · rw [if_neg he] at hr
        cases hr
        exact core_setCurrentStatus _ _ h
    | false =>
      by_cases h2 : feature ∈ s.pendingFeatures ∧ feature ∈ s.inFlightFeatures
      · rw [setIntrospectCompleted_normal s feature success hp h2.1 h2.2] at hr
        cases hr
        exact h
      · rw [setIntrospectCompleted_none s feature success hp (not_and_or.1 h2)] at hr
        cases hr
  | timer ht => exact h
  | pass _ enum henum hp =>
    have hmem : ∀ features x, x ∈ enum features → x ∈ features :=
      fun features x hx => ((henum features).2 x).1 hx
    have hep := iterateIntrospection_epoch enum hmem s s1 hinv hp
    have hm := mono_iterateIntrospection enum s s1 hp
    intro hs
    rw [hm.status hep, hm.supported] at hs
    exact hm.requested (h hs)

theorem core_reachable (registry : QMap) (status : Nat) (s : Private)
    (hreach : Reachable registry status s) :
    s.currentStatus ∈ s.supportedStatuses → 0 ∈ s.requestedFeatures := by
  obtain ⟨hwf, s0, h0, hs⟩ := hreach
  have hinv0 := inv_construct status registry hwf s0 h0
  induction hs with
  | refl =>
    dsimp only [construct] at h0
    split_ifs at h0 with h1 h2 h3
    · cases h0
      exact fun _ => Finset.mem_insert_self _ _
    · cases h0
      exact fun hc => absurd hc h3
  | tail s1 s2 hs1 hstep ih => exact core_step s1 s2 (inv_steps s0 s1 hinv0 hs1) ih hstep

theorem propagateMissing_empty (m : QMap) : propagateMissing m ∅ = ∅ := by
  unfold propagateMissing
  induction m with
  | nil => rfl
  | cons e m ih =>
    rw [List.foldl_cons]
    simpa using ih

theorem ascending_singleton (x : Nat) : ascending {x} = [x] := by
  have h := enum_eq_of_card_le_one ascending (fun features => features.sort (· ≤ ·))
    isEnum_ascending (fun features => ⟨Finset.sort_nodup _ _, fun _ => Finset.mem_sort _⟩)
    {x} (by simp)
  rw [h]
  simp


/-- The state a helper is constructed in when its status is supported. -/
theorem construct_supported (status : Nat) (registry : QMap) (s0 : Private)
    (h0 : construct status registry = some s0) (hs : status ∈ s0.supportedStatuses) :
    s0.satisfiedFeatures = ∅ ∧ s0.missingFeatures = ∅ ∧ s0.requestedFeatures = {0} ∧
    s0.pendingFeatures = {0} ∧ s0.inFlightFeatures = ∅ ∧ s0.scheduledPasses = 1 ∧
    s0.probesInvoked = [] ∧ s0.epoch = 0 ∧ s0.currentStatus = status ∧
    s0.introspectables = registry := by
  dsimp only [construct] at h0
  split_ifs at h0 with c1 c2 c3
  · cases h0
    exact ⟨rfl, rfl, rfl, rfl, rfl, rfl, rfl, rfl, rfl, rfl⟩
  · cases h0
    exact absurd hs c3

/-- A pass run where only feature 0 is requested and pending, nothing is
decided or in flight, core has no feature dependency and is meaningful in the
supported current status: the pass calls the core probe. -/
theorem pass_probes_core (enum : Finset Nat → List Nat) (henum : IsEnum enum) (s : Private)
    (hinv : Inv s) (hs : s.currentStatus ∈ s.supportedStatuses)
    (h1 : s.satisfiedFeatures = ∅) (h2 : s.missingFeatures = ∅)
    (h3 : s.requestedFeatures = {0}) (h4 : s.pendingFeatures = {0})
    (h5 : s.inFlightFeatures = ∅)
    (hdeps : (s.introspectables.value 0).dependsOnFeatures = ∅)
    (hmeaning : s.currentStatus ∈ (s.introspectables.value 0).makesSenseForStatuses) :
    ∃ s1, iterateIntrospection enum s = some s1 ∧
      s1.probesInvoked = s.probesInvoked ++ [(s.epoch, 0)] ∧ s1.inFlightFeatures = {0} := by
  obtain ⟨b1, b2, b3, b4, b5, b6, b7, b8, b9, -, -, -, b13⟩ := beforeLoop_fields enum s hinv
  have hpm : propagateMissing s.introspectables s.missingFeatures = ∅ := by
    rw [h2]; exact propagateMissing_empty _
  rw [hpm] at b2 b4
  rw [h1] at b1 b4
  rw [h4] at b4
  rw [h5] at b5
  have c2 : ¬ (afterFinish s).requestedFeatures ⊆
      (afterFinish s).satisfiedFeatures ∪ (afterFinish s).missingFeatures := by
    have e1 : (afterFinish s).requestedFeatures = {0} := b3.trans h3
    have e2 : (afterFinish s).satisfiedFeatures = ∅ := b1
    have e3 : (afterFinish s).missingFeatures = ∅ := b2
    rw [e1, e2, e3]
    decide
  have hready : readyToIntrospect enum s = {0} := by
    ext f
    rw [mem_readyToIntrospect enum s hinv f]
    have e1 : (afterPending s).pendingFeatures = {0} := b4.trans (by decide)
    have e2 : (afterPending s).satisfiedFeatures = ∅ := b1
    have e3 : dependencies (afterPending s) f = (s.introspectables.value f).dependsOnFeatures := by
      simp only [dependencies, afterPending_introspectables]
    rw [e1, e2, e3, (henum {0}).2 f, Finset.mem_singleton]
    constructor
    · exact fun h => h.1
    · rintro rfl
      exact ⟨rfl, by rw [hdeps]⟩
  have henum0 : enum {0} = [0] :=
    (enum_eq_of_card_le_one enum ascending henum isEnum_ascending {0} (by simp)).trans
      (ascending_singleton 0)
  rw [iterateIntrospection_undecided enum s hs c2, hready, henum0, introspectLoop_cons,
    if_neg (by rw [b5]; exact Finset.not_mem_empty 0),
    if_neg (by rw [b6, b13]; exact not_not.2 hmeaning), if_neg (fun h => h.1 rfl)]
  refine ⟨_, rfl, ?_, ?_⟩
  · show (beforeLoop enum s).probesInvoked ++ [((beforeLoop enum s).epoch, 0)] = _
    rw [b9, b8]
  · show insert 0 (beforeLoop enum s).inFlightFeatures = _
    rw [b5]
    rfl

/-- C27: in every reachable state with `currentStatus` in `supportedStatuses`,
feature 0 is in `requestedFeatures` (no `becomeReady` call is assumed).  And a
helper constructed in a supported status, whose core feature has no feature
dependency and is meaningful in that status, requests only feature 0, has one
pass scheduled, and that pass, whatever `setInterfaces` calls precede it, calls
the core probe and no other. -/
theorem core_requested (registry : QMap) (status : Nat) (s : Private)
    (hreach : Reachable registry status s) :
    (s.currentStatus ∈ s.supportedStatuses → 0 ∈ s.requestedFeatures) ∧
    ∀ (s0 : Private) (enum : Finset Nat → List Nat) (names : List (List String)),
      construct status registry = some s0 → IsEnum enum →
      status ∈ s0.supportedStatuses →
      (registry.value 0).dependsOnFeatures = ∅ →
      status ∈ (registry.value 0).makesSenseForStatuses →
      s0.requestedFeatures = {0} ∧ s0.scheduledPasses = 1 ∧ s0.probesInvoked = [] ∧
      ∃ s1, runScheduledPass enum (names.foldl setInterfaces s0) = some s1 ∧
        s1.probesInvoked = [(0, 0)] ∧ s1.inFlightFeatures = {0} := by
  refine ⟨core_reachable registry status s hreach, ?_⟩
  intro s0 enum names h0 henum hs hdeps hmeaning
  have hinv0 := inv_construct status registry hreach.1 s0 h0
  have hfold : ∀ (l : List (List String)) (t : Private),
      ∃ i, l.foldl setInterfaces t = { t with interfaces := i } := by
    intro l
    induction l with
    | nil => exact fun t => ⟨t.interfaces, rfl⟩
    | cons a l ih =>
      intro t
      obtain ⟨i, hi⟩ := ih (setInterfaces t a)
      exact ⟨i, hi⟩
  obtain ⟨i, hi⟩ := hfold names s0
  rw [hi]
  obtain ⟨f1, f2, f3, f4, f5, f6, f7, f8, f9, f10⟩ := construct_supported status registry s0 h0 hs
  refine ⟨f3, f6, f7, ?_⟩
  rw [runScheduledPass, if_neg (by show s0.scheduledPasses ≠ 0; rw [f6]; decide)]
  obtain ⟨s1, e1, e2, e3⟩ := pass_probes_core enum henum
    { s0 with interfaces := i, scheduledPasses := s0.scheduledPasses - 1 }
    (inv_congr _ _ hinv0 rfl rfl rfl rfl rfl rfl rfl)
    (by show s0.currentStatus ∈ s0.supportedStatuses; rw [f9]; exact hs) f1 f2 f3 f4 f5
    (by show (s0.introspectables.value 0).dependsOnFeatures = ∅; rw [f10]; exact hdeps)
    (by
      show s0.currentStatus ∈ (s0.introspectables.value 0).makesSenseForStatuses
      rw [f9, f10]; exact hmeaning)
  refine ⟨s1, e1, ?_, e3⟩
  rw [e2]
  show s0.probesInvoked ++ [(s0.epoch, 0)] = _
  rw [f7, f8]
  rfl

theorem core_requested_witness :
    Reachable scenarioRegistry 10 scenarioStart ∧
    (scenarioStart.currentStatus ∈ scenarioStart.supportedStatuses →
      0 ∈ scenarioStart.requestedFeatures) ∧
    construct 10 scenarioRegistry = some scenarioStart ∧
    ∃ s1, runScheduledPass ascending ([["Iface1"]].foldl setInterfaces scenarioStart) =
        some s1 ∧ s1.probesInvoked = [(0, 0)] ∧ s1.inFlightFeatures = {0} :=
  have h0 : construct 10 scenarioRegistry = some scenarioStart := by
    have h : ∃ s, construct 10 scenarioRegistry = some s ∧ s = scenarioStart :=
      ⟨_, rfl, by ext1 <;> decide⟩
    obtain ⟨s, h1, h2⟩ := h
    rw [h1, h2]
  have hr : Reachable scenarioRegistry 10 scenarioStart :=
    ⟨by decide, scenarioStart, h0, Steps.refl _⟩
  ⟨hr, (core_requested scenarioRegistry 10 scenarioStart hr).1, h0,
    ((core_requested scenarioRegistry 10 scenarioStart hr).2 scenarioStart ascending
      [["Iface1"]] h0 isEnum_ascending (by decide) (by decide) (by decide)).2.2.2⟩

theorem specPending_setCurrentStatus (s : Private) (newStatus : Nat)
    (h : specPendingFeatures s ⊆ s.pendingFeatures) :
    specPendingFeatures (setCurrentStatus s newStatus) ⊆
      (setCurrentStatus s newStatus).pendingFeatures := by
  dsimp only [setCurrentStatus]
  split_ifs with h1 h2
  · intro x hx
    simp only [specPendingFeatures, introspectCore, Finset.mem_sdiff] at hx
    exact hx.1
  · intro x hx
    simp only [specPendingFeatures, Finset.mem_sdiff] at hx
    exact hx.1
  · exact h

theorem specPending_setIntrospectCompleted (s s1 : Private) (feature : Nat) (success : Bool)
    (h : specPendingFeatures s ⊆ s.pendingFeatures)
    (hr : setIntrospectCompleted s feature success = some s1) :
    specPendingFeatures s1 ⊆ s1.pendingFeatures := by
  cases hp : s.pendingStatusChange with
  | true =>
    rw [setIntrospectCompleted_pending s feature success hp] at hr
    by_cases he : s.inFlightFeatures.erase feature ≠ ∅
    · rw [if_pos he] at hr
      cases hr
      exact h
    · rw [if_neg he] at hr
      cases hr
      exact specPending_setCurrentStatus _ _ h
  | false =>
    by_cases h2 : feature ∈ s.pendingFeatures ∧ feature ∈ s.inFlightFeatures
    · rw [setIntrospectCompleted_normal s feature success hp h2.1 h2.2] at hr
      cases hr
      intro x hx
      have hx0 : x ∈ specPendingFeatures s ∧ x ≠ feature := by
        cases success <;>
          simp only [specPendingFeatures, Finset.mem_sdiff, Finset.mem_union,
            Finset.mem_insert, not_or, if_true, Bool.false_eq_true, if_false] at hx ⊢ <;>
          tauto
      cases success <;> exact Finset.mem_erase.2 ⟨hx0.2, h hx0.1⟩
    · rw [setIntrospectCompleted_none s feature success hp (not_and_or.1 h2)] at hr
      cases hr

theorem specPending_afterFinish (s : Private)
    (h : specPendingFeatures s ⊆ s.pendingFeatures) :
    specPendingFeatures (afterFinish s) ⊆ (afterFinish s).pendingFeatures := by
  obtain ⟨operations, finished, hfo⟩ := afterFinish_frame s
  rw [hfo]
  intro x hx
  apply h
  simp only [specPendingFeatures, afterPropagation, Finset.mem_sdiff, Finset.mem_union,
    not_or] at hx ⊢
  exact ⟨hx.1, hx.2.1, fun hc => hx.2.2 (propagateMissing_superset _ _ hc)⟩

theorem specPending_iterateIntrospection (enum : Finset Nat → List Nat)
    (henum : ∀ features x, x ∈ enum features → x ∈ features) (s s1 : Private)
    (hinv : Inv s) (h : specPendingFeatures s ⊆ s.pendingFeatures)
    (hp : iterateIntrospection enum s = some s1) :
    specPendingFeatures s1 ⊆ s1.pendingFeatures := by
  have hfin := specPending_afterFinish s h
  obtain ⟨s2, h2, _, hC⟩ := iterateIntrospection_induction
    (fun st => specPendingFeatures st ⊆ st.pendingFeatures) enum henum s hinv h
    (fun _ => hfin) (fun _ hc _ => hc)
    (fun _ hc => by
      intro x hx
      have hx1 : x ∈ specPendingFeatures (afterFinish s) := hx
      show x ∈ (afterFinish s).pendingFeatures
          \ ((afterFinish s).satisfiedFeatures ∪ (afterFinish s).missingFeatures)
      exact Finset.mem_sdiff.2 ⟨hc hx1, (Finset.mem_sdiff.1 hx1).2⟩)
    (fun st feature success st1 _ _ _ hc _ _ hs =>
      specPending_setIntrospectCompleted (markInFlight st feature) st1 feature success hc hs)
    (fun st feature _ _ _ hc _ _ => hc)
  rw [hp] at h2
  cases h2
  exact hC

theorem specPending_step (s s1 : Private) (hinv : Inv s)
    (h : specPendingFeatures s ⊆ s.pendingFeatures) (hstep : Step s s1) :
    specPendingFeatures s1 ⊆ s1.pendingFeatures := by
  cases hstep with
  | status newStatus => exact specPending_setCurrentStatus s newStatus h
  | interfaces names => exact h
  | request features =>
    dsimp only [becomeReady]
    split
    · exact h
    · intro x hx
      simp only [specPendingFeatures, Finset.mem_sdiff, Finset.mem_union, not_or] at hx
      rcases hx.1 with hx1 | hx1
      · exact Finset.mem_union_left _ (h (Finset.mem_sdiff.2
          ⟨hx1, by simp only [Finset.mem_union, not_or]; exact hx.2⟩))
      · exact Finset.mem_union_right _ hx1
  | report _ feature success hr =>
    exact specPending_setIntrospectCompleted s s1 feature success h hr
  | timer ht => exact h
  | pass _ enum henum hp =>
    exact specPending_iterateIntrospection enum
      (fun features x hx => ((henum features).2 x).1 hx) s s1 hinv h hp

theorem specPending_reachable (registry : QMap) (status : Nat) (s : Private)
    (hreach : Reachable registry status s) : specPendingFeatures s ⊆ s.pendingFeatures := by
  obtain ⟨hwf, s0, h0, hs⟩ := hreach
  have hinv0 := inv_construct status registry hwf s0 h0
  induction hs with
  | refl =>
    dsimp only [construct] at h0
    split_ifs at h0 with h1 h2 h3
    · cases h0
      exact Finset.sdiff_subset
    · cases h0
      exact Finset.sdiff_subset
  | tail s1 s2 hs1 hstep ih => exact specPending_step s1 s2 (inv_steps s0 s1 hinv0 hs1) ih hstep


/-- After a pass that gets past the status-ready check, `pendingFeatures` is
the set the specification recomputes. -/
theorem specPending_pass (enum : Finset Nat → List Nat)
    (henum : ∀ features x, x ∈ enum features → x ∈ features) (s s1 : Private)
    (hinv : Inv s) (h : specPendingFeatures s ⊆ s.pendingFeatures)
    (hs : s.currentStatus ∈ s.supportedStatuses)
    (hd : ¬ (afterFinish s).requestedFeatures ⊆
      (afterFinish s).satisfiedFeatures ∪ (afterFinish s).missingFeatures)
    (hp : iterateIntrospection enum s = some s1) :
    s1.pendingFeatures = specPendingFeatures s1 := by
  have hstart : (beforeLoop enum s).pendingFeatures =
      specPendingFeatures (beforeLoop enum s) := by
    show (afterFinish s).pendingFeatures
      \ ((afterFinish s).satisfiedFeatures ∪ (afterFinish s).missingFeatures) =
      specPendingFeatures (afterFinish s)
    apply Finset.Subset.antisymm
    · exact Finset.sdiff_subset_sdiff (inv_afterFinish s hinv).pending_requested
        (Finset.Subset.refl _)
    · intro x hx
      exact Finset.mem_sdiff.2 ⟨specPending_afterFinish s h hx, (Finset.mem_sdiff.1 hx).2⟩
  rw [iterateIntrospection_undecided enum s hs hd] at hp
  obtain ⟨s2, h2, _, hC⟩ := introspectLoop_induction
    (fun st => st.pendingFeatures = specPendingFeatures st)
    (fun st feature success st1 hi he hnf hc _ _ hr => by
      cases hpend : st.pendingStatusChange with
      | true =>
        have hne : (markInFlight st feature).inFlightFeatures.erase feature ≠ ∅ := by
          show (insert feature st.inFlightFeatures).erase feature ≠ ∅
          rw [Finset.erase_insert hnf]
          exact hi.pending_inFlight hpend
        rw [setIntrospectCompleted_pending (markInFlight st feature) feature success hpend,
          if_pos hne] at hr
        cases hr
        exact hc
      | false =>
        rw [setIntrospectCompleted_normal (markInFlight st feature) feature success hpend
          he.1 (Finset.mem_insert_self _ _)] at hr
        cases hr
        have hc1 : st.pendingFeatures =
            st.requestedFeatures \ (st.satisfiedFeatures ∪ st.missingFeatures) := hc
        ext x
        cases success <;>
          simp only [specPendingFeatures, markInFlight, Finset.mem_erase, hc1,
            Finset.mem_sdiff, Finset.mem_union, Finset.mem_insert, not_or, if_true,
            Bool.false_eq_true, if_false] <;>
          tauto)
    (fun st feature _ _ _ hc _ _ => hc)
    (enum (readyToIntrospect enum s)) (beforeLoop enum s) (inv_beforeLoop enum s hinv)
    (fun f hf => eligible_readyToIntrospect enum henum s hinv f (henum _ _ hf)) hstart
  rw [hp] at h2
  cases h2
  exact hC

/-- C30: in every reachable state the set the code computes in place,
`pendingFeatures − (satisfiedFeatures ∪ missingFeatures)`, is the set
`specPendingFeatures` of the specification; this also holds at line 197 of a
pass (after propagation and the handle loop); and after every pass that gets
past the status-ready check, `pendingFeatures` is `specPendingFeatures` of the
resulting state. -/
theorem pending_update_refines (registry : QMap) (status : Nat) (s : Private)
    (hreach : Reachable registry status s) :
    s.pendingFeatures \ (s.satisfiedFeatures ∪ s.missingFeatures) = specPendingFeatures s ∧
    (afterPending s).pendingFeatures = specPendingFeatures (afterFinish s) ∧
    ∀ (enum : Finset Nat → List Nat) (s1 : Private), IsEnum enum →
      s.currentStatus ∈ s.supportedStatuses →
      ¬ (afterFinish s).requestedFeatures ⊆
        (afterFinish s).satisfiedFeatures ∪ (afterFinish s).missingFeatures →
      iterateIntrospection enum s = some s1 →
      s1.pendingFeatures = specPendingFeatures s1 := by
  have hinv := inv_reachable registry status s hreach
  have hpend := specPending_reachable registry status s hreach
  refine ⟨?_, ?_, ?_⟩
  · apply Finset.Subset.antisymm
    · exact Finset.sdiff_subset_sdiff hinv.pending_requested (Finset.Subset.refl _)
    · intro x hx
      exact Finset.mem_sdiff.2 ⟨hpend hx, (Finset.mem_sdiff.1 hx).2⟩
  · show (afterFinish s).pendingFeatures
        \ ((afterFinish s).satisfiedFeatures ∪ (afterFinish s).missingFeatures) =
      specPendingFeatures (afterFinish s)
    apply Finset.Subset.antisymm
    · exact Finset.sdiff_subset_sdiff (inv_afterFinish s hinv).pending_requested
        (Finset.Subset.refl _)
    · intro x hx
      exact Finset.mem_sdiff.2 ⟨specPending_afterFinish s hpend hx, (Finset.mem_sdiff.1 hx).2⟩
  · intro enum s1 henum hs hd hp
    exact specPending_pass enum (fun features x hx => ((henum features).2 x).1 hx) s s1
      hinv hpend hs hd hp

theorem pending_update_refines_witness :
    Reachable scenarioRegistry 10
      { scenarioRaceNoOp with scheduledPasses := scenarioRaceNoOp.scheduledPasses - 1 } ∧
    scenarioRaceNoOp.pendingFeatures
        \ (scenarioRaceNoOp.satisfiedFeatures ∪ scenarioRaceNoOp.missingFeatures) =
      specPendingFeatures scenarioRaceNoOp ∧
    specPendingFeatures scenarioRaceNoOp = {2} ∧
    iterateIntrospection ascending
      { scenarioRaceNoOp with scheduledPasses := scenarioRaceNoOp.scheduledPasses - 1 } =
      some scenarioRaceProbing ∧
    scenarioRaceProbing.pendingFeatures = specPendingFeatures scenarioRaceProbing :=
  have hr : Reachable scenarioRegistry 10
      { scenarioRaceNoOp with scheduledPasses := scenarioRaceNoOp.scheduledPasses - 1 } :=
    reachable_timer _ _ _ (reachable_of_runCalls _ _ _ _ (by decide) scenarioRaceNoOp_run)
      (by decide)
  have hpass : iterateIntrospection ascending
      { scenarioRaceNoOp with scheduledPasses := scenarioRaceNoOp.scheduledPasses - 1 } =
      some scenarioRaceProbing := by
    have h : ∃ s, iterateIntrospection ascending
        { scenarioRaceNoOp with scheduledPasses := scenarioRaceNoOp.scheduledPasses - 1 } =
        some s ∧ s = scenarioRaceProbing := ⟨_, rfl, by ext1 <;> decide⟩
    obtain ⟨s, h1, h2⟩ := h
    rw [h1, h2]
  ⟨hr, (pending_update_refines scenarioRegistry 10 _ hr).1, by decide, hpass,
    (pending_update_refines scenarioRegistry 10 _ hr).2.2 ascending scenarioRaceProbing
      isEnum_ascending (by decide) (by decide) hpass⟩

theorem setIntrospectCompleted_emitted (s s1 : Private) (feature : Nat) (success : Bool)
    (hne : s.pendingStatusChange = true → s.inFlightFeatures.erase feature ≠ ∅)
    (h : setIntrospectCompleted s feature success = some s1) :
    s1.statusReadyEmitted = s.statusReadyEmitted := by
  cases hp : s.pendingStatusChange with
  | true =>
    rw [setIntrospectCompleted_pending s feature success hp, if_pos (hne hp)] at h
    cases h; rfl
  | false =>
    by_cases h2 : feature ∈ s.pendingFeatures ∧ feature ∈ s.inFlightFeatures
    · rw [setIntrospectCompleted_normal s feature success hp h2.1 h2.2] at h
      cases h; rfl
    · rw [setIntrospectCompleted_none s feature success hp (not_and_or.1 h2)] at h
      cases h

/-- What a pass started in a state that satisfies `Inv` emits: one
`statusReady(currentStatus)` when the status is supported and every requested
feature is decided after propagation, nothing otherwise. -/
theorem iterateIntrospection_emitted (enum : Finset Nat → List Nat)
    (henum : ∀ features x, x ∈ enum features → x ∈ features) (s s1 : Private)
    (hinv : Inv s) (hp : iterateIntrospection enum s = some s1) :
    (s.currentStatus ∈ s.supportedStatuses ∧ s.requestedFeatures ⊆ s.satisfiedFeatures ∪
        propagateMissing s.introspectables s.missingFeatures →
      s1 = emitStatusReady (afterFinish s) ∧
      s1.statusReadyEmitted = s.statusReadyEmitted ++ [(s.epoch, s.currentStatus)]) ∧
    (¬ (s.currentStatus ∈ s.supportedStatuses ∧ s.requestedFeatures ⊆ s.satisfiedFeatures ∪
        propagateMissing s.introspectables s.missingFeatures) →
      s1.statusReadyEmitted = s.statusReadyEmitted) := by
  obtain ⟨b1, b2, b3, -, -, b6, -, b8, -, -, -, b12, -⟩ := beforeLoop_fields enum s hinv
  have e1 : (afterFinish s).requestedFeatures = s.requestedFeatures := b3
  have e2 : (afterFinish s).satisfiedFeatures = s.satisfiedFeatures := b1
  have e3 : (afterFinish s).missingFeatures =
      propagateMissing s.introspectables s.missingFeatures := b2
  have e4 : (afterFinish s).statusReadyEmitted = s.statusReadyEmitted := b12
  have e5 : (afterFinish s).epoch = s.epoch := b8
  have e6 : (afterFinish s).currentStatus = s.currentStatus := b6
  by_cases c1 : s.currentStatus ∈ s.supportedStatuses
  · by_cases c2 : (afterFinish s).requestedFeatures ⊆
        (afterFinish s).satisfiedFeatures ∪ (afterFinish s).missingFeatures
    · rw [iterateIntrospection_decided enum s c1 c2] at hp
      cases hp
      refine ⟨fun _ => ⟨rfl, ?_⟩, fun hn => absurd ⟨c1, ?_⟩ hn⟩
      · show (afterFinish s).statusReadyEmitted ++
          [((afterFinish s).epoch, (afterFinish s).currentStatus)] = _
        rw [e4, e5, e6]
      · rw [← e1, ← e2, ← e3]
        exact c2
    · have hc2 : ¬ (s.currentStatus ∈ s.supportedStatuses ∧ s.requestedFeatures ⊆
          s.satisfiedFeatures ∪ propagateMissing s.introspectables s.missingFeatures) := by
        rintro ⟨_, hc⟩
        apply c2
        rw [e1, e2, e3]
        exact hc
      refine ⟨fun h => absurd h hc2, fun _ => ?_⟩
      rw [iterateIntrospection_undecided enum s c1 c2] at hp
      obtain ⟨s2, h2, _, hC⟩ := introspectLoop_induction
        (fun st => st.statusReadyEmitted = s.statusReadyEmitted)
        (fun st feature success st1 hi _ hnf hc _ _ hr => by
          rw [← hc]
          apply setIntrospectCompleted_emitted (markInFlight st feature) st1 feature success
            _ hr
          intro hpend
          show (insert feature st.inFlightFeatures).erase feature ≠ ∅
          rw [Finset.erase_insert hnf]
          exact hi.pending_inFlight hpend)
        (fun st feature _ _ _ hc _ _ => hc)
        (enum (readyToIntrospect enum s)) (beforeLoop enum s) (inv_beforeLoop enum s hinv)
        (fun f hf => eligible_readyToIntrospect enum henum s hinv f (henum _ _ hf)) b12
      rw [hp] at h2
      cases h2
      exact hC
  · rw [iterateIntrospection_unsupported enum s c1] at hp
    cases hp
    exact ⟨fun h => absurd h.1 c1, fun _ => rfl⟩

/-- C23: a pass run from a reachable state under a supported status.  If,
after the propagation step, `requestedFeatures` lies within `satisfiedFeatures
∪ missingFeatures`, the pass ends at line 192: it emits
`statusReady(currentStatus)` once, calls no probe and leaves `pendingFeatures`
and `inFlightFeatures` as they were.  Otherwise it emits nothing. -/
theorem statusReady_iff_decided (registry : QMap) (status : Nat) (s s1 : Private)
    (enum : Finset Nat → List Nat) (hreach : Reachable registry status s)
    (henum : IsEnum enum) (hs : s.currentStatus ∈ s.supportedStatuses)
    (hp : iterateIntrospection enum s = some s1) :
    (s.requestedFeatures ⊆ s.satisfiedFeatures ∪
        propagateMissing s.introspectables s.missingFeatures →
      s1.statusReadyEmitted = s.statusReadyEmitted ++ [(s.epoch, s.currentStatus)] ∧
      s1.probesInvoked = s.probesInvoked ∧ s1.pendingFeatures = s.pendingFeatures ∧
      s1.inFlightFeatures = s.inFlightFeatures) ∧
    (¬ s.requestedFeatures ⊆ s.satisfiedFeatures ∪
        propagateMissing s.introspectables s.missingFeatures →
      s1.statusReadyEmitted = s.statusReadyEmitted) ∧
    (s1.statusReadyEmitted ≠ s.statusReadyEmitted ↔
      s.requestedFeatures ⊆ s.satisfiedFeatures ∪
        propagateMissing s.introspectables s.missingFeatures) := by
  have hinv := inv_reachable registry status s hreach
  obtain ⟨k1, k2⟩ := iterateIntrospection_emitted enum
    (fun features x hx => ((henum features).2 x).1 hx) s s1 hinv hp
  have hdec : s.requestedFeatures ⊆ s.satisfiedFeatures ∪
        propagateMissing s.introspectables s.missingFeatures →
      s1.statusReadyEmitted = s.statusReadyEmitted ++ [(s.epoch, s.currentStatus)] ∧
      s1.probesInvoked = s.probesInvoked ∧ s1.pendingFeatures = s.pendingFeatures ∧
      s1.inFlightFeatures = s.inFlightFeatures := by
    intro hd
    obtain ⟨k3, k4⟩ := k1 ⟨hs, hd⟩
    refine ⟨k4, ?_, ?_, ?_⟩
    all_goals
      rw [k3]
      obtain ⟨operations, finished, hfo⟩ := afterFinish_frame s
      simp only [emitStatusReady]
      rw [hfo]
      rfl
  have hund : ¬ s.requestedFeatures ⊆ s.satisfiedFeatures ∪
        propagateMissing s.introspectables s.missingFeatures →
      s1.statusReadyEmitted = s.statusReadyEmitted := fun hd => k2 (fun hc => hd hc.2)
  refine ⟨hdec, hund, ?_⟩
  constructor
  · intro hne
    by_contra hd
    exact hne (hund hd)
  · intro hd hc
    have := (hdec hd).1
    rw [hc] at this
    simp at this

theorem statusReady_iff_decided_witness :
    Reachable scenarioRegistry 10 scenarioProbeFailedFired ∧ IsEnum ascending ∧
    scenarioProbeFailedFired.currentStatus ∈ scenarioProbeFailedFired.supportedStatuses ∧
    iterateIntrospection ascending scenarioProbeFailedFired = some scenarioProbeFailedEnd ∧
    scenarioProbeFailedFired.requestedFeatures ⊆ scenarioProbeFailedFired.satisfiedFeatures ∪
      propagateMissing scenarioProbeFailedFired.introspectables
        scenarioProbeFailedFired.missingFeatures ∧
    scenarioProbeFailedEnd.statusReadyEmitted =
      scenarioProbeFailedFired.statusReadyEmitted ++ [(0, 10)] ∧
    scenarioProbeFailedEnd.probesInvoked = scenarioProbeFailedFired.probesInvoked :=
  ⟨scenarioProbeFailedFired_reachable, isEnum_ascending, by decide,
    scenarioProbeFailedEnd_pass, by decide,
    ((statusReady_iff_decided scenarioRegistry 10 scenarioProbeFailedFired
      scenarioProbeFailedEnd ascending scenarioProbeFailedFired_reachable isEnum_ascending
      (by decide) scenarioProbeFailedEnd_pass).1 (by decide)).1,
    ((statusReady_iff_decided scenarioRegistry 10 scenarioProbeFailedFired
      scenarioProbeFailedEnd ascending scenarioProbeFailedFired_reachable isEnum_ascending
      (by decide) scenarioProbeFailedEnd_pass).1 (by decide)).2.1⟩

/-- What `setCurrentStatus` emits: nothing when it defers or applies a
supported status, one `statusReady` of the new epoch otherwise. -/
theorem setCurrentStatus_emitted (s : Private) (newStatus : Nat) :
    (s.inFlightFeatures ≠ ∅ →
      (setCurrentStatus s newStatus).epoch = s.epoch ∧
      (setCurrentStatus s newStatus).statusReadyEmitted = s.statusReadyEmitted) ∧
    (s.inFlightFeatures = ∅ →
      (setCurrentStatus s newStatus).epoch = s.epoch + 1 ∧
      (((setCurrentStatus s newStatus).currentStatus ∈
          (setCurrentStatus s newStatus).supportedStatuses ∧
        (setCurrentStatus s newStatus).statusReadyEmitted = s.statusReadyEmitted) ∨
       ((setCurrentStatus s newStatus).currentStatus ∉
          (setCurrentStatus s newStatus).supportedStatuses ∧
        (setCurrentStatus s newStatus).statusReadyEmitted = s.statusReadyEmitted ++
          [((setCurrentStatus s newStatus).epoch,
            (setCurrentStatus s newStatus).currentStatus)]))) := by
  dsimp only [setCurrentStatus]
  constructor
  · intro h
    rw [if_neg h]
    exact ⟨rfl, rfl⟩
  · intro h
    rw [if_pos h]
    by_cases h2 : newStatus ∈ s.supportedStatuses
    · rw [if_pos h2]
      exact ⟨rfl, Or.inl ⟨h2, rfl⟩⟩
    · rw [if_neg h2]
      exact ⟨rfl, Or.inr ⟨h2, rfl⟩⟩

/-- What one step emits, with the epoch it leads to. -/
theorem emitted_step (s s1 : Private) (hinv : Inv s) (hstep : Step s s1) :
    (s1.epoch = s.epoch ∧ s1.statusReadyEmitted = s.statusReadyEmitted) ∨
    (s1.epoch = s.epoch ∧ s.currentStatus ∈ s.supportedStatuses ∧
      (∃ enum, IsEnum enum ∧ iterateIntrospection enum s = some s1) ∧
      s1.statusReadyEmitted = s.statusReadyEmitted ++ [(s.epoch, s.currentStatus)]) ∨
    (s1.epoch = s.epoch + 1 ∧ s1.currentStatus ∈ s1.supportedStatuses ∧
      s1.statusReadyEmitted = s.statusReadyEmitted) ∨
    (s1.epoch = s.epoch + 1 ∧ s1.currentStatus ∉ s1.supportedStatuses ∧
      s1.statusReadyEmitted = s.statusReadyEmitted ++ [(s1.epoch, s1.currentStatus)]) := by
  have happlied : ∀ t : Private, t.inFlightFeatures = ∅ → ∀ n,
      t.epoch = s.epoch → t.statusReadyEmitted = s.statusReadyEmitted →
      ((setCurrentStatus t n).epoch = s.epoch + 1 ∧
        (setCurrentStatus t n).currentStatus ∈ (setCurrentStatus t n).supportedStatuses ∧
        (setCurrentStatus t n).statusReadyEmitted = s.statusReadyEmitted) ∨
      ((setCurrentStatus t n).epoch = s.epoch + 1 ∧
        (setCurrentStatus t n).currentStatus ∉ (setCurrentStatus t n).supportedStatuses ∧
        (setCurrentStatus t n).statusReadyEmitted = s.statusReadyEmitted ++
          [((setCurrentStatus t n).epoch, (setCurrentStatus t n).currentStatus)]) := by
    intro t ht n he hm
    obtain ⟨k1, k2⟩ := (setCurrentStatus_emitted t n).2 ht
    rw [he] at k1
    rw [hm] at k2
    rcases k2 with ⟨a, b⟩ | ⟨a, b⟩
    · exact Or.inl ⟨k1, a, b⟩
    · exact Or.inr ⟨k1, a, b⟩
  cases hstep with
  | status newStatus =>
    by_cases h : s.inFlightFeatures = ∅
    · exact Or.inr (Or.inr (happlied s h newStatus rfl rfl))
    · exact Or.inl ((setCurrentStatus_emitted s newStatus).1 h)
  | interfaces names => exact Or.inl ⟨rfl, rfl⟩
  | request features =>
    left
    dsimp only [becomeReady]
    split <;> exact ⟨rfl, rfl⟩
  | report _ feature success hr =>
    cases hp : s.pendingStatusChange with
    | true =>
      rw [setIntrospectCompleted_pending s feature success hp] at hr
      by_cases he : s.inFlightFeatures.erase feature ≠ ∅
      · rw [if_pos he] at hr
        cases hr
        exact Or.inl ⟨rfl, rfl⟩
      · rw [if_neg he] at hr
        cases hr
        exact Or.inr (Or.inr (happlied _ (not_not.1 he) _ rfl rfl))
    | false =>
      by_cases h2 : feature ∈ s.pendingFeatures ∧ feature ∈ s.inFlightFeatures
      · rw [setIntrospectCompleted_normal s feature success hp h2.1 h2.2] at hr
        cases hr
        exact Or.inl ⟨rfl, rfl⟩
      · rw [setIntrospectCompleted_none s feature success hp (not_and_or.1 h2)] at hr
        cases hr
  | timer ht => exact Or.inl ⟨rfl, rfl⟩
  | pass _ enum henum hp =>
    have hmem : ∀ features x, x ∈ enum features → x ∈ features :=
      fun features x hx => ((henum features).2 x).1 hx
    have hep := iterateIntrospection_epoch enum hmem s s1 hinv hp
    obtain ⟨k1, k2⟩ := iterateIntrospection_emitted enum hmem s s1 hinv hp
    by_cases hd : s.currentStatus ∈ s.supportedStatuses ∧ s.requestedFeatures ⊆
        s.satisfiedFeatures ∪ propagateMissing s.introspectables s.missingFeatures
    · exact Or.inr (Or.inl ⟨hep, hd.1, ⟨enum, henum, hp⟩, (k1 hd).2⟩)
    · exact Or.inl ⟨hep, k2 hd⟩

/-- In every reachable state no emission carries a later epoch, and in an
epoch of a status that is not supported at most one emission was made. -/
theorem emitted_reachable (registry : QMap) (status : Nat) (s : Private)
    (hreach : Reachable registry status s) :
    (∀ p ∈ s.statusReadyEmitted, p.1 ≤ s.epoch) ∧
    (s.currentStatus ∉ s.supportedStatuses →
      (s.statusReadyEmitted.filter (fun p => decide (p.1 = s.epoch))).length ≤ 1) := by
  obtain ⟨hwf, s0, h0, hs⟩ := hreach
  have hinv0 := inv_construct status registry hwf s0 h0
  induction hs with
  | refl =>
    have he : s0.statusReadyEmitted = [] := by
      dsimp only [construct] at h0
      split_ifs at h0 <;> cases h0 <;> rfl
    rw [he]
    exact ⟨fun p hp => absurd hp (List.not_mem_nil _), fun _ => Nat.zero_le _⟩
  | tail s1 s2 hs1 hstep ih =>
    obtain ⟨i1, i2⟩ := ih
    have hinv1 := inv_steps s0 s1 hinv0 hs1
    have hm := mono_step s1 s2 hstep
    have hold : (s1.statusReadyEmitted.filter (fun p => decide (p.1 = s1.epoch + 1))) = [] := by
      rw [List.filter_eq_nil_iff]
      intro p hp hc
      have h1 := i1 p hp
      have h2 : p.1 = s1.epoch + 1 := of_decide_eq_true hc
      omega
    rcases emitted_step s1 s2 hinv1 hstep with ⟨e1, e2⟩ | ⟨e1, e2, _, e3⟩ | ⟨e1, e2, e3⟩ |
      ⟨e1, e2, e3⟩
    · rw [e1, e2]
      refine ⟨i1, fun hu => i2 ?_⟩
      rw [← hm.status e1, ← hm.supported]
      exact hu
    · rw [e1, e3]
      refine ⟨?_, fun hu => absurd e2 ?_⟩
      · intro p hp
        rcases List.mem_append.1 hp with hp | hp
        · exact i1 p hp
        · rw [List.mem_singleton.1 hp]
      · rw [← hm.status e1, ← hm.supported]
        exact hu
    · rw [e1, e3]
      exact ⟨fun p hp => Nat.le_succ_of_le (i1 p hp), fun hu => absurd e2 hu⟩
    · rw [e3]
      refine ⟨?_, fun _ => ?_⟩
      · intro p hp
        rcases List.mem_append.1 hp with hp | hp
        · rw [e1]; exact Nat.le_succ_of_le (i1 p hp)
        · rw [List.mem_singleton.1 hp]
      · rw [List.filter_append, e1, hold]
        simp


theorem statusReady_twice_counterexample :
    (construct 10 scenarioRegistry).bind
      (runCalls [.request {1, 2}, .timer, .timer, .report 0 true, .timer, .timer]) =
      some scenarioEnd ∧
    scenarioEnd.statusReadyEmitted = [(0, 10)] ∧
    runCalls [.request {1}, .timer] scenarioEnd = some scenarioEmittedTwice ∧
    scenarioEmittedTwice.epoch = 0 ∧
    scenarioEmittedTwice.statusReadyEmitted = [(0, 10), (0, 10)] ∧
    (scenarioEmittedTwice.statusReadyEmitted.filter
      (fun p => decide (p.1 = scenarioEmittedTwice.epoch))).length = 2 := by
  have h : ∃ s, runCalls [.request {1}, .timer] scenarioEnd = some s ∧
      s = scenarioEmittedTwice := ⟨_, rfl, by ext1 <;> decide⟩
  obtain ⟨_, e, rfl⟩ := h
  exact ⟨scenarioEnd_run, rfl, e, rfl, rfl, by decide⟩

/-- C22, amended: in every reachable state no emission carries a later epoch,
and in an epoch whose status is not supported at most one `statusReady` was
emitted.  One step emits at most one `statusReady`: within the epoch only a
pass under a supported status does, and a step that applies a status change
emits once exactly when the new status is not supported.  A pass emits exactly
when the status is supported and every requested feature is decided after
propagation, so an epoch of a supported status has one emission for each such
pass. -/
theorem statusReady_per_pass (registry : QMap) (status : Nat) (s : Private)
    (hreach : Reachable registry status s) :
    (∀ p ∈ s.statusReadyEmitted, p.1 ≤ s.epoch) ∧
    (s.currentStatus ∉ s.supportedStatuses →
      (s.statusReadyEmitted.filter (fun p => decide (p.1 = s.epoch))).length ≤ 1) ∧
    (∀ s1, Step s s1 →
      (s1.epoch = s.epoch ∧ s1.statusReadyEmitted = s.statusReadyEmitted) ∨
      (s1.epoch = s.epoch ∧ s.currentStatus ∈ s.supportedStatuses ∧
        (∃ enum, IsEnum enum ∧ iterateIntrospection enum s = some s1) ∧
        s1.statusReadyEmitted = s.statusReadyEmitted ++ [(s.epoch, s.currentStatus)]) ∨
      (s1.epoch = s.epoch + 1 ∧ s1.currentStatus ∈ s1.supportedStatuses ∧
        s1.statusReadyEmitted = s.statusReadyEmitted) ∨
      (s1.epoch = s.epoch + 1 ∧ s1.currentStatus ∉ s1.supportedStatuses ∧
        s1.statusReadyEmitted = s.statusReadyEmitted ++ [(s1.epoch, s1.currentStatus)])) ∧
    (∀ (enum : Finset Nat → List Nat) (s1 : Private), IsEnum enum →
      iterateIntrospection enum s = some s1 →
      (s.currentStatus ∈ s.supportedStatuses ∧ s.requestedFeatures ⊆ s.satisfiedFeatures ∪
          propagateMissing s.introspectables s.missingFeatures →
        s1.statusReadyEmitted = s.statusReadyEmitted ++ [(s.epoch, s.currentStatus)]) ∧
      (¬ (s.currentStatus ∈ s.supportedStatuses ∧ s.requestedFeatures ⊆
          s.satisfiedFeatures ∪ propagateMissing s.introspectables s.missingFeatures) →
        s1.statusReadyEmitted = s.statusReadyEmitted)) := by
  have hinv := inv_reachable registry status s hreach
  obtain ⟨h1, h2⟩ := emitted_reachable registry status s hreach
  refine ⟨h1, h2, fun s1 hstep => emitted_step s s1 hinv hstep, ?_⟩
  intro enum s1 henum hp
  obtain ⟨k1, k2⟩ := iterateIntrospection_emitted enum
    (fun features x hx => ((henum features).2 x).1 hx) s s1 hinv hp
  exact ⟨fun hd => (k1 hd).2, k2⟩

theorem statusReady_per_pass_witness :
    Reachable scenarioRegistry 10 (setCurrentStatus scenarioEnd 12) ∧
    (setCurrentStatus scenarioEnd 12).currentStatus ∉
      (setCurrentStatus scenarioEnd 12).supportedStatuses ∧
    (setCurrentStatus scenarioEnd 12).statusReadyEmitted = [(0, 10), (1, 12)] ∧
    ((setCurrentStatus scenarioEnd 12).statusReadyEmitted.filter
      (fun p => decide (p.1 = (setCurrentStatus scenarioEnd 12).epoch))).length ≤ 1 :=
  have hr : Reachable scenarioRegistry 10 (setCurrentStatus scenarioEnd 12) :=
    reachable_steps _ _ _ _ (reachable_of_runCalls _ _ _ _ (by decide) scenarioEnd_run)
      (Steps.tail _ _ _ (Steps.refl _) (Step.status scenarioEnd 12))
  ⟨hr, by decide, by decide,
    (statusReady_per_pass scenarioRegistry 10 (setCurrentStatus scenarioEnd 12) hr).2.1
      (by decide)⟩

/-- The probe calls of a pass started in a state that satisfies `Inv`: they
are recorded after those of before, each feature once, and each meets the
conditions of a probe call in the state before the loop. -/
theorem iterateIntrospection_probes (enum : Finset Nat → List Nat) (henum : IsEnum enum)
    (s s1 : Private) (hinv : Inv s) (hp : iterateIntrospection enum s = some s1) :
    ∃ new : List (Nat × Nat), s1.probesInvoked = s.probesInvoked ++ new ∧
      (new.map Prod.snd).Nodup ∧ ∀ p ∈ new, ProbeAllowed (beforeLoop enum s) p := by
  by_cases c1 : s.currentStatus ∈ s.supportedStatuses
  · by_cases c2 : (afterFinish s).requestedFeatures ⊆
        (afterFinish s).satisfiedFeatures ∪ (afterFinish s).missingFeatures
    · rw [iterateIntrospection_decided enum s c1 c2] at hp
      cases hp
      refine ⟨[], ?_, List.nodup_nil, fun p hp => absurd hp (List.not_mem_nil _)⟩
      rw [List.append_nil]
      exact afterFinish_probes s
    · rw [iterateIntrospection_undecided enum s c1 c2] at hp
      obtain ⟨new, h1, h2, h3⟩ := introspectLoop_probes (beforeLoop enum s)
        (enum (readyToIntrospect enum s)) (beforeLoop enum s) []
        (inv_beforeLoop enum s hinv)
        (fun f hf => eligible_readyToIntrospect enum (fun features x hx =>
          ((henum features).2 x).1 hx) s hinv f (((henum _).2 f).1 hf))
        (loopFrame_refl _) (List.append_nil _).symm
        (fun p hp => absurd hp (List.not_mem_nil _)) List.nodup_nil s1 hp
      refine ⟨new, ?_, h3, h2⟩
      rw [h1, (beforeLoop_fields enum s hinv).2.2.2.2.2.2.2.2.1]
  · rw [iterateIntrospection_unsupported enum s c1] at hp
    cases hp
    exact ⟨[], (List.append_nil _).symm, List.nodup_nil,
      fun p hp => absurd hp (List.not_mem_nil _)⟩

/-- The probe calls of one step: none but in a pass, and there of features
that are not decided. -/
theorem probes_step (s s1 : Private) (hinv : Inv s) (hstep : Step s s1) :
    ∃ new : List (Nat × Nat), s1.probesInvoked = s.probesInvoked ++ new ∧
      ∀ p ∈ new, p.2 ∉ s.satisfiedFeatures ∧ p.2 ∉ s.missingFeatures := by
  have hnone : s1.probesInvoked = s.probesInvoked →
      ∃ new : List (Nat × Nat), s1.probesInvoked = s.probesInvoked ++ new ∧
        ∀ p ∈ new, p.2 ∉ s.satisfiedFeatures ∧ p.2 ∉ s.missingFeatures :=
    fun h => ⟨[], by rw [h, List.append_nil], fun p hp => absurd hp (List.not_mem_nil _)⟩
  cases hstep with
  | status newStatus => exact hnone (setCurrentStatus_probes s newStatus)
  | interfaces names => exact hnone rfl
  | request features =>
    apply hnone
    dsimp only [becomeReady]
    split <;> rfl
  | report _ feature success hr =>
    exact hnone (setIntrospectCompleted_probes s s1 feature success hr)
  | timer ht => exact hnone rfl
  | pass _ enum henum hp =>
    obtain ⟨new, h1, _, h3⟩ := iterateIntrospection_probes enum henum s s1 hinv hp
    obtain ⟨b1, b2, -⟩ := beforeLoop_fields enum s hinv
    refine ⟨new, h1, fun p hp => ?_⟩
    obtain ⟨_, _, a3, a4, -⟩ := h3 p hp
    rw [b1] at a3
    rw [b2] at a4
    exact ⟨a3, fun hc => a4 (propagateMissing_superset _ _ hc)⟩

/-- C21: from a reachable state `s` to any later state `t` of the same epoch
(no status change applied in between): `satisfiedFeatures` and
`missingFeatures` have only grown and are disjoint, so a feature decided in `s`
is in the same set in `t`; no feature decided in `s` is in flight in `t`; and
no probe callback called in between is that of a feature decided in `s`. -/
theorem decided_stays (registry : QMap) (status : Nat) (s t : Private)
    (hreach : Reachable registry status s) (hsteps : Steps s t) (hep : t.epoch = s.epoch) :
    s.satisfiedFeatures ⊆ t.satisfiedFeatures ∧ s.missingFeatures ⊆ t.missingFeatures ∧
    Disjoint t.satisfiedFeatures t.missingFeatures ∧
    Disjoint t.inFlightFeatures (s.satisfiedFeatures ∪ s.missingFeatures) ∧
    ∃ new : List (Nat × Nat), t.probesInvoked = s.probesInvoked ++ new ∧
      ∀ p ∈ new, p.2 ∉ s.satisfiedFeatures ∪ s.missingFeatures := by
  have hinv := inv_reachable registry status s hreach
  have hinvt := inv_steps s t hinv hsteps
  have hm := mono_steps s t hsteps
  refine ⟨hm.satisfied hep, hm.missing hep, hinvt.satisfied_missing, ?_, ?_⟩
  · rw [Finset.disjoint_union_right]
    exact ⟨Finset.disjoint_of_subset_right (hm.satisfied hep) hinvt.inFlight_satisfied,
      Finset.disjoint_of_subset_right (hm.missing hep) hinvt.inFlight_missing⟩
  · clear hm hinvt
    induction hsteps with
    | refl => exact ⟨[], (List.append_nil _).symm, fun p hp => absurd hp (List.not_mem_nil _)⟩
    | tail t1 t2 hs1 hstep ih =>
      have hm1 := mono_steps s t1 hs1
      have hm2 := mono_step t1 t2 hstep
      have hep1 : t1.epoch = s.epoch := by
        have := hm1.epoch_le
        have := hm2.epoch_le
        omega
      obtain ⟨new1, e1, e2⟩ := ih hep1
      obtain ⟨new2, e3, e4⟩ := probes_step t1 t2 (inv_steps s t1 hinv hs1) hstep
      refine ⟨new1 ++ new2, by rw [e3, e1, List.append_assoc], ?_⟩
      intro p hp
      rcases List.mem_append.1 hp with hp | hp
      · exact e2 p hp
      · rw [Finset.mem_union, not_or]
        exact ⟨fun hc => (e4 p hp).1 (hm1.satisfied hep1 hc),
          fun hc => (e4 p hp).2 (hm1.missing hep1 hc)⟩

theorem decided_stays_witness :
    Reachable scenarioRegistry 10 scenarioProbeFailedFired ∧
    Steps scenarioProbeFailedFired scenarioProbeFailedEnd ∧
    scenarioProbeFailedEnd.epoch = scenarioProbeFailedFired.epoch ∧
    scenarioProbeFailedFired.missingFeatures = {1} ∧
    scenarioProbeFailedFired.missingFeatures ⊆ scenarioProbeFailedEnd.missingFeatures ∧
    Disjoint scenarioProbeFailedEnd.inFlightFeatures
      (scenarioProbeFailedFired.satisfiedFeatures ∪ scenarioProbeFailedFired.missingFeatures) :=
  have hs : Steps scenarioProbeFailedFired scenarioProbeFailedEnd :=
    Steps.tail _ _ _ (Steps.refl _)
      (Step.pass _ _ ascending isEnum_ascending scenarioProbeFailedEnd_pass)
  ⟨scenarioProbeFailedFired_reachable, hs, rfl, rfl,
    (decided_stays scenarioRegistry 10 scenarioProbeFailedFired scenarioProbeFailedEnd
      scenarioProbeFailedFired_reachable hs rfl).2.1,
    (decided_stays scenarioRegistry 10 scenarioProbeFailedFired scenarioProbeFailedEnd
      scenarioProbeFailedFired_reachable hs rfl).2.2.2.1⟩

theorem setCurrentStatus_introspectables (s : Private) (newStatus : Nat) :
    (setCurrentStatus s newStatus).introspectables = s.introspectables := by
  dsimp only [setCurrentStatus]
  split_ifs <;> rfl

theorem setIntrospectCompleted_introspectables (s s1 : Private) (feature : Nat)
    (success : Bool) (h : setIntrospectCompleted s feature success = some s1) :
    s1.introspectables = s.introspectables := by
  cases hp : s.pendingStatusChange with
  | true =>
    rw [setIntrospectCompleted_pending s feature success hp] at h
    split_ifs at h
    · cases h; rfl
    · cases h; exact setCurrentStatus_introspectables _ _
  | false =>
    by_cases h2 : feature ∈ s.pendingFeatures ∧ feature ∈ s.inFlightFeatures
    · rw [setIntrospectCompleted_normal s feature success hp h2.1 h2.2] at h
      cases h; rfl
    · rw [setIntrospectCompleted_none s feature success hp (not_and_or.1 h2)] at h
      cases h

theorem findReady_grown (m : QMap) (satisfied : Finset Nat) (l : List Nat)
    (x : Nat × Introspectable) (hx : x ∈ (findReady m satisfied l).1) :
    x ∈ m ∨ x.2 = Introspectable.null := by
  unfold findReady at hx
  have key : ∀ (l : List Nat) (acc : QMap × Finset Nat),
      (∀ y ∈ acc.1, y ∈ m ∨ y.2 = Introspectable.null) →
      ∀ y ∈ (l.foldl (fun acc feature =>
        (acc.1.touch feature,
          if (acc.1.value feature).dependsOnFeatures \ satisfied = ∅ then
            insert feature acc.2
          else acc.2)) acc).1, y ∈ m ∨ y.2 = Introspectable.null := by
    intro l
    induction l with
    | nil => intro acc h; exact h
    | cons a l ih =>
      intro acc h
      rw [List.foldl_cons]
      apply ih
      intro y hy
      rcases QMap.mem_touch _ _ y hy with rfl | hy
      · exact Or.inr rfl
      · exact h y hy
  exact key l _ (fun y hy => Or.inl hy) x hx

/-- A step adds nothing to the registry but default-constructed entries. -/
theorem grown_step (s s1 : Private) (hstep : Step s s1) :
    ∀ x ∈ s1.introspectables, x ∈ s.introspectables ∨ x.2 = Introspectable.null := by
  cases hstep with
  | status newStatus =>
    rw [setCurrentStatus_introspectables]
    exact fun x hx => Or.inl hx
  | interfaces names => exact fun x hx => Or.inl hx
  | request features =>
    have h : (becomeReady s features).2.introspectables = s.introspectables := by
      dsimp only [becomeReady]
      split <;> rfl
    rw [h]
    exact fun x hx => Or.inl hx
  | report _ feature success hr =>
    rw [setIntrospectCompleted_introspectables s s1 feature success hr]
    exact fun x hx => Or.inl hx
  | timer ht => exact fun x hx => Or.inl hx
  | pass _ enum henum hp =>
    have hfin : (afterFinish s).introspectables = s.introspectables := by
      obtain ⟨operations, finished, hfo⟩ := afterFinish_frame s
      rw [hfo]; rfl
    by_cases c1 : s.currentStatus ∈ s.supportedStatuses
    · by_cases c2 : (afterFinish s).requestedFeatures ⊆
          (afterFinish s).satisfiedFeatures ∪ (afterFinish s).missingFeatures
      · rw [iterateIntrospection_decided enum s c1 c2] at hp
        cases hp
        show ∀ x ∈ (afterFinish s).introspectables, _
        rw [hfin]
        exact fun x hx => Or.inl hx
      · rw [iterateIntrospection_undecided enum s c1 c2] at hp
        have hloop := introspectLoop_rel
          (fun a b => ∀ x ∈ b.introspectables,
            x ∈ a.introspectables ∨ x.2 = Introspectable.null)
          (fun a x hx => Or.inl hx)
          (fun a b c hab hbc x hx => by
            rcases hbc x hx with h | h
            · exact hab x h
            · exact Or.inr h)
          (fun a feature x hx => by
            rcases QMap.mem_touch _ _ x hx with rfl | h
            · exact Or.inr rfl
            · exact Or.inl h)
          (fun a feature x hx => Or.inl hx)
          (fun a feature success b hr x hx => by
            rw [setIntrospectCompleted_introspectables a b feature success hr] at hx
            exact Or.inl hx)
          _ _ _ hp
        intro x hx
        rcases hloop x hx with h | h
        · rcases findReady_grown _ _ _ x h with h | h
          · rw [afterPending_introspectables] at h
            exact Or.inl h
          · exact Or.inr h
        · exact Or.inr h
    · rw [iterateIntrospection_unsupported enum s c1] at hp
      cases hp
      exact fun x hx => Or.inl hx

theorem grown_steps (s s1 : Private) (hs : Steps s s1) :
    ∀ x ∈ s1.introspectables, x ∈ s.introspectables ∨ x.2 = Introspectable.null := by
  induction hs with
  | refl => exact fun x hx => Or.inl hx
  | tail s1 s2 _ hstep ih =>
    intro x hx
    rcases grown_step s1 s2 hstep x hx with h | h
    · exact ih x h
    · exact Or.inr h

theorem mem_supportedStatuses (m : QMap) (init : Finset Nat) (x : Nat) :
    x ∈ m.foldl (fun acc e => acc ∪ e.2.makesSenseForStatuses) init ↔
      x ∈ init ∨ ∃ e ∈ m, x ∈ e.2.makesSenseForStatuses := by
  induction m generalizing init with
  | nil => simp
  | cons e m ih =>
    rw [List.foldl_cons, ih, Finset.mem_union]
    simp only [List.mem_cons, exists_eq_or_imp]
    tauto

/-- A registry that kept the entries of `m` and gained only default entries
answers every lookup as `m` does. -/
theorem value_of_grown (m m1 : QMap) (hwf : QMap.WF m1) (hkept : ∀ x ∈ m, x ∈ m1)
    (hgrown : ∀ x ∈ m1, x ∈ m ∨ x.2 = Introspectable.null) (f : Nat) :
    m1.value f = m.value f := by
  cases h : m.find? (fun e => e.1 == f) with
  | some e =>
    have he : e ∈ m := List.mem_of_find?_eq_some h
    have hk : e.1 = f := by simpa using List.find?_some h
    have hv : m.value f = e.2 := by simp only [QMap.value, h]
    rw [hv, ← hk]
    exact QMap.value_of_mem m1 hwf e (hkept e he)
  | none =>
    have hv : m.value f = Introspectable.null := by simp only [QMap.value, h]
    rw [hv]
    cases h1 : m1.find? (fun e => e.1 == f) with
    | none => simp only [QMap.value, h1]
    | some e1 =>
      have he1 : e1 ∈ m1 := List.mem_of_find?_eq_some h1
      have hk : (e1.1 == f) = true :=
        @List.find?_some _ (fun e => e.1 == f) e1 m1 h1
      have hv1 : m1.value f = e1.2 := by simp only [QMap.value, h1]
      rw [hv1]
      rcases hgrown e1 he1 with hm | hn
      · have := List.find?_eq_none.1 h e1 hm
        exact absurd hk this
      · exact hn


theorem registry_grows_counterexample :
    (construct 10 scenarioRegistry).bind
      (runCalls [.request {1, 2}, .timer, .timer, .report 0 true, .timer, .timer]) =
      some scenarioEnd ∧
    scenarioEnd.introspectables = scenarioRegistry ∧
    runCalls [.request {7}, .timer] scenarioEnd = some scenarioUnregistered ∧
    scenarioUnregistered.introspectables = scenarioRegistry ++ [(7, Introspectable.null)] ∧
    scenarioUnregistered.introspectables ≠ scenarioRegistry ∧
    scenarioRegistry.contains 7 = false ∧
    scenarioUnregistered.introspectables.contains 7 = true := by
  have h : ∃ s, runCalls [.request {7}, .timer] scenarioEnd = some s ∧
      s = scenarioUnregistered := ⟨_, rfl, by ext1 <;> decide⟩
  obtain ⟨_, e, rfl⟩ := h
  exact ⟨scenarioEnd_run, rfl, e, rfl, by decide, by decide, by decide⟩

/-- C28, amended: construction fails exactly when the registry has no entry
for feature 0 or some entry has a null probe callback.  When it succeeds, the
registry is stored as given, a status is in `supportedStatuses` exactly when
some registered feature has it among its meaningful statuses, and in every
later state `supportedStatuses` is the same, every registered entry is still
in the registry, every other entry of the registry is a default-constructed
one, and `introspectables[f]` evaluates as at construction for every `f`. -/
theorem construct_contract (status : Nat) (registry : QMap) (hwf : QMap.WF registry) :
    (construct status registry = none ↔
      registry.contains 0 = false ∨ ∃ e ∈ registry, e.2.introspectFunc = 0) ∧
    ∀ s0, construct status registry = some s0 →
      s0.introspectables = registry ∧
      (∀ x, x ∈ s0.supportedStatuses ↔ ∃ e ∈ registry, x ∈ e.2.makesSenseForStatuses) ∧
      ∀ s, Steps s0 s →
        s.supportedStatuses = s0.supportedStatuses ∧
        (∀ e ∈ registry, e ∈ s.introspectables) ∧
        (∀ e ∈ s.introspectables, e ∈ registry ∨ e.2 = Introspectable.null) ∧
        (∀ f, s.introspectables.value f = registry.value f) := by
  constructor
  · dsimp only [construct]
    constructor
    · intro h
      by_contra hc
      rw [not_or] at hc
      rw [if_neg hc.1, if_neg] at h
      · split_ifs at h
      · intro ha
        apply hc.2
        obtain ⟨e, he, hf⟩ := List.any_eq_true.1 ha
        exact ⟨e, he, by simpa using hf⟩
    · rintro (h | ⟨e, he, hf⟩)
      · rw [if_pos h]
      · by_cases h0 : registry.contains 0 = false
        · rw [if_pos h0]
        · rw [if_neg h0, if_pos]
          exact List.any_eq_true.2 ⟨e, he, by simpa using hf⟩
  · intro s0 h0
    have hreg := construct_registry status registry s0 h0
    have hsup : ∀ x, x ∈ s0.supportedStatuses ↔
        ∃ e ∈ registry, x ∈ e.2.makesSenseForStatuses := by
      intro x
      have hs : s0.supportedStatuses =
          registry.foldl (fun acc e => acc ∪ e.2.makesSenseForStatuses) ∅ := by
        dsimp only [construct] at h0
        split_ifs at h0 <;> cases h0 <;> rfl
      rw [hs, mem_supportedStatuses]
      simp
    refine ⟨hreg, hsup, ?_⟩
    intro s hs
    have hm := mono_steps s0 s hs
    have hinv := inv_steps s0 s (inv_construct status registry hwf s0 h0) hs
    have hkept : ∀ e ∈ registry, e ∈ s.introspectables := by
      intro e he
      apply hm.registry
      rw [hreg]
      exact he
    have hgrown : ∀ e ∈ s.introspectables, e ∈ registry ∨ e.2 = Introspectable.null := by
      intro e he
      have := grown_steps s0 s hs e he
      rw [hreg] at this
      exact this
    exact ⟨hm.supported, hkept, hgrown,
      value_of_grown registry s.introspectables hinv.wf hkept hgrown⟩

theorem construct_contract_witness :
    QMap.WF scenarioRegistry ∧
    construct 10 scenarioRegistry = some scenarioStart ∧
    scenarioStart.introspectables = scenarioRegistry ∧
    (construct 10 [] = none ↔
      QMap.contains [] 0 = false ∨
        ∃ e ∈ ([] : QMap), e.2.introspectFunc = 0) ∧
    construct 10 [] = none :=
  have h0 : construct 10 scenarioRegistry = some scenarioStart := by
    have h : ∃ s, construct 10 scenarioRegistry = some s ∧ s = scenarioStart :=
      ⟨_, rfl, by ext1 <;> decide⟩
    obtain ⟨s, h1, h2⟩ := h
    rw [h1, h2]
  ⟨by decide, h0,
    ((construct_contract 10 scenarioRegistry (by decide)).2 scenarioStart h0).1,
    (construct_contract 10 [] (by decide)).1, rfl⟩

/-- An applied status change: the next epoch, with nothing decided and every
requested feature pending. -/
theorem setCurrentStatus_reset (s : Private) (newStatus : Nat) (h : s.inFlightFeatures = ∅) :
    (setCurrentStatus s newStatus).epoch = s.epoch + 1 ∧
    (setCurrentStatus s newStatus).currentStatus = newStatus ∧
    (setCurrentStatus s newStatus).pendingFeatures =
      (setCurrentStatus s newStatus).requestedFeatures ∧
    (setCurrentStatus s newStatus).satisfiedFeatures = ∅ ∧
    (setCurrentStatus s newStatus).missingFeatures = ∅ ∧
    s.requestedFeatures ⊆ (setCurrentStatus s newStatus).requestedFeatures := by
  dsimp only [setCurrentStatus]
  rw [if_pos h]
  split_ifs
  · exact ⟨rfl, rfl, rfl, rfl, rfl, Finset.subset_insert _ _⟩
  · exact ⟨rfl, rfl, rfl, rfl, rfl, Finset.Subset.refl _⟩

/-- A step that changes the epoch applies a status change. -/
theorem epoch_step (s s1 : Private) (hinv : Inv s) (hstep : Step s s1)
    (hne : s1.epoch ≠ s.epoch) :
    s1.epoch = s.epoch + 1 ∧ s1.pendingFeatures = s1.requestedFeatures ∧
    s1.satisfiedFeatures = ∅ ∧ s1.missingFeatures = ∅ := by
  cases hstep with
  | status newStatus =>
    by_cases h : s.inFlightFeatures = ∅
    · obtain ⟨a, _, b, c, d, _⟩ := setCurrentStatus_reset s newStatus h
      exact ⟨a, b, c, d⟩
    · exact absurd ((setCurrentStatus_emitted s newStatus).1 h).1 hne
  | interfaces names => exact absurd rfl hne
  | request features =>
    refine absurd ?_ hne
    dsimp only [becomeReady]
    split <;> rfl
  | report _ feature success hr =>
    cases hp : s.pendingStatusChange with
    | true =>
      rw [setIntrospectCompleted_pending s feature success hp] at hr
      by_cases he : s.inFlightFeatures.erase feature ≠ ∅
      · rw [if_pos he] at hr
        cases hr
        exact absurd rfl hne
      · rw [if_neg he] at hr
        cases hr
        obtain ⟨a, _, b, c, d, _⟩ := setCurrentStatus_reset
          { s with inFlightFeatures := s.inFlightFeatures.erase feature,
                   pendingStatusChange := false } s.pendingStatus (not_not.1 he)
        exact ⟨a, b, c, d⟩
    | false =>
      by_cases h2 : feature ∈ s.pendingFeatures ∧ feature ∈ s.inFlightFeatures
      · rw [setIntrospectCompleted_normal s feature success hp h2.1 h2.2] at hr
        cases hr
        exact absurd rfl hne
      · rw [setIntrospectCompleted_none s feature success hp (not_and_or.1 h2)] at hr
        cases hr
  | timer ht => exact absurd rfl hne
  | pass _ enum henum hp =>
    exact absurd (iterateIntrospection_epoch enum
      (fun features x hx => ((henum features).2 x).1 hx) s s1 hinv hp) hne

/-- C35: from a reachable state, every step (a call of `becomeReady`,
`setCurrentStatus`, `setInterfaces` or `setIntrospectCompleted`, a timer firing,
a pass) and every sequence of steps leaves `requestedFeatures` a superset of
what it was; and a step that applies a status change ends in the next epoch
with `pendingFeatures = requestedFeatures` and nothing decided. -/
theorem requested_never_shrinks (registry : QMap) (status : Nat) (s : Private)
    (hreach : Reachable registry status s) :
    (∀ s1, Step s s1 → s.requestedFeatures ⊆ s1.requestedFeatures) ∧
    (∀ t, Steps s t → s.requestedFeatures ⊆ t.requestedFeatures) ∧
    (∀ s1, Step s s1 → s1.epoch ≠ s.epoch →
      s1.epoch = s.epoch + 1 ∧ s1.pendingFeatures = s1.requestedFeatures ∧
      s.requestedFeatures ⊆ s1.pendingFeatures ∧
      s1.satisfiedFeatures = ∅ ∧ s1.missingFeatures = ∅) ∧
    (∀ newStatus, s.inFlightFeatures = ∅ →
      (setCurrentStatus s newStatus).pendingFeatures =
        (setCurrentStatus s newStatus).requestedFeatures ∧
      s.requestedFeatures ⊆ (setCurrentStatus s newStatus).requestedFeatures) := by
  have hinv := inv_reachable registry status s hreach
  refine ⟨fun s1 hstep => (mono_step s s1 hstep).requested,
    fun t hs => (mono_steps s t hs).requested, ?_, ?_⟩
  · intro s1 hstep hne
    obtain ⟨a, b, c, d⟩ := epoch_step s s1 hinv hstep hne
    refine ⟨a, b, ?_, c, d⟩
    rw [b]
    exact (mono_step s s1 hstep).requested
  · intro newStatus h
    obtain ⟨_, _, b, _, _, e⟩ := setCurrentStatus_reset s newStatus h
    exact ⟨b, e⟩

theorem requested_never_shrinks_witness :
    Reachable scenarioRegistry 10 scenarioEnd ∧
    Step scenarioEnd (setCurrentStatus scenarioEnd 11) ∧
    (setCurrentStatus scenarioEnd 11).epoch ≠ scenarioEnd.epoch ∧
    scenarioEnd.requestedFeatures = {0, 1, 2} ∧
    scenarioEnd.requestedFeatures ⊆ (setCurrentStatus scenarioEnd 11).requestedFeatures ∧
    (setCurrentStatus scenarioEnd 11).pendingFeatures =
      (setCurrentStatus scenarioEnd 11).requestedFeatures :=
  have hr : Reachable scenarioRegistry 10 scenarioEnd :=
    reachable_of_runCalls _ _ _ _ (by decide) scenarioEnd_run
  ⟨hr, Step.status scenarioEnd 11, by decide, rfl,
    (requested_never_shrinks scenarioRegistry 10 scenarioEnd hr).1 _
      (Step.status scenarioEnd 11),
    ((requested_never_shrinks scenarioRegistry 10 scenarioEnd hr).2.2.1 _
      (Step.status scenarioEnd 11) (by decide)).2.1⟩

/-- What `becomeReady` leaves as it was, and the handle it returns. -/
theorem becomeReady_frame (s : Private) (features : Finset Nat) :
    (becomeReady s features).2.finishedOperations = s.finishedOperations ∧
    (becomeReady s features).2.probesInvoked = s.probesInvoked ∧
    (becomeReady s features).2.statusReadyEmitted = s.statusReadyEmitted ∧
    (becomeReady s features).2.satisfiedFeatures = s.satisfiedFeatures ∧
    (becomeReady s features).2.missingFeatures = s.missingFeatures ∧
    (becomeReady s features).2.inFlightFeatures = s.inFlightFeatures ∧
    (becomeReady s features).2.currentStatus = s.currentStatus ∧
    (becomeReady s features).2.introspectables = s.introspectables ∧
    (becomeReady s features).1 ∈ (becomeReady s features).2.pendingOperations := by
  dsimp only [becomeReady]
  split
  · rename_i operation hfind
    exact ⟨rfl, rfl, rfl, rfl, rfl, rfl, rfl, rfl, List.mem_of_find?_eq_some hfind⟩
  · exact ⟨rfl, rfl, rfl, rfl, rfl, rfl, rfl, rfl,
      List.mem_append_right _ (List.mem_singleton_self _)⟩

/-- C34: in a reachable state, `becomeReady` and `setCurrentStatus` call
`setFinished()` on no handle and call no probe; `becomeReady` decides nothing
and puts nothing in flight.  The handle `becomeReady(features)` returns is
outstanding and unfinished on return, also when its features are all decided;
in that case the next pass, run under a supported status after any number of
timer firings, calls `setFinished()` on it and removes it from the list. -/
theorem no_inline_resolution (registry : QMap) (status : Nat) (s : Private)
    (features : Finset Nat) (hreach : Reachable registry status s) :
    ((becomeReady s features).2.finishedOperations = s.finishedOperations ∧
      (becomeReady s features).2.probesInvoked = s.probesInvoked ∧
      (becomeReady s features).2.satisfiedFeatures = s.satisfiedFeatures ∧
      (becomeReady s features).2.missingFeatures = s.missingFeatures ∧
      (becomeReady s features).2.inFlightFeatures = s.inFlightFeatures) ∧
    (∀ newStatus, (setCurrentStatus s newStatus).finishedOperations = s.finishedOperations ∧
      (setCurrentStatus s newStatus).pendingOperations = s.pendingOperations ∧
      (setCurrentStatus s newStatus).probesInvoked = s.probesInvoked) ∧
    ((becomeReady s features).1 ∈ (becomeReady s features).2.pendingOperations ∧
      (becomeReady s features).1.ptr ∉ (becomeReady s features).2.finishedOperations) ∧
    ∀ (enum : Finset Nat → List Nat) (passes : Nat) (s1 : Private),
      s.currentStatus ∈ s.supportedStatuses →
      (becomeReady s features).1.requestedFeatures ⊆
        s.satisfiedFeatures ∪ s.missingFeatures →
      iterateIntrospection enum
        { (becomeReady s features).2 with scheduledPasses := passes } = some s1 →
      (becomeReady s features).1.ptr ∈ s1.finishedOperations ∧
      (becomeReady s features).1 ∉ s1.pendingOperations := by
  obtain ⟨f1, f2, -, f4, f5, f6, f7, f8, f9⟩ := becomeReady_frame s features
  have hops := operationsInv_step s _ (operationsInv_reachable registry status s hreach)
    (Step.request s features)
  have hsame := sameOperations_setCurrentStatus s
  refine ⟨⟨f1, f2, f4, f5, f6⟩,
    fun newStatus => ⟨(hsame newStatus).2.1, (hsame newStatus).1,
      setCurrentStatus_probes s newStatus⟩,
    ⟨f9, hops.unfinished _ f9⟩, ?_⟩
  intro enum passes s1 hs hd hp
  have hops1 : OperationsInv { (becomeReady s features).2 with scheduledPasses := passes } :=
    operationsInv_congr _ _ hops ⟨rfl, rfl, rfl⟩
  obtain ⟨hpend, hfin⟩ := pass_operations enum _ s1 hops1
    (by
      show (becomeReady s features).2.currentStatus ∈
        (becomeReady s features).2.supportedStatuses
      rw [f7, (mono_becomeReady s features).supported]
      exact hs) hp
  have hfinishable : finishable
      (afterPropagation { (becomeReady s features).2 with scheduledPasses := passes })
      (becomeReady s features).1 = true := by
    rw [finishable_iff]
    show _ ⊆ (becomeReady s features).2.satisfiedFeatures ∪
      propagateMissing (becomeReady s features).2.introspectables
        (becomeReady s features).2.missingFeatures
    rw [f4, f5]
    exact hd.trans (Finset.union_subset_union (Finset.Subset.refl _)
      (propagateMissing_superset _ _))
  constructor
  · rw [hfin]
    apply List.mem_append_right
    exact List.mem_map.2 ⟨_, List.mem_filter.2 ⟨f9, hfinishable⟩, rfl⟩
  · rw [hpend]
    intro hc
    have := (List.mem_filter.1 hc).2
    rw [hfinishable] at this
    exact absurd this (by decide)

theorem no_inline_resolution_witness :
    Reachable scenarioRegistry 10 scenarioEnd ∧
    (becomeReady scenarioEnd {1}).1 = { ptr := 1, requestedFeatures := {1} } ∧
    (becomeReady scenarioEnd {1}).1.requestedFeatures ⊆
      scenarioEnd.satisfiedFeatures ∪ scenarioEnd.missingFeatures ∧
    (becomeReady scenarioEnd {1}).1.ptr ∉ (becomeReady scenarioEnd {1}).2.finishedOperations ∧
    iterateIntrospection ascending
      { (becomeReady scenarioEnd {1}).2 with scheduledPasses := 0 } =
      some scenarioEmittedTwice ∧
    (becomeReady scenarioEnd {1}).1.ptr ∈ scenarioEmittedTwice.finishedOperations :=
  have hr : Reachable scenarioRegistry 10 scenarioEnd :=
    reachable_of_runCalls _ _ _ _ (by decide) scenarioEnd_run
  have hpass : iterateIntrospection ascending
      { (becomeReady scenarioEnd {1}).2 with scheduledPasses := 0 } =
      some scenarioEmittedTwice := by
    have h : ∃ s, iterateIntrospection ascending
        { (becomeReady scenarioEnd {1}).2 with scheduledPasses := 0 } = some s ∧
        s = scenarioEmittedTwice := ⟨_, rfl, by ext1 <;> decide⟩
    obtain ⟨s, h1, h2⟩ := h
    rw [h1, h2]
  ⟨hr, by decide, by decide,
    (no_inline_resolution scenarioRegistry 10 scenarioEnd {1} hr).2.2.1.2, hpass,
    ((no_inline_resolution scenarioRegistry 10 scenarioEnd {1} hr).2.2.2 ascending 0
      scenarioEmittedTwice (by decide) (by decide) hpass).1⟩

/-- Propagation adds only keys of the registry. -/
theorem propagateMissing_keys (m : QMap) (missing : Finset Nat) (x : Nat)
    (hx : x ∈ propagateMissing m missing) : x ∈ missing ∨ x ∈ m.map Prod.fst := by
  unfold propagateMissing at hx
  induction m generalizing missing with
  | nil => exact Or.inl hx
  | cons e m ih =>
    rw [List.foldl_cons] at hx
    rcases ih _ hx with h | h
    · split_ifs at h
      · rcases Finset.mem_insert.1 h with rfl | h
        · exact Or.inr (List.mem_cons_self _ _)
        · exact Or.inl h
      · exact Or.inl h
    · exact Or.inr (List.mem_cons_of_mem _ h)

/-- In a registry whose feature dependencies all have smaller identifiers than
the dependent feature, one traversal in key order reaches every registered
feature that has a dependency in the resulting set. -/
theorem propagateMissing_closed (m : QMap) (hwf : QMap.WF m)
    (hord : ∀ e ∈ m, ∀ d ∈ e.2.dependsOnFeatures, d < e.1)
    (missing : Finset Nat) (e : Nat × Introspectable) (he : e ∈ m) (d : Nat)
    (hd : d ∈ e.2.dependsOnFeatures) (hm : d ∈ propagateMissing m missing) :
    e.1 ∈ propagateMissing m missing := by
  induction m generalizing missing with
  | nil => cases he
  | cons a m ih =>
    rw [QMap.wf_cons] at hwf
    have hstep : propagateMissing (a :: m) missing =
        propagateMissing m
          (if a.2.dependsOnFeatures ∩ missing ≠ ∅ then insert a.1 missing else missing) := by
      simp only [propagateMissing, List.foldl_cons]
    rw [hstep] at hm ⊢
    rcases List.mem_cons.1 he with rfl | he
    · apply propagateMissing_superset
      have hdlt := hord e (List.mem_cons_self _ _) d hd
      rcases propagateMissing_keys m _ d hm with h | h
      · have hdm : d ∈ missing := by
          split_ifs at h
          · rcases Finset.mem_insert.1 h with rfl | h
            · exact absurd hdlt (lt_irrefl _)
            · exact h
          · exact h
        have hne : e.2.dependsOnFeatures ∩ missing ≠ ∅ :=
          Finset.ne_empty_of_mem (Finset.mem_inter.2 ⟨hd, hdm⟩)
        rw [if_pos hne]
        exact Finset.mem_insert_self _ _
      · obtain ⟨x, hx, hxk⟩ := List.mem_map.1 h
        have := hwf.1 x hx
        omega
    · exact ih hwf.2 (fun x hx => hord x (List.mem_cons_of_mem _ hx)) _ he hm


/-- C36: let every feature dependency of every registered feature have a
smaller identifier than the feature.  Then in every reachable state, after the
propagation step of a pass (lines 166-176), every feature with an entry in the
registry (as given at construction, or inserted since) that has a feature
dependency in `missingFeatures` is itself in `missingFeatures`. -/
theorem propagation_closed_of_ordered (registry : QMap) (status : Nat) (s : Private)
    (hreach : Reachable registry status s)
    (hord : ∀ e ∈ registry, ∀ d ∈ e.2.dependsOnFeatures, d < e.1) :
    (∀ e ∈ s.introspectables, ∀ d ∈ e.2.dependsOnFeatures,
      d ∈ (afterPropagation s).missingFeatures →
      e.1 ∈ (afterPropagation s).missingFeatures) ∧
    (∀ e ∈ registry, ∀ d ∈ e.2.dependsOnFeatures,
      d ∈ (afterPropagation s).missingFeatures →
      e.1 ∈ (afterPropagation s).missingFeatures) := by
  have hinv := inv_reachable registry status s hreach
  obtain ⟨hwf, s0, h0, hs⟩ := hreach
  have hreg := construct_registry status registry s0 h0
  have hord1 : ∀ e ∈ s.introspectables, ∀ d ∈ e.2.dependsOnFeatures, d < e.1 := by
    intro e he d hd
    rcases grown_steps s0 s hs e he with h | h
    · rw [hreg] at h
      exact hord e h d hd
    · rw [h] at hd
      exact absurd hd (Finset.not_mem_empty d)
  have key : ∀ e ∈ s.introspectables, ∀ d ∈ e.2.dependsOnFeatures,
      d ∈ (afterPropagation s).missingFeatures →
      e.1 ∈ (afterPropagation s).missingFeatures :=
    fun e he d hd hm =>
      propagateMissing_closed s.introspectables hinv.wf hord1 s.missingFeatures e he d hd hm
  refine ⟨key, fun e he => key e ?_⟩
  apply (mono_steps s0 s hs).registry
  rw [hreg]
  exact he

theorem propagation_closed_of_ordered_witness :
    Reachable scenarioRegistry 10 scenarioProbeFailedFired ∧
    (∀ e ∈ scenarioRegistry, ∀ d ∈ e.2.dependsOnFeatures, d < e.1) ∧
    scenarioProbeFailedFired.missingFeatures = {1} ∧
    (2, { makesSenseForStatuses := {10, 11}, dependsOnFeatures := {1},
          dependsOnInterfaces := [], introspectFunc := 3 }) ∈ scenarioRegistry ∧
    2 ∈ (afterPropagation scenarioProbeFailedFired).missingFeatures :=
  ⟨scenarioProbeFailedFired_reachable, by decide, rfl, by decide,
    (propagation_closed_of_ordered scenarioRegistry 10 scenarioProbeFailedFired
      scenarioProbeFailedFired_reachable (by decide)).2
      (2, { makesSenseForStatuses := {10, 11}, dependsOnFeatures := {1},
            dependsOnInterfaces := [], introspectFunc := 3 }) (by decide) 1 (by decide)
      (by decide)⟩

/-- In every reachable state `introspectables[f]` evaluates as in the registry
given at construction. -/
theorem value_reachable (registry : QMap) (status : Nat) (s : Private)
    (hreach : Reachable registry status s) (f : Nat) :
    s.introspectables.value f = registry.value f := by
  have hinv := inv_reachable registry status s hreach
  obtain ⟨hwf, s0, h0, hs⟩ := hreach
  have hreg := construct_registry status registry s0 h0
  apply value_of_grown registry s.introspectables hinv.wf
  · intro e he
    apply (mono_steps s0 s hs).registry
    rw [hreg]
    exact he
  · intro e he
    have := grown_steps s0 s hs e he
    rw [hreg] at this
    exact this

/-- The probe calls of one step, with the conditions they met in the state
before the step. -/
theorem probes_step_allowed (s s1 : Private) (hinv : Inv s) (hstep : Step s s1) :
    ∃ new : List (Nat × Nat), s1.probesInvoked = s.probesInvoked ++ new ∧
      (new.map Prod.snd).Nodup ∧
      ∀ p ∈ new, p.1 = s.epoch ∧ p.2 ∈ s.pendingFeatures ∧ p.2 ∉ s.satisfiedFeatures ∧
        p.2 ∉ s.missingFeatures ∧ p.2 ∉ s.inFlightFeatures ∧
        dependencies s p.2 ⊆ s.satisfiedFeatures := by
  have hnone : s1.probesInvoked = s.probesInvoked →
      ∃ new : List (Nat × Nat), s1.probesInvoked = s.probesInvoked ++ new ∧
        (new.map Prod.snd).Nodup ∧
        ∀ p ∈ new, p.1 = s.epoch ∧ p.2 ∈ s.pendingFeatures ∧
          p.2 ∉ s.satisfiedFeatures ∧
          p.2 ∉ s.missingFeatures ∧ p.2 ∉ s.inFlightFeatures ∧
          dependencies s p.2 ⊆ s.satisfiedFeatures :=
    fun h => ⟨[], by rw [h, List.append_nil], List.nodup_nil,
      fun p hp => absurd hp (List.not_mem_nil _)⟩
  cases hstep with
  | status newStatus => exact hnone (setCurrentStatus_probes s newStatus)
  | interfaces names => exact hnone rfl
  | request features => exact hnone (becomeReady_frame s features).2.1
  | report _ feature success hr =>
    exact hnone (setIntrospectCompleted_probes s s1 feature success hr)
  | timer ht => exact hnone rfl
  | pass _ enum henum hp =>
    obtain ⟨new, h1, h2, h3⟩ := iterateIntrospection_probes enum henum s s1 hinv hp
    obtain ⟨b1, b2, -, b4, b5, -, -, b8, -, -, -, -, b13⟩ := beforeLoop_fields enum s hinv
    refine ⟨new, h1, h2, fun p hp => ?_⟩
    obtain ⟨a1, a2, a3, a4, a5, a6, -⟩ := h3 p hp
    have hd : dependencies (beforeLoop enum s) p.2 = dependencies s p.2 := by
      simp only [dependencies, b13]
    rw [b4] at a2
    rw [b1] at a3 a6
    rw [b2] at a4
    rw [b5] at a5
    rw [hd] at a6
    exact ⟨a1.trans b8, (Finset.mem_sdiff.1 a2).1, a3,
      fun hc => a4 (propagateMissing_superset _ _ hc), a5, a6⟩

theorem satisfied_requested_setCurrentStatus (s : Private) (newStatus : Nat)
    (h : s.satisfiedFeatures ⊆ s.requestedFeatures) :
    (setCurrentStatus s newStatus).satisfiedFeatures ⊆
      (setCurrentStatus s newStatus).requestedFeatures := by
  by_cases h1 : s.inFlightFeatures = ∅
  · rw [(setCurrentStatus_reset s newStatus h1).2.2.2.1]
    exact Finset.empty_subset _
  · have : setCurrentStatus s newStatus =
        { s with pendingStatusChange := true, pendingStatus := newStatus } := by
      simp only [setCurrentStatus, if_neg h1]
    rw [this]
    exact h

theorem satisfied_requested_setIntrospectCompleted (s s1 : Private) (feature : Nat)
    (success : Bool) (hinv : Inv s) (h : s.satisfiedFeatures ⊆ s.requestedFeatures)
    (hr : setIntrospectCompleted s feature success = some s1) :
    s1.satisfiedFeatures ⊆ s1.requestedFeatures := by
  cases hp : s.pendingStatusChange with
  | true =>
    rw [setIntrospectCompleted_pending s feature success hp] at hr
    by_cases he : s.inFlightFeatures.erase feature ≠ ∅
    · rw [if_pos he] at hr
      cases hr
      exact h
    · rw [if_neg he] at hr
      cases hr
      exact satisfied_requested_setCurrentStatus _ _ h
  | false =>
    by_cases h2 : feature ∈ s.pendingFeatures ∧ feature ∈ s.inFlightFeatures
    · rw [setIntrospectCompleted_normal s feature success hp h2.1 h2.2] at hr
      cases hr
      cases success
      · exact h
      · exact Finset.insert_subset (hinv.pending_requested h2.1) h
    · rw [setIntrospectCompleted_none s feature success hp (not_and_or.1 h2)] at hr
      cases hr

theorem satisfied_requested_step (s s1 : Private) (hinv : Inv s)
    (h : s.satisfiedFeatures ⊆ s.requestedFeatures) (hstep : Step s s1) :
    s1.satisfiedFeatures ⊆ s1.requestedFeatures := by
  cases hstep with
  | status newStatus => exact satisfied_requested_setCurrentStatus s newStatus h
  | interfaces names => exact h
  | request features =>
    rw [(becomeReady_frame s features).2.2.2.1]
    exact h.trans (mono_becomeReady s features).requested
  | report _ feature success hr =>
    exact satisfied_requested_setIntrospectCompleted s s1 feature success hinv h hr
  | timer ht => exact h
  | pass _ enum henum hp =>
    have hfin : (afterFinish s).satisfiedFeatures ⊆ (afterFinish s).requestedFeatures := by
      obtain ⟨operations, finished, hfo⟩ := afterFinish_frame s
      rw [hfo]
      exact h
    obtain ⟨s2, h2, _, hC⟩ := iterateIntrospection_induction
      (fun st => st.satisfiedFeatures ⊆ st.requestedFeatures) enum
      (fun features x hx => ((henum features).2 x).1 hx) s hinv h
      (fun _ => hfin) (fun _ hc _ => hc) (fun _ hc => hc)
      (fun st feature success st1 hi he _ hc _ _ hs =>
        satisfied_requested_setIntrospectCompleted (markInFlight st feature) st1 feature
          success (inv_markInFlight st hi feature he) hc hs)
      (fun st feature _ _ _ hc _ _ => hc)
    rw [hp] at h2
    cases h2
    exact hC

/-- In every reachable state the satisfied features are requested, and every
probe call ever made was of a requested feature whose feature dependencies are
requested. -/
theorem requested_reachable (registry : QMap) (status : Nat) (s : Private)
    (hreach : Reachable registry status s) :
    s.satisfiedFeatures ⊆ s.requestedFeatures ∧
    ∀ p ∈ s.probesInvoked, p.2 ∈ s.requestedFeatures ∧
      (registry.value p.2).dependsOnFeatures ⊆ s.requestedFeatures := by
  have hreach0 := hreach
  obtain ⟨hwf, s0, h0, hs⟩ := hreach
  have hinv0 := inv_construct status registry hwf s0 h0
  clear hreach0
  induction hs with
  | refl =>
    have he : s0.satisfiedFeatures = ∅ ∧ s0.probesInvoked = [] := by
      dsimp only [construct] at h0
      split_ifs at h0 <;> cases h0 <;> exact ⟨rfl, rfl⟩
    rw [he.1, he.2]
    exact ⟨Finset.empty_subset _, fun p hp => absurd hp (List.not_mem_nil _)⟩
  | tail s1 s2 hs1 hstep ih =>
    obtain ⟨i1, i2⟩ := ih
    have hinv1 := inv_steps s0 s1 hinv0 hs1
    have hm := mono_step s1 s2 hstep
    refine ⟨satisfied_requested_step s1 s2 hinv1 i1 hstep, ?_⟩
    obtain ⟨new, e1, _, e3⟩ := probes_step_allowed s1 s2 hinv1 hstep
    intro p hp
    rw [e1] at hp
    rcases List.mem_append.1 hp with hp | hp
    · exact ⟨hm.requested (i2 p hp).1, (i2 p hp).2.trans hm.requested⟩
    · obtain ⟨_, a2, _, _, _, a6⟩ := e3 p hp
      refine ⟨hm.requested (hinv1.pending_requested a2), ?_⟩
      have hv := value_reachable registry status s1 ⟨hwf, s0, h0, hs1⟩ p.2
      rw [← hv]
      exact (a6.trans i1).trans hm.requested


theorem scenarioDependencyUnrequested_run :
    (construct 10 scenarioRegistry).bind
      (runCalls [.request {2}, .timer, .timer, .report 0 true, .timer]) =
      some scenarioDependencyUnrequested := by
  have h : ∃ s, (construct 10 scenarioRegistry).bind
      (runCalls [.request {2}, .timer, .timer, .report 0 true, .timer]) = some s ∧
      s = scenarioDependencyUnrequested := ⟨_, rfl, by ext1 <;> decide⟩
  obtain ⟨s, h1, h2⟩ := h
  rw [h1, h2]

/-- C37: in every reachable state `satisfiedFeatures` lies within
`requestedFeatures` and every probe call ever made was of a requested feature.
`becomeReady` requests the given features only (feature 0 for the empty set).
A feature with a feature dependency that is not in `requestedFeatures` is not
in flight, not satisfied and was never probed, in this state and in every
earlier one. -/
theorem dependencies_not_requested (registry : QMap) (status : Nat) (s : Private)
    (hreach : Reachable registry status s) :
    s.satisfiedFeatures ⊆ s.requestedFeatures ∧
    (∀ p ∈ s.probesInvoked, p.2 ∈ s.requestedFeatures) ∧
    (∀ features : Finset Nat, (becomeReady s features).2.requestedFeatures ⊆
      s.requestedFeatures ∪ (if features = ∅ then {0} else features)) ∧
    (∀ f d, d ∈ dependencies s f → d ∉ s.requestedFeatures →
      f ∉ s.inFlightFeatures ∧ f ∉ s.satisfiedFeatures ∧
      ∀ e, (e, f) ∉ s.probesInvoked) ∧
    (∀ t, Reachable registry status t → Steps t s →
      ∀ f d, d ∈ dependencies s f → d ∉ s.requestedFeatures →
        f ∉ t.inFlightFeatures ∧ f ∉ t.satisfiedFeatures ∧
        ∀ e, (e, f) ∉ t.probesInvoked) := by
  have key : ∀ t, Reachable registry status t → ∀ f d, d ∈ dependencies t f →
      d ∉ t.requestedFeatures →
      f ∉ t.inFlightFeatures ∧ f ∉ t.satisfiedFeatures ∧
      ∀ e, (e, f) ∉ t.probesInvoked := by
    intro t ht f d hd hn
    have hinv := inv_reachable registry status t ht
    obtain ⟨r1, r2⟩ := requested_reachable registry status t ht
    have hno : f ∉ t.inFlightFeatures ∪ t.satisfiedFeatures := by
      intro hc
      exact hn (r1 (hinv.deps_satisfied f hc hd))
    rw [Finset.mem_union, not_or] at hno
    refine ⟨hno.1, hno.2, fun e he => hn ?_⟩
    apply (r2 (e, f) he).2
    have hv := value_reachable registry status t ht f
    simp only [dependencies, hv] at hd
    exact hd
  obtain ⟨r1, r2⟩ := requested_reachable registry status s hreach
  refine ⟨r1, fun p hp => (r2 p hp).1, ?_, key s hreach, ?_⟩
  · intro features
    dsimp only [becomeReady]
    split
    · exact Finset.subset_union_left
    · show s.requestedFeatures ∪ (if features = ∅ then insert 0 features else features) ⊆ _
      by_cases h0 : features = ∅
      · rw [if_pos h0, if_pos h0, h0]
        rfl
      · rw [if_neg h0, if_neg h0]
  · intro t ht hsteps f d hd hn
    apply key t ht f d
    · have h1 := value_reachable registry status t ht f
      have h2 := value_reachable registry status s hreach f
      simp only [dependencies, h1]
      simp only [dependencies, h2] at hd
      exact hd
    · exact fun hc => hn ((mono_steps t s hsteps).requested hc)

theorem dependencies_not_requested_witness :
    Reachable scenarioRegistry 10 scenarioDependencyUnrequested ∧
    scenarioDependencyUnrequested.requestedFeatures = {0, 2} ∧
    1 ∈ dependencies scenarioDependencyUnrequested 2 ∧
    1 ∉ scenarioDependencyUnrequested.requestedFeatures ∧
    (scenarioDependencyUnrequested.inFlightFeatures = ∅ ∧
      scenarioDependencyUnrequested.scheduledPasses = 0) ∧
    2 ∉ scenarioDependencyUnrequested.satisfiedFeatures ∧
    (∀ e, (e, 2) ∉ scenarioDependencyUnrequested.probesInvoked) :=
  have hr : Reachable scenarioRegistry 10 scenarioDependencyUnrequested :=
    reachable_of_runCalls _ _ _ _ (by decide) scenarioDependencyUnrequested_run
  ⟨hr, rfl, by decide, by decide, ⟨rfl, rfl⟩,
    ((dependencies_not_requested scenarioRegistry 10 scenarioDependencyUnrequested
      hr).2.2.2.1 2 1 (by decide) (by decide)).2.1,
    ((dependencies_not_requested scenarioRegistry 10 scenarioDependencyUnrequested
      hr).2.2.2.1 2 1 (by decide) (by decide)).2.2⟩

/-- The course of the loop of lines 210-245: it probes features until it
reaches the end of the list, or a feature to complete synthetically; `st'` is
the state it is in at that point. -/
theorem introspectLoop_outcome (b : Private) (l : List Nat) (st : Private)
    (hinv : Inv st) (hl : ∀ f ∈ l, Eligible st f) (hframe : LoopFrame b st)
    (hsched : st.scheduledPasses = b.scheduledPasses)
    (hps : st.pendingStatusChange = b.pendingStatusChange) (s1 : Private)
    (h : introspectLoop st l = some s1) :
    ∃ st', Inv st' ∧ LoopFrame b st' ∧ st'.scheduledPasses = b.scheduledPasses ∧
      st'.pendingStatusChange = b.pendingStatusChange ∧
      st.inFlightFeatures ⊆ st'.inFlightFeatures ∧
      (∀ p ∈ st'.probesInvoked, p ∈ st.probesInvoked ∨ p.2 ∈ st'.inFlightFeatures) ∧
      ((s1 = st' ∧ ∀ f ∈ l, f ∈ st'.inFlightFeatures) ∨
       (∃ f success, f ∈ l ∧ Eligible st' f ∧ f ∉ st'.inFlightFeatures ∧
        setIntrospectCompleted (markInFlight st' f) f success = some s1)) := by
  induction l generalizing st with
  | nil =>
    cases h
    exact ⟨_, hinv, hframe, hsched, hps, Finset.Subset.refl _, fun p hp => Or.inl hp,
      Or.inl ⟨rfl, fun f hf => absurd hf (List.not_mem_nil _)⟩⟩
  | cons feature rest ih =>
    have he := hl feature (List.mem_cons_self _ _)
    have hrest : ∀ f ∈ rest, Eligible st f := fun f hf => hl f (List.mem_cons_of_mem _ hf)
    have hmark := inv_markInFlight st hinv feature he
    rw [introspectLoop_cons] at h
    by_cases h1 : feature ∈ st.inFlightFeatures
    · rw [if_pos h1] at h
      obtain ⟨st', a1, a2, a3, a4, a5, a6, a7⟩ := ih st hinv hrest hframe hsched hps h
      refine ⟨st', a1, a2, a3, a4, a5, a6, ?_⟩
      rcases a7 with ⟨e, hall⟩ | ⟨f, success, hf, c1, c2, c3⟩
      · left
        refine ⟨e, fun f hf => ?_⟩
        rcases List.mem_cons.1 hf with rfl | hf
        · exact a5 h1
        · exact hall f hf
      · exact Or.inr ⟨f, success, List.mem_cons_of_mem _ hf, c1, c2, c3⟩
    rw [if_neg h1] at h
    by_cases h2 : st.currentStatus ∉ (st.introspectables.value feature).makesSenseForStatuses
    · rw [if_pos h2] at h
      exact ⟨st, hinv, hframe, hsched, hps, Finset.Subset.refl _, fun p hp => Or.inl hp,
        Or.inr ⟨feature, true, List.mem_cons_self _ _, he, h1, h⟩⟩
    rw [if_neg h2] at h
    by_cases h3 : feature ≠ 0 ∧
        ∃ interface ∈ (st.introspectables.value feature).dependsOnInterfaces,
          interface ∉ st.interfaces
    · rw [if_pos h3] at h
      exact ⟨st, hinv, hframe, hsched, hps, Finset.Subset.refl _, fun p hp => Or.inl hp,
        Or.inr ⟨feature, false, List.mem_cons_self _ _, he, h1, h⟩⟩
    rw [if_neg h3] at h
    have hframe2 : LoopFrame b (invokeProbe (markInFlight st feature) feature) :=
      { satisfied := hframe.satisfied
        missing := hframe.missing
        requested := hframe.requested
        pending := hframe.pending
        status := hframe.status
        interfaces := hframe.interfaces
        epoch := hframe.epoch
        inFlight := hframe.inFlight.trans (Finset.subset_insert _ _)
        value := fun f => by
          show QMap.value (QMap.touch st.introspectables feature) f = _
          rw [QMap.touch_value _ _ _ hinv.wf, hframe.value] }
    obtain ⟨st', a1, a2, a3, a4, a5, a6, a7⟩ :=
      ih (invokeProbe (markInFlight st feature) feature) (inv_invokeProbe _ hmark feature)
        (fun f hf => eligible_invokeProbe_markInFlight st hinv feature f (hrest f hf))
        hframe2 hsched hps h
    have hin : feature ∈ st'.inFlightFeatures := a5 (Finset.mem_insert_self _ _)
    refine ⟨st', a1, a2, a3, a4, (Finset.subset_insert _ _).trans a5, ?_, ?_⟩
    · intro p hp
      rcases a6 p hp with hp | hp
      · rcases List.mem_append.1 hp with hp | hp
        · exact Or.inl hp
        · rw [List.mem_singleton.1 hp]
          exact Or.inr hin
      · exact Or.inr hp
    · rcases a7 with ⟨e, hall⟩ | ⟨f, success, hf, c1, c2, c3⟩
      · left
        refine ⟨e, fun f hf => ?_⟩
        rcases List.mem_cons.1 hf with rfl | hf
        · exact hin
        · exact hall f hf
      · exact Or.inr ⟨f, success, List.mem_cons_of_mem _ hf, c1, c2, c3⟩

/-- An eligible feature is in `readyToIntrospect` of a pass that reaches line
200. -/
theorem eligible_ready (enum : Finset Nat → List Nat) (henum : IsEnum enum) (t : Private)
    (hinv : Inv t) (f : Nat) (he : Eligible t f) : f ∈ readyToIntrospect enum t := by
  obtain ⟨b1, b2, -, b4, -⟩ := beforeLoop_fields enum t hinv
  rw [mem_readyToIntrospect enum t hinv f]
  have e1 : (afterPending t).pendingFeatures = t.pendingFeatures \
      (t.satisfiedFeatures ∪ propagateMissing t.introspectables t.missingFeatures) := b4
  have e2 : (afterPending t).satisfiedFeatures = t.satisfiedFeatures := b1
  have e3 : dependencies (afterPending t) f = dependencies t f := by
    simp only [dependencies, afterPending_introspectables]
  rw [e1, e2, e3, (henum _).2 f]
  refine ⟨Finset.mem_sdiff.2 ⟨he.1, ?_⟩, he.2.2.2⟩
  rw [Finset.mem_union, not_or]
  refine ⟨he.2.1, ?_⟩
  have hdisj := propagateMissing_disjoint t.introspectables hinv.wf
    (insert f t.satisfiedFeatures) t.missingFeatures
    (by
      intro g hg
      rcases Finset.mem_insert.1 hg with rfl | hg
      · exact he.2.2.2.trans (Finset.subset_insert _ _)
      · exact (hinv.deps_satisfied g (Finset.mem_union_right _ hg)).trans
          (Finset.subset_insert _ _))
    (by
      rw [Finset.disjoint_insert_left]
      exact ⟨he.2.2.1, hinv.satisfied_missing⟩)
  exact Finset.disjoint_left.1 hdisj (Finset.mem_insert_self _ _)


/-- The outcome of a pass under a supported status, from a state that satisfies
`Inv`: either no feature was completed synthetically, or exactly one was, as
the last thing the pass did. -/
theorem pass_outcome (enum : Finset Nat → List Nat) (henum : IsEnum enum) (s s1 : Private)
    (hinv : Inv s) (hs : s.currentStatus ∈ s.supportedStatuses)
    (hp : iterateIntrospection enum s = some s1) :
    s.inFlightFeatures ⊆ s1.inFlightFeatures ∧
    (∀ p ∈ s1.probesInvoked, p ∈ s.probesInvoked ∨ p.2 ∈ s1.inFlightFeatures) ∧
    ((s1.satisfiedFeatures = s.satisfiedFeatures ∧
      s1.missingFeatures = propagateMissing s.introspectables s.missingFeatures ∧
      s1.scheduledPasses = s.scheduledPasses ∧
      (¬ s.requestedFeatures ⊆ s.satisfiedFeatures ∪
          propagateMissing s.introspectables s.missingFeatures →
        ∀ f ∈ readyToIntrospect enum s, f ∈ s1.inFlightFeatures)) ∨
     (∃ (f : Nat) (success : Bool), f ∈ readyToIntrospect enum s ∧ f ∈ s.pendingFeatures ∧
      f ∉ s.satisfiedFeatures ∧
      f ∉ propagateMissing s.introspectables s.missingFeatures ∧
      f ∉ s1.inFlightFeatures ∧
      (s.pendingStatusChange = false →
        s1.satisfiedFeatures =
          (if success then insert f s.satisfiedFeatures else s.satisfiedFeatures) ∧
        s1.missingFeatures =
          (if success then propagateMissing s.introspectables s.missingFeatures
           else insert f (propagateMissing s.introspectables s.missingFeatures)) ∧
        s1.pendingFeatures = (s.pendingFeatures \ (s.satisfiedFeatures ∪
          propagateMissing s.introspectables s.missingFeatures)).erase f ∧
        s1.scheduledPasses = s.scheduledPasses + 1 ∧
        ∀ g, dependencies s1 g = dependencies s g) ∧
      (s.pendingStatusChange = true →
        s1.satisfiedFeatures = s.satisfiedFeatures ∧
        s1.missingFeatures = propagateMissing s.introspectables s.missingFeatures ∧
        s1.scheduledPasses = s.scheduledPasses))) := by
  have hmem : ∀ features x, x ∈ enum features → x ∈ features :=
    fun features x hx => ((henum features).2 x).1 hx
  obtain ⟨b1, b2, b3, b4, b5, -, -, -, b9, b10, b11, -, b13⟩ := beforeLoop_fields enum s hinv
  by_cases c2 : (afterFinish s).requestedFeatures ⊆
      (afterFinish s).satisfiedFeatures ∪ (afterFinish s).missingFeatures
  · have hdec : s.requestedFeatures ⊆ s.satisfiedFeatures ∪
        propagateMissing s.introspectables s.missingFeatures := by
      have e1 : (afterFinish s).requestedFeatures = s.requestedFeatures := b3
      have e2 : (afterFinish s).satisfiedFeatures = s.satisfiedFeatures := b1
      have e3 : (afterFinish s).missingFeatures =
          propagateMissing s.introspectables s.missingFeatures := b2
      rw [e1, e2, e3] at c2
      exact c2
    rw [iterateIntrospection_decided enum s hs c2] at hp
    cases hp
    refine ⟨b5.ge, fun p hp => Or.inl ?_, Or.inl ⟨b1, b2, b11, fun hn => absurd hdec hn⟩⟩
    have : (emitStatusReady (afterFinish s)).probesInvoked = s.probesInvoked := b9
    rw [← this]
    exact hp
  · rw [iterateIntrospection_undecided enum s hs c2] at hp
    obtain ⟨st', a1, a2, a3, a4, a5, a6, a7⟩ := introspectLoop_outcome (beforeLoop enum s)
      (enum (readyToIntrospect enum s)) (beforeLoop enum s) (inv_beforeLoop enum s hinv)
      (fun f hf => eligible_readyToIntrospect enum hmem s hinv f (hmem _ _ hf))
      (loopFrame_refl _) rfl rfl s1 hp
    rw [b5] at a5
    rw [b11] at a3
    rw [b10] at a4
    have hprobes : ∀ p ∈ st'.probesInvoked, p ∈ s.probesInvoked ∨ p.2 ∈ st'.inFlightFeatures := by
      intro p hp
      rcases a6 p hp with h | h
      · rw [b9] at h
        exact Or.inl h
      · exact Or.inr h
    rcases a7 with ⟨e, hall⟩ | ⟨f, success, hf, c1, c3, c4⟩
    · subst e
      refine ⟨a5, hprobes, Or.inl ⟨a2.satisfied.trans b1, a2.missing.trans b2, a3,
        fun _ f hf => hall f (((henum _).2 f).2 hf)⟩⟩
    · have hfr : f ∈ readyToIntrospect enum s := hmem _ _ hf
      have hfp : f ∈ s.pendingFeatures \ (s.satisfiedFeatures ∪
          propagateMissing s.introspectables s.missingFeatures) := by
        rw [← b4, ← a2.pending]
        exact c1.1
      have hfs : f ∉ s.satisfiedFeatures := by
        rw [← b1, ← a2.satisfied]
        exact c1.2.1
      have hfm : f ∉ propagateMissing s.introspectables s.missingFeatures := by
        rw [← b2, ← a2.missing]
        exact c1.2.2.1
      have herase : (markInFlight st' f).inFlightFeatures.erase f = st'.inFlightFeatures := by
        show (insert f st'.inFlightFeatures).erase f = _
        exact Finset.erase_insert c3
      cases hpend : s.pendingStatusChange with
      | true =>
        rw [hpend] at a4
        have hne : (markInFlight st' f).inFlightFeatures.erase f ≠ ∅ := by
          rw [herase]
          exact a1.pending_inFlight a4
        rw [setIntrospectCompleted_pending (markInFlight st' f) f success a4,
          if_pos hne] at c4
        cases c4
        refine ⟨?_, ?_, Or.inr ⟨f, success, hfr, (Finset.mem_sdiff.1 hfp).1, hfs, hfm, ?_,
          fun h => absurd h (by decide),
          fun _ => ⟨a2.satisfied.trans b1, a2.missing.trans b2, a3⟩⟩⟩
        · show s.inFlightFeatures ⊆ (markInFlight st' f).inFlightFeatures.erase f
          rw [herase]
          exact a5
        · intro p hp
          rcases hprobes p hp with h | h
          · exact Or.inl h
          · right
            show p.2 ∈ (markInFlight st' f).inFlightFeatures.erase f
            rw [herase]
            exact h
        · show f ∉ (markInFlight st' f).inFlightFeatures.erase f
          exact Finset.not_mem_erase _ _
      | false =>
        rw [hpend] at a4
        rw [setIntrospectCompleted_normal (markInFlight st' f) f success a4 c1.1
          (Finset.mem_insert_self _ _)] at c4
        cases c4
        refine ⟨?_, ?_, Or.inr ⟨f, success, hfr, (Finset.mem_sdiff.1 hfp).1, hfs, hfm, ?_,
          fun _ => ⟨?_, ?_, ?_, ?_, ?_⟩, fun h => absurd h (by decide)⟩⟩
        · cases success
          · show s.inFlightFeatures ⊆ (markInFlight st' f).inFlightFeatures.erase f
            rw [herase]
            exact a5
          · show s.inFlightFeatures ⊆ (markInFlight st' f).inFlightFeatures.erase f
            rw [herase]
            exact a5
        · intro p hp
          have hp1 : p ∈ st'.probesInvoked := by
            cases success <;> exact hp
          rcases hprobes p hp1 with h | h
          · exact Or.inl h
          · right
            have : p.2 ∈ (markInFlight st' f).inFlightFeatures.erase f := by
              rw [herase]
              exact h
            cases success <;> exact this
        · have : f ∉ (markInFlight st' f).inFlightFeatures.erase f :=
            Finset.not_mem_erase _ _
          cases success <;> exact this
        · cases success
          · exact a2.satisfied.trans b1
          · show insert f st'.satisfiedFeatures = insert f s.satisfiedFeatures
            rw [a2.satisfied, b1]
        · cases success
          · show insert f st'.missingFeatures = insert f _
            rw [a2.missing, b2]
          · exact a2.missing.trans b2
        · have : st'.pendingFeatures.erase f = (s.pendingFeatures \ (s.satisfiedFeatures ∪
              propagateMissing s.introspectables s.missingFeatures)).erase f := by
            rw [a2.pending, b4]
          cases success <;> exact this
        · have : st'.scheduledPasses + 1 = s.scheduledPasses + 1 := by rw [a3]
          cases success <;> exact this
        · intro g
          have : (QMap.touch st'.introspectables f).value g = s.introspectables.value g := by
            rw [QMap.touch_value _ _ _ a1.wf, a2.value, b13]
          cases success <;> exact congrArg Introspectable.dependsOnFeatures this

/-- C33: a pass run from a reachable state under a supported status.
(1) Beyond the propagation step, the pass decides at most one feature.
(2) With no status change pending, it schedules one pass if it decided a
feature and none otherwise.  (3) The loop ends at a synthetic completion: what
it returns is the result of that `setIntrospectCompleted` call, whatever
features are left to visit.  (4) With no status change pending, a feature of
`readyToIntrospect` that the pass left undecided and not in flight is still
pending, a pass is scheduled, and that pass, if nothing happens before it,
gets past the status-ready check with the feature in its `readyToIntrospect`. -/
theorem one_synthetic_completion (registry : QMap) (status : Nat) (s s1 : Private)
    (enum : Finset Nat → List Nat) (hreach : Reachable registry status s)
    (henum : IsEnum enum) (hs : s.currentStatus ∈ s.supportedStatuses)
    (hp : iterateIntrospection enum s = some s1) :
    (s.satisfiedFeatures ∪ propagateMissing s.introspectables s.missingFeatures ⊆
        s1.satisfiedFeatures ∪ s1.missingFeatures ∧
      ((s1.satisfiedFeatures ∪ s1.missingFeatures) \
        (s.satisfiedFeatures ∪
          propagateMissing s.introspectables s.missingFeatures)).card ≤ 1) ∧
    (s.pendingStatusChange = false →
      s1.scheduledPasses = s.scheduledPasses +
        ((s1.satisfiedFeatures ∪ s1.missingFeatures) \
          (s.satisfiedFeatures ∪
            propagateMissing s.introspectables s.missingFeatures)).card) ∧
    (∀ (st : Private) (f : Nat) (rest : List Nat), f ∉ st.inFlightFeatures →
      (st.currentStatus ∉ (st.introspectables.value f).makesSenseForStatuses →
        introspectLoop st (f :: rest) =
          setIntrospectCompleted (markInFlight st f) f true) ∧
      (st.currentStatus ∈ (st.introspectables.value f).makesSenseForStatuses → f ≠ 0 →
        (∃ interface ∈ (st.introspectables.value f).dependsOnInterfaces,
          interface ∉ st.interfaces) →
        introspectLoop st (f :: rest) =
          setIntrospectCompleted (markInFlight st f) f false)) ∧
    (s.pendingStatusChange = false → ∀ f ∈ readyToIntrospect enum s,
      f ∉ s1.inFlightFeatures → f ∉ s1.satisfiedFeatures ∪ s1.missingFeatures →
      0 < s1.scheduledPasses ∧ f ∈ s1.pendingFeatures ∧
      ∀ enum2 : Finset Nat → List Nat, IsEnum enum2 →
        f ∈ readyToIntrospect enum2 { s1 with scheduledPasses := s1.scheduledPasses - 1 } ∧
        iterateIntrospection enum2 { s1 with scheduledPasses := s1.scheduledPasses - 1 } =
          introspectLoop (beforeLoop enum2 { s1 with scheduledPasses := s1.scheduledPasses - 1 })
            (enum2 (readyToIntrospect enum2
              { s1 with scheduledPasses := s1.scheduledPasses - 1 }))) := by
  have hinv := inv_reachable registry status s hreach
  have hmem : ∀ features x, x ∈ enum features → x ∈ features :=
    fun features x hx => ((henum features).2 x).1 hx
  have hinv1 : Inv s1 := by
    obtain ⟨s2, h2, h3⟩ := iterateIntrospection_inv enum hmem s hinv
    rw [hp] at h2
    cases h2
    exact h3
  obtain ⟨o1, o2, o3⟩ := pass_outcome enum henum s s1 hinv hs hp
  have hdiff : s.satisfiedFeatures ∪ propagateMissing s.introspectables s.missingFeatures ⊆
        s1.satisfiedFeatures ∪ s1.missingFeatures ∧
      ((s1.satisfiedFeatures ∪ s1.missingFeatures) \
        (s.satisfiedFeatures ∪
          propagateMissing s.introspectables s.missingFeatures)).card ≤ 1 ∧
      (s.pendingStatusChange = false →
        s1.scheduledPasses = s.scheduledPasses +
          ((s1.satisfiedFeatures ∪ s1.missingFeatures) \
            (s.satisfiedFeatures ∪
              propagateMissing s.introspectables s.missingFeatures)).card) := by
    rcases o3 with ⟨e1, e2, e3, _⟩ | ⟨f, success, _, _, hfs, hfm, _, hfalse, htrue⟩
    · rw [e1, e2, Finset.sdiff_self]
      exact ⟨Finset.Subset.refl _, Nat.zero_le _, fun _ => e3⟩
    · cases hpend : s.pendingStatusChange with
      | true =>
        obtain ⟨e1, e2, e3⟩ := htrue hpend
        rw [e1, e2, Finset.sdiff_self]
        exact ⟨Finset.Subset.refl _, Nat.zero_le _, fun h => absurd h (by decide)⟩
      | false =>
        obtain ⟨e1, e2, _, e4, _⟩ := hfalse hpend
        have hunion : s1.satisfiedFeatures ∪ s1.missingFeatures =
            insert f (s.satisfiedFeatures ∪
              propagateMissing s.introspectables s.missingFeatures) := by
          rw [e1, e2]
          cases success
          · simp only [Bool.false_eq_true, if_false, Finset.union_insert]
          · simp only [if_true, Finset.insert_union]
        have hsd : (s1.satisfiedFeatures ∪ s1.missingFeatures) \
            (s.satisfiedFeatures ∪
              propagateMissing s.introspectables s.missingFeatures) = {f} := by
          rw [hunion]
          ext x
          simp only [Finset.mem_sdiff, Finset.mem_insert, Finset.mem_union,
            Finset.mem_singleton]
          constructor
          · rintro ⟨h1 | h1, h2⟩
            · exact h1
            · exact absurd h1 h2
          · rintro rfl
            exact ⟨Or.inl rfl, fun hc => hc.elim hfs hfm⟩
        rw [hsd, hunion]
        exact ⟨Finset.subset_insert _ _, le_of_eq (Finset.card_singleton f),
          fun _ => by rw [Finset.card_singleton]; exact e4⟩
  refine ⟨⟨hdiff.1, hdiff.2.1⟩, hdiff.2.2, ?_, ?_⟩
  · intro st f rest hf
    constructor
    · intro h1
      rw [introspectLoop_cons, if_neg hf, if_pos h1]
    · intro h1 h0 h2
      rw [introspectLoop_cons, if_neg hf, if_neg (not_not.2 h1), if_pos ⟨h0, h2⟩]
  · intro hpend f hf hnf hnd
    rw [Finset.mem_union, not_or] at hnd
    have hfe := eligible_readyToIntrospect enum hmem s hinv f hf
    obtain ⟨b1, b2, -, b4, -, -, -, -, -, -, -, -, b13⟩ := beforeLoop_fields enum s hinv
    have hfp : f ∈ s.pendingFeatures \ (s.satisfiedFeatures ∪
        propagateMissing s.introspectables s.missingFeatures) := by
      rw [← b4]
      exact hfe.1
    have hund : ¬ s.requestedFeatures ⊆ s.satisfiedFeatures ∪
        propagateMissing s.introspectables s.missingFeatures := by
      intro hc
      exact (Finset.mem_sdiff.1 hfp).2
        (hc (hinv.pending_requested (Finset.mem_sdiff.1 hfp).1))
    rcases o3 with ⟨_, _, _, hall⟩ | ⟨g, success, _, _, _, _, _, hfalse, _⟩
    · exact absurd (hall hund f hf) hnf
    · obtain ⟨e1, e2, e3, e4, e5⟩ := hfalse hpend
      have hg : g ∈ s1.satisfiedFeatures ∪ s1.missingFeatures := by
        rw [e1, e2]
        cases success
        · simp
        · simp
      have hne : f ≠ g := by
        rintro rfl
        rw [Finset.mem_union] at hg
        exact hg.elim hnd.1 hnd.2
      have hpending : f ∈ s1.pendingFeatures := by
        rw [e3]
        exact Finset.mem_erase.2 ⟨hne, hfp⟩
      have hsat : s.satisfiedFeatures ⊆ s1.satisfiedFeatures := by
        rw [e1]
        cases success
        · exact Finset.Subset.refl _
        · exact Finset.subset_insert _ _
      have helig : Eligible s1 f := by
        refine ⟨hpending, hnd.1, hnd.2, ?_⟩
        rw [e5 f]
        have hd : dependencies (beforeLoop enum s) f = dependencies s f := by
          simp only [dependencies, b13]
        rw [← hd]
        exact (hfe.2.2.2.trans b1.le).trans hsat
      refine ⟨by omega, hpending, ?_⟩
      intro enum2 henum2
      have hinv2 : Inv { s1 with scheduledPasses := s1.scheduledPasses - 1 } :=
        inv_congr _ _ hinv1 rfl rfl rfl rfl rfl rfl rfl
      have hready := eligible_ready enum2 henum2
        { s1 with scheduledPasses := s1.scheduledPasses - 1 } hinv2 f helig
      refine ⟨hready, ?_⟩
      have hm := mono_iterateIntrospection enum s s1 hp
      have hep := iterateIntrospection_epoch enum hmem s s1 hinv hp
      apply iterateIntrospection_undecided
      · show s1.currentStatus ∈ s1.supportedStatuses
        rw [hm.status hep, hm.supported]
        exact hs
      · intro hc
        have hel := eligible_readyToIntrospect enum2
          (fun features x hx => ((henum2 features).2 x).1 hx) _ hinv2 f hready
        have hreq : f ∈ (afterFinish { s1 with scheduledPasses :=
            s1.scheduledPasses - 1 }).requestedFeatures := by
          have := (beforeLoop_fields enum2 _ hinv2).2.2.1
          have h3 : (afterFinish { s1 with scheduledPasses :=
              s1.scheduledPasses - 1 }).requestedFeatures = s1.requestedFeatures := this
          rw [h3]
          exact hinv1.pending_requested hpending
        rcases Finset.mem_union.1 (hc hreq) with h | h
        · exact hel.2.1 h
        · exact hel.2.2.1 h


theorem one_synthetic_completion_witness :
    Reachable scenarioRegistry 10
      { scenarioCoreSatisfied with
        scheduledPasses := scenarioCoreSatisfied.scheduledPasses - 1 } ∧
    IsEnum ascending ∧
    iterateIntrospection ascending
      { scenarioCoreSatisfied with
        scheduledPasses := scenarioCoreSatisfied.scheduledPasses - 1 } =
      some scenarioInterfaceMissing ∧
    scenarioInterfaceMissing.missingFeatures = {1} ∧
    scenarioInterfaceMissing.scheduledPasses = 0 +
      ((scenarioInterfaceMissing.satisfiedFeatures ∪ scenarioInterfaceMissing.missingFeatures) \
        (scenarioCoreSatisfied.satisfiedFeatures ∪
          propagateMissing scenarioCoreSatisfied.introspectables
            scenarioCoreSatisfied.missingFeatures)).card :=
  have hrun : (construct 10 scenarioRegistry).bind
      (runCalls [.request {1, 2}, .timer, .timer, .report 0 true]) =
      some scenarioCoreSatisfied := by
    have h : ∃ s, (construct 10 scenarioRegistry).bind
        (runCalls [.request {1, 2}, .timer, .timer, .report 0 true]) = some s ∧
        s = scenarioCoreSatisfied := ⟨_, rfl, by ext1 <;> decide⟩
    obtain ⟨s, h1, h2⟩ := h
    rw [h1, h2]
  have hr : Reachable scenarioRegistry 10
      { scenarioCoreSatisfied with
        scheduledPasses := scenarioCoreSatisfied.scheduledPasses - 1 } :=
    reachable_timer _ _ _ (reachable_of_runCalls _ _ _ _ (by decide) hrun) (by decide)
  have hpass : iterateIntrospection ascending
      { scenarioCoreSatisfied with
        scheduledPasses := scenarioCoreSatisfied.scheduledPasses - 1 } =
      some scenarioInterfaceMissing := by
    have h : ∃ s, iterateIntrospection ascending
        { scenarioCoreSatisfied with
          scheduledPasses := scenarioCoreSatisfied.scheduledPasses - 1 } = some s ∧
        s = scenarioInterfaceMissing := ⟨_, rfl, by ext1 <;> decide⟩
    obtain ⟨s, h1, h2⟩ := h
    rw [h1, h2]
  ⟨hr, isEnum_ascending, hpass, rfl,
    (one_synthetic_completion scenarioRegistry 10 _ scenarioInterfaceMissing ascending hr
      isEnum_ascending (by decide) hpass).2.1 rfl⟩

/-- With the probes of features 0 and 3 in flight in epoch 0, a status change is
deferred, the report of feature 0 is dropped, and the pass scheduled by the next
`becomeReady` call probes feature 0 again, still in epoch 0. -/
theorem probed_twice_counterexample :
    (construct 10 chainRegistry).bind (runCalls [.request {1, 2, 3}, .timer, .timer]) =
      some chainProbing ∧
    runCalls [.status 11, .report 0 true, .request {3}, .timer] chainProbing =
      some chainProbedAgain ∧
    chainProbing.epoch = 0 ∧ chainProbedAgain.epoch = 0 ∧
    chainProbedAgain.probesInvoked = [(0, 0), (0, 3), (0, 0)] ∧
    ¬ ((chainProbedAgain.probesInvoked.filter
      (fun p => decide (p.1 = chainProbedAgain.epoch))).map Prod.snd).Nodup := by
  have h : ∃ s, runCalls [.status 11, .report 0 true, .request {3}, .timer] chainProbing =
      some s ∧ s = chainProbedAgain := ⟨_, rfl, by ext1 <;> decide⟩
  obtain ⟨_, e, rfl⟩ := h
  exact ⟨chainProbing_run, e, rfl, rfl, rfl, by decide⟩

/-- Within an epoch a pending status change stays pending. -/
theorem pending_step (s s1 : Private) (hinv : Inv s) (hstep : Step s s1)
    (hep : s1.epoch = s.epoch) (hp1 : s1.pendingStatusChange = false) :
    s.pendingStatusChange = false := by
  cases hp : s.pendingStatusChange with
  | false => rfl
  | true =>
    rcases step_while_pending s s1 hinv hp hstep with ⟨a, _⟩ | ⟨_, _, _, _, _, b, _⟩
    · rw [a] at hp1
      exact absurd hp1 (by decide)
    · omega

/-- Within an epoch with no status change pending, a feature that is in flight
or decided stays so over a step, and a probe call made in the step is of a
feature in flight after it. -/
theorem tracked_step (s s1 : Private) (hinv : Inv s) (hstep : Step s s1)
    (hep : s1.epoch = s.epoch) (hp1 : s1.pendingStatusChange = false) :
    s.inFlightFeatures ∪ s.satisfiedFeatures ∪ s.missingFeatures ⊆
      s1.inFlightFeatures ∪ s1.satisfiedFeatures ∪ s1.missingFeatures ∧
    ∀ p ∈ s1.probesInvoked, p ∈ s.probesInvoked ∨ p.2 ∈ s1.inFlightFeatures := by
  have hp0 := pending_step s s1 hinv hstep hep hp1
  have hm := mono_step s s1 hstep
  have hsame : s1.inFlightFeatures = s.inFlightFeatures →
      s1.probesInvoked = s.probesInvoked →
      s.inFlightFeatures ∪ s.satisfiedFeatures ∪ s.missingFeatures ⊆
        s1.inFlightFeatures ∪ s1.satisfiedFeatures ∪ s1.missingFeatures ∧
      ∀ p ∈ s1.probesInvoked, p ∈ s.probesInvoked ∨ p.2 ∈ s1.inFlightFeatures := by
    intro h1 h2
    rw [h1, h2]
    exact ⟨Finset.union_subset_union (Finset.union_subset_union (Finset.Subset.refl _)
      (hm.satisfied hep)) (hm.missing hep), fun p hp => Or.inl hp⟩
  cases hstep with
  | status newStatus =>
    by_cases h : s.inFlightFeatures = ∅
    · have := (setCurrentStatus_reset s newStatus h).1
      omega
    · have : setCurrentStatus s newStatus =
          { s with pendingStatusChange := true, pendingStatus := newStatus } := by
        simp only [setCurrentStatus, if_neg h]
      rw [this] at hp1
      exact absurd hp1 (Bool.noConfusion)
  | interfaces names => exact hsame rfl rfl
  | request features =>
    exact hsame (becomeReady_frame s features).2.2.2.2.2.1 (becomeReady_frame s features).2.1
  | report _ feature success hr =>
    by_cases h2 : feature ∈ s.pendingFeatures ∧ feature ∈ s.inFlightFeatures
    · rw [setIntrospectCompleted_normal s feature success hp0 h2.1 h2.2] at hr
      cases hr
      refine ⟨?_, fun p hp => Or.inl (by cases success <;> exact hp)⟩
      intro x hx
      cases success <;>
        simp only [Finset.mem_union, Finset.mem_erase, Finset.mem_insert, if_true,
          Bool.false_eq_true, if_false] at hx ⊢ <;>
        by_cases hxf : x = feature <;> tauto
    · rw [setIntrospectCompleted_none s feature success hp0 (not_and_or.1 h2)] at hr
      cases hr
  | timer ht => exact hsame rfl rfl
  | pass _ enum henum hp =>
    by_cases hs : s.currentStatus ∈ s.supportedStatuses
    · obtain ⟨o1, o2, _⟩ := pass_outcome enum henum s s1 hinv hs hp
      exact ⟨Finset.union_subset_union (Finset.union_subset_union o1 (hm.satisfied hep))
        (hm.missing hep), o2⟩
    · rw [iterateIntrospection_unsupported enum s hs] at hp
      cases hp
      exact ⟨Finset.Subset.refl _, fun p hp => Or.inl hp⟩

/-- In every reachable state with no status change pending, every feature
probed in the current epoch is in flight or decided, and none was probed twice
in it. -/
theorem probed_once_reachable (registry : QMap) (status : Nat) (s : Private)
    (hreach : Reachable registry status s) (hp : s.pendingStatusChange = false) :
    ((s.probesInvoked.filter (fun p => decide (p.1 = s.epoch))).map Prod.snd).Nodup ∧
    ∀ f, (s.epoch, f) ∈ s.probesInvoked →
      f ∈ s.inFlightFeatures ∪ s.satisfiedFeatures ∪ s.missingFeatures := by
  obtain ⟨hwf, s0, h0, hs⟩ := hreach
  have hinv0 := inv_construct status registry hwf s0 h0
  have hprobe0 := probeInv_construct status registry s0 h0
  induction hs with
  | refl =>
    have he : s0.probesInvoked = [] := by
      dsimp only [construct] at h0
      split_ifs at h0 <;> cases h0 <;> rfl
    rw [he]
    exact ⟨List.nodup_nil, fun f hf => absurd hf (List.not_mem_nil _)⟩
  | tail s1 s2 hs1 hstep ih =>
    have hinv1 := inv_steps s0 s1 hinv0 hs1
    have hprobe1 := probeInv_steps s0 s1 hinv0 hprobe0 hs1
    obtain ⟨new, e1, e2, e3⟩ := probes_step_allowed s1 s2 hinv1 hstep
    by_cases hep : s2.epoch = s1.epoch
    · have hp1 := pending_step s1 s2 hinv1 hstep hep hp
      obtain ⟨i1, i2⟩ := ih hp1
      obtain ⟨t1, t2⟩ := tracked_step s1 s2 hinv1 hstep hep hp
      constructor
      · have hnew : new.filter (fun p => decide (p.1 = s1.epoch)) = new := by
          rw [List.filter_eq_self]
          intro p hp
          exact decide_eq_true (e3 p hp).1
        rw [e1, hep, List.filter_append, hnew, List.map_append, List.nodup_append]
        refine ⟨i1, e2, ?_⟩
        intro x hx1 hx2
        obtain ⟨p, hp, rfl⟩ := List.mem_map.1 hx1
        obtain ⟨q, hq, hqp⟩ := List.mem_map.1 hx2
        have hp' := List.mem_filter.1 hp
        have hpe : p.1 = s1.epoch := of_decide_eq_true hp'.2
        have hin := i2 p.2 (by rw [← hpe]; exact hp'.1)
        obtain ⟨_, _, a3, a4, a5, _⟩ := e3 q hq
        rw [hqp] at a3 a4 a5
        simp only [Finset.mem_union] at hin
        tauto
      · intro f hf
        rcases t2 (s2.epoch, f) hf with h | h
        · rw [hep] at h
          exact t1 (i2 f h)
        · exact Finset.mem_union_left _ (Finset.mem_union_left _ h)
    · have hlt : s1.epoch < s2.epoch :=
        lt_of_le_of_ne (mono_step s1 s2 hstep).epoch_le (fun h => hep h.symm)
      have hnone : ∀ p ∈ s2.probesInvoked, p.1 ≠ s2.epoch := by
        intro p hp
        rw [e1] at hp
        rcases List.mem_append.1 hp with hp | hp
        · have := hprobe1.stamp_le p hp
          omega
        · have := (e3 p hp).1
          omega
      have hfil : s2.probesInvoked.filter (fun p => decide (p.1 = s2.epoch)) = [] := by
        rw [List.filter_eq_nil_iff]
        intro p hp hc
        exact hnone p hp (of_decide_eq_true hc)
      rw [hfil]
      exact ⟨List.nodup_nil, fun f hf => absurd rfl (hnone _ hf)⟩


/-- C38, amended: in every reachable state in which no status change is
pending (no `setCurrentStatus` call was deferred in the current epoch), no
feature has been probed twice in the current epoch, whatever `becomeReady`
calls, reports and passes led there; and every feature probed in the epoch is
in flight or decided. -/
theorem probed_once_unless_deferred (registry : QMap) (status : Nat) (s : Private)
    (hreach : Reachable registry status s) (hp : s.pendingStatusChange = false) :
    ((s.probesInvoked.filter (fun p => decide (p.1 = s.epoch))).map Prod.snd).Nodup ∧
    (∀ f, (s.epoch, f) ∈ s.probesInvoked →
      f ∈ s.inFlightFeatures ∪ s.satisfiedFeatures ∪ s.missingFeatures) ∧
    ∀ f, (s.probesInvoked.filter (fun p => decide (p = (s.epoch, f)))).length ≤ 1 := by
  obtain ⟨h1, h2⟩ := probed_once_reachable registry status s hreach hp
  refine ⟨h1, h2, fun f => ?_⟩
  have hsub : (s.probesInvoked.filter (fun p => decide (p = (s.epoch, f)))).map Prod.snd =
      ((s.probesInvoked.filter (fun p => decide (p.1 = s.epoch))).map Prod.snd).filter
        (fun x => decide (x = f)) := by
    induction s.probesInvoked with
    | nil => rfl
    | cons p l ih =>
      by_cases c1 : p.1 = s.epoch
      · by_cases c2 : p.2 = f
        · have e : p = (s.epoch, f) := Prod.ext c1 c2
          rw [List.filter_cons_of_pos (by simpa using e),
            List.filter_cons_of_pos (by simpa using c1), List.map_cons, List.map_cons,
            List.filter_cons_of_pos (by simpa using c2), ih]
        · have e : p ≠ (s.epoch, f) := fun h => c2 (by rw [h])
          rw [List.filter_cons_of_neg (by simpa using e),
            List.filter_cons_of_pos (by simpa using c1), List.map_cons,
            List.filter_cons_of_neg (by simpa using c2), ih]
      · have e : p ≠ (s.epoch, f) := fun h => c1 (by rw [h])
        rw [List.filter_cons_of_neg (by simpa using e),
          List.filter_cons_of_neg (by simpa using c1), ih]
  have hlen := congrArg List.length hsub
  rw [List.length_map] at hlen
  rw [hlen]
  have hnd := h1.filter (fun x => decide (x = f))
  have hall : ∀ x ∈ ((s.probesInvoked.filter (fun p => decide (p.1 = s.epoch))).map
      Prod.snd).filter (fun x => decide (x = f)), x = f :=
    fun x hx => of_decide_eq_true (List.mem_filter.1 hx).2
  generalize ((s.probesInvoked.filter (fun p => decide (p.1 = s.epoch))).map
      Prod.snd).filter (fun x => decide (x = f)) = l at hnd hall
  match l, hnd, hall with
  | [], _, _ => exact Nat.zero_le _
  | [_], _, _ => exact Nat.le_refl _
  | a :: b :: _, hnd, hall =>
    have ha := hall a (List.mem_cons_self _ _)
    have hb := hall b (List.mem_cons_of_mem _ (List.mem_cons_self _ _))
    rw [List.nodup_cons] at hnd
    exact absurd (by rw [ha, hb]; exact List.mem_cons_self _ _) hnd.1

theorem probed_once_unless_deferred_witness :
    Reachable scenarioRegistry 10 scenarioProbing ∧
    scenarioProbing.pendingStatusChange = false ∧
    scenarioProbing.probesInvoked = [(0, 0), (0, 1)] ∧
    ((scenarioProbing.probesInvoked.filter
      (fun p => decide (p.1 = scenarioProbing.epoch))).map Prod.snd).Nodup :=
  have hr : Reachable scenarioRegistry 10 scenarioProbing :=
    reachable_of_runCalls _ _ _ _ (by decide) scenarioProbing_run
  ⟨hr, rfl, rfl, (probed_once_unless_deferred scenarioRegistry 10 scenarioProbing hr rfl).1⟩

end ReadinessHelper

/-! ## Properties of PendingChannel -/

namespace PendingChannel

theorem QVariantMap.contains_set {V : Type} (m : QVariantMap V) (key : String) (value : V)
    (k : String) :
    (QVariantMap.set m key value).contains k = (key == k || m.contains k) := by
  induction m with
  | nil => simp [QVariantMap.set, QVariantMap.contains]
  | cons e m ih =>
    unfold QVariantMap.contains at ih
    by_cases h1 : key < e.1
    · simp [QVariantMap.set, QVariantMap.contains, h1]
    · by_cases h2 : key = e.1
      · simp only [QVariantMap.set, QVariantMap.contains, if_neg h1, if_pos h2, List.any_cons]
        rw [← h2, ← Bool.or_assoc, Bool.or_self]
      · simp only [QVariantMap.set, QVariantMap.contains, if_neg h1, if_neg h2, List.any_cons,
          ih]
        rw [← Bool.or_assoc, ← Bool.or_assoc, Bool.or_comm (e.1 == k)]

theorem QVariantMap.find_set {V : Type} (m : QVariantMap V) (key : String) (value : V)
    (k : String) :
    (QVariantMap.set m key value).find? (fun e => e.1 == k)
      = if key = k then some (key, value) else m.find? (fun e => e.1 == k) := by
  induction m with
  | nil =>
    by_cases h : key = k
    · rw [if_pos h]
      show List.find? _ [(key, value)] = _
      rw [List.find?_cons_of_pos _ (by simpa using h)]
    · rw [if_neg h]
      show List.find? _ [(key, value)] = _
      rw [List.find?_cons_of_neg _ (by simpa using h)]
  | cons e m ih =>
    by_cases h1 : key < e.1
    · have hs : QVariantMap.set (e :: m) key value = (key, value) :: e :: m := by
        show (if key < e.1 then _ else _) = _
        rw [if_pos h1]
      rw [hs]
      by_cases h : key = k
      · rw [if_pos h, List.find?_cons_of_pos _ (by simpa using h)]
      · rw [if_neg h, List.find?_cons_of_neg _ (by simpa using h)]
    · by_cases h2 : key = e.1
      · have hs : QVariantMap.set (e :: m) key value = (key, value) :: m := by
          show (if key < e.1 then _ else _) = _
          rw [if_neg h1, if_pos h2]
        rw [hs]
        by_cases h : key = k
        · rw [if_pos h, List.find?_cons_of_pos _ (by simpa using h)]
        · have h3 : ¬ e.1 = k := fun h4 => h (h2.trans h4)
          rw [if_neg h, List.find?_cons_of_neg _ (by simpa using h),
            List.find?_cons_of_neg _ (by simpa using h3)]
      · have hs : QVariantMap.set (e :: m) key value = e :: QVariantMap.set m key value := by
          show (if key < e.1 then _ else _) = _
          rw [if_neg h1, if_neg h2]
        rw [hs]
        by_cases h3 : e.1 = k
        · have h : ¬ key = k := fun h4 => h2 (h4.trans h3.symm)
          rw [if_neg h, List.find?_cons_of_pos _ (by simpa using h3),
            List.find?_cons_of_pos _ (by simpa using h3)]
        · rw [List.find?_cons_of_neg _ (by simpa using h3),
            List.find?_cons_of_neg _ (by simpa using h3)]
          exact ih

theorem QVariantMap.value_set {V : Type} (ops : VariantOps V) (m : QVariantMap V)
    (key : String) (value : V) (k : String) :
    (QVariantMap.set m key value).value ops k
      = if key = k then value else m.value ops k := by
  unfold QVariantMap.value
  rw [QVariantMap.find_set]
  by_cases h : key = k
  · rw [if_pos h, if_pos h]
  · rw [if_neg h, if_neg h]

theorem QVariantMap.mem_set {V : Type} (m : QVariantMap V) (key : String) (value : V)
    (x : String × V) (hx : x ∈ QVariantMap.set m key value) :
    x = (key, value) ∨ x ∈ m := by
  induction m with
  | nil => simpa [QVariantMap.set] using hx
  | cons e m ih =>
    by_cases h1 : key < e.1
    · simpa [QVariantMap.set, h1] using hx
    · by_cases h2 : key = e.1
      · simp only [QVariantMap.set, if_neg h1, if_pos h2, List.mem_cons] at hx
        rcases hx with hx | hx
        · exact Or.inl hx
        · exact Or.inr (List.mem_cons_of_mem _ hx)
      · simp only [QVariantMap.set, if_neg h1, if_neg h2, List.mem_cons] at hx
        rcases hx with hx | hx
        · exact Or.inr (hx ▸ List.mem_cons_self _ _)
        · rcases ih hx with h | h
          · exact Or.inl h
          · exact Or.inr (List.mem_cons_of_mem _ h)

theorem QVariantMap.mem_set_of_mem {V : Type} (m : QVariantMap V) (key : String) (value : V)
    (hk : m.contains key = false) (x : String × V) (hx : x ∈ m) :
    x ∈ QVariantMap.set m key value := by
  induction m with
  | nil => cases hx
  | cons e m ih =>
    simp only [QVariantMap.contains, List.any_cons, Bool.or_eq_false_iff] at hk
    by_cases h1 : key < e.1
    · simp only [QVariantMap.set, if_pos h1]
      exact List.mem_cons_of_mem _ hx
    · have h2 : ¬ key = e.1 := fun h => by
        have := hk.1
        simp [h] at this
      simp only [QVariantMap.set, if_neg h1, if_neg h2]
      rcases List.mem_cons.1 hx with hx | hx
      · exact hx ▸ List.mem_cons_self _ _
      · exact List.mem_cons_of_mem _ (ih hk.2 hx)

theorem key_ne (iface : String) : iface ++ ".Requested" ≠ iface ++ ".InitiatorHandle" := by
  intro h
  have h1 := congrArg String.data h
  simp only [String.data_append, List.append_cancel_left_eq] at h1
  exact absurd h1 (by decide)

/-- The first step of `immutableProperties`: the copy with `Requested` filled in. -/
theorem immutableProperties_steps {V : Type} (ops : VariantOps V) (iface : String)
    (s : Private V) :
    ∃ r1 : QVariantMap V,
      (r1 = if s.immutableProperties.contains (iface ++ ".Requested") = true
              then s.immutableProperties
              else s.immutableProperties.set (iface ++ ".Requested") (ops.fromBool s.yours)) ∧
      immutableProperties ops iface s
        = if r1.contains (iface ++ ".InitiatorHandle") = false ∧
              ops.toBool (r1.value ops (iface ++ ".Requested")) = true ∧
              ∃ c, s.connection = some c ∧ c.isReady = true
          then r1.set (iface ++ ".InitiatorHandle")
            (ops.fromUInt ((s.connection.map Connection.selfHandle).getD 0))
          else r1 := by
  have key : ∀ r1 : QVariantMap V,
      (if (!r1.contains (iface ++ ".InitiatorHandle")) = true then
        if ops.toBool (r1.value ops (iface ++ ".Requested")) = true then
          match s.connection with
          | some connection =>
            if connection.isReady = true then
              r1.set (iface ++ ".InitiatorHandle") (ops.fromUInt connection.selfHandle)
            else r1
          | none => r1
        else r1
      else r1)
      = if r1.contains (iface ++ ".InitiatorHandle") = false ∧
              ops.toBool (r1.value ops (iface ++ ".Requested")) = true ∧
              ∃ c, s.connection = some c ∧ c.isReady = true
          then r1.set (iface ++ ".InitiatorHandle")
            (ops.fromUInt ((s.connection.map Connection.selfHandle).getD 0))
          else r1 := by
    intro r1
    cases h2 : r1.contains (iface ++ ".InitiatorHandle") <;>
      cases h3 : ops.toBool (r1.value ops (iface ++ ".Requested")) <;>
      cases hc : s.connection with
      | none => simp
      | some c => cases hr : c.isReady <;> simp [hr]
  refine ⟨_, rfl, ?_⟩
  unfold immutableProperties
  dsimp only
  cases h1 : s.immutableProperties.contains (iface ++ ".Requested")
  · simp only [Bool.not_false, Bool.false_eq_true, if_true, if_false]
    exact key _
  · simp only [Bool.not_true, Bool.false_eq_true, if_true, if_false]
    exact key _

/-- C39: `immutableProperties()` returns the stored reply properties with every
stored entry unchanged (as an entry and on lookup), and every entry of the result is a
stored one or one of two added ones: `Requested`, added only when absent and then
equal to `yours`; and `InitiatorHandle`, added only when absent, the stored or guessed
value of `Requested` converts to true and the connection is non-null and ready, and
then equal to the self handle of the connection.  `Requested` is always present in the
result, `InitiatorHandle` is added exactly under the conditions above.  The accessor
is a function of the members: it works on a copy and stores nothing. -/
theorem immutableProperties_guesses {V : Type} (ops : VariantOps V) (iface : String)
    (s : Private V) :
    (∀ x ∈ s.immutableProperties, x ∈ immutableProperties ops iface s) ∧
    (∀ key, s.immutableProperties.contains key = true →
      (immutableProperties ops iface s).value ops key
        = s.immutableProperties.value ops key) ∧
    (∀ x ∈ immutableProperties ops iface s, x ∈ s.immutableProperties ∨
      (x = (iface ++ ".Requested", ops.fromBool s.yours) ∧
        s.immutableProperties.contains (iface ++ ".Requested") = false) ∨
      ∃ c, s.connection = some c ∧ c.isReady = true ∧
        x = (iface ++ ".InitiatorHandle", ops.fromUInt c.selfHandle) ∧
        s.immutableProperties.contains (iface ++ ".InitiatorHandle") = false ∧
        ops.toBool (if s.immutableProperties.contains (iface ++ ".Requested") = true
          then s.immutableProperties.value ops (iface ++ ".Requested")
          else ops.fromBool s.yours) = true) ∧
    (immutableProperties ops iface s).contains (iface ++ ".Requested") = true ∧
    (immutableProperties ops iface s).value ops (iface ++ ".Requested")
      = (if s.immutableProperties.contains (iface ++ ".Requested") = true
          then s.immutableProperties.value ops (iface ++ ".Requested")
          else ops.fromBool s.yours) ∧
    (s.immutableProperties.contains (iface ++ ".InitiatorHandle") = false →
      ((immutableProperties ops iface s).contains (iface ++ ".InitiatorHandle") = true ↔
        ops.toBool (if s.immutableProperties.contains (iface ++ ".Requested") = true
          then s.immutableProperties.value ops (iface ++ ".Requested")
          else ops.fromBool s.yours) = true ∧
        ∃ c, s.connection = some c ∧ c.isReady = true) ∧
      ∀ c, s.connection = some c →
        (immutableProperties ops iface s).contains (iface ++ ".InitiatorHandle") = true →
        (immutableProperties ops iface s).value ops (iface ++ ".InitiatorHandle")
          = ops.fromUInt c.selfHandle) := by
  obtain ⟨r1, h1, hr⟩ := immutableProperties_steps ops iface s
  have hne := key_ne iface
  -- the first step
  have f1 : ∀ x ∈ s.immutableProperties, x ∈ r1 := by
    intro x hx
    by_cases hc : s.immutableProperties.contains (iface ++ ".Requested") = true
    · rw [h1, if_pos hc]; exact hx
    · rw [h1, if_neg hc]
      exact QVariantMap.mem_set_of_mem _ _ _ (by simpa using hc) x hx
  have f2 : ∀ x ∈ r1, x ∈ s.immutableProperties ∨
      (x = (iface ++ ".Requested", ops.fromBool s.yours) ∧
        s.immutableProperties.contains (iface ++ ".Requested") = false) := by
    intro x hx
    by_cases hc : s.immutableProperties.contains (iface ++ ".Requested") = true
    · rw [h1, if_pos hc] at hx; exact Or.inl hx
    · rw [h1, if_neg hc] at hx
      rcases QVariantMap.mem_set _ _ _ _ hx with h | h
      · exact Or.inr ⟨h, by simpa using hc⟩
      · exact Or.inl h
  have f3 : ∀ key, r1.contains key
      = (s.immutableProperties.contains key ||
          (!s.immutableProperties.contains (iface ++ ".Requested") &&
            (iface ++ ".Requested" == key))) := by
    intro key
    by_cases hc : s.immutableProperties.contains (iface ++ ".Requested") = true
    · rw [h1, if_pos hc, hc]; simp
    · rw [h1, if_neg hc, QVariantMap.contains_set]
      have hc1 : s.immutableProperties.contains (iface ++ ".Requested") = false := by
        simpa using hc
      rw [hc1, Bool.or_comm]; simp
  have f4 : ∀ key, r1.value ops key
      = if s.immutableProperties.contains (iface ++ ".Requested") = false ∧
            iface ++ ".Requested" = key
          then ops.fromBool s.yours else s.immutableProperties.value ops key := by
    intro key
    by_cases hc : s.immutableProperties.contains (iface ++ ".Requested") = true
    · rw [h1, if_pos hc, if_neg (fun h => by rw [hc] at h; exact Bool.noConfusion h.1)]
    · have hc1 : s.immutableProperties.contains (iface ++ ".Requested") = false := by
        simpa using hc
      rw [h1, if_neg hc, QVariantMap.value_set]
      by_cases hk : iface ++ ".Requested" = key
      · rw [if_pos hk, if_pos ⟨hc1, hk⟩]
      · rw [if_neg hk, if_neg (fun h => hk h.2)]
  have f5 : r1.value ops (iface ++ ".Requested")
      = (if s.immutableProperties.contains (iface ++ ".Requested") = true
          then s.immutableProperties.value ops (iface ++ ".Requested")
          else ops.fromBool s.yours) := by
    rw [f4]
    by_cases hc : s.immutableProperties.contains (iface ++ ".Requested") = true
    · rw [if_pos hc, if_neg (fun h => by rw [hc] at h; exact Bool.noConfusion h.1)]
    · rw [if_neg hc, if_pos ⟨by simpa using hc, rfl⟩]
  have f6 : r1.contains (iface ++ ".Requested") = true := by
    rw [f3]
    cases s.immutableProperties.contains (iface ++ ".Requested") <;> simp
  have f7 : r1.contains (iface ++ ".InitiatorHandle")
      = s.immutableProperties.contains (iface ++ ".InitiatorHandle") := by
    rw [f3]
    have : (iface ++ ".Requested" == iface ++ ".InitiatorHandle") = false := by
      simpa using hne
    rw [this]; simp
  rw [f5, f7] at hr
  by_cases hcond : s.immutableProperties.contains (iface ++ ".InitiatorHandle") = false ∧
      ops.toBool (if s.immutableProperties.contains (iface ++ ".Requested") = true
          then s.immutableProperties.value ops (iface ++ ".Requested")
          else ops.fromBool s.yours) = true ∧
      ∃ c, s.connection = some c ∧ c.isReady = true
  · rw [if_pos hcond] at hr
    obtain ⟨hi, hb, c, hc, hready⟩ := hcond
    have hself : (s.connection.map Connection.selfHandle).getD 0 = c.selfHandle := by
      rw [hc]; rfl
    rw [hself] at hr
    have hi1 : r1.contains (iface ++ ".InitiatorHandle") = false := by rw [f7]; exact hi
    refine ⟨?_, ?_, ?_, ?_, ?_, ?_⟩
    · intro x hx
      rw [hr]
      exact QVariantMap.mem_set_of_mem _ _ _ hi1 x (f1 x hx)
    · intro key hkey
      have hk : ¬ iface ++ ".InitiatorHandle" = key := by
        intro h; rw [← h, hi] at hkey; exact Bool.noConfusion hkey
      rw [hr, QVariantMap.value_set, if_neg hk, f4]
      rw [if_neg]
      rintro ⟨h2, h3⟩
      rw [← h3, h2] at hkey
      exact Bool.noConfusion hkey
    · intro x hx
      rw [hr] at hx
      rcases QVariantMap.mem_set _ _ _ _ hx with h | h
      · exact Or.inr (Or.inr ⟨c, hc, hready, h, hi, hb⟩)
      · rcases f2 x h with h | h
        · exact Or.inl h
        · exact Or.inr (Or.inl h)
    · rw [hr, QVariantMap.contains_set, f6, Bool.or_true]
    · rw [hr, QVariantMap.value_set, if_neg (fun h => hne h.symm), f5]
    · intro _
      refine ⟨⟨fun _ => ⟨hb, c, hc, hready⟩, fun _ => ?_⟩, ?_⟩
      · rw [hr, QVariantMap.contains_set]; simp
      · intro c1 hc1 _
        rw [hc] at hc1
        cases hc1
        rw [hr, QVariantMap.value_set, if_pos rfl]
  · rw [if_neg hcond] at hr
    refine ⟨?_, ?_, ?_, ?_, ?_, ?_⟩
    · intro x hx
      rw [hr]; exact f1 x hx
    · intro key hkey
      rw [hr, f4, if_neg]
      rintro ⟨h2, h3⟩
      rw [← h3, h2] at hkey
      exact Bool.noConfusion hkey
    · intro x hx
      rw [hr] at hx
      rcases f2 x hx with h | h
      · exact Or.inl h
      · exact Or.inr (Or.inl h)
    · rw [hr]; exact f6
    · rw [hr]; exact f5
    · intro hi
      refine ⟨⟨fun h => ?_, fun h => absurd ⟨hi, h⟩ hcond⟩, ?_⟩
      · rw [hr, f7, hi] at h; exact Bool.noConfusion h
      · intro c _ h
        rw [hr, f7, hi] at h; exact Bool.noConfusion h


/-- C31: before any reply is processed, `immutableProperties()` of a request made
through a connection is not the empty map, whatever `create` is: it holds
`Requested` with the value of `create`, and it holds `InitiatorHandle` as well exactly
when that value converts to true and the connection is ready.  For a `createChannel`
request on a ready connection with self handle 7 the result has two entries. -/
theorem immutableProperties_before_reply {V : Type} (ops : VariantOps V) (iface : String)
    (connection : Connection) (request : QVariantMap V) (create : Bool) :
    immutableProperties ops iface (construct ops iface connection request create) ≠ [] ∧
    (immutableProperties ops iface (construct ops iface connection request create)).contains
      (iface ++ ".Requested") = true ∧
    (immutableProperties ops iface (construct ops iface connection request create)).value ops
      (iface ++ ".Requested") = ops.fromBool create ∧
    ((immutableProperties ops iface (construct ops iface connection request create)).contains
      (iface ++ ".InitiatorHandle") = true ↔
        ops.toBool (ops.fromBool create) = true ∧ connection.isReady = true) ∧
    immutableProperties qvariantOps "org.freedesktop.Telepathy.Channel"
        (construct qvariantOps "org.freedesktop.Telepathy.Channel"
          { isReady := true, selfHandle := 7 } [] true)
      = [("org.freedesktop.Telepathy.Channel.InitiatorHandle", QVariant.uint 7),
         ("org.freedesktop.Telepathy.Channel.Requested", QVariant.bool true)] ∧
    immutableProperties qvariantOps "org.freedesktop.Telepathy.Channel"
        (construct qvariantOps "org.freedesktop.Telepathy.Channel"
          { isReady := false, selfHandle := 7 } [] false)
      = [("org.freedesktop.Telepathy.Channel.Requested", QVariant.bool false)] := by
  obtain ⟨r1, h1, hr⟩ := immutableProperties_steps ops iface
    (construct ops iface connection request create)
  have hne := key_ne iface
  have hr1 : r1 = [(iface ++ ".Requested", ops.fromBool create)] := by
    rw [h1]; rfl
  have hv : QVariantMap.value ops r1 (iface ++ ".Requested") = ops.fromBool create := by
    rw [hr1]
    show (match List.find? _ [(iface ++ ".Requested", ops.fromBool create)] with
      | some e => e.2 | none => ops.invalid) = _
    rw [List.find?_cons_of_pos _ (by simp)]
  have hc : r1.contains (iface ++ ".Requested") = true := by
    rw [hr1]; simp [QVariantMap.contains]
  have hi : r1.contains (iface ++ ".InitiatorHandle") = false := by
    rw [hr1]; simpa [QVariantMap.contains] using hne
  refine ⟨?_, ?_, ?_, ?_, ?_, ?_⟩
  rotate_left 4
  · simp [immutableProperties, construct, QVariantMap.contains, QVariantMap.set,
      QVariantMap.value, qvariantOps]
    decide
  · simp [immutableProperties, construct, QVariantMap.contains, QVariantMap.set,
      QVariantMap.value, qvariantOps]
  · rw [hr]
    split
    · intro h
      have := QVariantMap.contains_set r1 (iface ++ ".InitiatorHandle")
        (ops.fromUInt ((Option.map Connection.selfHandle
          (construct ops iface connection request create).connection).getD 0))
        (iface ++ ".InitiatorHandle")
      rw [h] at this
      simp [QVariantMap.contains] at this
    · rw [hr1]; exact List.cons_ne_nil _ _
  · rw [hr]
    split
    · rw [QVariantMap.contains_set, hc, Bool.or_true]
    · exact hc
  · rw [hr]
    split
    · rw [QVariantMap.value_set, if_neg (fun h => hne h.symm), hv]
    · exact hv
  · rw [hr, hv]
    constructor
    · intro h
      by_cases hcond : r1.contains (iface ++ ".InitiatorHandle") = false ∧
          ops.toBool (ops.fromBool create) = true ∧
          ∃ c, (construct ops iface connection request create).connection = some c ∧
            c.isReady = true
      · obtain ⟨_, hb, c, hc1, hready⟩ := hcond
        have : c = connection := by
          have h2 : some connection = some c := hc1
          exact (Option.some.inj h2).symm
        rw [this] at hready
        exact ⟨hb, hready⟩
      · rw [if_neg hcond, hi] at h
        exact Bool.noConfusion h
    · rintro ⟨hb, hready⟩
      rw [if_pos ⟨hi, hb, connection, rfl, hready⟩, QVariantMap.contains_set]
      simp

end PendingChannel

/-! ## Properties of PendingConnection -/

namespace PendingConnection

/-- C32: after an error reply to `RequestConnection` no connection object is stored
and `setFinishedWithError` is called; `connection()` is then the null pointer whatever
`isFinished()` and `isValid()` say, while `busName()` and `objectPath()` dereference
the null pointer: they have no result, in particular not the empty string. -/
theorem accessors_after_error (name message : String)
    (proxy : String → String → Option Connection) :
    (onCallFinished construct (.error name message) proxy).1.connection = none ∧
    (onCallFinished construct (.error name message) proxy).2 = some (name, message) ∧
    (∀ isFinished isValid,
      connection (onCallFinished construct (.error name message) proxy).1 isFinished isValid
        = none) ∧
    busName (onCallFinished construct (.error name message) proxy).1 = none ∧
    objectPath (onCallFinished construct (.error name message) proxy).1 = none ∧
    busName (onCallFinished construct (.error name message) proxy).1 ≠ some "" ∧
    objectPath (onCallFinished construct (.error name message) proxy).1 ≠ some "" := by
  refine ⟨rfl, rfl, ?_, rfl, rfl, ?_, ?_⟩
  · intro isFinished isValid
    cases isFinished <;> cases isValid <;> rfl
  · intro h; cases h
  · intro h; cases h

end PendingConnection
